import Mathlib

/-!
# CV-GPT matching engine: ranking, hybrid scoring and PII redaction

A shallow embedding of `internal/matcher/matcher.go`.

Modelling conventions.

* Go `float64` values are elements of a linear ordered field `K` with a floor
  function (`ℚ` for evaluation, `ℝ` where a square root or logarithm has to be
  exact).  Rounding error, infinities and NaN are outside the model.
* Go `int` values are `Int` (lengths and counters are `Nat`, cast where the
  source converts them).
* Go strings are lists of Unicode code points (`List Char`), i.e. the runes a
  valid UTF-8 string decodes to.
* Library routines that the package calls but does not define (`sort.Slice`,
  `math.Sqrt`, `math.Log`) are parameters of the functions that use them; the
  theorems assume exactly their documented contract.  Where the order of tied
  results is in question the ranking step is run with the algorithm the Go
  library has behind `sort.Slice`, embedded as `sortSlice` at the end of the
  definitions.
-/

namespace Matcher

/-! ## Data model -/

/-- The `ResumeExtract` record (matcher.go, lines 59-65). -/
structure ResumeExtract (K : Type) where
  Skills : List String
  YearsExperience : K
  Education : List String
  Certifications : List String
  Titles : List String

/-- The `Result` record (matcher.go, lines 22-31). -/
structure Result (K : Type) where
  Rank : Int
  Candidate : String
  Score : K
  Strengths : String
  Weaknesses : String
  Explanation : String
  File : String
  Extracted : Option (ResumeExtract K)

/-! ## Ranker (runHeuristic lines 314-323, runOpenAI lines 413-422) -/

/-- The comparison closure handed to `sort.Slice`:
`results[i].Score > results[j].Score`. -/
def scoreLess {K : Type} [LinearOrderedField K] (a b : Result K) : Bool :=
  decide (a.Score > b.Score)

/-- What the documentation of `sort.Slice` promises about a call
`sort.Slice(xs, less)`: the slice is rearranged (a permutation), and when
`less` is a strict weak order (asymmetric, with a transitive "not less"
relation) no later element is `less` than an earlier one.  Nothing is promised
about the order of elements that compare equal ("The sort is not guaranteed to
be stable"). -/
def SortSliceContract {α : Type} (srt : (α → α → Bool) → List α → List α) : Prop :=
  ∀ (less : α → α → Bool) (xs : List α),
    (srt less xs).Perm xs ∧
    ((∀ a b, less a b = true → less b a = false) →
     (∀ a b c, less b a = false → less c b = false → less c a = false) →
     (srt less xs).Pairwise (fun a b => less b a = false))

/-- The loop `for i := range results \x7b results[i].Rank = i + 1 \x7d`, started at
index `i`. -/
def assignRanksFrom {K : Type} : Nat → List (Result K) → List (Result K)
  | _, [] => []
  | i, r :: rs => { r with Rank := (i : Int) + 1 } :: assignRanksFrom (i + 1) rs

/-- Rank assignment over the whole slice. -/
def assignRanks {K : Type} (results : List (Result K)) : List (Result K) :=
  assignRanksFrom 0 results

/-- The ranking step shared by both pipelines: `sort.Slice` by descending
score, then rank assignment. -/
def rankResults {K : Type} [LinearOrderedField K]
    (srt : (Result K → Result K → Bool) → List (Result K) → List (Result K))
    (results : List (Result K)) : List (Result K) :=
  assignRanks (srt scoreLess results)

/-- The cut-off `if input.TopN > 0 && len(results) > input.TopN
\x7b results = results[:input.TopN] \x7d`. -/
def truncateTopN {K : Type} (topN : Int) (results : List (Result K)) : List (Result K) :=
  if topN > 0 ∧ (results.length : Int) > topN then results.take topN.toNat else results

/-- Ranking followed by the top-N cut-off, as both pipelines run them. -/
def rankAndTruncate {K : Type} [LinearOrderedField K]
    (srt : (Result K → Result K → Bool) → List (Result K) → List (Result K))
    (topN : Int) (results : List (Result K)) : List (Result K) :=
  truncateTopN topN (rankResults srt results)

/-- A result with its rank field reset to the zero value it has before rank
assignment. -/
def unranked {K : Type} (r : Result K) : Result K := { r with Rank := 0 }

/-- The results with score `s`, in list order, ranks disregarded. -/
def withScore {K : Type} [LinearOrderedField K] (s : K) (results : List (Result K)) :
    List (Result K) :=
  (results.filter (fun r => decide (r.Score = s))).map unranked

/-- Stability on ties: for every score, the results with that score come out
in the order in which they went in. -/
def TiesKeepOrder {K : Type} [LinearOrderedField K] (input output : List (Result K)) : Prop :=
  ∀ s : K, withScore s output = withScore s input

/-- Insertion sort driven by a `less` callback: a sort that meets the
`sort.Slice` contract and keeps ties in input order. -/
def insertionSortBy {α : Type} (less : α → α → Bool) (xs : List α) : List α :=
  xs.insertionSort (fun a b => less b a = false)

/-- A scored result as the scoring loop appends it (rank still zero), score 50. -/
def tieA : Result ℚ :=
  { Rank := 0, Candidate := "a", Score := 50, Strengths := "None", Weaknesses := "None",
    Explanation := "", File := "a.txt", Extracted := none }

/-- A second scored result with the same score as `tieA`, discovered after it. -/
def tieB : Result ℚ :=
  { Rank := 0, Candidate := "b", Score := 50, Strengths := "None", Weaknesses := "None",
    Explanation := "", File := "b.txt", Extracted := none }

/-! ## Hybrid scorer -/

/-- The weight table `scoreWeights` (lines 1149-1161), as
`(wCos, wMust, wNice, wSkill)`. -/
def scoreWeights {K : Type} [LinearOrderedField K] (mustCount : Int) : K × K × K × K :=
  if mustCount = 0 then (0.55, 0.0, 0.15, 0.30) else (0.45, 0.35, 0.10, 0.10)

/-- The function `ratio` (lines 1253-1258). -/
def ratio {K : Type} [LinearOrderedField K] (a b : Int) : K :=
  if b = 0 then 0 else (a : K) / (b : K)

/-- A division that reports a zero divisor instead of computing with it. -/
def checkedDiv {K : Type} [LinearOrderedField K] (x y : K) : Option K :=
  if y = 0 then none else some (x / y)

/-- The function `ratio` with its division replaced by `checkedDiv`: `none`
would mean that the source divides by zero. -/
def ratioChecked {K : Type} [LinearOrderedField K] (a b : Int) : Option K :=
  if b = 0 then some 0 else checkedDiv (a : K) (b : K)

/-- Go's `math.Round`: nearest integer, halves away from zero. -/
def mathRound {K : Type} [LinearOrderedField K] [FloorRing K] (x : K) : K :=
  if 0 ≤ x then ((⌊x + 1 / 2⌋ : Int) : K) else ((⌈x - 1 / 2⌉ : Int) : K)

/-- The function `round` (lines 1260-1262): two decimals. -/
def round {K : Type} [LinearOrderedField K] [FloorRing K] (v : K) : K :=
  mathRound (v * 100) / 100

/-- The score formula of both pipelines (lines 293 and 392), with the weights
of `scoreWeights mustCount`. -/
def hybridScore {K : Type} [LinearOrderedField K] (mustCount : Int)
    (sim mustRatio niceRatio skillRatio : K) : K :=
  let (wCos, wMust, wNice, wSkill) := (scoreWeights mustCount : K × K × K × K)
  (wCos * sim) + (wMust * mustRatio) + (wNice * niceRatio) + (wSkill * skillRatio)

/-- The percentage `scorePct := round(score * 100)` (lines 294 and 393). -/
def scorePct {K : Type} [LinearOrderedField K] [FloorRing K] (score : K) : K :=
  round (score * 100)

end Matcher

namespace Matcher

/-! ## Embedding cosine and the scoring loop of runOpenAI -/

/-- The loop of `cosineSimVec` (lines 609-616): for `i < dim` it accumulates
`(dot, normA, normB)`. -/
def cosineSimVecLoop {K : Type} [LinearOrderedField K] (a b : List K) (dim : Nat) : K × K × K :=
  (List.range dim).foldl
    (fun (acc : K × K × K) i =>
      (acc.1 + a.getD i 0 * b.getD i 0,
       acc.2.1 + a.getD i 0 * a.getD i 0,
       acc.2.2 + b.getD i 0 * b.getD i 0))
    (0, 0, 0)

/-- The function `cosineSimVec` (lines 601-621); `sqrt` stands for `math.Sqrt`. -/
def cosineSimVec {K : Type} [LinearOrderedField K] (sqrt : K → K) (a b : List K) : K :=
  if a.length = 0 ∨ b.length = 0 then 0
  else
    let dim := if b.length < a.length then b.length else a.length
    let acc := cosineSimVecLoop a b dim
    if acc.2.1 = 0 ∨ acc.2.2 = 0 then 0
    else acc.1 / (sqrt acc.2.1 * sqrt acc.2.2)

/-- Go's `strings.Contains(text, s)`: `s` occurs in `text` as a contiguous
substring. -/
def stringsContains (text s : List Char) : Bool :=
  text.tails.any (fun t => s.isPrefixOf t)

/-- The function `skillsInText` (lines 623-634); the set `map[string]bool` is
the list of its keys. -/
def skillsInText (text : List Char) (skills : List (List Char)) : List (List Char) :=
  skills.filter (fun s => !(s == []) && stringsContains text s)

/-- The function `countMatches` (lines 636-644). -/
def countMatches (set list : List (List Char)) : Nat :=
  (list.filter (fun s => decide (s ∈ set))).length

/-- The score before scaling that the loop of runOpenAI (lines 381-392)
computes for one resume: `jdVec` and `vec` are the embeddings of the JD and of
the resume, `norm` the normalised resume text. -/
def openAIScore {K : Type} [LinearOrderedField K] (sqrt : K → K) (jdVec vec : List K)
    (norm : List Char) (mustSkills niceSkills allSkills : List (List Char)) : K :=
  let resSkillSet := skillsInText norm allSkills
  let mustMatch := countMatches resSkillSet mustSkills
  let niceMatch := countMatches resSkillSet niceSkills
  let skillMatch := countMatches resSkillSet allSkills
  let mustRatio : K := ratio mustMatch mustSkills.length
  let niceRatio : K := ratio niceMatch niceSkills.length
  let skillRatio : K := ratio skillMatch allSkills.length
  let sim := cosineSimVec sqrt jdVec vec
  hybridScore mustSkills.length sim mustRatio niceRatio skillRatio

/-- The `Score` field runOpenAI stores for that resume (line 393). -/
def openAIScorePct {K : Type} [LinearOrderedField K] [FloorRing K] (sqrt : K → K)
    (jdVec vec : List K) (norm : List Char)
    (mustSkills niceSkills allSkills : List (List Char)) : K :=
  scorePct (openAIScore sqrt jdVec vec norm mustSkills niceSkills allSkills)

end Matcher

namespace Matcher

/-! ## Go maps with string keys

A `map[string]V` is held as the list of its entries, keys distinct, in
insertion order.  (Go iterates a map in no fixed order; every loop over a map
below computes a sum, a maximum or one independent entry per key, so over
exact arithmetic the order does not matter.) -/

/-- Reading `m[k]`: the value stored under `k`, the zero value when there is none. -/
def mapGet {V : Type} [Zero V] : List (List Char × V) → List Char → V
  | [], _ => 0
  | (k', v) :: rest, k => if k' = k then v else mapGet rest k

/-- The assignment `m[k] = v`. -/
def mapSet {V : Type} : List (List Char × V) → List Char → V → List (List Char × V)
  | [], k, v => [(k, v)]
  | (k', v') :: rest, k, v => if k' = k then (k', v) :: rest else (k', v') :: mapSet rest k v

/-! ## TF-IDF vectors (lines 963-1041) -/

/-- Go's `unicode.IsSpace`. -/
def isSpace (c : Char) : Bool :=
  c.toNat = 0x09 || c.toNat = 0x0A || c.toNat = 0x0B || c.toNat = 0x0C || c.toNat = 0x0D ||
  c.toNat = 0x20 || c.toNat = 0x85 || c.toNat = 0xA0 || c.toNat = 0x1680 ||
  (0x2000 ≤ c.toNat && c.toNat ≤ 0x200A) || c.toNat = 0x2028 || c.toNat = 0x2029 ||
  c.toNat = 0x202F || c.toNat = 0x205F || c.toNat = 0x3000

/-- The scan behind `strings.Fields`: `cur` is the token being read, reversed. -/
def fieldsAux : List Char → List Char → List (List Char)
  | [], cur => if cur = [] then [] else [cur.reverse]
  | c :: cs, cur =>
    if isSpace c then
      (if cur = [] then fieldsAux cs [] else cur.reverse :: fieldsAux cs [])
    else fieldsAux cs (c :: cur)

/-- Go's `strings.Fields`: the maximal runs of non-space characters. -/
def fields (s : List Char) : List (List Char) := fieldsAux s []

/-- Go's `strings.Join(items, sep)`. -/
def stringsJoin (items : List (List Char)) (sep : List Char) : List Char :=
  match items with
  | [] => []
  | x :: rest => rest.foldl (fun acc y => acc ++ sep ++ y) x

/-- The function `buildNgrams` (lines 963-972). -/
def buildNgrams (tokens : List (List Char)) (n : Nat) : List (List Char) :=
  if n ≤ 1 then tokens
  else (List.range (tokens.length + 1 - n)).map
    (fun i => stringsJoin ((tokens.drop i).take n) [' '])

/-- The terms of one document: its unigrams followed by its bigrams (lines 979-983). -/
def docGrams (doc : List Char) : List (List Char) :=
  let tokens := fields doc
  buildNgrams tokens 1 ++ buildNgrams tokens 2

/-- The inner loop of lines 985-991: one document is added to the document
frequencies `df`; the state is `(df, seen)`. -/
def dfAddDoc (df : List (List Char × Int)) (grams : List (List Char)) :
    List (List Char × Int) :=
  (grams.foldl
    (fun (st : List (List Char × Int) × List (List Char)) g =>
      if g ∈ st.2 then st else (mapSet st.1 g (mapGet st.1 g + 1), g :: st.2))
    (df, [])).1

/-- The term frequencies `tf` of one document (lines 1002-1005). -/
def termFreq {K : Type} [LinearOrderedField K] (grams : List (List Char)) :
    List (List Char × K) :=
  grams.foldl (fun tf g => mapSet tf g (mapGet tf g + 1)) []

/-- The maximum `maxTf` of lines 1006-1011, started at 1.0. -/
def maxTermFreq {K : Type} [LinearOrderedField K] (tf : List (List Char × K)) : K :=
  tf.foldl (fun m e => if e.2 > m then e.2 else m) 1

/-- The table `idf` of lines 994-998; `log` stands for `math.Log`. -/
def idfTable {K : Type} [LinearOrderedField K] (log : K → K) (nDocs : K)
    (df : List (List Char × Int)) : List (List Char × K) :=
  df.foldl (fun idf e => mapSet idf e.1 (log ((1 + nDocs) / (1 + (e.2 : K))) + 1)) []

/-- The function `buildTfidfVectors` (lines 974-1019). -/
def buildTfidfVectors {K : Type} [LinearOrderedField K] (log : K → K)
    (docs : List (List Char)) : List (List (List Char × K)) :=
  let tokenized := docs.map docGrams
  let df := tokenized.foldl dfAddDoc []
  let nDocs : K := (docs.length : K)
  let idf := idfTable log nDocs df
  tokenized.map (fun grams =>
    let tf : List (List Char × K) := termFreq grams
    let maxTf := maxTermFreq tf
    tf.foldl (fun vec e => mapSet vec e.1 ((e.2 / maxTf) * mapGet idf e.1)) [])

/-- The function `cosineSim` (lines 1021-1041); `sqrt` stands for `math.Sqrt`. -/
def cosineSim {K : Type} [LinearOrderedField K] (sqrt : K → K)
    (a b : List (List Char × K)) : K :=
  if a.length = 0 ∨ b.length = 0 then 0
  else
    let dot := a.foldl (fun dot e => dot + e.2 * mapGet b e.1) 0
    let normA := a.foldl (fun n e => n + e.2 * e.2) 0
    let normB := b.foldl (fun n e => n + e.2 * e.2) 0
    if normA = 0 ∨ normB = 0 then 0
    else dot / (sqrt normA * sqrt normB)

/-! ## The scoring loop of runHeuristic (lines 244-294) -/

/-- The score before scaling of the resume at index `i` (lines 262-293).
`resSkills` is the skill list `extractSkills(text, jdTerms)` of that resume;
`mustSkills`, `niceSkills` and `jdSkills` are the lists computed from the JD
before the loop (lines 241-242). -/
def heuristicScore {K : Type} [LinearOrderedField K] (sqrt : K → K)
    (vectors : List (List (List Char × K))) (i : Nat)
    (resSkills mustSkills niceSkills jdSkills : List (List Char)) : K :=
  let jdVec := vectors.getD 0 []
  let mustMatch := countMatches resSkills mustSkills
  let niceMatch := countMatches resSkills niceSkills
  let skillMatch := countMatches resSkills jdSkills
  let mustRatio : K := ratio mustMatch mustSkills.length
  let niceRatio : K := ratio niceMatch niceSkills.length
  let skillRatio : K := ratio skillMatch jdSkills.length
  let sim := cosineSim sqrt jdVec (vectors.getD (i + 1) [])
  hybridScore mustSkills.length sim mustRatio niceRatio skillRatio

/-- The `Score` values the loop of runHeuristic appends, in resume order:
`jdNorm` is the normalised JD text, `resumeTexts` the normalised resume texts,
`resSkillsOf text` the skill list the loop extracts from a resume text. -/
def heuristicScores {K : Type} [LinearOrderedField K] [FloorRing K] (log sqrt : K → K)
    (jdNorm : List Char) (resumeTexts : List (List Char))
    (mustSkills niceSkills jdSkills : List (List Char))
    (resSkillsOf : List Char → List (List Char)) : List K :=
  let docs := jdNorm :: resumeTexts
  let vectors := buildTfidfVectors log docs
  resumeTexts.enum.map (fun (it : Nat × List Char) =>
    scorePct (heuristicScore sqrt vectors it.1 (resSkillsOf it.2) mustSkills niceSkills jdSkills))

end Matcher

namespace Matcher

/-! ## PII redaction (lines 98-105, 156-157, 953-961)

The three kinds of regular expression `redactPII` uses are embedded as the
functions that give, for a position of the input, the length of the match of
Go's `regexp` (leftmost-first, greedy) that starts there: the argument `prev`
is the character before the position (none at the start of the text), which
only `\b` looks at, and the list is the input from the position on. -/

/-- The class `\d`: ASCII digits. -/
def isDigit (c : Char) : Bool := decide (48 ≤ c.toNat ∧ c.toNat ≤ 57)

/-- The class `\w`: ASCII letters, ASCII digits and the underscore. -/
def isWordChar (c : Char) : Bool :=
  isDigit c || decide (65 ≤ c.toNat ∧ c.toNat ≤ 90) || decide (97 ≤ c.toNat ∧ c.toNat ≤ 122) ||
  decide (c.toNat = 95)

/-- The class `\s` of Go's regexp: tab, newline, form feed, carriage return, space. -/
def isReSpace (c : Char) : Bool :=
  decide (c.toNat = 9) || decide (c.toNat = 10) || decide (c.toNat = 12) ||
  decide (c.toNat = 13) || decide (c.toNat = 32)

/-- The class `[\w\.-]` of `emailRe`. -/
def isEmailChar (c : Char) : Bool := isWordChar c || decide (c = '.') || decide (c = '-')

/-- The class `[\d\s\-]` of `phoneRe`. -/
def isPhoneChar (c : Char) : Bool := isDigit c || isReSpace c || decide (c = '-')

/-- The match of `emailRe` = `[\w\.-]+@[\w\.-]+` at a position: the longest run
of class characters (`r1` of them, at least one), an `@`, and again the longest
run (`r2`, at least one).  Since `@` is not in the class, no shorter first run
can be followed by `@`. -/
def emailReMatch (_prev : Option Char) (cs : List Char) : Option Nat :=
  let r1 := (cs.takeWhile isEmailChar).length
  let r2 := ((cs.drop (r1 + 1)).takeWhile isEmailChar).length
  if r1 ≠ 0 ∧ cs.get? r1 = some '@' ∧ r2 ≠ 0 then some (r1 + 1 + r2) else none

/-- The match of `phoneRe` = `\+?\d[\d\s\-]\x7b7,\x7d` at a position: an optional
`+`, a digit, and the longest run of class characters, which has to have at
least 7 of them. -/
def phoneReMatch (_prev : Option Char) (cs : List Char) : Option Nat :=
  match cs with
  | '+' :: d :: tail =>
    if isDigit d && decide (7 ≤ (tail.takeWhile isPhoneChar).length)
    then some (2 + (tail.takeWhile isPhoneChar).length) else none
  | d :: tail =>
    if isDigit d && decide (7 ≤ (tail.takeWhile isPhoneChar).length)
    then some (1 + (tail.takeWhile isPhoneChar).length) else none
  | [] => none

/-- ASCII lower case of a character. -/
def asciiLower (c : Char) : Char :=
  if 65 ≤ c.toNat ∧ c.toNat ≤ 90 then Char.ofNat (c.toNat + 32) else c

/-- Whether the input character `c` matches the pattern character `t` under
`(?i)`, for an ASCII `t`: equal, or equal up to ASCII case, or one of the two
non-ASCII characters that Unicode simple case folding puts in the orbit of an
ASCII letter: U+212A (Kelvin sign) for `k` and U+017F (long s) for `s`. -/
def foldEq (t c : Char) : Bool :=
  decide (c = t) || decide (asciiLower c = asciiLower t) ||
  (decide (asciiLower t = 'k') && decide (c.toNat = 0x212A)) ||
  (decide (asciiLower t = 's') && decide (c.toNat = 0x17F))

/-- The literal `term` matches a prefix of the input, character by character
under `(?i)`. -/
def foldPrefix : List Char → List Char → Bool
  | [], _ => true
  | _ :: _, [] => false
  | t :: ts, c :: cs => foldEq t c && foldPrefix ts cs

/-- Whether a position is on the word side for `\b`; the two ends of the text
are not. -/
def isWordOpt : Option Char → Bool
  | none => false
  | some c => isWordChar c

/-- The assertion `\b` between the characters `before` and `after`. -/
def wordBoundary (before after : Option Char) : Bool :=
  isWordOpt before != isWordOpt after

/-- The match of `(?i)\bterm\b` at a position, for a non-empty `term` without
regexp metacharacters (so that `regexp.QuoteMeta(term)` is `term`): a word
boundary, the literal, a word boundary. -/
def termReMatch (term : List Char) (prev : Option Char) (cs : List Char) : Option Nat :=
  if wordBoundary prev cs.head? && foldPrefix term cs &&
      wordBoundary (cs.get? (term.length - 1)) (cs.get? term.length)
  then some term.length else none

/-- The scan of `ReplaceAllString(text, " ")` for a pattern given by its match
function `m`, which never matches the empty string: `skip` is the number of
characters of the current match still to be dropped.  Each match is replaced by
one space and the search resumes right after it. -/
def replaceAllAux (m : Option Char → List Char → Option Nat) :
    Nat → Option Char → List Char → List Char
  | _, _, [] => []
  | skip + 1, _, c :: cs => replaceAllAux m skip (some c) cs
  | 0, prev, c :: cs =>
    match m prev (c :: cs) with
    | some (n + 1) => ' ' :: replaceAllAux m n (some c) cs
    | _ => c :: replaceAllAux m 0 (some c) cs

/-- `re.ReplaceAllString(text, " ")`. -/
def replaceAll (m : Option Char → List Char → Option Nat) (text : List Char) : List Char :=
  replaceAllAux m 0 none text

/-- The list `redactTerms` (lines 98-105). -/
def redactTerms : List String := [
  "male", "female", "man", "woman", "men", "women", "boy", "girl",
  "mr", "mrs", "ms", "he", "she", "him", "her", "his",
  "hers", "mother", "father", "husband", "wife", "married", "single", "divorced",
  "age", "aged", "years old", "birthday", "religion", "christian", "muslim", "hindu",
  "jewish", "buddhist", "sikh", "white", "black", "asian", "latino", "hispanic",
  "native", "indigenous", "citizenship", "nationality", "veteran", "disability", "disabled"]

/-- The loop over `redactTerms` of lines 956-959, for any list of terms. -/
def redactTermList (terms : List String) (text : List Char) : List Char :=
  terms.foldl (fun t term => replaceAll (termReMatch term.toList) t) text

/-- The function `redactPII` (lines 953-961). -/
def redactPII (text : List Char) : List Char :=
  redactTermList redactTerms (replaceAll phoneReMatch (replaceAll emailReMatch text))

/-- Whether the pattern with match function `m` matches somewhere in the
input that follows the character `prev`. -/
def hasMatchFrom (m : Option Char → List Char → Option Nat) : Option Char → List Char → Bool
  | _, [] => false
  | prev, c :: cs =>
    (match m prev (c :: cs) with
     | some (_ + 1) => true
     | _ => false) || hasMatchFrom m (some c) cs

/-- Whether the pattern matches somewhere in the text. -/
def hasMatch (m : Option Char → List Char → Option Nat) (text : List Char) : Bool :=
  hasMatchFrom m none text

/-- The number of ASCII digits the input starts with. -/
def digitRunLen (cs : List Char) : Nat := (cs.takeWhile isDigit).length

/-- Whether the text has `n` consecutive ASCII digits somewhere. -/
def hasDigitRun (n : Nat) : List Char → Bool
  | [] => decide (n = 0)
  | c :: cs => decide (n ≤ digitRunLen (c :: cs)) || hasDigitRun n cs

end Matcher

namespace Matcher

/-! ## Auxiliary recognisers for the redaction proofs -/

/-- Whether the input is non-empty and its first character satisfies `p`. -/
def headSat (p : Char → Bool) : List Char → Bool
  | [] => false
  | d :: _ => p d

/-- The rest of an `emailRe` match after one class character: more class
characters, then `@`, then a class character. -/
def emailTail : List Char → Bool
  | [] => false
  | c :: cs =>
    if isEmailChar c then emailTail cs
    else decide (c = '@') && headSat isEmailChar cs

/-- Whether the input starts with a match of `emailRe`. -/
def emailShape : List Char → Bool
  | [] => false
  | c :: cs => isEmailChar c && emailTail cs

/-- A term none of whose characters is matched by a space under `(?i)`. -/
def spaceFree (term : List Char) : Bool := term.all (fun t => !foldEq t ' ')

end Matcher

namespace Matcher

/-! ## Cosine similarity as the specification words it -/

/-- The sum of the squares of the values of a sparse vector. -/
def sumSq {K : Type} [LinearOrderedField K] (a : List (List Char × K)) : K :=
  (a.map (fun e => e.2 * e.2)).sum

/-- The L2 norm of a sparse vector. -/
def l2norm {K : Type} [LinearOrderedField K] (sqrt : K → K) (a : List (List Char × K)) : K :=
  sqrt (sumSq a)

/-- The dot product over the keys present in both sparse vectors. -/
def sharedDot {K : Type} [LinearOrderedField K] (a b : List (List Char × K)) : K :=
  ((a.filter (fun e => decide (e.1 ∈ b.map Prod.fst))).map (fun e => e.2 * mapGet b e.1)).sum

/-- Cosine similarity of two sparse vectors in the words of the specification:
the dot product over shared keys divided by the product of the L2 norms, and 0
if either vector is empty or has zero norm. -/
def cosineSpec {K : Type} [LinearOrderedField K] (sqrt : K → K)
    (a b : List (List Char × K)) : K :=
  if a = [] ∨ b = [] ∨ l2norm sqrt a = 0 ∨ l2norm sqrt b = 0 then 0
  else sharedDot a b / (l2norm sqrt a * l2norm sqrt b)

/-- The sum of the squares of the components of a dense vector. -/
def sumSqVec {K : Type} [LinearOrderedField K] (v : List K) : K :=
  (v.map (fun x => x * x)).sum

end Matcher

namespace Matcher

/-! ## TF-IDF weights as the specification words them -/

/-- The number of documents of the corpus that contain the term `t` among
their unigrams and bigrams. -/
def docFreq (docs : List (List Char)) (t : List Char) : Nat :=
  (docs.filter (fun d => decide (t ∈ docGrams d))).length

/-- The largest number of occurrences of any term in the term list of a document. -/
def maxCount (grams : List (List Char)) : Nat :=
  (grams.map (fun g => grams.count g)).foldl max 0

/-- The smoothed inverse document frequency `ln((1 + N) / (1 + df)) + 1`. -/
def idfSpec {K : Type} [LinearOrderedField K] (log : K → K) (n df : Nat) : K :=
  log ((1 + (n : K)) / (1 + (df : K))) + 1

/-- The weight of the term `t` in the document `doc` of the corpus `docs`:
normalised term frequency times inverse document frequency. -/
def tfidfSpec {K : Type} [LinearOrderedField K] (log : K → K) (docs : List (List Char))
    (doc t : List Char) : K :=
  (((docGrams doc).count t : Nat) : K) / ((maxCount (docGrams doc) : Nat) : K)
    * idfSpec log docs.length (docFreq docs t)

/-- The adjacent-token bigrams of a token list: each token, a space, the next token. -/
def adjacentBigrams : List (List Char) → List (List Char)
  | a :: b :: rest => (a ++ ' ' :: b) :: adjacentBigrams (b :: rest)
  | _ => []

end Matcher

namespace Matcher

/-! ## Text normalisation (lines 86-96, 158, 939-951) -/

/-- Go's `unicode.ToLower` on one rune.  On ASCII it is `asciiLower`; its table
for the other code points is not part of this repository and is the parameter
`unicodeLower`, about which nothing is assumed. -/
def lowerRune (unicodeLower : Char → Char) (c : Char) : Char :=
  if c.toNat < 128 then asciiLower c else unicodeLower c

/-- Go's `strings.ToLower`: every rune is mapped by `unicode.ToLower`. -/
def stringsToLower (unicodeLower : Char → Char) (s : List Char) : List Char :=
  s.map (lowerRune unicodeLower)

/-- The class `[a-z0-9\s\+#]` whose complement is `nonWordRe` (line 158). -/
def isKeptChar (c : Char) : Bool :=
  decide (97 ≤ c.toNat ∧ c.toNat ≤ 122) || isDigit c || isReSpace c ||
  decide (c = '+') || decide (c = '#')

/-- The match of `nonWordRe` = `[^a-z0-9\s\+#]` at a position: one character
outside the class. -/
def nonWordReMatch (_prev : Option Char) (cs : List Char) : Option Nat :=
  match cs with
  | [] => none
  | c :: _ => if isKeptChar c then none else some 1

/-- The map `stopwords` (lines 86-96), as the list of its keys. -/
def stopwords : List String := [
  "a", "an", "the", "and", "or", "but", "if", "then", "else", "for",
  "to", "of", "in", "on", "at", "by", "with", "from", "as", "is",
  "are", "was", "were", "be", "been", "this", "that", "these", "those", "it",
  "its", "we", "our", "you", "your", "they", "their", "i", "me", "my",
  "he", "she", "him", "her", "them", "us", "can", "could", "should", "would",
  "will", "may", "might", "not", "no", "yes", "do", "does", "did"]

/-- The lookup `stopwords[tok]`. -/
def isStopword (tok : List Char) : Bool := decide (tok ∈ stopwords.map String.toList)

/-- The function `normalizeText` (lines 939-951). -/
def normalizeText (unicodeLower : Char → Char) (text : List Char) : List Char :=
  let t := stringsToLower unicodeLower (redactPII text)
  let t := replaceAll nonWordReMatch t
  let tokens := fields t
  let out := tokens.filter (fun tok => !isStopword tok)
  stringsJoin out [' ']

/-- The characters a normalised text may hold besides the separating space:
`a-z`, `0-9`, `+` and `#`. -/
def isTokenChar (c : Char) : Bool :=
  decide (97 ≤ c.toNat ∧ c.toNat ≤ 122) || isDigit c || decide (c = '+') || decide (c = '#')

/-- Whether two spaces stand next to each other somewhere in the text. -/
def hasDoubleSpace : List Char → Bool
  | a :: b :: rest => (decide (a = ' ') && decide (b = ' ')) || hasDoubleSpace (b :: rest)
  | _ => false

/-! ## The skill lexicon and string order (lines 107-154) -/

/-- The list `skillLexicon` (lines 107-154), in source order. -/
def skillLexicon : List String := [
  "python", "java", "c", "c++", "c#", "go", "golang",
  "rust", "scala", "kotlin", "swift", "objective-c", "javascript", "typescript",
  "ruby", "php", "perl", "matlab", "r", "sas", "stata",
  "julia", "sql", "pl/sql", "t-sql", "nosql", "html", "css",
  "sass", "less", "json", "xml", "yaml", "graphql", "rest",
  "grpc", "api", "microservices", "soa", "oop", "design patterns", "clean architecture",
  "react", "react.js", "angular", "vue", "svelte", "next.js", "nuxt",
  "node.js", "nodejs", "express", "nestjs", "django", "flask", "fastapi",
  "spring", "spring boot", "asp.net", ".net", "entity framework", "laravel", "rails",
  "ruby on rails", "gin", "echo", "fiber", "wails", "electron", "qt",
  "android", "ios", "react native", "flutter", "xamarin", "cordova", "aws",
  "amazon web services", "azure", "gcp", "google cloud", "oracle cloud", "docker", "kubernetes",
  "helm", "terraform", "ansible", "chef", "puppet", "jenkins", "github actions",
  "gitlab ci", "circleci", "ci/cd", "devops", "linux", "windows", "macos",
  "bash", "powershell", "shell scripting", "git", "svn", "mercurial", "postgresql",
  "mysql", "mariadb", "sql server", "oracle", "sqlite", "mongodb", "cassandra",
  "redis", "dynamodb", "elasticsearch", "opensearch", "neo4j", "snowflake", "bigquery",
  "redshift", "databricks", "kafka", "rabbitmq", "activemq", "nats", "sqs",
  "pubsub", "spark", "hadoop", "hive", "pig", "airflow", "dbt",
  "etl", "elt", "data pipeline", "data warehouse", "data lake", "data modeling", "data governance",
  "machine learning", "deep learning", "nlp", "computer vision", "llm", "data analysis", "data analytics",
  "data science", "statistics", "feature engineering", "modeling", "forecasting", "recommendation systems", "pandas",
  "numpy", "scikit-learn", "tensorflow", "pytorch", "keras", "xgboost", "lightgbm",
  "catboost", "mlops", "model deployment", "onnx", "excel", "power bi", "tableau",
  "looker", "qlik", "superset", "mode", "salesforce", "sap", "oracle erp",
  "netsuite", "workday", "serviceNow", "jira", "confluence", "slack", "microsoft teams",
  "testing", "unit testing", "integration testing", "e2e testing", "tdd", "bdd", "jest",
  "mocha", "cypress", "playwright", "selenium", "pytest", "junit", "security",
  "oauth", "openid connect", "saml", "jwt", "encryption", "identity", "iam",
  "zero trust", "vulnerability management", "networking", "tcp/ip", "dns", "http", "https",
  "ssl", "tls", "load balancing", "observability", "monitoring", "logging", "tracing",
  "prometheus", "grafana", "datadog", "new relic", "splunk", "product management", "project management",
  "agile", "scrum", "kanban", "leadership", "stakeholder management", "communication", "requirements",
  "documentation", "technical writing", "ui/ux", "figma", "sketch", "adobe xd", "user research",
  "wireframing", "seo", "marketing", "growth", "analytics", "a/b testing", "accounting",
  "finance", "budgeting", "forecasting", "procurement", "hr", "recruiting", "talent acquisition",
  "payroll", "benefits", "customer support", "sales", "business development", "crm", "compliance",
  "risk management", "gdpr", "hipaa", "sox", "pci", "warehouse", "logistics",
  "supply chain", "operations"]

/-- Go's `<` on strings.  Go compares the UTF-8 bytes; on valid UTF-8 that is
the lexicographic order of the code points. -/
def strLt : List Char → List Char → Bool
  | [], [] => false
  | [], _ :: _ => true
  | _ :: _, [] => false
  | a :: as, b :: bs =>
    if a.toNat < b.toNat then true else if a.toNat = b.toNat then strLt as bs else false

/-- Go's `sort.Strings`: the strings in ascending order.  Equal strings are
indistinguishable, so the sorted slice is the same for every sorting algorithm. -/
def sortStrings (xs : List (List Char)) : List (List Char) := insertionSortBy strLt xs

/-- The assignment `set[k] = true` on a `map[string]bool` used as a set; the
set is the list of its keys in insertion order. -/
def setAdd (set : List (List Char)) (k : List Char) : List (List Char) :=
  if k ∈ set then set else set ++ [k]

/-- The number of bytes of the UTF-8 encoding of a rune. -/
def utf8Len (c : Char) : Nat :=
  if c.toNat < 0x80 then 1 else if c.toNat < 0x800 then 2 else if c.toNat < 0x10000 then 3 else 4

/-- Go's `len(s)` on a string: its length in bytes. -/
def byteLen (s : List Char) : Nat := (s.map utf8Len).sum

end Matcher

namespace Matcher

/-! ## Salient terms and skills (lines 1043-1147) -/

/-- The map `freq` after the counting loop of `topTerms` (lines 1044-1051). -/
def termCounts (text : List Char) : List (List Char × Int) :=
  (fields text).foldl
    (fun freq t => if isStopword t then freq else mapSet freq t (mapGet freq t + 1)) []

/-- The comparison closure of `topTerms` (lines 1060-1065) on two `kv` pairs:
equal counts are ordered by key, unequal counts by descending count. -/
def pairLess (a b : List Char × Int) : Bool :=
  if a.2 = b.2 then strLt a.1 b.1 else decide (a.2 > b.2)

/-- The function `topTerms` (lines 1043-1074).  `iter` is the order in which
`for k, v := range freq` visits the entries of the map, `srt` stands for
`sort.Slice`; the result is `none` where the slice expression
`pairs[:maxTerms]` panics (a negative `maxTerms`). -/
def topTerms (srt : (List Char × Int → List Char × Int → Bool) →
      List (List Char × Int) → List (List Char × Int))
    (iter : List (List Char × Int) → List (List Char × Int))
    (text : List Char) (maxTerms : Int) : Option (List (List Char)) :=
  let pairs := iter (termCounts text)
  let pairs := srt pairLess pairs
  if (pairs.length : Int) > maxTerms then
    (if maxTerms < 0 then none else some ((pairs.take maxTerms.toNat).map Prod.fst))
  else some (pairs.map Prod.fst)

/-- What the language promises about `for k, v := range m`: every entry is
visited once, in an unspecified order. -/
def MapRangeContract {V : Type} (iter : List (List Char × V) → List (List Char × V)) : Prop :=
  ∀ m, (iter m).Perm m

/-- The function `extractSkills` (lines 1076-1094). -/
def extractSkills (text : List Char) (jdTerms : List (List Char)) : List (List Char) :=
  let skills := skillLexicon.foldl
    (fun set s => if stringsContains text s.toList then setAdd set s.toList else set) []
  let skills := jdTerms.foldl
    (fun set t => if byteLen t ≥ 3 ∧ stringsContains text t then setAdd set t else set) skills
  sortStrings skills

/-- Go's `strings.Split(s, "\n")`. -/
def splitLines : List Char → List (List Char)
  | [] => [[]]
  | c :: cs =>
    if c = '\n' then [] :: splitLines cs
    else
      match splitLines cs with
      | [] => [[c]]
      | l :: ls => (c :: l) :: ls

/-- Go's `strings.TrimSpace`. -/
def trimSpace (s : List Char) : List Char :=
  ((s.dropWhile isSpace).reverse.dropWhile isSpace).reverse

/-- The list `mustKeys` (line 1101). -/
def mustKeys : List String := ["must", "required", "minimum", "mandatory"]

/-- The list `niceKeys` (line 1102). -/
def niceKeys : List String := ["nice to have", "preferred", "plus", "bonus", "optional"]

/-- The loops of lines 1109-1122: whether the line contains one of the cues. -/
def hasCue (keys : List String) (line : List Char) : Bool :=
  keys.any (fun k => stringsContains line k.toList)

/-- The loop over `skillLexicon` of lines 1126-1135 for one classified line;
the state is `(mustSet, niceSet)`. -/
def addLineSkills (isMust isNice : Bool) (line : List Char)
    (st : List (List Char) × List (List Char)) : List (List Char) × List (List Char) :=
  skillLexicon.foldl
    (fun (st : List (List Char) × List (List Char)) s =>
      if stringsContains line s.toList then
        (if isMust then setAdd st.1 s.toList else st.1,
         if isNice then setAdd st.2 s.toList else st.2)
      else st) st

/-- The body of the loop over the lines (lines 1104-1136). -/
def scanLine (st : List (List Char) × List (List Char)) (line : List Char) :
    List (List Char) × List (List Char) :=
  let line := trimSpace line
  if line = [] then st
  else
    let isMust := hasCue mustKeys line
    let isNice := hasCue niceKeys line
    if !isMust && !isNice then st else addLineSkills isMust isNice line st

/-- The function `findMustNiceSkills` (lines 1096-1147), as `(must, nice)`. -/
def findMustNiceSkills (unicodeLower : Char → Char) (jdRaw : List Char) :
    List (List Char) × List (List Char) :=
  let lines := splitLines (stringsToLower unicodeLower jdRaw)
  let sets := lines.foldl scanLine ([], [])
  (sortStrings sets.1, sortStrings sets.2)

/-- The lines the loop of `findMustNiceSkills` classifies: the lines of the
lower-cased text, trimmed, the empty ones left out. -/
def cueLines (unicodeLower : Char → Char) (jdRaw : List Char) : List (List Char) :=
  ((splitLines (stringsToLower unicodeLower jdRaw)).map trimSpace).filter (fun l => !(l == []))

/-! ## Strengths and weaknesses (lines 1264-1314) -/

/-- The function `contains` (lines 1307-1314). -/
def contains (list : List (List Char)) (item : List Char) : Bool :=
  list.any (fun v => v == item)

/-- The closure `add` of `buildStrengths` and `buildWeaknesses` over one list:
`keep s` is the test on the resume's skill set; the `return` leaves the loop
over this list as soon as the result holds ten entries or more. -/
def addUpTo (keep : List Char → Bool) : List (List Char) → List (List Char) → List (List Char)
  | acc, [] => acc
  | acc, s :: rest =>
    let acc := if keep s && !contains acc s then acc ++ [s] else acc
    if acc.length ≥ 10 then acc else addUpTo keep acc rest

/-- The function `buildStrengths` (lines 1271-1287); `resSkills` lists the keys
of the set. -/
def buildStrengths (resSkills must nice general : List (List Char)) : List (List Char) :=
  let keep := fun s => decide (s ∈ resSkills)
  addUpTo keep (addUpTo keep (addUpTo keep [] must) nice) general

/-- The function `buildWeaknesses` (lines 1289-1305). -/
def buildWeaknesses (resSkills must nice general : List (List Char)) : List (List Char) :=
  let keep := fun s => !decide (s ∈ resSkills)
  addUpTo keep (addUpTo keep (addUpTo keep [] must) nice) general

/-- The function `joinOrNone` (lines 1264-1269). -/
def joinOrNone (items : List (List Char)) : List Char :=
  if items.length = 0 then "None".toList else stringsJoin items ", ".toList

end Matcher

namespace Matcher

/-! ## The heuristic pipeline (lines 205-214 and 238-323) -/

/-- The `resumeDoc` record (lines 77-84). -/
structure resumeDoc where
  Path : List Char
  Name : List Char
  Raw : List Char
  Redacted : List Char
  Norm : List Char
  deriving DecidableEq

/-- The record `runInternal` builds for a resume file (lines 208-214): `raw` is
the text extracted from the file at `path`, `name` the base name of the path
without its extension. -/
def newResumeDoc (unicodeLower : Char → Char) (path name raw : List Char) : resumeDoc :=
  { Path := path, Name := name, Raw := raw, Redacted := redactPII raw,
    Norm := normalizeText unicodeLower raw }

/-- The values one pass of the loop of runHeuristic computes (lines 262-311):
the cosine similarity, the three ratios, and the `Result` it appends. -/
structure LoopRow (K : Type) where
  sim : K
  mustRatio : K
  niceRatio : K
  skillRatio : K
  result : Result K

/-- One pass of the loop of runHeuristic, for the resume `doc` at index `i`
(lines 262-311).  `explain` stands for the `fmt.Sprintf` call that renders the
four components into the explanation. -/
def heuristicRow {K : Type} [LinearOrderedField K] [FloorRing K] (sqrt : K → K)
    (explain : K → K → K → K → String)
    (vectors : List (List (List Char × K))) (jdTerms mustSkills niceSkills jdSkills :
      List (List Char)) (i : Nat) (doc : resumeDoc) : LoopRow K :=
  let jdVec := vectors.getD 0 []
  let resSkills := extractSkills doc.Norm jdTerms
  let mustMatch := countMatches resSkills mustSkills
  let niceMatch := countMatches resSkills niceSkills
  let skillMatch := countMatches resSkills jdSkills
  let mustRatio : K := ratio mustMatch mustSkills.length
  let niceRatio : K := ratio niceMatch niceSkills.length
  let skillRatio : K := ratio skillMatch jdSkills.length
  let sim := cosineSim sqrt jdVec (vectors.getD (i + 1) [])
  let score := hybridScore mustSkills.length sim mustRatio niceRatio skillRatio
  { sim := sim, mustRatio := mustRatio, niceRatio := niceRatio, skillRatio := skillRatio,
    result :=
      { Rank := 0,
        Candidate := String.mk doc.Name,
        Score := scorePct score,
        Strengths :=
          String.mk (joinOrNone (buildStrengths resSkills mustSkills niceSkills jdSkills)),
        Weaknesses :=
          String.mk (joinOrNone (buildWeaknesses resSkills mustSkills niceSkills jdSkills)),
        Explanation := explain sim mustRatio niceRatio skillRatio,
        File := String.mk doc.Path,
        Extracted := none } }

/-- The passes of the loop of runHeuristic over all resumes (lines 239-312);
`none` where `topTerms` panics. -/
def heuristicRows {K : Type} [LinearOrderedField K] [FloorRing K]
    (srtPairs : (List Char × Int → List Char × Int → Bool) →
      List (List Char × Int) → List (List Char × Int))
    (iter : List (List Char × Int) → List (List Char × Int))
    (unicodeLower : Char → Char) (log sqrt : K → K) (explain : K → K → K → K → String)
    (jdRaw : List Char) (resumeDocs : List resumeDoc) : Option (List (LoopRow K)) :=
  let jdNorm := normalizeText unicodeLower jdRaw
  (topTerms srtPairs iter jdNorm 25).map (fun jdTerms =>
    let jdSkills := extractSkills jdNorm jdTerms
    let mustNice := findMustNiceSkills unicodeLower jdRaw
    let docs := jdNorm :: resumeDocs.map (fun doc => doc.Norm)
    let vectors := buildTfidfVectors log docs
    resumeDocs.enum.map (fun (it : Nat × resumeDoc) =>
      heuristicRow sqrt explain vectors jdTerms mustNice.1 mustNice.2 jdSkills it.1 it.2))

/-- The slice `results` of runHeuristic before it is sorted. -/
def heuristicResults {K : Type} [LinearOrderedField K] [FloorRing K]
    (srtPairs : (List Char × Int → List Char × Int → Bool) →
      List (List Char × Int) → List (List Char × Int))
    (iter : List (List Char × Int) → List (List Char × Int))
    (unicodeLower : Char → Char) (log sqrt : K → K) (explain : K → K → K → K → String)
    (jdRaw : List Char) (resumeDocs : List resumeDoc) : Option (List (Result K)) :=
  (heuristicRows srtPairs iter unicodeLower log sqrt explain jdRaw resumeDocs).map
    (fun rows => rows.map (fun row => row.result))

/-- The results runHeuristic returns (lines 238-323): scored, sorted, ranked
and cut to the first `topN`.  Writing the CSV file and the log is left out. -/
def runHeuristic {K : Type} [LinearOrderedField K] [FloorRing K]
    (srt : (Result K → Result K → Bool) → List (Result K) → List (Result K))
    (srtPairs : (List Char × Int → List Char × Int → Bool) →
      List (List Char × Int) → List (List Char × Int))
    (iter : List (List Char × Int) → List (List Char × Int))
    (unicodeLower : Char → Char) (log sqrt : K → K) (explain : K → K → K → K → String)
    (topN : Int) (jdRaw : List Char) (resumeDocs : List resumeDoc) :
    Option (List (Result K)) :=
  (heuristicResults srtPairs iter unicodeLower log sqrt explain jdRaw resumeDocs).map
    (rankAndTruncate srt topN)

/-! ## The end-to-end example -/

/-- The job description of the end-to-end example. -/
def exampleJD : List Char := "Must have Python and SQL. Nice to have Docker.".toList

/-- The two resumes of the end-to-end example, as `runInternal` loads them from
the files `resumes/one.txt` and `resumes/two.txt`. -/
def exampleResumes (unicodeLower : Char → Char) : List resumeDoc :=
  [newResumeDoc unicodeLower "resumes/one.txt".toList "one".toList
     "Python, SQL, Docker".toList,
   newResumeDoc unicodeLower "resumes/two.txt".toList "two".toList "Java".toList]

/-- The normalised text of the example's job description. -/
def exampleNorm : List Char := "must have python sql nice have docker".toList

/-- The salient terms of the example's job description. -/
def exampleTerms : List (List Char) :=
  ["have".toList, "docker".toList, "must".toList, "nice".toList, "python".toList, "sql".toList]

/-- The general skills of the example's job description. -/
def exampleSkills : List (List Char) :=
  ["c".toList, "docker".toList, "have".toList, "must".toList, "nice".toList, "python".toList,
   "r".toList, "sql".toList]

/-- The lexicon entries that occur in the one line of the example's job
description. -/
def exampleLineSkills : List (List Char) :=
  ["c".toList, "docker".toList, "python".toList, "r".toList, "sql".toList]

/-- The first resume of the example after loading. -/
def exampleDocOne : resumeDoc :=
  { Path := "resumes/one.txt".toList, Name := "one".toList, Raw := "Python, SQL, Docker".toList,
    Redacted := "Python, SQL, Docker".toList, Norm := "python sql docker".toList }

/-- The second resume of the example after loading. -/
def exampleDocTwo : resumeDoc :=
  { Path := "resumes/two.txt".toList, Name := "two".toList, Raw := "Java".toList,
    Redacted := "Java".toList, Norm := "java".toList }

/-- The corpus of the example: the normalised job description and resumes. -/
def exampleDocs : List (List Char) :=
  [exampleNorm, "python sql docker".toList, "java".toList]

end Matcher

namespace Matcher

/-! ## Salient terms as the specification words them -/

/-- The distinct whitespace tokens of the text that are not stopwords. -/
def distinctTerms (text : List Char) : List (List Char) :=
  ((fields text).filter (fun t => !isStopword t)).dedup

/-- The number of occurrences of the token `t` in the text. -/
def termCount (text t : List Char) : Nat := (fields text).count t

/-- The order in which the terms are ranked: the more frequent token first,
and of two tokens of the same frequency the smaller one. -/
def ranksBefore (text a b : List Char) : Prop :=
  termCount text b < termCount text a ∨
    (termCount text a = termCount text b ∧ strLt a b = true)

end Matcher

namespace Matcher

/-! ## Chunking, averaging and list cleaning (lines 520-674) -/

/-- The loop of `chunkByWords` (lines 562-569) with loop variable `i` and the
chunks appended so far; `fuel` bounds the number of passes.  The result is
`none` when the slice expression `tokens[i:end]` panics (`end < i`, which a
negative `wordsPerChunk` causes) or when the loop has not ended after `fuel`
passes. -/
def chunkLoop (tokens : List (List Char)) (wordsPerChunk : Int) :
    Nat → Int → List (List Char) → Option (List (List Char))
  | 0, _, _ => none
  | fuel + 1, i, chunks =>
    if i < (tokens.length : Int) then
      let stop := if i + wordsPerChunk > (tokens.length : Int) then (tokens.length : Int)
        else i + wordsPerChunk
      if stop < i then none
      else
        chunkLoop tokens wordsPerChunk fuel (i + wordsPerChunk)
          (chunks ++ [stringsJoin ((tokens.drop i.toNat).take (stop - i).toNat) [' ']])
    else some chunks

/-- The function `chunkByWords` (lines 554-571), run for at most `fuel` passes
of its loop. -/
def chunkByWords (fuel : Nat) (text : List Char) (wordsPerChunk : Int) :
    Option (List (List Char)) :=
  let tokens := fields (trimSpace text)
  if tokens.length = 0 then some []
  else if (tokens.length : Int) ≤ wordsPerChunk then some [stringsJoin tokens [' ']]
  else chunkLoop tokens wordsPerChunk fuel 0 []

/-- The word groups the chunking contract describes, in closed form: group
number `j` holds the tokens `j*k, ..., j*k + k - 1` (as many of them as exist),
and there are `ceil(n/k)` groups for `n` tokens. -/
def wordGroups (k : Nat) (tokens : List (List Char)) : List (List (List Char)) :=
  (List.range ((tokens.length + k - 1) / k)).map (fun j => (tokens.drop (j * k)).take k)

/-- The inner loop `for i := 0; i < dim; i++ \x7b sum[i] += v[i] \x7d` of
`averageEmbeddings` (lines 587-589). -/
def addInto {K : Type} [LinearOrderedField K] (dim : Nat) (sum v : List K) : List K :=
  (List.range dim).foldl (fun sum i => sum.set i (sum.getD i 0 + v.getD i 0)) sum

/-- The function `averageEmbeddings` (lines 573-599).  A `nil` slice is the
empty list: a slice of length 0. -/
def averageEmbeddings {K : Type} [LinearOrderedField K] (vecs : List (List K)) : List K :=
  if vecs.length = 0 then []
  else
    let dim := (vecs.headD []).length
    if dim = 0 then []
    else
      let acc := vecs.foldl
        (fun (st : List K × K) v =>
          if v.length ≠ dim then st else (addInto dim st.1 v, st.2 + 1))
        (List.replicate dim 0, 0)
      if acc.2 = 0 then [] else acc.1.map (fun x => x / acc.2)

/-- The vector `embedDocuments` stores for one document (lines 541-549):
`idxs` are the indices of the document's chunks, `embeds` the embeddings the
service returned; a chunk is usable when its index is in range and its
embedding is not empty. -/
def documentVector {K : Type} [LinearOrderedField K] (embeds : List (List K))
    (idxs : List Int) : List K :=
  averageEmbeddings
    ((idxs.filter (fun idx =>
        decide (idx ≥ 0 ∧ idx < (embeds.length : Int) ∧ (embeds.getD idx.toNat []).length > 0))).map
      (fun idx => embeds.getD idx.toNat []))

/-- The loop that `cleanSkillList` and `cleanList` share word for word (lines
647-656 and 662-671), with the normalisation `norm` of an item as parameter;
the state is `(cleaned, seen)`. -/
def cleanLoop (norm : List Char → List Char) (items : List (List Char)) :
    List (List Char) × List (List Char) :=
  items.foldl
    (fun (st : List (List Char) × List (List Char)) item =>
      let t := norm item
      if t = [] ∨ t ∈ st.2 then st else (st.1 ++ [t], setAdd st.2 t))
    ([], [])

/-- The function `cleanSkillList` (lines 646-659). -/
def cleanSkillList (unicodeLower : Char → Char) (items : List (List Char)) :
    List (List Char) :=
  sortStrings (cleanLoop (fun item => stringsToLower unicodeLower (trimSpace item)) items).1

/-- The function `cleanList` (lines 661-674). -/
def cleanList (items : List (List Char)) : List (List Char) :=
  sortStrings (cleanLoop trimSpace items).1

end Matcher

namespace Matcher

/-! ## The RTF reader (lines 845-921, 1181-1201)

A byte is a natural number below 256; the file content `data` is a list of
bytes and so is the text written to the `strings.Builder`. -/

/-- The function `hexVal` (lines 1190-1201); `none` is the result `(0, false)`. -/
def hexVal (b : Nat) : Option Nat :=
  if 48 ≤ b ∧ b ≤ 57 then some (b - 48)
  else if 97 ≤ b ∧ b ≤ 102 then some (b - 97 + 10)
  else if 65 ≤ b ∧ b ≤ 70 then some (b - 65 + 10)
  else none

/-- The function `rtfHex` (lines 1181-1188): the byte `(hv << 4) | lv`, the
shift being taken in 8 bits. -/
def rtfHex (hi lo : Nat) : Option Nat :=
  match hexVal hi, hexVal lo with
  | some hv, some lv => some (((hv <<< 4) % 256) ||| lv)
  | _, _ => none

/-- The test `(b >= 'a' && b <= 'z') || (b >= 'A' && b <= 'Z')` of line 875. -/
def isLetterByte (b : Nat) : Bool :=
  (decide (97 ≤ b) && decide (b ≤ 122)) || (decide (65 ≤ b) && decide (b ≤ 90))

/-- The test `b >= '0' && b <= '9'` of line 886. -/
def isDigitByte (b : Nat) : Bool := decide (48 ≤ b) && decide (b ≤ 57)

/-- Go's `strings.ToLower` on one ASCII byte. -/
def lowerByte (b : Nat) : Nat := if 65 ≤ b ∧ b ≤ 90 then b + 32 else b

/-- The value of a signed machine integer of `w` bits after an operation whose
exact result is `x`: Go's integer arithmetic and conversions wrap around. -/
def wrapInt (w : Nat) (x : Int) : Int := (x + 2 ^ (w - 1)) % 2 ^ w - 2 ^ (w - 1)

/-- The loop `param = param*10 + int(data[k]-'0')` of lines 892-894 over the
digit bytes, in the 64-bit type `int`. -/
def parseParam (digits : List Nat) : Int :=
  digits.foldl (fun (param : Int) (d : Nat) => wrapInt 64 (param * 10 + ((d : Int) - 48))) 0

/-- The decimal number a string of digit bytes denotes. -/
def decimalValue (digits : List Nat) : Nat :=
  digits.foldl (fun v d => v * 10 + (d - 48)) 0

/-- The UTF-8 bit pattern of a code point: one byte up to U+007F, two up to
U+07FF, three up to U+FFFF, four above. -/
def utf8Encode (r : Nat) : List Nat :=
  if r ≤ 0x7F then [r]
  else if r ≤ 0x7FF then [0xC0 + r / 64, 0x80 + r % 64]
  else if r ≤ 0xFFFF then [0xE0 + r / 4096, 0x80 + r / 64 % 64, 0x80 + r % 64]
  else [0xF0 + r / 262144, 0x80 + r / 4096 % 64, 0x80 + r / 64 % 64, 0x80 + r % 64]

/-- Go's `(*strings.Builder).WriteRune`: the UTF-8 encoding of the rune; a
rune that is negative, above U+10FFFF or a surrogate (U+D800..U+DFFF) is
written as U+FFFD, the bytes EF BF BD. -/
def writeRune (r : Int) : List Nat :=
  if r < 0 ∨ r > 0x10FFFF ∨ (0xD800 ≤ r ∧ r ≤ 0xDFFF) then utf8Encode 0xFFFD
  else utf8Encode r.toNat

/-- The control-word branch of the loop of `readRtf` (lines 873-911) on the
bytes `bs` that follow the backslash: the bytes written and the number of
bytes of `bs` the loop passes over.  The local `j` of the source is counted
from the byte after the backslash. -/
def rtfControl (bs : List Nat) : List Nat × Nat :=
  let j1 := (bs.takeWhile isLetterByte).length
  let name := (bs.take j1).map lowerByte
  let neg := decide ((bs.drop j1).head? = some 45)
  let j2 := if neg then j1 + 1 else j1
  let digits := (bs.drop j2).takeWhile isDigitByte
  let j3 := j2 + digits.length
  let hasNum := decide (j2 < j3)
  let param : Int := if hasNum then wrapInt 64 (parseParam digits * (if neg then -1 else 1)) else 0
  let isU := decide (name = [117]) && hasNum
  let r := wrapInt 32 param
  let out := if isU then writeRune (if r < 0 then r + 65536 else r) else []
  let j4 := if isU && decide (j3 < bs.length) then j3 + 1 else j3
  if (bs.drop j4).head? = some 32 then (out, j4 + 1) else (out, j4)

/-- One pass of the loop of `readRtf` (lines 852-919) at the byte `b` followed
by `bs`: the bytes written and the number of bytes of `bs` the pass moves the
index over, besides the `i++` of the loop. -/
def rtfStep (b : Nat) (bs : List Nat) : List Nat × Nat :=
  if b = 123 ∨ b = 125 then ([], 0)
  else if b = 92 then
    match bs with
    | [] => ([], 0)
    | next :: _ =>
      if next = 39 ∧ 3 ≤ bs.length then
        ((match rtfHex (bs.getD 1 0) (bs.getD 2 0) with
          | some val => [val]
          | none => []), 3)
      else rtfControl bs
  else if b ≥ 32 ∨ b = 10 ∨ b = 9 then ([b], 0)
  else ([], 0)

/-- The loop of `readRtf` from some index on; `skip` is the number of bytes
the index still has to move over before the next pass. -/
def readRtfAux : Nat → List Nat → List Nat
  | _, [] => []
  | skip + 1, _ :: bs => readRtfAux skip bs
  | 0, b :: bs => (rtfStep b bs).1 ++ readRtfAux (rtfStep b bs).2 bs

/-- The parsing loop of `readRtf` (lines 851-920): the bytes of the string it
returns for the file content `data`. -/
def readRtfLoop (data : List Nat) : List Nat := readRtfAux 0 data

/-- The bytes that the default branch of the loop writes (lines 914-918),
group delimiters left out (line 855). -/
def isLiteralByte (b : Nat) : Bool :=
  decide (b ≠ 123) && decide (b ≠ 125) && (decide (b ≥ 32) || decide (b = 10) || decide (b = 9))

end Matcher

namespace Matcher

/-! ## Choosing the pipeline (lines 220-236, 338-370)

The calls that reach outside the program (building the client from the
environment, the requests to the service, writing the results) are
represented by their outcomes. -/

/-- The errors the end of `runInternal` tells apart: `ErrMissingOpenAIKey`
(line 167) and any other error, named by a number. -/
inductive RunError where
  | missingOpenAIKey : RunError
  | other : Nat → RunError
  deriving DecidableEq, Repr

/-- The error returns of `runOpenAI` (lines 338-466): `jdInfo` is the outcome
of `extractJDInfo` (line 343), `embeddings` the outcome of `embedDocuments`
(line 367), and `finish` the rest of the function, which scores, ranks,
explains and writes the results (a failed `explainResume` is skipped there,
line 433). -/
def runOpenAI {J E O : Type} (jdInfo : Except RunError J) (embeddings : Except RunError E)
    (finish : J → E → Except RunError O) : Except RunError O :=
  match jdInfo with
  | Except.error err => Except.error err
  | Except.ok info =>
    match embeddings with
    | Except.error err => Except.error err
    | Except.ok vecs => finish info vecs

/-- The end of `runInternal` (lines 220-236): `aiRequired` is the value of
`envBool("RESUMEGPT_REQUIRE_OPENAI", false)`, `aiClient` the outcome of
`newOpenAIClientFromEnv()`, `openAI` the call of `runOpenAI` with the client,
and `heuristic` the outcome of the call of `runHeuristic`. -/
def runInternal {C O : Type} (forceHeuristic aiRequired : Bool) (aiClient : Except RunError C)
    (openAI : C → Except RunError O) (heuristic : Except RunError O) : Except RunError O :=
  if forceHeuristic then heuristic
  else
    match aiClient with
    | Except.ok client => openAI client
    | Except.error aiErr =>
      if aiRequired then
        if aiErr = RunError.missingOpenAIKey then Except.error RunError.missingOpenAIKey
        else Except.error aiErr
      else heuristic

end Matcher

namespace Matcher

/-! ## Loading the inputs (lines 179-218, 923-937, 1163-1179; openai.go 30-81)

The file system and the environment are represented by what they answer:
`getenv` gives the value of an environment variable, a walk of the resumes
directory is the list of the visits `filepath.Walk` makes, and the readers of
the four file formats are functions from a path to their outcome. -/

/-- The scan of `filepath.Ext` from the end of the path towards its start:
`acc` holds the characters passed so far. -/
def extScan (isSep : Char → Bool) : List Char → List Char → List Char
  | [], _ => []
  | c :: rest, acc =>
    if isSep c then []
    else if c = '.' then '.' :: acc
    else extScan isSep rest (c :: acc)

/-- Go's `filepath.Ext`: the suffix of the path that begins at the last dot of
its last element, empty when that element has no dot.  `isSep` is
`os.IsPathSeparator`. -/
def filepathExt (isSep : Char → Bool) (path : List Char) : List Char :=
  extScan isSep path.reverse []

/-- The errors of `extractText`: the error of its default branch,
`fmt.Errorf("unsupported file: %s", ext)`, and an error of one of the readers,
named by a number. -/
inductive ExtractError where
  | unsupported : List Char → ExtractError
  | reader : Nat → ExtractError
  deriving DecidableEq, Repr

/-- The function `extractText` (lines 923-937); the four readers are
parameters. -/
def extractText (unicodeLower : Char → Char) (isSep : Char → Bool)
    (readTxt readDocx readPdf readRtf : List Char → Except Nat (List Char))
    (path : List Char) : Except ExtractError (List Char) :=
  let ext := stringsToLower unicodeLower (filepathExt isSep path)
  if ext = ".txt".toList ∨ ext = ".text".toList ∨ ext = ".md".toList then
    (readTxt path).mapError ExtractError.reader
  else if ext = ".docx".toList then (readDocx path).mapError ExtractError.reader
  else if ext = ".pdf".toList then (readPdf path).mapError ExtractError.reader
  else if ext = ".rtf".toList then (readRtf path).mapError ExtractError.reader
  else Except.error (ExtractError.unsupported ext)

/-- One call of the function `filepath.Walk` hands to its callback: the path,
whether it is a directory, and the error of visiting it, if any. -/
structure WalkVisit where
  path : List Char
  isDir : Bool
  err : Option Nat

/-- The test of line 1173 on the lower-cased extension. -/
def isResumeExt (ext : List Char) : Bool :=
  decide (ext = ".txt".toList) || decide (ext = ".text".toList) || decide (ext = ".md".toList) ||
  decide (ext = ".pdf".toList) || decide (ext = ".docx".toList) || decide (ext = ".rtf".toList)

/-- The callback of `listResumeFiles` over the visits of the walk (lines
1165-1177): an error stops the walk and is returned with the files found so
far. -/
def walkResumeFiles (unicodeLower : Char → Char) (isSep : Char → Bool) :
    List WalkVisit → List (List Char) → List (List Char) × Option Nat
  | [], files => (files, none)
  | v :: rest, files =>
    match v.err with
    | some err => (files, some err)
    | none =>
      if v.isDir then walkResumeFiles unicodeLower isSep rest files
      else if isResumeExt (stringsToLower unicodeLower (filepathExt isSep v.path)) then
        walkResumeFiles unicodeLower isSep rest (files ++ [v.path])
      else walkResumeFiles unicodeLower isSep rest files

/-- The function `listResumeFiles` (lines 1163-1179) on the visits of the
walk of the directory. -/
def listResumeFiles (unicodeLower : Char → Char) (isSep : Char → Bool)
    (walk : List WalkVisit) : List (List Char) × Option Nat :=
  walkResumeFiles unicodeLower isSep walk []

/-- The loop of lines 202-215: a file whose text cannot be extracted is
passed over.  `nameOf` is
`strings.TrimSuffix(filepath.Base(path), filepath.Ext(path))`. -/
def loadResumeDocs (unicodeLower : Char → Char) (nameOf : List Char → List Char)
    (extract : List Char → Except ExtractError (List Char)) :
    List (List Char) → List resumeDoc → List resumeDoc
  | [], docs => docs
  | path :: rest, docs =>
    match extract path with
    | Except.error _ => loadResumeDocs unicodeLower nameOf extract rest docs
    | Except.ok raw =>
      loadResumeDocs unicodeLower nameOf extract rest
        (docs ++ [newResumeDoc unicodeLower path (nameOf path) raw])

/-- The errors `runInternal` returns: the sentinel errors of lines 161-167
(`ErrReadJD` and `ErrListResumes` wrap the error they report) and the errors
of the pipeline that was run. -/
inductive MatchError where
  | errMissingJD : MatchError
  | errMissingResumes : MatchError
  | errNoResumes : MatchError
  | errReadJD : ExtractError → MatchError
  | errListResumes : Nat → MatchError
  | pipeline : RunError → MatchError
  deriving DecidableEq, Repr

/-- The `openAIClient` record (openai.go, lines 16-28), its numeric settings. -/
structure openAIClient where
  explainTopN : Int
  embedBatchSize : Int
  embedChunkWords : Int
  explainMaxChars : Int
  deriving DecidableEq, Repr

/-- The function `envInt` (openai.go, lines 71-81); `raw` is the value of the
variable and `atoi` is `strconv.Atoi`, `none` being its error. -/
def envInt (atoi : List Char → Option Int) (raw : List Char) (dflt : Int) : Int :=
  if trimSpace raw = [] then dflt
  else
    match atoi (trimSpace raw) with
    | none => dflt
    | some val => if val ≤ 0 then dflt else val

/-- The function `newOpenAIClientFromEnv` (openai.go, lines 30-69). -/
def newOpenAIClientFromEnv (atoi : List Char → Option Int) (getenv : String → List Char) :
    Except RunError openAIClient :=
  if trimSpace (getenv "OPENAI_API_KEY") = [] then Except.error RunError.missingOpenAIKey
  else
    Except.ok
      { explainTopN := envInt atoi (getenv "RESUMEGPT_EXPLAIN_TOPN") 20,
        embedBatchSize := max 1 (envInt atoi (getenv "RESUMEGPT_EMBED_BATCH") 96),
        embedChunkWords := max 500 (envInt atoi (getenv "RESUMEGPT_EMBED_CHUNK_WORDS") 2000),
        explainMaxChars := max 2000 (envInt atoi (getenv "RESUMEGPT_EXPLAIN_MAX_CHARS") 12000) }

/-- The function `envBool` (openai.go, lines 95-108). -/
def envBool (unicodeLower : Char → Char) (raw : List Char) (dflt : Bool) : Bool :=
  if trimSpace raw = [] then dflt
  else if stringsToLower unicodeLower (trimSpace raw) ∈
      ["1", "true", "yes", "y", "on"].map String.toList then true
  else if stringsToLower unicodeLower (trimSpace raw) ∈
      ["0", "false", "no", "n", "off"].map String.toList then false
  else dflt

/-- The function `runInternal` as a whole (lines 179-236).  `jdFound` and
`dirFound` are the outcomes of the two tests of lines 181 and 184, `jdText`
the outcome of `extractText(input.JDPath)`, `listed` the outcome of
`listResumeFiles`; the two pipelines get the JD text, the resume documents
and the number of resume files. -/
def runInternalFull {O : Type} (unicodeLower : Char → Char) (nameOf : List Char → List Char)
    (atoi : List Char → Option Int) (getenv : String → List Char)
    (jdFound dirFound : Bool) (jdText : Except ExtractError (List Char))
    (listed : List (List Char) × Option Nat)
    (extract : List Char → Except ExtractError (List Char))
    (forceHeuristic : Bool)
    (openAI : openAIClient → List Char → List resumeDoc → Nat → Except RunError O)
    (heuristic : List Char → List resumeDoc → Nat → Except RunError O) :
    Except MatchError O :=
  if !jdFound then Except.error MatchError.errMissingJD
  else if !dirFound then Except.error MatchError.errMissingResumes
  else
    match jdText with
    | Except.error err => Except.error (MatchError.errReadJD err)
    | Except.ok jdRaw =>
      match listed.2 with
      | some err => Except.error (MatchError.errListResumes err)
      | none =>
        if listed.1.length = 0 then Except.error MatchError.errNoResumes
        else
          let resumeDocs := loadResumeDocs unicodeLower nameOf extract listed.1 []
          if resumeDocs.length = 0 then Except.error MatchError.errNoResumes
          else
            (runInternal forceHeuristic
              (envBool unicodeLower (getenv "RESUMEGPT_REQUIRE_OPENAI") false)
              (newOpenAIClientFromEnv atoi getenv)
              (fun client => openAI client jdRaw resumeDocs listed.1.length)
              (heuristic jdRaw resumeDocs listed.1.length)).mapError MatchError.pipeline

end Matcher

namespace Matcher

/-! ## Explanation enrichment (lines 424-453) -/

/-- The `ResumeAnalysis` record (lines 67-76). -/
structure ResumeAnalysis (K : Type) where
  Strengths : List (List Char)
  Weaknesses : List (List Char)
  Summary : List Char
  Skills : List (List Char)
  YearsExperience : K
  Education : List (List Char)
  Certifications : List (List Char)
  Titles : List (List Char)

/-- The value of `explainN` when the loop of line 432 starts (lines 424-430);
`count` is `len(results)`. -/
def explainLimit (explainTopN topN : Int) (count : Nat) : Int :=
  let explainN := if topN > 0 ∧ topN < explainTopN then topN else explainTopN
  if explainN > (count : Int) then (count : Int) else explainN

/-- The lookup `resumeByPath[file]` in the map the loop of lines 376-378
fills: the last document with that path, if there is one. -/
def lookupDoc (resumeDocs : List resumeDoc) (file : String) : Option resumeDoc :=
  (resumeDocs.filter (fun doc => decide (String.mk doc.Path = file))).getLast?

/-- The assignments of lines 441-452 to the result `r` for the analysis the
service returned. -/
def enrichResult {K : Type} (unicodeLower : Char → Char) (analysis : ResumeAnalysis K)
    (r : Result K) : Result K :=
  { r with
    Strengths := String.mk (joinOrNone analysis.Strengths),
    Weaknesses := String.mk (joinOrNone analysis.Weaknesses),
    Explanation :=
      if trimSpace analysis.Summary ≠ [] then String.mk analysis.Summary else r.Explanation,
    Extracted := some
      { Skills := (cleanSkillList unicodeLower analysis.Skills).map String.mk,
        YearsExperience := analysis.YearsExperience,
        Education := (cleanList analysis.Education).map String.mk,
        Certifications := (cleanList analysis.Certifications).map String.mk,
        Titles := (cleanList analysis.Titles).map String.mk } }

/-- One pass of the loop of lines 432-453 at index `i`.  The state is the
slice `results` and the indices for which `explainResume` has been called;
`explainResume i text` is the outcome of the call made in pass `i`.  The
result is `none` where `results[i]` would be out of range. -/
def enrichPass {K : Type} (unicodeLower : Char → Char) (resumeDocs : List resumeDoc)
    (explainResume : Nat → List Char → Except Nat (ResumeAnalysis K))
    (st : Option (List (Result K) × List Nat)) (i : Nat) :
    Option (List (Result K) × List Nat) :=
  match st with
  | none => none
  | some (results, called) =>
    match results[i]? with
    | none => none
    | some r =>
      match lookupDoc resumeDocs r.File with
      | none => some (results, called)
      | some doc =>
        match explainResume i doc.Redacted with
        | Except.error _ => some (results, called ++ [i])
        | Except.ok analysis =>
          some (results.set i (enrichResult unicodeLower analysis r), called ++ [i])

/-- The loop `for i := 0; i < explainN; i++` of lines 432-453. -/
def enrichResults {K : Type} (unicodeLower : Char → Char) (resumeDocs : List resumeDoc)
    (explainResume : Nat → List Char → Except Nat (ResumeAnalysis K))
    (explainTopN topN : Int) (results : List (Result K)) :
    Option (List (Result K) × List Nat) :=
  (List.range (explainLimit explainTopN topN results.length).toNat).foldl
    (enrichPass unicodeLower resumeDocs explainResume) (some (results, []))

/-- What pass `i` of the loop makes of the result `r` it finds at index `i`:
the enriched result when the document is found and the call succeeds, `r`
itself otherwise. -/
def enrichAt {K : Type} (unicodeLower : Char → Char) (resumeDocs : List resumeDoc)
    (explainResume : Nat → List Char → Except Nat (ResumeAnalysis K)) (i : Nat)
    (r : Result K) : Result K :=
  match lookupDoc resumeDocs r.File with
  | none => r
  | some doc =>
    match explainResume i doc.Redacted with
    | Except.error _ => r
    | Except.ok analysis => enrichResult unicodeLower analysis r

end Matcher

namespace Matcher

/-! ## The RTF reader with checked indices (lines 851-921)

The loop of `readRtf` once more, this time over the index `i` of the source
and with every index expression `data[k]` and every slice expression checked:
the result is `none` where the source would index outside `data`, and where a
loop has not ended when its fuel is used up. -/

/-- A loop `for j < len(data) && p(data[j]) \x7b j++ \x7d` (lines 875-877 and
886-888), started at `j`: the value of `j` when it ends. -/
def scanBytes (p : Nat → Bool) (data : List Nat) : Nat → Nat → Option Nat
  | 0, _ => none
  | fuel + 1, j =>
    if j < data.length then
      match data[j]? with
      | none => none
      | some b => if p b then scanBytes p data fuel (j + 1) else some j
    else some j

/-- The slice expression `data[a:b]` (line 878). -/
def sliceBytes (data : List Nat) (a b : Nat) : Option (List Nat) :=
  if a ≤ b ∧ b ≤ data.length then some ((data.drop a).take (b - a)) else none

/-- The bytes `data[k]`, `data[k+1]`, ... that a loop of `n` passes reads
(lines 892-894). -/
def readBytes (data : List Nat) : Nat → Nat → Option (List Nat)
  | 0, _ => some []
  | n + 1, k =>
    match data[k]? with
    | none => none
    | some b => (readBytes data n (k + 1)).map (fun rest => b :: rest)

/-- The test `j < len(data) && data[j] == v` (lines 881 and 907). -/
def byteIs (data : List Nat) (j v : Nat) : Option Bool :=
  if j < data.length then
    match data[j]? with
    | none => none
    | some b => some (decide (b = v))
  else some false

/-- The control-word branch (lines 873-911) at the backslash with index `i`:
the bytes written and the value the branch leaves in `i`. -/
def rtfWordPass (data : List Nat) (i : Nat) : Option (List Nat × Nat) :=
  match scanBytes isLetterByte data (data.length + 1) (i + 1) with
  | none => none
  | some j1 =>
    match sliceBytes data (i + 1) j1 with
    | none => none
    | some nameBytes =>
      match byteIs data j1 45 with
      | none => none
      | some neg =>
        match scanBytes isDigitByte data (data.length + 1) (if neg then j1 + 1 else j1) with
        | none => none
        | some j3 =>
          match readBytes data (j3 - (if neg then j1 + 1 else j1))
              (if neg then j1 + 1 else j1) with
          | none => none
          | some digits =>
            let hasNum := decide ((if neg then j1 + 1 else j1) < j3)
            let param : Int :=
              if hasNum then wrapInt 64 (parseParam digits * (if neg then -1 else 1)) else 0
            let isU := decide (nameBytes.map lowerByte = [117]) && hasNum
            let r := wrapInt 32 param
            let out := if isU then writeRune (if r < 0 then r + 65536 else r) else []
            let j4 := if isU && decide (j3 < data.length) then j3 + 1 else j3
            match byteIs data j4 32 with
            | none => none
            | some sp => some (out, if sp then j4 else j4 - 1)

/-- One pass of the loop of `readRtf` at index `i` (lines 852-919): the bytes
written and the value of `i` at the end of the pass, before the `i++` of the
loop. -/
def rtfPass (data : List Nat) (i : Nat) : Option (List Nat × Nat) :=
  match data[i]? with
  | none => none
  | some b =>
    if b = 123 ∨ b = 125 then some ([], i)
    else if b = 92 then
      if i + 1 ≥ data.length then some ([], i)
      else
        match data[i + 1]? with
        | none => none
        | some next =>
          if next = 39 ∧ i + 3 < data.length then
            match data[i + 2]?, data[i + 3]? with
            | some hi, some lo =>
              some ((match rtfHex hi lo with
                | some val => [val]
                | none => []), i + 3)
            | _, _ => none
          else rtfWordPass data i
    else if b ≥ 32 ∨ b = 10 ∨ b = 9 then some ([b], i)
    else some ([], i)

/-- The loop `for i := 0; i < len(data); i++` of `readRtf` from index `i` on,
`out` being the bytes written so far. -/
def readRtfChecked (data : List Nat) : Nat → Nat → List Nat → Option (List Nat)
  | 0, _, _ => none
  | fuel + 1, i, out =>
    if i < data.length then
      match rtfPass data i with
      | none => none
      | some (written, i') => readRtfChecked data fuel (i' + 1) (out ++ written)
    else some out

end Matcher

namespace Matcher

/-! ## The algorithm behind `sort.Slice`

`sort.Slice` belongs to the Go standard library, not to this repository.  The
definitions below follow the library's implementation (package `sort`, file
`zsortfunc.go`, the pattern-defeating quicksort in use since Go 1.19) function
by function, so that the ranking step can be evaluated on concrete slices.  The
slice is a list, `data.Swap(i, j)` is `swapAt`, and `data.Less(i, j)` is the
comparison closure applied to the elements now at positions `i` and `j`.
Every index the algorithm uses lies inside the slice; at an index outside it
`swapAt` leaves the list as it is and `lessAt` answers `false`.  Loops whose
number of rounds is not fixed beforehand take fuel and answer `none` when it
runs out. -/

/-- The call `data.Swap(i, j)`. -/
def swapAt {α : Type} (data : List α) (i j : Nat) : List α :=
  match data[i]?, data[j]? with
  | some x, some y => (data.set i y).set j x
  | _, _ => data

/-- The call `data.Less(i, j)`: the closure compares the elements that are at
positions `i` and `j` at the time of the call. -/
def lessAt {α : Type} (less : α → α → Bool) (data : List α) (i j : Nat) : Bool :=
  match data[i]?, data[j]? with
  | some x, some y => less x y
  | _, _ => false

/-- A loop `for i < hi && p(i) \x7b i++ \x7d`, with `n = hi - i` rounds left;
the answer is the final `i`. -/
def scanUp (p : Nat → Bool) : Nat → Nat → Nat
  | 0, i => i
  | n + 1, i => if p i then scanUp p n (i + 1) else i

/-- A loop `for lo <= j && p(j) \x7b j-- \x7d`, with `n = j + 1 - lo` rounds
left; the answer is the final `j`. -/
def scanDown (p : Nat → Bool) : Nat → Nat → Nat
  | 0, j => j
  | n + 1, j => if p j then scanDown p n (j - 1) else j

/-- The inner loop of `insertionSort_func`:
`for j := i; j > a && data.Less(j, j-1); j-- \x7b data.Swap(j, j-1) \x7d`. -/
def insertionInner {α : Type} (less : α → α → Bool) (a : Nat) : Nat → List α → List α
  | 0, data => data
  | j + 1, data =>
    if a < j + 1 ∧ lessAt less data (j + 1) j = true then
      insertionInner less a j (swapAt data (j + 1) j)
    else data

/-- The function `insertionSort_func(data, a, b)`: insertion sort of
`data[a:b]`, the outer loop running over `i = a + 1, ..., b - 1`. -/
def insertionSort_func {α : Type} (less : α → α → Bool) (data : List α) (a b : Nat) : List α :=
  (List.range' (a + 1) (b - (a + 1))).foldl (fun d i => insertionInner less a i d) data

/-- The loop of `siftDown_func(data, lo, hi, first)`, `root` starting at `lo`. -/
def siftDown_func {α : Type} (less : α → α → Bool) (hi first : Nat) :
    Nat → Nat → List α → Option (List α)
  | 0, _, _ => none
  | fuel + 1, root, data =>
    if 2 * root + 1 ≥ hi then some data
    else
      let child :=
        if 2 * root + 1 + 1 < hi ∧
            lessAt less data (first + (2 * root + 1)) (first + (2 * root + 1) + 1) = true
        then 2 * root + 1 + 1 else 2 * root + 1
      if lessAt less data (first + root) (first + child) = false then some data
      else siftDown_func less hi first fuel child (swapAt data (first + root) (first + child))

/-- The first loop of `heapSort_func`:
`for i := (hi - 1) / 2; i >= 0; i-- \x7b siftDown_func(data, i, hi, first) \x7d`,
with `n = i + 1` rounds left. -/
def heapBuild {α : Type} (less : α → α → Bool) (hi first : Nat) :
    Nat → List α → Option (List α)
  | 0, data => some data
  | i + 1, data =>
    match siftDown_func less hi first (hi + 1) i data with
    | none => none
    | some d => heapBuild less hi first i d

/-- The second loop of `heapSort_func`:
`for i := hi - 1; i >= 0; i-- \x7b data.Swap(first, first+i); siftDown_func(data, lo, i, first) \x7d`,
with `n = i + 1` rounds left. -/
def heapPop {α : Type} (less : α → α → Bool) (first : Nat) : Nat → List α → Option (List α)
  | 0, data => some data
  | i + 1, data =>
    match siftDown_func less i first (i + 1) 0 (swapAt data first (first + i)) with
    | none => none
    | some d => heapPop less first i d

/-- The function `heapSort_func(data, a, b)`. -/
def heapSort_func {α : Type} (less : α → α → Bool) (data : List α) (a b : Nat) :
    Option (List α) :=
  match heapBuild less (b - a) a ((b - a - 1) / 2 + 1) data with
  | none => none
  | some d => heapPop less a (b - a) d

/-- The main loop of `partition_func`, entered with the pivot at position `a`. -/
def partition_loop {α : Type} (less : α → α → Bool) (a : Nat) :
    Nat → Nat → Nat → List α → Option (List α × Nat × Bool)
  | 0, _, _, _ => none
  | fuel + 1, i, j, data =>
    let i1 := scanUp (fun k => lessAt less data k a) (j + 1 - i) i
    let j1 := scanDown (fun k => !lessAt less data k a) (j + 1 - i1) j
    if i1 > j1 then some (swapAt data j1 a, j1, false)
    else partition_loop less a fuel (i1 + 1) (j1 - 1) (swapAt data i1 j1)

/-- The function `partition_func(data, a, b, pivot)`: one quicksort partition
of `data[a:b]`; the answer is the slice, the new position of the pivot and the
flag `alreadyPartitioned`. -/
def partition_func {α : Type} (less : α → α → Bool) (data : List α) (a b pivot : Nat) :
    Option (List α × Nat × Bool) :=
  let d := swapAt data a pivot
  let i := scanUp (fun k => lessAt less d k a) (b - 1 + 1 - (a + 1)) (a + 1)
  let j := scanDown (fun k => !lessAt less d k a) (b - 1 + 1 - i) (b - 1)
  if i > j then some (swapAt d j a, j, true)
  else partition_loop less a (b - a) (i + 1) (j - 1) (swapAt d i j)

/-- The loop of `partitionEqual_func`, entered with the pivot at position `a`. -/
def partitionEqual_loop {α : Type} (less : α → α → Bool) (a : Nat) :
    Nat → Nat → Nat → List α → Option (List α × Nat)
  | 0, _, _, _ => none
  | fuel + 1, i, j, data =>
    let i1 := scanUp (fun k => !lessAt less data a k) (j + 1 - i) i
    let j1 := scanDown (fun k => lessAt less data a k) (j + 1 - i1) j
    if i1 > j1 then some (data, i1)
    else partitionEqual_loop less a fuel (i1 + 1) (j1 - 1) (swapAt data i1 j1)

/-- The function `partitionEqual_func(data, a, b, pivot)`. -/
def partitionEqual_func {α : Type} (less : α → α → Bool) (data : List α) (a b pivot : Nat) :
    Option (List α × Nat) :=
  partitionEqual_loop less a (b - a + 1) (a + 1) (b - 1) (swapAt data a pivot)

/-- The loop `for j := i - 1; j >= 1; j-- \x7b if !data.Less(j, j-1) \x7b break \x7d;
data.Swap(j, j-1) \x7d` of `partialInsertionSort_func`. -/
def shiftSmaller {α : Type} (less : α → α → Bool) : Nat → List α → List α
  | 0, data => data
  | j + 1, data =>
    if lessAt less data (j + 1) j = false then data
    else shiftSmaller less j (swapAt data (j + 1) j)

/-- The loop `for j := i + 1; j < b; j++ \x7b if !data.Less(j, j-1) \x7b break \x7d;
data.Swap(j, j-1) \x7d` of `partialInsertionSort_func`, with `n = b - j` rounds
left. -/
def shiftGreater {α : Type} (less : α → α → Bool) : Nat → Nat → List α → List α
  | 0, _, data => data
  | n + 1, j, data =>
    if lessAt less data j (j - 1) = false then data
    else shiftGreater less n (j + 1) (swapAt data j (j - 1))

/-- The outer loop of `partialInsertionSort_func` with `steps` of its
`maxSteps = 5` rounds left; `shortestShifting = 50`. -/
def partialInsertionSort_loop {α : Type} (less : α → α → Bool) (a b : Nat) :
    Nat → Nat → List α → List α × Bool
  | 0, _, data => (data, false)
  | steps + 1, i, data =>
    let i1 := scanUp (fun k => !lessAt less data k (k - 1)) (b - i) i
    if i1 = b then (data, true)
    else if b - a < 50 then (data, false)
    else
      let d1 := swapAt data i1 (i1 - 1)
      let d2 := if i1 - a ≥ 2 then shiftSmaller less (i1 - 1) d1 else d1
      let d3 := if b - i1 ≥ 2 then shiftGreater less (b - (i1 + 1)) (i1 + 1) d2 else d2
      partialInsertionSort_loop less a b steps i1 d3

/-- The function `partialInsertionSort_func(data, a, b)`: the slice and whether
it is sorted at the end. -/
def partialInsertionSort_func {α : Type} (less : α → α → Bool) (data : List α) (a b : Nat) :
    List α × Bool :=
  partialInsertionSort_loop less a b 5 (a + 1) data

/-- The method `Next` of the `xorshift` generator on `uint64`. -/
def xorshiftNext (r : Nat) : Nat :=
  let r1 := r ^^^ ((r <<< 13) % 2 ^ 64)
  let r2 := r1 ^^^ (r1 >>> 7)
  r2 ^^^ ((r2 <<< 17) % 2 ^ 64)

/-- The function `bits.Len`: the number of bits needed to write `n`. -/
def bitsLen (n : Nat) : Nat :=
  if n = 0 then 0 else Nat.log2 n + 1

/-- The function `nextPowerOfTwo(length)`: `1 << bits.Len(uint(length))`. -/
def nextPowerOfTwo (length : Nat) : Nat :=
  2 ^ bitsLen length

/-- One round of the loop of `breakPatterns_func`: the index drawn from the
generator value `r`. -/
def breakOther (r length : Nat) : Nat :=
  let other := r &&& (nextPowerOfTwo length - 1)
  if other ≥ length then other - length else other

/-- The function `breakPatterns_func(data, a, b)`. -/
def breakPatterns_func {α : Type} (data : List α) (a b : Nat) : List α :=
  if b - a ≥ 8 then
    let idx := a + ((b - a) / 4) * 2 - 1
    let r1 := xorshiftNext (b - a)
    let r2 := xorshiftNext r1
    let r3 := xorshiftNext r2
    let d1 := swapAt data (idx - 1 + 0) (a + breakOther r1 (b - a))
    let d2 := swapAt d1 (idx - 1 + 1) (a + breakOther r2 (b - a))
    swapAt d2 (idx - 1 + 2) (a + breakOther r3 (b - a))
  else data

/-- The type `sortedHint`. -/
inductive sortedHint where
  | unknownHint
  | increasingHint
  | decreasingHint
  deriving DecidableEq

/-- The function `order2_func(data, a, b, swaps)`; the counter `*swaps` is the
third component of the answer. -/
def order2_func {α : Type} (less : α → α → Bool) (data : List α) (a b swaps : Nat) :
    Nat × Nat × Nat :=
  if lessAt less data b a = true then (b, a, swaps + 1) else (a, b, swaps)

/-- The function `median_func(data, a, b, c, swaps)`: the index of the median
and the counter. -/
def median_func {α : Type} (less : α → α → Bool) (data : List α) (a b c swaps : Nat) :
    Nat × Nat :=
  let s1 := order2_func less data a b swaps
  let s2 := order2_func less data s1.2.1 c s1.2.2
  let s3 := order2_func less data s1.1 s2.1 s2.2.2
  (s3.2.1, s3.2.2)

/-- The function `medianAdjacent_func(data, a, swaps)`. -/
def medianAdjacent_func {α : Type} (less : α → α → Bool) (data : List α) (a swaps : Nat) :
    Nat × Nat :=
  median_func less data (a - 1) a (a + 1) swaps

/-- The function `choosePivot_func(data, a, b)`; `shortestNinther = 50`,
`maxSwaps = 12`. -/
def choosePivot_func {α : Type} (less : α → α → Bool) (data : List α) (a b : Nat) :
    Nat × sortedHint :=
  let l := b - a
  let i := a + l / 4 * 1
  let j := a + l / 4 * 2
  let k := a + l / 4 * 3
  let r : Nat × Nat :=
    if l ≥ 8 then
      if l ≥ 50 then
        let mi := medianAdjacent_func less data i 0
        let mj := medianAdjacent_func less data j mi.2
        let mk := medianAdjacent_func less data k mj.2
        median_func less data mi.1 mj.1 mk.1 mk.2
      else median_func less data i j k 0
    else (j, 0)
  if r.2 = 0 then (r.1, sortedHint.increasingHint)
  else if r.2 = 12 then (r.1, sortedHint.decreasingHint)
  else (r.1, sortedHint.unknownHint)

/-- The loop of `reverseRange_func`:
`for i < j \x7b data.Swap(i, j); i++; j-- \x7d`; the count bounds the rounds. -/
def reverseRange_loop {α : Type} : Nat → Nat → Nat → List α → List α
  | 0, _, _, data => data
  | n + 1, i, j, data =>
    if i < j then reverseRange_loop n (i + 1) (j - 1) (swapAt data i j) else data

/-- The function `reverseRange_func(data, a, b)`. -/
def reverseRange_func {α : Type} (data : List α) (a b : Nat) : List α :=
  reverseRange_loop (b - a) a (b - 1) data

/-- The function `pdqsort_func(data, a, b, limit)`: one round of its loop per
unit of fuel, the local variables `wasBalanced` and `wasPartitioned` being
arguments; `maxInsertion = 12`. -/
def pdqsort_func {α : Type} (less : α → α → Bool) :
    Nat → List α → Nat → Nat → Nat → Bool → Bool → Option (List α)
  | 0, _, _, _, _, _, _ => none
  | fuel + 1, data, a, b, limit, wasBalanced, wasPartitioned =>
    if b - a ≤ 12 then some (insertionSort_func less data a b)
    else if limit = 0 then heapSort_func less data a b
    else
      let data1 := if wasBalanced then data else breakPatterns_func data a b
      let limit1 := if wasBalanced then limit else limit - 1
      let ph := choosePivot_func less data1 a b
      let data2 :=
        if ph.2 = sortedHint.decreasingHint then reverseRange_func data1 a b else data1
      let pivot := if ph.2 = sortedHint.decreasingHint then (b - 1) - (ph.1 - a) else ph.1
      let hint :=
        if ph.2 = sortedHint.decreasingHint then sortedHint.increasingHint else ph.2
      let ps :=
        if wasBalanced ∧ wasPartitioned ∧ hint = sortedHint.increasingHint then
          partialInsertionSort_func less data2 a b
        else (data2, false)
      if ps.2 = true then some ps.1
      else if a > 0 ∧ lessAt less ps.1 (a - 1) pivot = false then
        match partitionEqual_func less ps.1 a b pivot with
        | none => none
        | some (data3, mid) =>
          pdqsort_func less fuel data3 mid b limit1 wasBalanced wasPartitioned
      else
        match partition_func less ps.1 a b pivot with
        | none => none
        | some (data3, mid, alreadyPartitioned) =>
          if mid - a < b - mid then
            match pdqsort_func less fuel data3 a mid limit1 true true with
            | none => none
            | some data4 =>
              pdqsort_func less fuel data4 (mid + 1) b limit1
                (decide (mid - a ≥ (b - a) / 8)) alreadyPartitioned
          else
            match pdqsort_func less fuel data3 (mid + 1) b limit1 true true with
            | none => none
            | some data4 =>
              pdqsort_func less fuel data4 a mid limit1
                (decide (b - mid ≥ (b - a) / 8)) alreadyPartitioned

/-- The function `sort.Slice(x, less)` with the given fuel:
`pdqsort_func(data, 0, length, bits.Len(uint(length)))`. -/
def sortSliceFuel {α : Type} (fuel : Nat) (less : α → α → Bool) (data : List α) :
    Option (List α) :=
  pdqsort_func less fuel data 0 data.length (bitsLen data.length) true true

/-- The function `sort.Slice` as a function on the contents of the slice.
Every round of the loop of `pdqsort_func` either returns or goes on with a
shorter range, so `length + 1` rounds of fuel are given; the slice comes back
as it is if they should run out. -/
def sortSlice {α : Type} (less : α → α → Bool) (data : List α) : List α :=
  (sortSliceFuel (data.length + 1) less data).getD data

/-- A scored result as the scoring loop appends it (rank still zero). -/
def scoredResult (name : String) (score : ℚ) : Result ℚ :=
  { Rank := 0, Candidate := name, Score := score, Strengths := "None", Weaknesses := "None",
    Explanation := "", File := name ++ ".txt", Extracted := none }

/-- Thirteen scored results in discovery order: the seventh has score 60, the
other twelve score 50. -/
def thirteenResults : List (Result ℚ) :=
  [scoredResult "r0" 50, scoredResult "r1" 50, scoredResult "r2" 50, scoredResult "r3" 50,
   scoredResult "r4" 50, scoredResult "r5" 50, scoredResult "r6" 60, scoredResult "r7" 50,
   scoredResult "r8" 50, scoredResult "r9" 50, scoredResult "r10" 50, scoredResult "r11" 50,
   scoredResult "r12" 50]

/-- The order in which `sort.Slice` leaves `thirteenResults`. -/
def thirteenSorted : List (Result ℚ) :=
  [scoredResult "r6" 60, scoredResult "r3" 50, scoredResult "r2" 50, scoredResult "r0" 50,
   scoredResult "r4" 50, scoredResult "r5" 50, scoredResult "r1" 50, scoredResult "r7" 50,
   scoredResult "r8" 50, scoredResult "r9" 50, scoredResult "r10" 50, scoredResult "r11" 50,
   scoredResult "r12" 50]

end Matcher

namespace Matcher

/-! ## Ranker: auxiliary facts -/

section RankerLemmas

variable {K : Type}

theorem length_assignRanksFrom (i : Nat) (rs : List (Result K)) :
    (assignRanksFrom i rs).length = rs.length := by
  induction rs generalizing i with
  | nil => rfl
  | cons r rs ih => simp [assignRanksFrom, ih]

theorem map_rank_assignRanksFrom (i : Nat) (rs : List (Result K)) :
    (assignRanksFrom i rs).map (fun r => r.Rank)
      = (List.range rs.length).map (fun j => ((i + j : Nat) : Int) + 1) := by
  induction rs generalizing i with
  | nil => rfl
  | cons r rs ih =>
    simp only [assignRanksFrom, List.map_cons, List.length_cons, List.range_succ_eq_map,
      List.map_map, ih]
    simp only [Nat.add_zero, List.cons.injEq, true_and]
    apply List.map_congr_left
    intro j _
    simp only [Function.comp, Nat.succ_eq_add_one]
    congr 2
    omega

theorem rank_get_assignRanksFrom (i : Nat) (rs : List (Result K)) (j : Nat)
    (h : j < (assignRanksFrom i rs).length) :
    ((assignRanksFrom i rs).get ⟨j, h⟩).Rank = ((i + j : Nat) : Int) + 1 := by
  have hm := map_rank_assignRanksFrom i rs
  have hj : j < rs.length := by rw [length_assignRanksFrom] at h; exact h
  have h1 : ((assignRanksFrom i rs).map (fun r => r.Rank))[j]? = some (((i + j : Nat) : Int) + 1) := by
    rw [hm]; simp [List.getElem?_map, List.getElem?_range hj]
  rw [List.getElem?_map, List.getElem?_eq_getElem h] at h1
  simpa using h1

theorem map_unranked_assignRanksFrom (i : Nat) (rs : List (Result K)) :
    (assignRanksFrom i rs).map unranked = rs.map unranked := by
  induction rs generalizing i with
  | nil => rfl
  | cons r rs ih => simp [assignRanksFrom, ih, unranked]

theorem map_score_assignRanksFrom (i : Nat) (rs : List (Result K)) :
    (assignRanksFrom i rs).map (fun r => r.Score) = rs.map (fun r => r.Score) := by
  induction rs generalizing i with
  | nil => rfl
  | cons r rs ih => simp [assignRanksFrom, ih]

theorem pairwise_score_assignRanksFrom (i : Nat) (rs : List (Result K)) (R : K → K → Prop)
    (h : rs.Pairwise (fun a b => R a.Score b.Score)) :
    (assignRanksFrom i rs).Pairwise (fun a b => R a.Score b.Score) := by
  have h1 : (rs.map (fun r => r.Score)).Pairwise R := List.pairwise_map.mpr h
  rw [← map_score_assignRanksFrom i rs] at h1
  exact List.pairwise_map.mp h1

end RankerLemmas

section SortLemmas

variable {α : Type}

theorem insertionSortBy_contract : SortSliceContract (insertionSortBy : (α → α → Bool) → List α → List α) := by
  intro less xs
  refine ⟨List.perm_insertionSort _ xs, ?_⟩
  intro hasym htrans
  haveI : IsTotal α (fun a b => less b a = false) := ⟨fun a b => by
    cases hba : less b a
    · exact Or.inl rfl
    · exact Or.inr (hasym b a hba)⟩
  haveI : IsTrans α (fun a b => less b a = false) := ⟨fun a b c hab hbc => htrans a b c hab hbc⟩
  exact List.sorted_insertionSort _ xs

end SortLemmas

section ScoreOrder

variable {K : Type} [LinearOrderedField K]

theorem scoreLess_asymm (a b : Result K) (h : scoreLess a b = true) : scoreLess b a = false := by
  simp only [scoreLess, gt_iff_lt, decide_eq_true_eq, decide_eq_false_iff_not, not_lt] at h ⊢
  exact le_of_lt h

theorem scoreLess_negtrans (a b c : Result K) (h1 : scoreLess b a = false)
    (h2 : scoreLess c b = false) : scoreLess c a = false := by
  simp only [scoreLess, gt_iff_lt, decide_eq_false_iff_not, not_lt] at h1 h2 ⊢
  exact le_trans h2 h1

theorem sorted_of_contract
    (srt : (Result K → Result K → Bool) → List (Result K) → List (Result K))
    (hsrt : SortSliceContract srt) (results : List (Result K)) :
    (srt scoreLess results).Pairwise (fun a b => a.Score ≥ b.Score) := by
  have h := (hsrt scoreLess results).2 scoreLess_asymm scoreLess_negtrans
  refine h.imp ?_
  intro a b hab
  simpa [scoreLess] using hab

end ScoreOrder

end Matcher

namespace Matcher

section RankerClaims

variable {K : Type} [LinearOrderedField K]

theorem length_rankResults
    (srt : (Result K → Result K → Bool) → List (Result K) → List (Result K))
    (hsrt : SortSliceContract srt) (results : List (Result K)) :
    (rankResults srt results).length = results.length := by
  unfold rankResults assignRanks
  rw [length_assignRanksFrom]
  exact (hsrt scoreLess results).1.length_eq

/-- C1: after the ranking step (sort.Slice by descending score, then rank
assignment) the list has as many results as were scored, the result at index i
has Rank = i + 1, so the ranks read 1, 2, ..., N, and the scores are
non-increasing along the list. -/
theorem rankResults_ranks_contiguous
    (srt : (Result K → Result K → Bool) → List (Result K) → List (Result K))
    (hsrt : SortSliceContract srt) (results : List (Result K)) :
    (rankResults srt results).length = results.length ∧
    (∀ (i : Nat) (h : i < (rankResults srt results).length),
        ((rankResults srt results).get ⟨i, h⟩).Rank = (i : Int) + 1) ∧
    (rankResults srt results).map (fun r => r.Rank)
        = (List.range results.length).map (fun (i : Nat) => (i : Int) + 1) ∧
    (rankResults srt results).Pairwise (fun a b => a.Score ≥ b.Score) := by
  refine ⟨length_rankResults srt hsrt results, ?_, ?_, ?_⟩
  · intro i h
    have := rank_get_assignRanksFrom 0 (srt scoreLess results) i h
    simpa [rankResults, assignRanks] using this
  · have := map_rank_assignRanksFrom 0 (srt scoreLess results)
    rw [(hsrt scoreLess results).1.length_eq] at this
    simpa [rankResults, assignRanks] using this
  · exact pairwise_score_assignRanksFrom 0 _ (fun x y => x ≥ y) (sorted_of_contract srt hsrt results)

end RankerClaims

/-- Witness for C1 with insertion sort as the sort and a two-element tie. -/
theorem rankResults_ranks_contiguous_witness :
    SortSliceContract (insertionSortBy : (Result ℚ → Result ℚ → Bool) → _ → _) ∧
    (rankResults insertionSortBy [tieA, tieB]).map (fun r => r.Rank)
        = (List.range [tieA, tieB].length).map (fun (i : Nat) => (i : Int) + 1) :=
  ⟨insertionSortBy_contract,
   (rankResults_ranks_contiguous insertionSortBy insertionSortBy_contract [tieA, tieB]).2.2.1⟩

end Matcher

namespace Matcher

section RankerClaims2

variable {K : Type} [LinearOrderedField K]

theorem filter_insertionSortBy_scoreLess (s : K) (results : List (Result K)) :
    (insertionSortBy scoreLess results).filter (fun r => decide (r.Score = s))
      = results.filter (fun r => decide (r.Score = s)) := by
  have hsub : List.Sublist (results.filter (fun r => decide (r.Score = s))) results :=
    List.filter_sublist _
  have hpw : (results.filter (fun r => decide (r.Score = s))).Pairwise
      (fun a b => scoreLess b a = false) := by
    rw [List.pairwise_iff_forall_sublist]
    intro a b hab
    have ha : a ∈ results.filter (fun r => decide (r.Score = s)) := hab.subset (by simp)
    have hb : b ∈ results.filter (fun r => decide (r.Score = s)) := hab.subset (by simp)
    simp only [List.mem_filter, decide_eq_true_eq] at ha hb
    simp [scoreLess, ha.2, hb.2]
  have h1 := List.sublist_insertionSort hpw hsub
  have h2 := h1.filter (fun r => decide (r.Score = s))
  rw [List.filter_filter] at h2
  simp only [Bool.and_self] at h2
  have hlen : ((insertionSortBy scoreLess results).filter (fun r => decide (r.Score = s))).length
      = (results.filter (fun r => decide (r.Score = s))).length :=
    ((List.perm_insertionSort _ results).filter _).length_eq
  exact (h2.eq_of_length hlen.symm).symm

theorem withScore_assignRanks (s : K) (rs : List (Result K)) :
    withScore s (assignRanks rs) = withScore s rs := by
  unfold withScore assignRanks
  generalize (0 : Nat) = i
  induction rs generalizing i with
  | nil => rfl
  | cons r rs ih =>
    by_cases h : r.Score = s
    · simp [assignRanksFrom, List.filter_cons, h, ih, unranked]
    · simp [assignRanksFrom, List.filter_cons, h, ih]

end RankerClaims2

end Matcher

namespace Matcher

section Truncation

theorem truncateTopN_isPrefix {K : Type} (topN : Int) (results : List (Result K)) :
    List.IsPrefix (truncateTopN topN results) results := by
  unfold truncateTopN
  split
  · exact List.take_prefix _ _
  · exact List.prefix_refl _

theorem length_truncateTopN {K : Type} (topN : Int) (results : List (Result K)) :
    ((truncateTopN topN results).length : Int)
      = if topN > 0 then min topN (results.length : Int) else (results.length : Int) := by
  unfold truncateTopN
  by_cases h0 : topN > 0
  · by_cases h1 : (results.length : Int) > topN
    · rw [if_pos ⟨h0, h1⟩, if_pos h0, List.length_take]
      have : (topN.toNat : Int) = topN := Int.toNat_of_nonneg (le_of_lt h0)
      omega
    · rw [if_neg (fun h => h1 h.2), if_pos h0]
      omega
  · rw [if_neg (fun h => h0 h.1), if_neg h0]

variable {K : Type} [LinearOrderedField K]

/-- C3: the top-N cut-off is applied to the list that already carries its
ranks, and keeps a prefix of it: the first TopN entries when TopN > 0 and there
are more than TopN results, the whole ranked list otherwise (TopN = 0, or
negative, means no limit).  The kept entries are the entries of the ranked list
at the same indices, so their relative order is unchanged, there are
min(TopN, n) of them under a positive TopN, and the entry at index i still has
Rank = i + 1. -/
theorem rankAndTruncate_front
    (srt : (Result K → Result K → Bool) → List (Result K) → List (Result K))
    (topN : Int) (results : List (Result K)) :
    rankAndTruncate srt topN results
      = (if topN > 0 ∧ ((rankResults srt results).length : Int) > topN
          then (rankResults srt results).take topN.toNat else rankResults srt results) ∧
    List.IsPrefix (rankAndTruncate srt topN results) (rankResults srt results) ∧
    ((rankAndTruncate srt topN results).length : Int)
      = (if topN > 0 then min topN ((rankResults srt results).length : Int)
          else ((rankResults srt results).length : Int)) ∧
    (∀ (i : Nat) (h : i < (rankAndTruncate srt topN results).length),
        ((rankAndTruncate srt topN results).get ⟨i, h⟩).Rank = (i : Int) + 1) := by
  refine ⟨rfl, truncateTopN_isPrefix _ _, length_truncateTopN _ _, ?_⟩
  intro i h
  have hp : List.IsPrefix (rankAndTruncate srt topN results) (rankResults srt results) :=
    truncateTopN_isPrefix _ _
  have hlen : i < (rankResults srt results).length := lt_of_lt_of_le h hp.length_le
  have hget : (rankAndTruncate srt topN results).get ⟨i, h⟩
      = (rankResults srt results).get ⟨i, hlen⟩ := by
    obtain ⟨t, ht⟩ := hp
    have h1 : (rankAndTruncate srt topN results ++ t)[i]? = (rankResults srt results)[i]? := by
      rw [ht]
    rw [List.getElem?_append_left h, List.getElem?_eq_getElem h,
      List.getElem?_eq_getElem hlen] at h1
    simpa using h1
  rw [hget]
  have := rank_get_assignRanksFrom 0 (srt scoreLess results) i hlen
  simpa [rankResults, assignRanks] using this

end Truncation

end Matcher

namespace Matcher

section Scoring

variable {K : Type} [LinearOrderedField K]

/-- C4: scoreWeights looks only at whether mustCount is 0: for mustCount > 0 it
returns (wCos, wMust, wNice, wSkill) = (0.45, 0.35, 0.10, 0.10), for
mustCount = 0 it returns (0.55, 0.00, 0.15, 0.30); in both cases the four
weights are non-negative and sum to exactly 1. -/
theorem scoreWeights_table :
    (∀ mustCount : Int, 0 < mustCount →
        (scoreWeights mustCount : K × K × K × K) = (0.45, 0.35, 0.10, 0.10)) ∧
    (scoreWeights 0 : K × K × K × K) = (0.55, 0.0, 0.15, 0.30) ∧
    (∀ mustCount : Int,
        0 ≤ (scoreWeights mustCount : K × K × K × K).1 ∧
        0 ≤ (scoreWeights mustCount : K × K × K × K).2.1 ∧
        0 ≤ (scoreWeights mustCount : K × K × K × K).2.2.1 ∧
        0 ≤ (scoreWeights mustCount : K × K × K × K).2.2.2 ∧
        (scoreWeights mustCount : K × K × K × K).1
          + (scoreWeights mustCount : K × K × K × K).2.1
          + (scoreWeights mustCount : K × K × K × K).2.2.1
          + (scoreWeights mustCount : K × K × K × K).2.2.2 = 1) := by
  refine ⟨?_, ?_, ?_⟩
  · intro m hm
    simp [scoreWeights, ne_of_gt hm]
  · simp [scoreWeights]
  · intro m
    by_cases h : m = 0
    · simp only [scoreWeights, h, if_true]
      norm_num
    · simp only [scoreWeights, h, if_false]
      norm_num

theorem hybridScore_eq (mustCount : Int) (sim mustRatio niceRatio skillRatio : K) :
    hybridScore mustCount sim mustRatio niceRatio skillRatio
      = if mustCount = 0 then 0.55 * sim + 0.0 * mustRatio + 0.15 * niceRatio + 0.30 * skillRatio
        else 0.45 * sim + 0.35 * mustRatio + 0.10 * niceRatio + 0.10 * skillRatio := by
  by_cases h : mustCount = 0 <;> simp [hybridScore, scoreWeights, h]

theorem hybridScore_nonneg (mustCount : Int) (sim mustRatio niceRatio skillRatio : K)
    (h1 : 0 ≤ sim) (h2 : 0 ≤ mustRatio) (h3 : 0 ≤ niceRatio) (h4 : 0 ≤ skillRatio) :
    0 ≤ hybridScore mustCount sim mustRatio niceRatio skillRatio := by
  rw [hybridScore_eq]
  split
  · norm_num; positivity
  · norm_num; positivity

theorem hybridScore_le_one (mustCount : Int) (sim mustRatio niceRatio skillRatio : K)
    (h1 : sim ≤ 1) (h2 : mustRatio ≤ 1) (h3 : niceRatio ≤ 1) (h4 : skillRatio ≤ 1) :
    hybridScore mustCount sim mustRatio niceRatio skillRatio ≤ 1 := by
  rw [hybridScore_eq]
  split
  · norm_num; linarith
  · norm_num; linarith

/-- C8: ratio(matched, total) is 0 whenever total = 0, whatever matched is,
and matched/total otherwise; the division is only reached with a non-zero
divisor (ratio with a checked division never reports a zero divisor). -/
theorem ratio_spec :
    (∀ matched : Int, (ratio matched 0 : K) = 0) ∧
    (∀ matched total : Int, total ≠ 0 → (ratio matched total : K) = (matched : K) / (total : K)) ∧
    (∀ matched total : Int, (ratioChecked matched total : Option K) = some (ratio matched total)) := by
  refine ⟨?_, ?_, ?_⟩
  · intro a; simp [ratio]
  · intro a b hb; simp [ratio, hb]
  · intro a b
    by_cases hb : b = 0
    · simp [ratioChecked, ratio, hb]
    · have : (b : K) ≠ 0 := by exact_mod_cast hb
      simp [ratioChecked, ratio, hb, checkedDiv, this]

variable [FloorRing K]

theorem mathRound_mem (a b : Int) (x : K) (ha : (a : K) ≤ x) (hb : x ≤ (b : K)) :
    (a : K) ≤ mathRound x ∧ mathRound x ≤ (b : K) := by
  unfold mathRound
  split
  · constructor
    · exact_mod_cast Int.le_floor.mpr (by linarith : (a : K) ≤ x + 1 / 2)
    · have : ⌊x + 1 / 2⌋ < b + 1 := Int.floor_lt.mpr (by push_cast; linarith)
      exact_mod_cast Int.lt_add_one_iff.mp this
  · constructor
    · have : a - 1 < ⌈x - 1 / 2⌉ := Int.lt_ceil.mpr (by push_cast; linarith)
      exact_mod_cast Int.sub_one_lt_iff.mp this
    · exact_mod_cast Int.ceil_le.mpr (by linarith : x - 1 / 2 ≤ (b : K))

theorem scorePct_mem (lo hi : Int) (score : K) (h0 : (lo : K) ≤ score * 100)
    (h1 : score * 100 ≤ (hi : K)) :
    (lo : K) ≤ scorePct score ∧ scorePct score ≤ (hi : K) := by
  unfold scorePct round
  have h := mathRound_mem (lo * 100) (hi * 100) (score * 100 * 100)
    (by push_cast; linarith) (by push_cast; linarith)
  push_cast at h
  constructor
  · rw [le_div_iff₀ (by norm_num : (0 : K) < 100)]; exact h.1
  · rw [div_le_iff₀ (by norm_num : (0 : K) < 100)]; exact h.2

/-- C5: for every mustCount and every similarity, mustRatio, niceRatio and
skillRatio in [0,1], the hybrid score with the weights of
scoreWeights(mustCount) lies in [0,1], and the reported percentage
round(score*100) lies in [0,100]. -/
theorem hybridScore_bounds (mustCount : Int) (sim mustRatio niceRatio skillRatio : K)
    (hsim : 0 ≤ sim ∧ sim ≤ 1) (hmust : 0 ≤ mustRatio ∧ mustRatio ≤ 1)
    (hnice : 0 ≤ niceRatio ∧ niceRatio ≤ 1) (hskill : 0 ≤ skillRatio ∧ skillRatio ≤ 1) :
    0 ≤ hybridScore mustCount sim mustRatio niceRatio skillRatio ∧
    hybridScore mustCount sim mustRatio niceRatio skillRatio ≤ 1 ∧
    0 ≤ scorePct (hybridScore mustCount sim mustRatio niceRatio skillRatio) ∧
    scorePct (hybridScore mustCount sim mustRatio niceRatio skillRatio) ≤ 100 := by
  have h0 := hybridScore_nonneg mustCount sim mustRatio niceRatio skillRatio
    hsim.1 hmust.1 hnice.1 hskill.1
  have h1 := hybridScore_le_one mustCount sim mustRatio niceRatio skillRatio
    hsim.2 hmust.2 hnice.2 hskill.2
  have h := scorePct_mem 0 100 (hybridScore mustCount sim mustRatio niceRatio skillRatio)
    (by push_cast; linarith) (by push_cast; linarith)
  push_cast at h
  exact ⟨h0, h1, h.1, h.2⟩

end Scoring

/-- Witness for C4 at mustCount = 3 over the rationals. -/
theorem scoreWeights_table_witness :
    (0 : Int) < 3 ∧ (scoreWeights 3 : ℚ × ℚ × ℚ × ℚ) = (0.45, 0.35, 0.10, 0.10) :=
  ⟨by decide, (scoreWeights_table).1 3 (by decide)⟩

/-- Witness for C5: two must skills, similarity 1/2, ratios 1, 1/2 and 0. -/
theorem hybridScore_bounds_witness :
    0 ≤ hybridScore 2 (1 / 2 : ℚ) 1 (1 / 2) 0 ∧ hybridScore 2 (1 / 2 : ℚ) 1 (1 / 2) 0 ≤ 1 ∧
    0 ≤ scorePct (hybridScore 2 (1 / 2 : ℚ) 1 (1 / 2) 0) ∧
    scorePct (hybridScore 2 (1 / 2 : ℚ) 1 (1 / 2) 0) ≤ 100 :=
  hybridScore_bounds 2 (1 / 2) 1 (1 / 2) 0 (by norm_num) (by norm_num) (by norm_num) (by norm_num)

/-- Witness for C8: two of three skills matched. -/
theorem ratio_spec_witness : (3 : Int) ≠ 0 ∧ (ratio 2 3 : ℚ) = ((2 : Int) : ℚ) / ((3 : Int) : ℚ) :=
  ⟨by decide, (ratio_spec).2.1 2 3 (by decide)⟩

end Matcher

namespace Matcher

section Cosine

variable {K : Type} [LinearOrderedField K]

/-- One step of the Cauchy-Schwarz induction: adding a coordinate keeps
`dot ^ 2 ≤ normA * normB`. -/
theorem cauchy_step (d A B x y : K) (hA : 0 ≤ A) (hB : 0 ≤ B) (h : d * d ≤ A * B) :
    (d + x * y) * (d + x * y) ≤ (A + x * x) * (B + y * y) := by
  have key : 0 ≤ A * (y * y) + B * (x * x) - 2 * (d * (x * y)) := by
    rcases hA.eq_or_lt with hA0 | hApos
    · have hd : d * d ≤ 0 := by rw [← hA0] at h; simpa using h
      have hd0 : d = 0 := by
        have := mul_self_nonneg d
        exact mul_self_eq_zero.mp (le_antisymm hd this)
      rw [← hA0, hd0]
      have := mul_nonneg hB (mul_self_nonneg x)
      simpa using this
    · have h1 : 0 ≤ (A * y - d * x) * (A * y - d * x) := mul_self_nonneg _
      have h2 : 0 ≤ (A * B - d * d) * (x * x) :=
        mul_nonneg (by linarith) (mul_self_nonneg x)
      have h3 : 0 ≤ A * (A * (y * y) + B * (x * x) - 2 * (d * (x * y))) := by
        have : A * (A * (y * y) + B * (x * x) - 2 * (d * (x * y)))
            = (A * y - d * x) * (A * y - d * x) + (A * B - d * d) * (x * x) := by ring
        rw [this]; linarith
      exact nonneg_of_mul_nonneg_right h3 hApos
  have e : (A + x * x) * (B + y * y) - (d + x * y) * (d + x * y)
      = (A * B - d * d) + (A * (y * y) + B * (x * x) - 2 * (d * (x * y))) := by ring
  linarith

/-- The accumulator of the loop of cosineSimVec satisfies the Cauchy-Schwarz
invariant, and a product of non-negative coordinates keeps `dot` non-negative. -/
theorem cosine_fold_invariant (a b : List K) (is : List Nat) (acc : K × K × K)
    (hA : 0 ≤ acc.2.1) (hB : 0 ≤ acc.2.2) (h : acc.1 * acc.1 ≤ acc.2.1 * acc.2.2) :
    0 ≤ (is.foldl (fun (acc : K × K × K) i =>
        (acc.1 + a.getD i 0 * b.getD i 0,
         acc.2.1 + a.getD i 0 * a.getD i 0,
         acc.2.2 + b.getD i 0 * b.getD i 0)) acc).2.1 ∧
    0 ≤ (is.foldl (fun (acc : K × K × K) i =>
        (acc.1 + a.getD i 0 * b.getD i 0,
         acc.2.1 + a.getD i 0 * a.getD i 0,
         acc.2.2 + b.getD i 0 * b.getD i 0)) acc).2.2 ∧
    (is.foldl (fun (acc : K × K × K) i =>
        (acc.1 + a.getD i 0 * b.getD i 0,
         acc.2.1 + a.getD i 0 * a.getD i 0,
         acc.2.2 + b.getD i 0 * b.getD i 0)) acc).1 *
    (is.foldl (fun (acc : K × K × K) i =>
        (acc.1 + a.getD i 0 * b.getD i 0,
         acc.2.1 + a.getD i 0 * a.getD i 0,
         acc.2.2 + b.getD i 0 * b.getD i 0)) acc).1
    ≤ (is.foldl (fun (acc : K × K × K) i =>
        (acc.1 + a.getD i 0 * b.getD i 0,
         acc.2.1 + a.getD i 0 * a.getD i 0,
         acc.2.2 + b.getD i 0 * b.getD i 0)) acc).2.1 *
      (is.foldl (fun (acc : K × K × K) i =>
        (acc.1 + a.getD i 0 * b.getD i 0,
         acc.2.1 + a.getD i 0 * a.getD i 0,
         acc.2.2 + b.getD i 0 * b.getD i 0)) acc).2.2 := by
  induction is generalizing acc with
  | nil => exact ⟨hA, hB, h⟩
  | cons i is ih =>
    simp only [List.foldl_cons]
    apply ih
    · exact add_nonneg hA (mul_self_nonneg _)
    · exact add_nonneg hB (mul_self_nonneg _)
    · exact cauchy_step _ _ _ _ _ hA hB h

/-- With an exact square root, a quotient `d / (sqrt A * sqrt B)` with
`d ^ 2 ≤ A * B` lies in [-1, 1]. -/
theorem quotient_mem_unit (sqrt : K → K)
    (hsqrt : ∀ x : K, 0 ≤ x → 0 ≤ sqrt x ∧ sqrt x * sqrt x = x)
    (d A B : K) (hA : 0 ≤ A) (hB : 0 ≤ B) (hA0 : A ≠ 0) (hB0 : B ≠ 0)
    (h : d * d ≤ A * B) :
    -1 ≤ d / (sqrt A * sqrt B) ∧ d / (sqrt A * sqrt B) ≤ 1 := by
  obtain ⟨sA0, sA⟩ := hsqrt A hA
  obtain ⟨sB0, sB⟩ := hsqrt B hB
  have sApos : 0 < sqrt A := lt_of_le_of_ne sA0 (fun e => hA0 (by rw [← sA, ← e]; simp))
  have sBpos : 0 < sqrt B := lt_of_le_of_ne sB0 (fun e => hB0 (by rw [← sB, ← e]; simp))
  have hpos : 0 < sqrt A * sqrt B := mul_pos sApos sBpos
  have hsq : d * d ≤ (sqrt A * sqrt B) * (sqrt A * sqrt B) := by
    have : (sqrt A * sqrt B) * (sqrt A * sqrt B) = A * B := by
      calc (sqrt A * sqrt B) * (sqrt A * sqrt B)
          = (sqrt A * sqrt A) * (sqrt B * sqrt B) := by ring
        _ = A * B := by rw [sA, sB]
    rw [this]; exact h
  have habs : |d| ≤ sqrt A * sqrt B := by
    have := abs_le_of_sq_le_sq' (by simpa [sq] using hsq) (le_of_lt hpos)
    exact abs_le.mpr this
  obtain ⟨h1, h2⟩ := abs_le.mp habs
  constructor
  · rw [le_div_iff₀ hpos]; linarith
  · rw [div_le_iff₀ hpos]; linarith

theorem cosineSimVecLoop_invariant (a b : List K) (dim : Nat) :
    0 ≤ (cosineSimVecLoop a b dim).2.1 ∧ 0 ≤ (cosineSimVecLoop a b dim).2.2 ∧
    (cosineSimVecLoop a b dim).1 * (cosineSimVecLoop a b dim).1
      ≤ (cosineSimVecLoop a b dim).2.1 * (cosineSimVecLoop a b dim).2.2 :=
  cosine_fold_invariant a b (List.range dim) (0, 0, 0) (le_refl _) (le_refl _) (by simp)

/-- With an exact square root, cosineSimVec lies in [-1, 1] for all vectors. -/
theorem cosineSimVec_mem (sqrt : K → K)
    (hsqrt : ∀ x : K, 0 ≤ x → 0 ≤ sqrt x ∧ sqrt x * sqrt x = x) (a b : List K) :
    -1 ≤ cosineSimVec sqrt a b ∧ cosineSimVec sqrt a b ≤ 1 := by
  unfold cosineSimVec
  by_cases h0 : a.length = 0 ∨ b.length = 0
  · rw [if_pos h0]; constructor <;> norm_num
  · rw [if_neg h0]
    simp only
    generalize (if b.length < a.length then b.length else a.length) = dim
    by_cases h1 : (cosineSimVecLoop a b dim).2.1 = 0 ∨ (cosineSimVecLoop a b dim).2.2 = 0
    · rw [if_pos h1]; constructor <;> norm_num
    · rw [if_neg h1]
      push_neg at h1
      have inv := cosineSimVecLoop_invariant a b dim
      exact quotient_mem_unit sqrt hsqrt _ _ _ inv.1 inv.2.1 h1.1 h1.2 inv.2.2

end Cosine

end Matcher

namespace Matcher

section OpenAIScore

variable {K : Type} [LinearOrderedField K]

theorem ratio_mem_unit (matched total : Nat) (h : matched ≤ total) :
    (0 : K) ≤ ratio (matched : Int) (total : Int) ∧ (ratio (matched : Int) (total : Int) : K) ≤ 1 := by
  unfold ratio
  by_cases h0 : (total : Int) = 0
  · rw [if_pos h0]; constructor <;> norm_num
  · rw [if_neg h0]
    have hpos : (0 : K) < ((total : Int) : K) := by
      have : 0 < total := Nat.pos_of_ne_zero (fun e => h0 (by simp [e]))
      exact_mod_cast this
    constructor
    · apply div_nonneg
      · exact_mod_cast Nat.zero_le matched
      · exact le_of_lt hpos
    · rw [div_le_one hpos]
      exact_mod_cast h

theorem countMatches_le (set list : List (List Char)) : countMatches set list ≤ list.length :=
  List.length_filter_le _ _

theorem hybridScore_lower (mustCount : Int) (sim mustRatio niceRatio skillRatio : K)
    (h1 : -1 ≤ sim) (h2 : 0 ≤ mustRatio) (h3 : 0 ≤ niceRatio) (h4 : 0 ≤ skillRatio) :
    -0.55 ≤ hybridScore mustCount sim mustRatio niceRatio skillRatio := by
  rw [hybridScore_eq]
  split
  · norm_num
    nlinarith
  · norm_num
    nlinarith

variable [FloorRing K]

/-- Rounding an integer returns it. -/
theorem mathRound_intCast (n : Int) : mathRound ((n : Int) : K) = (n : K) := by
  unfold mathRound
  split
  · have : ⌊((n : Int) : K) + 1 / 2⌋ = n := by
      rw [Int.floor_eq_iff]
      constructor <;> norm_num
    rw [this]
  · have : ⌈((n : Int) : K) - 1 / 2⌉ = n := by
      rw [Int.ceil_eq_iff]
      constructor <;> norm_num
    rw [this]

/-- C6 (amended): in the AI pipeline the cosine of the two embedding vectors
lies in [-1, 1] and the three ratios in [0, 1], so the score before scaling
lies in [-0.55, 1] and the stored Score in [-55, 100]; both are non-negative
(score in [0, 1], Score in [0, 100]) whenever the cosine similarity of the
two embeddings is non-negative. -/
theorem openAIScore_bounds (sqrt : K → K)
    (hsqrt : ∀ x : K, 0 ≤ x → 0 ≤ sqrt x ∧ sqrt x * sqrt x = x)
    (jdVec vec : List K) (norm : List Char)
    (mustSkills niceSkills allSkills : List (List Char)) :
    -0.55 ≤ openAIScore sqrt jdVec vec norm mustSkills niceSkills allSkills ∧
    openAIScore sqrt jdVec vec norm mustSkills niceSkills allSkills ≤ 1 ∧
    -55 ≤ openAIScorePct sqrt jdVec vec norm mustSkills niceSkills allSkills ∧
    openAIScorePct sqrt jdVec vec norm mustSkills niceSkills allSkills ≤ 100 ∧
    (0 ≤ cosineSimVec sqrt jdVec vec →
      0 ≤ openAIScore sqrt jdVec vec norm mustSkills niceSkills allSkills ∧
      0 ≤ openAIScorePct sqrt jdVec vec norm mustSkills niceSkills allSkills) := by
  have hsim := cosineSimVec_mem sqrt hsqrt jdVec vec
  have hm := @ratio_mem_unit K _ _ _
    (countMatches_le (skillsInText norm allSkills) mustSkills)
  have hn := @ratio_mem_unit K _ _ _
    (countMatches_le (skillsInText norm allSkills) niceSkills)
  have hs := @ratio_mem_unit K _ _ _
    (countMatches_le (skillsInText norm allSkills) allSkills)
  have hlo : -0.55 ≤ openAIScore sqrt jdVec vec norm mustSkills niceSkills allSkills :=
    hybridScore_lower _ _ _ _ _ hsim.1 hm.1 hn.1 hs.1
  have hhi : openAIScore sqrt jdVec vec norm mustSkills niceSkills allSkills ≤ 1 :=
    hybridScore_le_one _ _ _ _ _ hsim.2 hm.2 hn.2 hs.2
  have hpct := scorePct_mem (-55) 100
    (openAIScore sqrt jdVec vec norm mustSkills niceSkills allSkills)
    (by push_cast; norm_num at hlo ⊢; linarith) (by push_cast; linarith)
  push_cast at hpct
  refine ⟨hlo, hhi, hpct.1, hpct.2, ?_⟩
  intro h0
  have hnn : 0 ≤ openAIScore sqrt jdVec vec norm mustSkills niceSkills allSkills :=
    hybridScore_nonneg _ _ _ _ _ h0 hm.1 hn.1 hs.1
  have hpct0 := scorePct_mem 0 100
    (openAIScore sqrt jdVec vec norm mustSkills niceSkills allSkills)
    (by push_cast; linarith) (by push_cast; linarith)
  push_cast at hpct0
  exact ⟨hnn, hpct0.1⟩

end OpenAIScore

/-- The real square root is exact on non-negative reals. -/
theorem real_sqrt_exact : ∀ x : ℝ, 0 ≤ x → 0 ≤ Real.sqrt x ∧ Real.sqrt x * Real.sqrt x = x :=
  fun x hx => ⟨Real.sqrt_nonneg x, Real.mul_self_sqrt hx⟩

/-- Witness for C6 (amended): over the reals, for the embeddings (1, 0) and
(-1, 0) and no skills. -/
theorem openAIScore_bounds_witness :
    (∀ x : ℝ, 0 ≤ x → 0 ≤ Real.sqrt x ∧ Real.sqrt x * Real.sqrt x = x) ∧
    -0.55 ≤ openAIScore Real.sqrt [1, 0] [-1, 0] [] [] [] [] ∧
    openAIScorePct Real.sqrt [1, 0] [-1, 0] [] [] [] [] ≤ 100 :=
  ⟨real_sqrt_exact,
   (openAIScore_bounds Real.sqrt real_sqrt_exact [1, 0] [-1, 0] [] [] [] []).1,
   (openAIScore_bounds Real.sqrt real_sqrt_exact [1, 0] [-1, 0] [] [] [] []).2.2.2.1⟩

/-- C6 (as stated) fails: for the JD embedding (1, 0), the resume embedding
(-1, 0) and a JD without skills, the cosine is -1, the score before scaling is
-0.55 and the stored Score is -55, outside [0, 1] and [0, 100]. -/
theorem openAIScore_negative :
    cosineSimVec Real.sqrt [1, 0] [-1, 0] = -1 ∧
    openAIScore Real.sqrt [1, 0] [-1, 0] [] [] [] [] = -0.55 ∧
    openAIScorePct Real.sqrt [1, 0] [-1, 0] [] [] [] [] = -55 ∧
    ¬ (0 ≤ openAIScore Real.sqrt [1, 0] [-1, 0] [] [] [] []) ∧
    ¬ (0 ≤ openAIScorePct Real.sqrt [1, 0] [-1, 0] [] [] [] []) := by
  have hcos : cosineSimVec Real.sqrt [1, 0] [-1, 0] = -1 := by
    norm_num [cosineSimVec, cosineSimVecLoop, List.range_succ]
  have hscore : openAIScore Real.sqrt [1, 0] [-1, 0] [] [] [] [] = -0.55 := by
    unfold openAIScore
    rw [hcos]
    norm_num [hybridScore_eq, ratio, countMatches, skillsInText]
  have hpct : openAIScorePct Real.sqrt [1, 0] [-1, 0] [] [] [] [] = -55 := by
    unfold openAIScorePct scorePct round
    rw [hscore]
    have : (-0.55 : ℝ) * 100 * 100 = ((-5500 : Int) : ℝ) := by norm_num
    rw [this, mathRound_intCast]
    norm_num
  refine ⟨hcos, hscore, hpct, ?_, ?_⟩
  · rw [hscore]; norm_num
  · rw [hpct]; norm_num

end Matcher

namespace Matcher

/-! ## Go maps: auxiliary facts -/

section MapLemmas

variable {V : Type}

theorem mapGet_zero_or_mem [Zero V] (m : List (List Char × V)) (k : List Char) :
    mapGet m k = 0 ∨ (k, mapGet m k) ∈ m := by
  induction m with
  | nil => exact Or.inl rfl
  | cons e rest ih =>
    obtain ⟨k', v⟩ := e
    by_cases h : k' = k
    · right
      simp [mapGet, h]
    · rcases ih with h0 | hmem
      · left; simp [mapGet, h, h0]
      · right
        simp only [mapGet, h, if_false]
        exact List.mem_cons_of_mem _ hmem

theorem mem_mapSet (m : List (List Char × V)) (k : List Char) (v : V) (e : List Char × V)
    (h : e ∈ mapSet m k v) : e ∈ m ∨ e = (k, v) := by
  induction m with
  | nil =>
    simp only [mapSet, List.mem_singleton] at h
    exact Or.inr h
  | cons e' rest ih =>
    obtain ⟨k', v'⟩ := e'
    by_cases hk : k' = k
    · simp only [mapSet, hk, if_true, List.mem_cons] at h
      rcases h with h | h
      · exact Or.inr h
      · exact Or.inl (List.mem_cons_of_mem _ h)
    · simp only [mapSet, hk, if_false, List.mem_cons] at h
      rcases h with h | h
      · exact Or.inl (by rw [h]; exact List.mem_cons_self _ _)
      · rcases ih h with h1 | h1
        · exact Or.inl (List.mem_cons_of_mem _ h1)
        · exact Or.inr h1

theorem keys_mapSet (m : List (List Char × V)) (k : List Char) (v : V) :
    (mapSet m k v).map Prod.fst
      = if k ∈ m.map Prod.fst then m.map Prod.fst else m.map Prod.fst ++ [k] := by
  induction m with
  | nil => simp [mapSet]
  | cons e' rest ih =>
    obtain ⟨k', v'⟩ := e'
    by_cases hk : k' = k
    · subst hk
      simp only [mapSet, if_true, List.map_cons, List.mem_cons, true_or]
    · have hk' : ¬ k = k' := fun e => hk e.symm
      simp only [mapSet, hk, if_false, List.map_cons, ih, List.mem_cons, hk', false_or]
      split <;> simp

theorem nodup_keys_mapSet (m : List (List Char × V)) (k : List Char) (v : V)
    (h : (m.map Prod.fst).Nodup) : ((mapSet m k v).map Prod.fst).Nodup := by
  rw [keys_mapSet]
  split
  · exact h
  · rename_i hk
    rw [List.nodup_append]
    refine ⟨h, List.nodup_singleton k, ?_⟩
    intro x hx hx'
    rw [List.mem_singleton] at hx'
    exact hk (hx' ▸ hx)

/-- A loop that only assigns entries keeps the keys distinct. -/
theorem nodup_keys_foldl_mapSet {β : Type} (xs : List β) (key : List (List Char × V) → β → List Char)
    (val : List (List Char × V) → β → V) (m : List (List Char × V))
    (h : (m.map Prod.fst).Nodup) :
    ((xs.foldl (fun acc x => mapSet acc (key acc x) (val acc x)) m).map Prod.fst).Nodup := by
  induction xs generalizing m with
  | nil => exact h
  | cons x xs ih =>
    simp only [List.foldl_cons]
    exact ih _ (nodup_keys_mapSet m _ _ h)

/-- A loop that only assigns values with property `P` (given that the map it
reads has it) yields a map whose values all have `P`. -/
theorem forall_vals_foldl_mapSet {β : Type} (P : V → Prop) (xs : List β)
    (key : List (List Char × V) → β → List Char)
    (val : List (List Char × V) → β → V)
    (hval : ∀ acc, ∀ x ∈ xs, (∀ e ∈ acc, P e.2) → P (val acc x))
    (m : List (List Char × V)) (h : ∀ e ∈ m, P e.2) :
    ∀ e ∈ xs.foldl (fun acc x => mapSet acc (key acc x) (val acc x)) m, P e.2 := by
  induction xs generalizing m with
  | nil => exact h
  | cons x xs ih =>
    simp only [List.foldl_cons]
    apply ih (fun acc y hy => hval acc y (List.mem_cons_of_mem _ hy))
    intro e he
    rcases mem_mapSet m _ _ e he with h1 | h1
    · exact h e h1
    · rw [h1]; exact hval m x (List.mem_cons_self _ _) h

end MapLemmas

end Matcher

namespace Matcher

/-! ## TF-IDF weights are non-negative -/

section Tfidf

theorem dfAddDoc_fold_inv (j : Int) (hj : 0 ≤ j) (grams : List (List Char))
    (st : List (List Char × Int) × List (List Char))
    (h : ∀ e ∈ st.1, 0 ≤ e.2 ∧ e.2 ≤ j + (if e.1 ∈ st.2 then 1 else 0)) :
    ∀ e ∈ (grams.foldl
      (fun (st : List (List Char × Int) × List (List Char)) g =>
        if g ∈ st.2 then st else (mapSet st.1 g (mapGet st.1 g + 1), g :: st.2)) st).1,
      0 ≤ e.2 ∧ e.2 ≤ j + 1 := by
  induction grams generalizing st with
  | nil =>
    intro e he
    have := h e he
    constructor
    · exact this.1
    · have h2 := this.2
      split at h2 <;> omega
  | cons g grams ih =>
    simp only [List.foldl_cons]
    apply ih
    by_cases hg : g ∈ st.2
    · rw [if_pos hg]; exact h
    · rw [if_neg hg]
      intro e he
      rcases mem_mapSet st.1 _ _ e he with h1 | h1
      · have := h e h1
        refine ⟨this.1, ?_⟩
        have h2 := this.2
        by_cases hm : e.1 ∈ st.2
        · have hm' : e.1 ∈ g :: st.2 := List.mem_cons_of_mem _ hm
          rw [if_pos hm] at h2; rw [if_pos hm']; exact h2
        · rw [if_neg hm] at h2
          split <;> omega
      · have hget : 0 ≤ mapGet st.1 g ∧ mapGet st.1 g ≤ j := by
          rcases mapGet_zero_or_mem st.1 g with h0 | hmem
          · rw [h0]; exact ⟨le_refl _, hj⟩
          · have := h _ hmem
            simp only [hg, if_false, add_zero] at this
            exact this
        rw [h1]
        simp only [List.mem_cons, true_or, if_true]
        omega

theorem dfAddDoc_inv (j : Int) (hj : 0 ≤ j) (df : List (List Char × Int))
    (grams : List (List Char)) (h : ∀ e ∈ df, 0 ≤ e.2 ∧ e.2 ≤ j) :
    ∀ e ∈ dfAddDoc df grams, 0 ≤ e.2 ∧ e.2 ≤ j + 1 := by
  unfold dfAddDoc
  apply dfAddDoc_fold_inv j hj grams (df, [])
  intro e he
  have := h e he
  simp only [List.not_mem_nil, if_false, add_zero]
  exact this

theorem df_bounds (tokenized : List (List (List Char))) (j : Int) (hj : 0 ≤ j)
    (df : List (List Char × Int)) (h : ∀ e ∈ df, 0 ≤ e.2 ∧ e.2 ≤ j) :
    ∀ e ∈ tokenized.foldl dfAddDoc df, 0 ≤ e.2 ∧ e.2 ≤ j + tokenized.length := by
  induction tokenized generalizing df j with
  | nil => simpa using h
  | cons grams rest ih =>
    simp only [List.foldl_cons, List.length_cons]
    have := ih (j + 1) (by omega) (dfAddDoc df grams) (dfAddDoc_inv j hj df grams h)
    intro e he
    have := this e he
    push_cast
    omega

variable {K : Type} [LinearOrderedField K]

theorem idfTable_nonneg (log : K → K) (hlog : ∀ x : K, 1 ≤ x → 0 ≤ log x) (n : Nat)
    (df : List (List Char × Int)) (h : ∀ e ∈ df, 0 ≤ e.2 ∧ e.2 ≤ (n : Int)) :
    ∀ e ∈ idfTable log (n : K) df, 0 ≤ e.2 := by
  unfold idfTable
  apply forall_vals_foldl_mapSet (fun v : K => 0 ≤ v) df (fun _ e => e.1)
    (fun _ e => log ((1 + (n : K)) / (1 + (e.2 : K))) + 1)
  · intro acc e he _
    obtain ⟨h0, h1⟩ := h e he
    have hpos : (0 : K) < 1 + (e.2 : K) := by
      have : (0 : K) ≤ (e.2 : K) := by exact_mod_cast h0
      linarith
    have hle : (1 : K) ≤ (1 + (n : K)) / (1 + (e.2 : K)) := by
      rw [le_div_iff₀ hpos]
      have : (e.2 : K) ≤ (n : K) := by exact_mod_cast h1
      linarith
    have := hlog _ hle
    linarith
  · intro e he
    cases he

theorem mapGet_nonneg (m : List (List Char × K)) (h : ∀ e ∈ m, 0 ≤ e.2) (k : List Char) :
    0 ≤ mapGet m k := by
  rcases mapGet_zero_or_mem m k with h0 | hmem
  · rw [h0]
  · exact h _ hmem

theorem termFreq_nonneg (grams : List (List Char)) :
    ∀ e ∈ (termFreq grams : List (List Char × K)), 0 ≤ e.2 := by
  unfold termFreq
  apply forall_vals_foldl_mapSet (fun v : K => 0 ≤ v) grams (fun _ g => g)
    (fun tf g => mapGet tf g + 1)
  · intro acc g _ hacc
    have := mapGet_nonneg acc hacc g
    linarith
  · intro e he
    cases he

theorem maxTermFreq_fold_ge (tf : List (List Char × K)) (m : K) (hm : 1 ≤ m) :
    1 ≤ tf.foldl (fun m e => if e.2 > m then e.2 else m) m := by
  induction tf generalizing m with
  | nil => exact hm
  | cons e rest ih =>
    simp only [List.foldl_cons]
    apply ih
    split
    · rename_i h; exact le_trans hm (le_of_lt h)
    · exact hm

theorem maxTermFreq_ge_one (tf : List (List Char × K)) : 1 ≤ maxTermFreq tf :=
  maxTermFreq_fold_ge tf 1 (le_refl _)

/-- Every vector of buildTfidfVectors has distinct keys and non-negative weights. -/
theorem buildTfidfVectors_nonneg (log : K → K) (hlog : ∀ x : K, 1 ≤ x → 0 ≤ log x)
    (docs : List (List Char)) :
    ∀ vec ∈ buildTfidfVectors log docs,
      (vec.map Prod.fst).Nodup ∧ ∀ e ∈ vec, 0 ≤ e.2 := by
  intro vec hvec
  unfold buildTfidfVectors at hvec
  simp only [List.mem_map] at hvec
  obtain ⟨grams, _, rfl⟩ := hvec
  have hdf : ∀ e ∈ (docs.map docGrams).foldl dfAddDoc [], 0 ≤ e.2 ∧ e.2 ≤ (docs.length : Int) := by
    have := df_bounds (docs.map docGrams) 0 (le_refl _) [] (by intro e he; cases he)
    simpa using this
  have hidf := idfTable_nonneg log hlog docs.length _ hdf
  constructor
  · exact nodup_keys_foldl_mapSet (termFreq grams) (fun _ e => e.1) _ [] List.nodup_nil
  · apply forall_vals_foldl_mapSet (fun v : K => 0 ≤ v) (termFreq grams) (fun _ e => e.1)
      (fun _ e => (e.2 / maxTermFreq (termFreq grams)) * mapGet _ e.1)
    · intro acc e he _
      have h1 : (0 : K) ≤ e.2 := termFreq_nonneg grams e he
      have h2 : (0 : K) < maxTermFreq (termFreq grams) :=
        lt_of_lt_of_le one_pos (maxTermFreq_ge_one _)
      exact mul_nonneg (div_nonneg h1 (le_of_lt h2)) (mapGet_nonneg _ hidf _)
    · intro e he
      cases he

end Tfidf

end Matcher

namespace Matcher

/-! ## The TF-IDF cosine lies in [0, 1] -/

section CosineSim

variable {K : Type} [LinearOrderedField K]

theorem foldl_add_eq_sum {β : Type} (f : β → K) (xs : List β) (init : K) :
    xs.foldl (fun acc x => acc + f x) init = init + (xs.map f).sum := by
  induction xs generalizing init with
  | nil => simp
  | cons x xs ih =>
    simp only [List.foldl_cons, List.map_cons, List.sum_cons, ih]
    ring

theorem sum_map_nonneg {β : Type} (f : β → K) (xs : List β) (h : ∀ x ∈ xs, 0 ≤ f x) :
    0 ≤ (xs.map f).sum := by
  induction xs with
  | nil => simp
  | cons x xs ih =>
    simp only [List.map_cons, List.sum_cons]
    exact add_nonneg (h x (List.mem_cons_self _ _))
      (ih (fun y hy => h y (List.mem_cons_of_mem _ hy)))

/-- Cauchy-Schwarz for two families indexed by a list. -/
theorem cauchy_sum {β : Type} (x y : β → K) (xs : List β) :
    (xs.map (fun e => x e * y e)).sum * (xs.map (fun e => x e * y e)).sum
      ≤ (xs.map (fun e => x e * x e)).sum * (xs.map (fun e => y e * y e)).sum := by
  induction xs with
  | nil => simp
  | cons e xs ih =>
    simp only [List.map_cons, List.sum_cons]
    have hA : 0 ≤ (xs.map (fun e => x e * x e)).sum :=
      sum_map_nonneg _ _ (fun e _ => mul_self_nonneg _)
    have hB : 0 ≤ (xs.map (fun e => y e * y e)).sum :=
      sum_map_nonneg _ _ (fun e _ => mul_self_nonneg _)
    have := cauchy_step _ _ _ (x e) (y e) hA hB ih
    calc (x e * y e + (xs.map (fun e => x e * y e)).sum)
          * (x e * y e + (xs.map (fun e => x e * y e)).sum)
        = ((xs.map (fun e => x e * y e)).sum + x e * y e)
          * ((xs.map (fun e => x e * y e)).sum + x e * y e) := by ring
      _ ≤ ((xs.map (fun e => x e * x e)).sum + x e * x e)
          * ((xs.map (fun e => y e * y e)).sum + y e * y e) := this
      _ = (x e * x e + (xs.map (fun e => x e * x e)).sum)
          * (y e * y e + (xs.map (fun e => y e * y e)).sum) := by ring

/-- Reading a map at distinct keys: one more entry in front adds at most the
square of its value to the sum of the squares read. -/
theorem sum_sq_ite_le (k0 : List Char) (v0 : K) (g : List Char → K) (ks : List (List Char))
    (hks : ks.Nodup) :
    (ks.map (fun k => (if k0 = k then v0 else g k) * (if k0 = k then v0 else g k))).sum
      ≤ v0 * v0 + (ks.map (fun k => g k * g k)).sum := by
  induction ks with
  | nil => simpa using mul_self_nonneg v0
  | cons k ks ih =>
    rw [List.nodup_cons] at hks
    simp only [List.map_cons, List.sum_cons]
    by_cases hk : k0 = k
    · have hrest : (ks.map (fun k => (if k0 = k then v0 else g k)
          * (if k0 = k then v0 else g k))).sum = (ks.map (fun k => g k * g k)).sum := by
        congr 1
        apply List.map_congr_left
        intro k' hk'
        have : ¬ k0 = k' := fun e => hks.1 (by rw [← hk, e]; exact hk')
        simp [this]
      rw [hrest, if_pos hk]
      have := mul_self_nonneg (g k)
      linarith
    · rw [if_neg hk]
      have := ih hks.2
      linarith

/-- The squares of the values read from `b` at distinct keys sum to at most
the squared norm of `b`. -/
theorem sum_sq_mapGet_le (b : List (List Char × K)) (ks : List (List Char)) (hks : ks.Nodup) :
    (ks.map (fun k => mapGet b k * mapGet b k)).sum ≤ (b.map (fun e => e.2 * e.2)).sum := by
  induction b with
  | nil => simp [mapGet]
  | cons e rest ih =>
    obtain ⟨k0, v0⟩ := e
    have h1 := sum_sq_ite_le k0 v0 (mapGet rest) ks hks
    simp only [List.map_cons, List.sum_cons]
    have h2 : (ks.map (fun k => mapGet ((k0, v0) :: rest) k * mapGet ((k0, v0) :: rest) k)).sum
        = (ks.map (fun k => (if k0 = k then v0 else mapGet rest k)
            * (if k0 = k then v0 else mapGet rest k))).sum := by
      congr 1
    rw [h2]
    linarith

/-- With an exact square root, cosineSim of two maps with non-negative values
(the first with distinct keys) lies in [0, 1]. -/
theorem cosineSim_mem (sqrt : K → K)
    (hsqrt : ∀ x : K, 0 ≤ x → 0 ≤ sqrt x ∧ sqrt x * sqrt x = x)
    (a b : List (List Char × K)) (ha : ∀ e ∈ a, 0 ≤ e.2) (hb : ∀ e ∈ b, 0 ≤ e.2)
    (hka : (a.map Prod.fst).Nodup) :
    0 ≤ cosineSim sqrt a b ∧ cosineSim sqrt a b ≤ 1 := by
  unfold cosineSim
  by_cases h0 : a.length = 0 ∨ b.length = 0
  · rw [if_pos h0]; constructor <;> norm_num
  · rw [if_neg h0]
    simp only [foldl_add_eq_sum, zero_add]
    by_cases h1 : (a.map (fun e => e.2 * e.2)).sum = 0 ∨ (b.map (fun e => e.2 * e.2)).sum = 0
    · rw [if_pos h1]; constructor <;> norm_num
    · rw [if_neg h1]
      push_neg at h1
      have hA : 0 ≤ (a.map (fun e => e.2 * e.2)).sum :=
        sum_map_nonneg _ _ (fun e _ => mul_self_nonneg _)
      have hB : 0 ≤ (b.map (fun e => e.2 * e.2)).sum :=
        sum_map_nonneg _ _ (fun e _ => mul_self_nonneg _)
      have hdot : 0 ≤ (a.map (fun e => e.2 * mapGet b e.1)).sum :=
        sum_map_nonneg _ _ (fun e he => mul_nonneg (ha e he) (mapGet_nonneg b hb _))
      have hcs := cauchy_sum (fun e : List Char × K => e.2) (fun e => mapGet b e.1) a
      have hread : (a.map (fun e => mapGet b e.1 * mapGet b e.1)).sum
          ≤ (b.map (fun e => e.2 * e.2)).sum := by
        have := sum_sq_mapGet_le b (a.map Prod.fst) hka
        simpa [List.map_map, Function.comp] using this
      have hle : (a.map (fun e => e.2 * mapGet b e.1)).sum * (a.map (fun e => e.2 * mapGet b e.1)).sum
          ≤ (a.map (fun e => e.2 * e.2)).sum * (b.map (fun e => e.2 * e.2)).sum :=
        le_trans hcs (mul_le_mul_of_nonneg_left hread hA)
      have hq := quotient_mem_unit sqrt hsqrt _ _ _ hA hB h1.1 h1.2 hle
      refine ⟨?_, hq.2⟩
      obtain ⟨sA0, _⟩ := hsqrt _ hA
      obtain ⟨sB0, _⟩ := hsqrt _ hB
      exact div_nonneg hdot (mul_nonneg sA0 sB0)

end CosineSim

end Matcher

namespace Matcher

section HeuristicScore

variable {K : Type} [LinearOrderedField K]

theorem getD_vectors_nonneg (log : K → K) (hlog : ∀ x : K, 1 ≤ x → 0 ≤ log x)
    (docs : List (List Char)) (i : Nat) :
    (((buildTfidfVectors log docs).getD i []).map Prod.fst).Nodup ∧
    ∀ e ∈ (buildTfidfVectors log docs).getD i [], 0 ≤ e.2 := by
  by_cases hi : i < (buildTfidfVectors log docs).length
  · have hmem : (buildTfidfVectors log docs).getD i [] ∈ buildTfidfVectors log docs := by
      rw [List.getD_eq_getElem _ _ hi]
      exact List.getElem_mem _
    exact buildTfidfVectors_nonneg log hlog docs _ hmem
  · have : (buildTfidfVectors log docs).getD i [] = [] := by
      rw [List.getD_eq_default]
      omega
    rw [this]
    exact ⟨List.nodup_nil, fun e he => by cases he⟩

theorem tfidf_cosineSim_mem (log sqrt : K → K) (hlog : ∀ x : K, 1 ≤ x → 0 ≤ log x)
    (hsqrt : ∀ x : K, 0 ≤ x → 0 ≤ sqrt x ∧ sqrt x * sqrt x = x)
    (docs : List (List Char)) (i j : Nat) :
    0 ≤ cosineSim sqrt ((buildTfidfVectors log docs).getD i [])
        ((buildTfidfVectors log docs).getD j []) ∧
    cosineSim sqrt ((buildTfidfVectors log docs).getD i [])
        ((buildTfidfVectors log docs).getD j []) ≤ 1 :=
  cosineSim_mem sqrt hsqrt _ _ (getD_vectors_nonneg log hlog docs i).2
    (getD_vectors_nonneg log hlog docs j).2 (getD_vectors_nonneg log hlog docs i).1

theorem heuristicScore_mem (log sqrt : K → K) (hlog : ∀ x : K, 1 ≤ x → 0 ≤ log x)
    (hsqrt : ∀ x : K, 0 ≤ x → 0 ≤ sqrt x ∧ sqrt x * sqrt x = x)
    (docs : List (List Char)) (i : Nat)
    (resSkills mustSkills niceSkills jdSkills : List (List Char)) :
    0 ≤ heuristicScore sqrt (buildTfidfVectors log docs) i resSkills mustSkills niceSkills jdSkills ∧
    heuristicScore sqrt (buildTfidfVectors log docs) i resSkills mustSkills niceSkills jdSkills
      ≤ 1 := by
  have hsim := tfidf_cosineSim_mem log sqrt hlog hsqrt docs 0 (i + 1)
  have hm := @ratio_mem_unit K _ _ _ (countMatches_le resSkills mustSkills)
  have hn := @ratio_mem_unit K _ _ _ (countMatches_le resSkills niceSkills)
  have hs := @ratio_mem_unit K _ _ _ (countMatches_le resSkills jdSkills)
  exact ⟨hybridScore_nonneg _ _ _ _ _ hsim.1 hm.1 hn.1 hs.1,
    hybridScore_le_one _ _ _ _ _ hsim.2 hm.2 hn.2 hs.2⟩

variable [FloorRing K]

/-- C7: in the heuristic pipeline the scoring loop appends one Score per
resume, and each lies in [0, 100]: the TF-IDF cosine of any two vectors of
buildTfidfVectors is in [0, 1] (all weights are non-negative), each matched
count is at most the length of its skill list, so the weighted score before
scaling is in [0, 1].  It holds for every JD text, every list of resume texts
and whatever skill lists were extracted from them. -/
theorem heuristicScores_bounds (log sqrt : K → K) (hlog : ∀ x : K, 1 ≤ x → 0 ≤ log x)
    (hsqrt : ∀ x : K, 0 ≤ x → 0 ≤ sqrt x ∧ sqrt x * sqrt x = x)
    (jdNorm : List Char) (resumeTexts : List (List Char))
    (mustSkills niceSkills jdSkills : List (List Char))
    (resSkillsOf : List Char → List (List Char)) :
    (heuristicScores log sqrt jdNorm resumeTexts mustSkills niceSkills jdSkills
        resSkillsOf).length = resumeTexts.length ∧
    (∀ i : Nat,
      0 ≤ cosineSim sqrt ((buildTfidfVectors log (jdNorm :: resumeTexts)).getD 0 [])
          ((buildTfidfVectors log (jdNorm :: resumeTexts)).getD (i + 1) []) ∧
      cosineSim sqrt ((buildTfidfVectors log (jdNorm :: resumeTexts)).getD 0 [])
          ((buildTfidfVectors log (jdNorm :: resumeTexts)).getD (i + 1) []) ≤ 1) ∧
    (∀ s ∈ heuristicScores log sqrt jdNorm resumeTexts mustSkills niceSkills jdSkills
        resSkillsOf, 0 ≤ s ∧ s ≤ 100) := by
  refine ⟨?_, ?_, ?_⟩
  · simp [heuristicScores]
  · intro i
    exact tfidf_cosineSim_mem log sqrt hlog hsqrt _ 0 (i + 1)
  · intro s hs
    unfold heuristicScores at hs
    simp only [List.mem_map] at hs
    obtain ⟨it, _, rfl⟩ := hs
    have h := heuristicScore_mem log sqrt hlog hsqrt (jdNorm :: resumeTexts) it.1
      (resSkillsOf it.2) mustSkills niceSkills jdSkills
    have hp := scorePct_mem 0 100 _ (by push_cast; linarith [h.1] :
        ((0 : Int) : K) ≤ heuristicScore sqrt (buildTfidfVectors log (jdNorm :: resumeTexts))
          it.1 (resSkillsOf it.2) mustSkills niceSkills jdSkills * 100)
      (by push_cast; linarith [h.2])
    push_cast at hp
    exact hp

end HeuristicScore

/-- The real logarithm is non-negative from 1 on. -/
theorem real_log_nonneg : ∀ x : ℝ, 1 ≤ x → 0 ≤ Real.log x :=
  fun _ hx => Real.log_nonneg hx

/-- Witness for C7: over the reals, the JD "python sql" against the resumes
"python" and "java", with must skill python and general skills python, sql. -/
theorem heuristicScores_bounds_witness :
    (∀ x : ℝ, 1 ≤ x → 0 ≤ Real.log x) ∧
    (∀ x : ℝ, 0 ≤ x → 0 ≤ Real.sqrt x ∧ Real.sqrt x * Real.sqrt x = x) ∧
    (∀ s ∈ heuristicScores Real.log Real.sqrt "python sql".toList
        ["python".toList, "java".toList] ["python".toList] []
        ["python".toList, "sql".toList] fields, 0 ≤ s ∧ s ≤ 100) :=
  ⟨real_log_nonneg, real_sqrt_exact,
   (heuristicScores_bounds Real.log Real.sqrt real_log_nonneg real_sqrt_exact
      "python sql".toList ["python".toList, "java".toList] ["python".toList] []
      ["python".toList, "sql".toList] fields).2.2⟩

end Matcher

namespace Matcher

/-! ## Redaction: the replace-all scan -/

section ReplaceAll

variable (m : Option Char → List Char → Option Nat)

theorem replaceAllAux_nil (skip : Nat) (prev : Option Char) :
    replaceAllAux m skip prev [] = [] := by
  cases skip <;> rfl

theorem replaceAllAux_skip (skip : Nat) (prev : Option Char) (c : Char) (cs : List Char) :
    replaceAllAux m (skip + 1) prev (c :: cs) = replaceAllAux m skip (some c) cs := rfl

theorem replaceAllAux_match (prev : Option Char) (c : Char) (cs : List Char) (n : Nat)
    (h : m prev (c :: cs) = some (n + 1)) :
    replaceAllAux m 0 prev (c :: cs) = ' ' :: replaceAllAux m n (some c) cs := by
  simp only [replaceAllAux, h]

theorem replaceAllAux_nomatch (prev : Option Char) (c : Char) (cs : List Char)
    (h : ∀ n, m prev (c :: cs) ≠ some (n + 1)) :
    replaceAllAux m 0 prev (c :: cs) = c :: replaceAllAux m 0 (some c) cs := by
  cases hm : m prev (c :: cs) with
  | none => simp only [replaceAllAux, hm]
  | some k =>
    cases k with
    | zero => simp only [replaceAllAux, hm]
    | succ n => exact absurd hm (h n)

/-- Case analysis on one step of the scan at a position that is not skipped. -/
theorem replaceAllAux_cases (prev : Option Char) (c : Char) (cs : List Char) :
    (∃ n, m prev (c :: cs) = some (n + 1) ∧
        replaceAllAux m 0 prev (c :: cs) = ' ' :: replaceAllAux m n (some c) cs) ∨
    ((∀ n, m prev (c :: cs) ≠ some (n + 1)) ∧
        replaceAllAux m 0 prev (c :: cs) = c :: replaceAllAux m 0 (some c) cs) := by
  by_cases h : ∃ n, m prev (c :: cs) = some (n + 1)
  · obtain ⟨n, hn⟩ := h
    exact Or.inl ⟨n, hn, replaceAllAux_match m prev c cs n hn⟩
  · push_neg at h
    exact Or.inr ⟨h, replaceAllAux_nomatch m prev c cs h⟩

end ReplaceAll

/-! ## Redaction and digit runs -/

section DigitRuns

theorem isDigit_space : isDigit ' ' = false := by decide

theorem digitRunLen_cons (c : Char) (cs : List Char) :
    digitRunLen (c :: cs) = if isDigit c then digitRunLen cs + 1 else 0 := by
  unfold digitRunLen
  rw [List.takeWhile_cons]
  split <;> simp

/-- The scan never lengthens the digit run at the front of the text. -/
theorem digitRunLen_replaceAllAux_le (m : Option Char → List Char → Option Nat)
    (prev : Option Char) (cs : List Char) :
    digitRunLen (replaceAllAux m 0 prev cs) ≤ digitRunLen cs := by
  induction cs generalizing prev with
  | nil => simp [replaceAllAux_nil]
  | cons c cs ih =>
    rcases replaceAllAux_cases m prev c cs with ⟨n, _, h⟩ | ⟨_, h⟩
    · rw [h, digitRunLen_cons, isDigit_space]
      simp
    · rw [h, digitRunLen_cons, digitRunLen_cons]
      split
      · exact Nat.succ_le_succ (ih (some c))
      · exact le_refl _

/-- The scan creates no run of `n` digits, whatever the pattern. -/
theorem hasDigitRun_replaceAllAux (m : Option Char → List Char → Option Nat) (n : Nat)
    (hn : 0 < n) (skip : Nat) (prev : Option Char) (cs : List Char)
    (h : hasDigitRun n cs = false) :
    hasDigitRun n (replaceAllAux m skip prev cs) = false := by
  induction cs generalizing skip prev with
  | nil =>
    rw [replaceAllAux_nil]; exact h
  | cons c cs ih =>
    simp only [hasDigitRun, Bool.or_eq_false_iff, decide_eq_false_iff_not, not_le] at h
    cases skip with
    | succ s =>
      rw [replaceAllAux_skip]
      exact ih s (some c) h.2
    | zero =>
      rcases replaceAllAux_cases m prev c cs with ⟨k, _, hk⟩ | ⟨_, hk⟩
      · rw [hk]
        simp only [hasDigitRun, Bool.or_eq_false_iff, decide_eq_false_iff_not, not_le]
        refine ⟨?_, ih k (some c) h.2⟩
        rw [digitRunLen_cons, isDigit_space]
        simpa using hn
      · have hle := digitRunLen_replaceAllAux_le m prev (c :: cs)
        rw [hk] at hle
        rw [hk]
        simp only [hasDigitRun, Bool.or_eq_false_iff, decide_eq_false_iff_not, not_le]
        exact ⟨lt_of_le_of_lt hle h.1, ih 0 (some c) h.2⟩

theorem isPhoneChar_of_isDigit (c : Char) (h : isDigit c = true) : isPhoneChar c = true := by
  simp [isPhoneChar, h]

theorem digitRunLen_le_phoneRun (cs : List Char) :
    digitRunLen cs ≤ (cs.takeWhile isPhoneChar).length := by
  induction cs with
  | nil => simp [digitRunLen]
  | cons c cs ih =>
    rw [digitRunLen_cons]
    by_cases hc : isDigit c = true
    · rw [if_pos hc, List.takeWhile_cons, isPhoneChar_of_isDigit c hc]
      simpa using ih
    · rw [if_neg hc]
      exact Nat.zero_le _

theorem isDigit_ne_plus (d : Char) (h : isDigit d = true) : d ≠ '+' := by
  intro e
  rw [e] at h
  exact absurd h (by decide)

/-- Where `phoneRe` does not match, the text does not start with 8 digits. -/
theorem digitRunLen_lt_of_phone_nomatch (prev : Option Char) (cs : List Char)
    (h : ∀ n, phoneReMatch prev cs ≠ some (n + 1)) : digitRunLen cs < 8 := by
  cases cs with
  | nil => simp [digitRunLen]
  | cons d tail =>
    rw [digitRunLen_cons]
    by_cases hd : isDigit d = true
    · rw [if_pos hd]
      by_contra hlt
      have h7 : 7 ≤ digitRunLen tail := by omega
      have h7' : 7 ≤ (tail.takeWhile isPhoneChar).length :=
        le_trans h7 (digitRunLen_le_phoneRun tail)
      have hne := isDigit_ne_plus d hd
      have hm : phoneReMatch prev (d :: tail)
          = some (1 + (tail.takeWhile isPhoneChar).length) := by
        unfold phoneReMatch
        split
        · rename_i heq
          simp only [List.cons.injEq] at heq
          exact absurd heq.1 hne
        · rename_i heq
          simp only [List.cons.injEq] at heq
          obtain ⟨rfl, rfl⟩ := heq
          simp [hd, h7']
        · rename_i heq
          cases heq
      have := h ((tail.takeWhile isPhoneChar).length)
      rw [hm, Nat.add_comm] at this
      exact this rfl
    · rw [if_neg hd]
      decide

/-- After the `phoneRe` stage no 8 consecutive digits are left. -/
theorem hasDigitRun_phone (skip : Nat) (prev : Option Char) (cs : List Char) :
    hasDigitRun 8 (replaceAllAux phoneReMatch skip prev cs) = false := by
  induction cs generalizing skip prev with
  | nil => rw [replaceAllAux_nil]; rfl
  | cons c cs ih =>
    cases skip with
    | succ s =>
      rw [replaceAllAux_skip]
      exact ih s (some c)
    | zero =>
      rcases replaceAllAux_cases phoneReMatch prev c cs with ⟨k, _, hk⟩ | ⟨hno, hk⟩
      · rw [hk]
        simp only [hasDigitRun, Bool.or_eq_false_iff, decide_eq_false_iff_not, not_le]
        refine ⟨?_, ih k (some c)⟩
        rw [digitRunLen_cons, isDigit_space]
        simp
      · have hle := digitRunLen_replaceAllAux_le phoneReMatch prev (c :: cs)
        rw [hk] at hle
        rw [hk]
        simp only [hasDigitRun, Bool.or_eq_false_iff, decide_eq_false_iff_not, not_le]
        exact ⟨lt_of_le_of_lt hle (digitRunLen_lt_of_phone_nomatch prev (c :: cs) hno),
          ih 0 (some c)⟩

theorem hasDigitRun_redactTermList (n : Nat) (hn : 0 < n) (terms : List String)
    (text : List Char) (h : hasDigitRun n text = false) :
    hasDigitRun n (redactTermList terms text) = false := by
  unfold redactTermList
  induction terms generalizing text with
  | nil => exact h
  | cons term terms ih =>
    simp only [List.foldl_cons]
    exact ih _ (hasDigitRun_replaceAllAux _ n hn 0 none text h)

/-- C10 (amended): the output of redactPII contains no run of 8 or more
consecutive ASCII digits, for every text: `phoneRe` asks for a digit followed
by at least 7 digits, spaces or hyphens, so a run of 8 digits is always
removed, and the later replacements only put in spaces. -/
theorem redactPII_no_eight_digits (text : List Char) :
    hasDigitRun 8 (redactPII text) = false := by
  unfold redactPII
  exact hasDigitRun_redactTermList 8 (by decide) redactTerms _
    (hasDigitRun_phone 0 none _)

/-- C10 (as stated) fails: the text "1234567", a run of 7 digits, comes back
unchanged, because `phoneRe` needs 8 characters. -/
theorem redactPII_keeps_seven_digits :
    redactPII "1234567".toList = "1234567".toList ∧
    hasDigitRun 7 (redactPII "1234567".toList) = true := by
  decide

end DigitRuns

/-- C9 (as stated) fails: redacting "1 he 234567" removes the term "he" and
leaves "1   234567", a digit followed by 9 digits and spaces, which a second
redaction removes as a phone number. -/
theorem redactPII_not_idempotent :
    redactPII "1 he 234567".toList = "1   234567".toList ∧
    redactPII (redactPII "1 he 234567".toList) = " ".toList ∧
    redactPII (redactPII "1 he 234567".toList) ≠ redactPII "1 he 234567".toList := by
  decide

end Matcher

namespace Matcher

/-! ## Redaction: a pattern without a match leaves the text unchanged -/

section NoMatch

variable (m : Option Char → List Char → Option Nat)

theorem hasMatchFrom_cons_false (prev : Option Char) (c : Char) (cs : List Char)
    (h : hasMatchFrom m prev (c :: cs) = false) :
    (∀ n, m prev (c :: cs) ≠ some (n + 1)) ∧ hasMatchFrom m (some c) cs = false := by
  unfold hasMatchFrom at h
  rw [Bool.or_eq_false_iff] at h
  refine ⟨?_, h.2⟩
  intro n hn
  rw [hn] at h
  exact absurd h.1 (by simp)

theorem hasMatchFrom_cons_of (prev : Option Char) (c : Char) (cs : List Char)
    (h1 : ∀ n, m prev (c :: cs) ≠ some (n + 1)) (h2 : hasMatchFrom m (some c) cs = false) :
    hasMatchFrom m prev (c :: cs) = false := by
  unfold hasMatchFrom
  rw [Bool.or_eq_false_iff]
  refine ⟨?_, h2⟩
  cases hm : m prev (c :: cs) with
  | none => rfl
  | some k =>
    cases k with
    | zero => rfl
    | succ n => exact absurd hm (h1 n)

theorem replaceAllAux_of_noMatch (prev : Option Char) (cs : List Char)
    (h : hasMatchFrom m prev cs = false) : replaceAllAux m 0 prev cs = cs := by
  induction cs generalizing prev with
  | nil => rfl
  | cons c cs ih =>
    obtain ⟨h1, h2⟩ := hasMatchFrom_cons_false m prev c cs h
    rw [replaceAllAux_nomatch m prev c cs h1, ih (some c) h2]

theorem replaceAll_of_noMatch (text : List Char) (h : hasMatch m text = false) :
    replaceAll m text = text :=
  replaceAllAux_of_noMatch m none text h

end NoMatch

/-! ## Redaction: the e-mail stage -/

section Email

theorem isEmailChar_space : isEmailChar ' ' = false := by decide

theorem isEmailChar_at : isEmailChar '@' = false := by decide

theorem headSat_iff_run (cs : List Char) :
    headSat isEmailChar cs = true ↔ (cs.takeWhile isEmailChar).length ≠ 0 := by
  cases cs with
  | nil => simp [headSat]
  | cons d rest =>
    by_cases hd : isEmailChar d = true
    · simp [headSat, List.takeWhile_cons, hd]
    · have hd' : isEmailChar d = false := by simpa using hd
      simp [headSat, List.takeWhile_cons, hd']

/-- The tail recogniser agrees with the run-based description. -/
theorem emailTail_iff (cs : List Char) :
    emailTail cs = true ↔
      (cs.get? (cs.takeWhile isEmailChar).length = some '@' ∧
       ((cs.drop ((cs.takeWhile isEmailChar).length + 1)).takeWhile isEmailChar).length ≠ 0) := by
  induction cs with
  | nil => simp [emailTail]
  | cons c cs ih =>
    by_cases hc : isEmailChar c = true
    · simp only [emailTail, hc, if_true, List.takeWhile_cons, List.length_cons,
        List.get?_cons_succ, List.drop_succ_cons]
      exact ih
    · have hc' : isEmailChar c = false := by simpa using hc
      simp only [emailTail, hc', Bool.false_eq_true, if_false, List.takeWhile_cons,
        List.length_nil, List.get?_cons_zero, Option.some.injEq, Nat.zero_add, List.drop_succ_cons,
        List.drop_zero, Bool.and_eq_true, decide_eq_true_eq]
      rw [headSat_iff_run]

theorem emailShape_iff_run (cs : List Char) :
    emailShape cs = true ↔
      ((cs.takeWhile isEmailChar).length ≠ 0 ∧
       cs.get? (cs.takeWhile isEmailChar).length = some '@' ∧
       ((cs.drop ((cs.takeWhile isEmailChar).length + 1)).takeWhile isEmailChar).length ≠ 0) := by
  cases cs with
  | nil => simp [emailShape]
  | cons c cs =>
    by_cases hc : isEmailChar c = true
    · simp only [emailShape, hc, Bool.true_and, List.takeWhile_cons, if_true, List.length_cons,
        ne_eq, Nat.succ_ne_zero, not_false_eq_true, true_and, List.get?_cons_succ,
        List.drop_succ_cons]
      exact emailTail_iff cs
    · have hc' : isEmailChar c = false := by simpa using hc
      simp [emailShape, hc', List.takeWhile_cons]

theorem emailShape_iff (prev : Option Char) (cs : List Char) :
    emailShape cs = false ↔ ∀ n, emailReMatch prev cs ≠ some (n + 1) := by
  constructor
  · intro h n hn
    have hnot : ¬ emailShape cs = true := by rw [h]; simp
    rw [emailShape_iff_run] at hnot
    unfold emailReMatch at hn
    simp only at hn
    rw [if_neg hnot] at hn
    cases hn
  · intro h
    by_contra hne
    have hsh : emailShape cs = true := by simpa using hne
    rw [emailShape_iff_run] at hsh
    have : emailReMatch prev cs = some ((cs.takeWhile isEmailChar).length
        + ((cs.drop ((cs.takeWhile isEmailChar).length + 1)).takeWhile isEmailChar).length + 1) := by
      unfold emailReMatch
      simp only
      rw [if_pos hsh]
      congr 1
      omega
    exact h _ this

variable (m : Option Char → List Char → Option Nat)

theorem headSat_replaceAllAux_email (prev : Option Char) (cs : List Char)
    (h : headSat isEmailChar (replaceAllAux m 0 prev cs) = true) :
    headSat isEmailChar cs = true := by
  cases cs with
  | nil => rw [replaceAllAux_nil] at h; exact h
  | cons c cs =>
    rcases replaceAllAux_cases m prev c cs with ⟨n, _, hk⟩ | ⟨_, hk⟩
    · rw [hk] at h
      simp only [headSat, isEmailChar_space] at h
      cases h
    · rw [hk] at h
      exact h

theorem emailTail_replaceAllAux (prev : Option Char) (cs : List Char)
    (h : emailTail (replaceAllAux m 0 prev cs) = true) : emailTail cs = true := by
  induction cs generalizing prev with
  | nil => rw [replaceAllAux_nil] at h; exact h
  | cons c cs ih =>
    rcases replaceAllAux_cases m prev c cs with ⟨n, _, hk⟩ | ⟨_, hk⟩
    · rw [hk] at h
      simp [emailTail, isEmailChar_space] at h
    · rw [hk] at h
      unfold emailTail at h ⊢
      by_cases hc : isEmailChar c = true
      · rw [if_pos hc] at h ⊢
        exact ih (some c) h
      · rw [if_neg hc] at h ⊢
        rw [Bool.and_eq_true] at h ⊢
        exact ⟨h.1, headSat_replaceAllAux_email m (some c) cs h.2⟩

/-- An e-mail match in the output of a replace-all scan was already one in
its input, at the same position. -/
theorem emailShape_replaceAllAux (prev : Option Char) (cs : List Char)
    (h : emailShape (replaceAllAux m 0 prev cs) = true) : emailShape cs = true := by
  cases cs with
  | nil => rw [replaceAllAux_nil] at h; exact h
  | cons c cs =>
    rcases replaceAllAux_cases m prev c cs with ⟨n, _, hk⟩ | ⟨_, hk⟩
    · rw [hk] at h
      simp [emailShape, isEmailChar_space] at h
    · rw [hk] at h
      unfold emailShape at h ⊢
      rw [Bool.and_eq_true] at h ⊢
      exact ⟨h.1, emailTail_replaceAllAux m (some c) cs h.2⟩

/-- A replace-all scan for a pattern `m` leaves no e-mail match, if `m` is
`emailRe` itself or if there was none before. -/
theorem noEmail_replaceAllAux (skip : Nat) (prev prevOut : Option Char) (cs : List Char)
    (h : m = emailReMatch ∨ hasMatchFrom emailReMatch prev cs = false) :
    hasMatchFrom emailReMatch prevOut (replaceAllAux m skip prev cs) = false := by
  induction cs generalizing skip prev prevOut with
  | nil => rw [replaceAllAux_nil]; rfl
  | cons c cs ih =>
    have hnext : m = emailReMatch ∨ hasMatchFrom emailReMatch (some c) cs = false := by
      rcases h with h | h
      · exact Or.inl h
      · exact Or.inr (hasMatchFrom_cons_false _ prev c cs h).2
    cases skip with
    | succ s =>
      rw [replaceAllAux_skip]
      exact ih s (some c) prevOut hnext
    | zero =>
      rcases replaceAllAux_cases m prev c cs with ⟨n, _, hk⟩ | ⟨hno, hk⟩
      · rw [hk]
        apply hasMatchFrom_cons_of
        · rw [← emailShape_iff]
          simp [emailShape, isEmailChar_space]
        · exact ih n (some c) (some ' ') hnext
      · have hin : emailShape (c :: cs) = false := by
          rw [emailShape_iff prev]
          rcases h with h | h
          · rw [← h]; exact hno
          · exact (hasMatchFrom_cons_false _ prev c cs h).1
        rw [hk]
        apply hasMatchFrom_cons_of
        · rw [← emailShape_iff]
          by_contra hne
          have hsh : emailShape (c :: replaceAllAux m 0 (some c) cs) = true := by
            simpa using hne
          rw [← hk] at hsh
          have := emailShape_replaceAllAux m prev (c :: cs) hsh
          rw [hin] at this
          cases this
        · exact ih 0 (some c) (some c) hnext

end Email

end Matcher

namespace Matcher

/-! ## Redaction: the term stages -/

section Terms

/-- The matches of a term pattern begin and end at a word boundary. -/
theorem termReMatch_bounded (term : List Char) (prev : Option Char) (cs : List Char) (n : Nat)
    (h : termReMatch term prev cs = some (n + 1)) :
    wordBoundary prev cs.head? = true ∧ wordBoundary (cs.get? n) (cs.get? (n + 1)) = true := by
  unfold termReMatch at h
  split at h
  · rename_i hc
    simp only [Option.some.injEq] at h
    simp only [Bool.and_eq_true] at hc
    rw [h] at hc
    refine ⟨hc.1.1, ?_⟩
    have h2 := hc.2
    rw [Nat.add_sub_cancel] at h2
    exact h2
  · cases h

theorem termReMatch_eq_some (t : Char) (ts : List Char) (prev : Option Char) (cs : List Char) :
    (∃ k, termReMatch (t :: ts) prev cs = some (k + 1)) ↔
      (wordBoundary prev cs.head? = true ∧ foldPrefix (t :: ts) cs = true ∧
        wordBoundary (cs.get? ts.length) (cs.get? (ts.length + 1)) = true) := by
  unfold termReMatch
  simp only [List.length_cons, Nat.add_sub_cancel]
  constructor
  · rintro ⟨k, hk⟩
    split at hk
    · rename_i hc
      simp only [Bool.and_eq_true] at hc
      exact ⟨hc.1.1, hc.1.2, hc.2⟩
    · cases hk
  · rintro ⟨h1, h2, h3⟩
    refine ⟨ts.length, ?_⟩
    rw [if_pos (by rw [h1, h2, h3]; rfl)]

variable (m : Option Char → List Char → Option Nat)

theorem head?_eq_get?_zero (cs : List Char) : cs.head? = cs.get? 0 := by
  cases cs <;> rfl

/-- If the output of the scan shows a word boundary after `c`, so does the input. -/
theorem boundary_head_replaceAllAux
    (hb : ∀ prev cs n, m prev cs = some (n + 1) →
      wordBoundary prev cs.head? = true ∧ wordBoundary (cs.get? n) (cs.get? (n + 1)) = true)
    (c : Char) (cs : List Char)
    (h : wordBoundary (some c) (replaceAllAux m 0 (some c) cs).head? = true) :
    wordBoundary (some c) cs.head? = true := by
  cases cs with
  | nil => rw [replaceAllAux_nil] at h; exact h
  | cons d cs =>
    rcases replaceAllAux_cases m (some c) d cs with ⟨n, hm, _⟩ | ⟨_, hk⟩
    · exact (hb _ _ n hm).1
    · rw [hk] at h
      exact h

theorem foldEq_space_of_spaceFree (t : Char) (ts : List Char) (h : spaceFree (t :: ts) = true) :
    foldEq t ' ' = false ∧ spaceFree ts = true := by
  unfold spaceFree at h ⊢
  simp only [List.all_cons, Bool.and_eq_true, Bool.not_eq_true'] at h
  exact h

/-- A literal found at the front of the output of the scan stands at the front
of its input too, with the same first character, and a word boundary after it
in the output is one in the input. -/
theorem foldPrefix_replaceAllAux
    (hb : ∀ prev cs n, m prev cs = some (n + 1) →
      wordBoundary prev cs.head? = true ∧ wordBoundary (cs.get? n) (cs.get? (n + 1)) = true)
    (ts : List Char) (t : Char) (prev : Option Char) (cs : List Char)
    (hsf : spaceFree (t :: ts) = true)
    (h : foldPrefix (t :: ts) (replaceAllAux m 0 prev cs) = true) :
    foldPrefix (t :: ts) cs = true ∧ (replaceAllAux m 0 prev cs).head? = cs.head? ∧
    (wordBoundary ((replaceAllAux m 0 prev cs).get? ts.length)
        ((replaceAllAux m 0 prev cs).get? (ts.length + 1)) = true →
      wordBoundary (cs.get? ts.length) (cs.get? (ts.length + 1)) = true) := by
  induction ts generalizing t prev cs with
  | nil =>
    cases cs with
    | nil => rw [replaceAllAux_nil] at h; simp [foldPrefix] at h
    | cons c cs =>
      obtain ⟨hsp, _⟩ := foldEq_space_of_spaceFree t [] hsf
      rcases replaceAllAux_cases m prev c cs with ⟨n, _, hk⟩ | ⟨_, hk⟩
      · rw [hk] at h
        simp [foldPrefix, hsp] at h
      · rw [hk] at h ⊢
        refine ⟨h, rfl, ?_⟩
        intro hbd
        simp only [List.length_nil, List.get?_cons_zero, Nat.zero_add, List.get?_cons_succ] at hbd ⊢
        rw [← head?_eq_get?_zero] at hbd ⊢
        exact boundary_head_replaceAllAux m hb c cs hbd
  | cons t' ts ih =>
    cases cs with
    | nil => rw [replaceAllAux_nil] at h; simp [foldPrefix] at h
    | cons c cs =>
      obtain ⟨hsp, hsf'⟩ := foldEq_space_of_spaceFree t (t' :: ts) hsf
      rcases replaceAllAux_cases m prev c cs with ⟨n, _, hk⟩ | ⟨_, hk⟩
      · rw [hk] at h
        simp [foldPrefix, hsp] at h
      · rw [hk] at h ⊢
        simp only [foldPrefix, Bool.and_eq_true] at h
        obtain ⟨h1, h2, h3⟩ := ih t' (some c) cs hsf' h.2
        refine ⟨?_, rfl, ?_⟩
        · simp only [foldPrefix, Bool.and_eq_true]
          exact ⟨h.1, h1⟩
        · intro hbd
          simp only [List.length_cons, List.get?_cons_succ] at hbd ⊢
          exact h3 hbd

/-- A match of a space-free term in the output of the scan is a match in its
input at the same position, provided the character before the position is the
same in both or the input has a word boundary there. -/
theorem termReMatch_replaceAllAux
    (hb : ∀ prev cs n, m prev cs = some (n + 1) →
      wordBoundary prev cs.head? = true ∧ wordBoundary (cs.get? n) (cs.get? (n + 1)) = true)
    (t : Char) (ts : List Char) (hsf : spaceFree (t :: ts) = true)
    (prev prevOut : Option Char) (cs : List Char)
    (hc : prevOut = prev ∨ wordBoundary prev cs.head? = true)
    (h : ∃ k, termReMatch (t :: ts) prevOut (replaceAllAux m 0 prev cs) = some (k + 1)) :
    ∃ k, termReMatch (t :: ts) prev cs = some (k + 1) := by
  rw [termReMatch_eq_some] at h ⊢
  obtain ⟨hs, hp, he⟩ := h
  obtain ⟨h1, h2, h3⟩ := foldPrefix_replaceAllAux m hb ts t prev cs hsf hp
  refine ⟨?_, h1, h3 he⟩
  rcases hc with hc | hc
  · rw [← hc, ← h2]; exact hs
  · exact hc

theorem termReMatch_space (t : Char) (ts : List Char) (hsf : spaceFree (t :: ts) = true)
    (prev : Option Char) (cs : List Char) (n : Nat) :
    termReMatch (t :: ts) prev (' ' :: cs) ≠ some (n + 1) := by
  intro h
  have := (termReMatch_eq_some t ts prev (' ' :: cs)).mp ⟨n, h⟩
  obtain ⟨hsp, _⟩ := foldEq_space_of_spaceFree t ts hsf
  simp [foldPrefix, hsp] at this

/-- A replace-all scan for a pattern `m` whose matches lie between word
boundaries leaves no match of a space-free term, if `m` is the pattern of that
term or if the term had no match before. -/
theorem noTerm_replaceAllAux
    (hb : ∀ prev cs n, m prev cs = some (n + 1) →
      wordBoundary prev cs.head? = true ∧ wordBoundary (cs.get? n) (cs.get? (n + 1)) = true)
    (t : Char) (ts : List Char) (hsf : spaceFree (t :: ts) = true)
    (cs : List Char) (skip : Nat) (prev prevOut : Option Char)
    (h : m = termReMatch (t :: ts) ∨ hasMatchFrom (termReMatch (t :: ts)) prev cs = false)
    (hinv : (skip = 0 ∧ (prevOut = prev ∨ wordBoundary prev cs.head? = true)) ∨
      (∃ s, skip = s + 1 ∧ wordBoundary (cs.get? s) (cs.get? (s + 1)) = true)) :
    hasMatchFrom (termReMatch (t :: ts)) prevOut (replaceAllAux m skip prev cs) = false := by
  induction cs generalizing skip prev prevOut with
  | nil => rw [replaceAllAux_nil]; rfl
  | cons c cs ih =>
    have hnext : m = termReMatch (t :: ts) ∨
        hasMatchFrom (termReMatch (t :: ts)) (some c) cs = false := by
      rcases h with h | h
      · exact Or.inl h
      · exact Or.inr (hasMatchFrom_cons_false _ prev c cs h).2
    cases skip with
    | succ s =>
      rw [replaceAllAux_skip]
      apply ih s (some c) prevOut hnext
      rcases hinv with ⟨h0, _⟩ | ⟨s', hs', hbd⟩
      · cases h0
      · have hs : s = s' := by omega
        subst hs
        cases s with
        | zero =>
          left
          refine ⟨rfl, Or.inr ?_⟩
          simp only [List.get?_cons_zero, Nat.zero_add, List.get?_cons_succ] at hbd
          rw [head?_eq_get?_zero]
          exact hbd
        | succ s'' =>
          right
          refine ⟨s'', rfl, ?_⟩
          simpa only [List.get?_cons_succ] using hbd
    | zero =>
      rcases replaceAllAux_cases m prev c cs with ⟨n, hm, hk⟩ | ⟨hno, hk⟩
      · rw [hk]
        apply hasMatchFrom_cons_of
        · exact termReMatch_space t ts hsf prevOut _
        · apply ih n (some c) (some ' ') hnext
          have hbd := (hb _ _ n hm).2
          cases n with
          | zero =>
            left
            refine ⟨rfl, Or.inr ?_⟩
            simp only [List.get?_cons_zero, Nat.zero_add, List.get?_cons_succ] at hbd
            rw [head?_eq_get?_zero]
            exact hbd
          | succ n' =>
            right
            refine ⟨n', rfl, ?_⟩
            simpa only [List.get?_cons_succ] using hbd
      · have hin : ∀ k, termReMatch (t :: ts) prev (c :: cs) ≠ some (k + 1) := by
          rcases h with h | h
          · rw [← h]; exact hno
          · exact (hasMatchFrom_cons_false _ prev c cs h).1
        have hcompat : prevOut = prev ∨ wordBoundary prev (c :: cs).head? = true := by
          rcases hinv with ⟨_, h0⟩ | ⟨s, hs, _⟩
          · exact h0
          · cases hs
        rw [hk]
        apply hasMatchFrom_cons_of
        · intro k hk'
          rw [← hk] at hk'
          obtain ⟨k', hk''⟩ := termReMatch_replaceAllAux m hb t ts hsf prev prevOut (c :: cs)
            hcompat ⟨k, hk'⟩
          exact hin k' hk''
        · exact ih 0 (some c) (some c) hnext (Or.inl ⟨rfl, Or.inl rfl⟩)

end Terms

end Matcher

namespace Matcher

/-! ## Redaction: what a second pass can still find -/

section SecondPass

theorem redactTermList_cons (term : String) (terms : List String) (text : List Char) :
    redactTermList (term :: terms) text
      = redactTermList terms (replaceAll (termReMatch term.toList) text) := rfl

/-- No stage after the first creates an e-mail match. -/
theorem noEmail_redactTermList (terms : List String) (text : List Char)
    (h : hasMatch emailReMatch text = false) :
    hasMatch emailReMatch (redactTermList terms text) = false := by
  induction terms generalizing text with
  | nil => exact h
  | cons term terms ih =>
    rw [redactTermList_cons]
    exact ih _ (noEmail_replaceAllAux _ 0 none none text (Or.inr h))

theorem noEmail_redactPII (text : List Char) :
    hasMatch emailReMatch (redactPII text) = false := by
  unfold redactPII
  apply noEmail_redactTermList
  apply noEmail_replaceAllAux phoneReMatch 0 none none _ (Or.inr ?_)
  exact noEmail_replaceAllAux emailReMatch 0 none none text (Or.inl rfl)

/-- The stage of a space-free term leaves no match of that term. -/
theorem noTerm_replaceAll_self (term : List Char) (hne : term ≠ [])
    (hsf : spaceFree term = true) (text : List Char) :
    hasMatch (termReMatch term) (replaceAll (termReMatch term) text) = false := by
  cases term with
  | nil => exact absurd rfl hne
  | cons t ts =>
    exact noTerm_replaceAllAux (termReMatch (t :: ts)) (termReMatch_bounded (t :: ts)) t ts hsf
      text 0 none none (Or.inl rfl) (Or.inl ⟨rfl, Or.inl rfl⟩)

/-- The stage of any term creates no match of a space-free term. -/
theorem noTerm_replaceAll_other (other term : List Char) (hne : term ≠ [])
    (hsf : spaceFree term = true) (text : List Char)
    (h : hasMatch (termReMatch term) text = false) :
    hasMatch (termReMatch term) (replaceAll (termReMatch other) text) = false := by
  cases term with
  | nil => exact absurd rfl hne
  | cons t ts =>
    exact noTerm_replaceAllAux (termReMatch other) (termReMatch_bounded other) t ts hsf
      text 0 none none (Or.inr h) (Or.inl ⟨rfl, Or.inl rfl⟩)

theorem noTerm_redactTermList_of_clean (terms : List String) (term : List Char)
    (hne : term ≠ []) (hsf : spaceFree term = true) (text : List Char)
    (h : hasMatch (termReMatch term) text = false) :
    hasMatch (termReMatch term) (redactTermList terms text) = false := by
  induction terms generalizing text with
  | nil => exact h
  | cons other terms ih =>
    rw [redactTermList_cons]
    exact ih _ (noTerm_replaceAll_other other.toList term hne hsf text h)

/-- After the loop over the terms, no space-free term of the list has a match. -/
theorem noTerm_redactTermList (terms : List String) (term : String) (hmem : term ∈ terms)
    (hne : term.toList ≠ []) (hsf : spaceFree term.toList = true) (text : List Char) :
    hasMatch (termReMatch term.toList) (redactTermList terms text) = false := by
  induction terms generalizing text with
  | nil => cases hmem
  | cons first terms ih =>
    rw [redactTermList_cons]
    rcases List.mem_cons.mp hmem with heq | hin
    · subst heq
      exact noTerm_redactTermList_of_clean terms term.toList hne hsf _
        (noTerm_replaceAll_self term.toList hne hsf text)
    · exact ih hin _

/-- The loop over the terms changes nothing in a text where no term matches. -/
theorem redactTermList_of_noMatch (terms : List String) (text : List Char)
    (h : ∀ term ∈ terms, hasMatch (termReMatch term.toList) text = false) :
    redactTermList terms text = text := by
  induction terms with
  | nil => rfl
  | cons term terms ih =>
    rw [redactTermList_cons, replaceAll_of_noMatch _ text (h term (List.mem_cons_self _ _))]
    exact ih (fun t ht => h t (List.mem_cons_of_mem _ ht))

theorem redactTerms_spaceFree :
    ∀ term ∈ redactTerms,
      term = "years old" ∨ (term.toList ≠ [] ∧ spaceFree term.toList = true) := by
  decide

/-- C9 (amended): redactPII(redactPII(x)) = redactPII(x) for every text x whose
redaction redactPII(x) has no match of `phoneRe` and no match of the pattern of
the term "years old"; a second pass finds no e-mail address and no other term,
so it can only remove a phone-like run or a "years old" that the first pass
put together. -/
theorem redactPII_idempotent_of_clean (text : List Char)
    (hphone : hasMatch phoneReMatch (redactPII text) = false)
    (hyears : hasMatch (termReMatch "years old".toList) (redactPII text) = false) :
    redactPII (redactPII text) = redactPII text := by
  have hemail := noEmail_redactPII text
  have hterms : ∀ term ∈ redactTerms,
      hasMatch (termReMatch term.toList) (redactPII text) = false := by
    intro term hmem
    rcases redactTerms_spaceFree term hmem with heq | ⟨hne, hsf⟩
    · rw [heq]; exact hyears
    · exact noTerm_redactTermList redactTerms term hmem hne hsf _
  show redactTermList redactTerms
      (replaceAll phoneReMatch (replaceAll emailReMatch (redactPII text))) = redactPII text
  rw [replaceAll_of_noMatch _ _ hemail, replaceAll_of_noMatch _ _ hphone]
  exact redactTermList_of_noMatch redactTerms _ hterms

/-- Witness for C9 (amended): a text with an e-mail address, a phone number
and two terms; its redaction has no phone-like run and no "years old" left. -/
theorem redactPII_idempotent_of_clean_witness :
    hasMatch phoneReMatch (redactPII "Mr X, male: x@y.org, +1 555-123-4567.".toList) = false ∧
    hasMatch (termReMatch "years old".toList)
      (redactPII "Mr X, male: x@y.org, +1 555-123-4567.".toList) = false ∧
    redactPII (redactPII "Mr X, male: x@y.org, +1 555-123-4567.".toList)
      = redactPII "Mr X, male: x@y.org, +1 555-123-4567.".toList :=
  ⟨by decide, by decide,
   redactPII_idempotent_of_clean "Mr X, male: x@y.org, +1 555-123-4567.".toList
     (by decide) (by decide)⟩

end SecondPass

end Matcher

namespace Matcher

/-- Witness for C3: with TopN = 1 and the two tied results, the cut-off keeps
the first ranked result, which has Rank 1. -/
theorem rankAndTruncate_front_witness :
    0 < (rankAndTruncate insertionSortBy 1 [tieA, tieB]).length ∧
    (rankAndTruncate insertionSortBy 1 [tieA, tieB]).map (fun r => r.Candidate) = ["a"] ∧
    ∀ h : 0 < (rankAndTruncate insertionSortBy 1 [tieA, tieB]).length,
      ((rankAndTruncate insertionSortBy 1 [tieA, tieB]).get ⟨0, h⟩).Rank = ((0 : Nat) : Int) + 1 :=
  ⟨by decide, by decide,
   fun h => (rankAndTruncate_front insertionSortBy 1 [tieA, tieB]).2.2.2 0 h⟩

end Matcher

namespace Matcher

/-! ## Cosine similarity: value on equal arguments, closed form, symmetry -/

section CosineAlgebra

variable {K : Type} [LinearOrderedField K]

theorem mapGet_of_not_mem (a : List (List Char × K)) (k : List Char)
    (h : k ∉ a.map Prod.fst) : mapGet a k = 0 := by
  induction a with
  | nil => rfl
  | cons e rest ih =>
    obtain ⟨k', v⟩ := e
    simp only [List.map_cons, List.mem_cons, not_or] at h
    have hk : ¬ k' = k := fun e => h.1 e.symm
    simp only [mapGet, hk, if_false]
    exact ih h.2

theorem mapGet_of_mem_nodup (a : List (List Char × K)) (hn : (a.map Prod.fst).Nodup)
    (k : List Char) (v : K) (h : (k, v) ∈ a) : mapGet a k = v := by
  induction a with
  | nil => cases h
  | cons e rest ih =>
    obtain ⟨k', v'⟩ := e
    simp only [List.map_cons, List.nodup_cons] at hn
    rcases List.mem_cons.mp h with heq | hin
    · simp only [Prod.mk.injEq] at heq
      simp [mapGet, heq.1, heq.2]
    · have hk : ¬ k' = k := by
        intro e
        apply hn.1
        rw [e]
        exact List.mem_map_of_mem Prod.fst hin
      simp only [mapGet, hk, if_false]
      exact ih hn.2 hin

/-- The closed form of the two loops of cosineSim. -/
theorem cosineSim_eq (sqrt : K → K) (a b : List (List Char × K)) :
    cosineSim sqrt a b =
      if a = [] ∨ b = [] then 0
      else if sumSq a = 0 ∨ sumSq b = 0 then 0
      else (a.map (fun e => e.2 * mapGet b e.1)).sum / (sqrt (sumSq a) * sqrt (sumSq b)) := by
  unfold cosineSim sumSq
  simp only [foldl_add_eq_sum, zero_add, List.length_eq_zero]

theorem dot_eq_sharedDot (a b : List (List Char × K)) :
    (a.map (fun e => e.2 * mapGet b e.1)).sum = sharedDot a b := by
  unfold sharedDot
  induction a with
  | nil => rfl
  | cons e rest ih =>
    by_cases h : e.1 ∈ b.map Prod.fst
    · simp only [List.map_cons, List.sum_cons, List.filter_cons, h, decide_True, if_true, ih]
    · simp only [List.map_cons, List.sum_cons, List.filter_cons, h, decide_False,
        Bool.false_eq_true, if_false, ih, mapGet_of_not_mem b e.1 h, mul_zero, zero_add]

theorem dot_self (a : List (List Char × K)) (hn : (a.map Prod.fst).Nodup) :
    (a.map (fun e => e.2 * mapGet a e.1)).sum = sumSq a := by
  unfold sumSq
  congr 1
  apply List.map_congr_left
  intro e he
  rw [mapGet_of_mem_nodup a hn e.1 e.2 he]

theorem sqrt_zero_of_exact (sqrt : K → K)
    (hsqrt : ∀ x : K, 0 ≤ x → 0 ≤ sqrt x ∧ sqrt x * sqrt x = x) : sqrt 0 = 0 := by
  have := (hsqrt 0 (le_refl _)).2
  exact mul_self_eq_zero.mp this

theorem sqrt_eq_zero_iff (sqrt : K → K)
    (hsqrt : ∀ x : K, 0 ≤ x → 0 ≤ sqrt x ∧ sqrt x * sqrt x = x) (x : K) (hx : 0 ≤ x) :
    sqrt x = 0 ↔ x = 0 := by
  constructor
  · intro h
    have := (hsqrt x hx).2
    rw [h] at this
    simpa using this.symm
  · intro h
    rw [h]
    exact sqrt_zero_of_exact sqrt hsqrt

theorem sumSq_nonneg (a : List (List Char × K)) : 0 ≤ sumSq a :=
  sum_map_nonneg _ _ (fun _ _ => mul_self_nonneg _)

theorem sumSqVec_nonneg (v : List K) : 0 ≤ sumSqVec v :=
  sum_map_nonneg _ _ (fun _ _ => mul_self_nonneg _)

theorem div_sqrt_self (sqrt : K → K)
    (hsqrt : ∀ x : K, 0 ≤ x → 0 ≤ sqrt x ∧ sqrt x * sqrt x = x) (x : K) (hx : 0 ≤ x)
    (h0 : x ≠ 0) : x / (sqrt x * sqrt x) = 1 := by
  rw [(hsqrt x hx).2]
  exact div_self h0

/-- The three accumulators of the loop of cosineSimVec, as sums over the index range. -/
theorem cosineSimVecLoop_fold (a b : List K) (is : List Nat) (acc : K × K × K) :
    is.foldl (fun (acc : K × K × K) i =>
        (acc.1 + a.getD i 0 * b.getD i 0,
         acc.2.1 + a.getD i 0 * a.getD i 0,
         acc.2.2 + b.getD i 0 * b.getD i 0)) acc
      = (acc.1 + (is.map (fun i => a.getD i 0 * b.getD i 0)).sum,
         acc.2.1 + (is.map (fun i => a.getD i 0 * a.getD i 0)).sum,
         acc.2.2 + (is.map (fun i => b.getD i 0 * b.getD i 0)).sum) := by
  induction is generalizing acc with
  | nil => simp
  | cons i is ih =>
    simp only [List.foldl_cons, ih, List.map_cons, List.sum_cons]
    refine Prod.ext ?_ (Prod.ext ?_ ?_) <;> simp only <;> ring

theorem cosineSimVecLoop_eq (a b : List K) (dim : Nat) :
    cosineSimVecLoop a b dim
      = (((List.range dim).map (fun i => a.getD i 0 * b.getD i 0)).sum,
         ((List.range dim).map (fun i => a.getD i 0 * a.getD i 0)).sum,
         ((List.range dim).map (fun i => b.getD i 0 * b.getD i 0)).sum) := by
  unfold cosineSimVecLoop
  rw [cosineSimVecLoop_fold]
  simp

theorem map_getD_range (v : List K) (f : K → K) :
    (List.range v.length).map (fun i => f (v.getD i 0)) = v.map f := by
  induction v with
  | nil => rfl
  | cons x xs ih =>
    rw [List.length_cons, List.range_succ_eq_map, List.map_cons, List.map_map, List.map_cons]
    congr 1

theorem cosineSimVecLoop_self (v : List K) :
    cosineSimVecLoop v v v.length = (sumSqVec v, sumSqVec v, sumSqVec v) := by
  rw [cosineSimVecLoop_eq]
  have := map_getD_range v (fun x => x * x)
  simp only at this
  rw [this]
  rfl

/-- C19: over exact arithmetic, a sparse vector (a map: distinct keys) with
non-zero L2 norm has cosineSim(a, a) = 1, and a dense vector with non-zero L2
norm has cosineSimVec(v, v) = 1. -/
theorem cosine_self_eq_one (sqrt : K → K)
    (hsqrt : ∀ x : K, 0 ≤ x → 0 ≤ sqrt x ∧ sqrt x * sqrt x = x) :
    (∀ a : List (List Char × K), (a.map Prod.fst).Nodup → l2norm sqrt a ≠ 0 →
        cosineSim sqrt a a = 1) ∧
    (∀ v : List K, sqrt (sumSqVec v) ≠ 0 → cosineSimVec sqrt v v = 1) := by
  constructor
  · intro a hn hnorm
    have h0 : sumSq a ≠ 0 := fun e =>
      hnorm ((sqrt_eq_zero_iff sqrt hsqrt _ (sumSq_nonneg a)).mpr e)
    have hne : a ≠ [] := by
      intro e
      apply h0
      rw [e]
      rfl
    rw [cosineSim_eq, if_neg (by simp [hne]), if_neg (by simp [h0]), dot_self a hn]
    exact div_sqrt_self sqrt hsqrt _ (sumSq_nonneg a) h0
  · intro v hnorm
    have h0 : sumSqVec v ≠ 0 := fun e =>
      hnorm ((sqrt_eq_zero_iff sqrt hsqrt _ (sumSqVec_nonneg v)).mpr e)
    have hne : v.length ≠ 0 := by
      intro e
      apply h0
      rw [List.length_eq_zero.mp e]
      rfl
    unfold cosineSimVec
    rw [if_neg (by simp [hne])]
    simp only [lt_irrefl, if_false, cosineSimVecLoop_self]
    rw [if_neg (by simp [h0])]
    exact div_sqrt_self sqrt hsqrt _ (sumSqVec_nonneg v) h0

end CosineAlgebra

/-- Witness for C19: over the reals, the sparse vector with python ↦ 3,
sql ↦ 4 and the dense vector (3, 4). -/
theorem cosine_self_eq_one_witness :
    cosineSim Real.sqrt [("python".toList, (3 : ℝ)), ("sql".toList, 4)]
        [("python".toList, (3 : ℝ)), ("sql".toList, 4)] = 1 ∧
    cosineSimVec Real.sqrt [(3 : ℝ), 4] [(3 : ℝ), 4] = 1 := by
  have h25 : Real.sqrt 25 ≠ 0 := by
    rw [Real.sqrt_ne_zero (by norm_num)]
    norm_num
  refine ⟨(cosine_self_eq_one Real.sqrt real_sqrt_exact).1 _ (by decide) ?_,
    (cosine_self_eq_one Real.sqrt real_sqrt_exact).2 _ ?_⟩
  · have : sumSq [("python".toList, (3 : ℝ)), ("sql".toList, 4)] = 25 := by
      norm_num [sumSq]
    rw [l2norm, this]
    exact h25
  · have : sumSqVec [(3 : ℝ), 4] = 25 := by
      norm_num [sumSqVec]
    rw [this]
    exact h25

end Matcher

namespace Matcher

section CosineSymmetry

variable {K : Type} [LinearOrderedField K]

theorem sum_ite_key (b : List (List Char × K)) (hn : (b.map Prod.fst).Nodup) (k : List Char) :
    (b.map (fun e => if k = e.1 then e.2 else 0)).sum = mapGet b k := by
  induction b with
  | nil => rfl
  | cons e rest ih =>
    obtain ⟨k', v'⟩ := e
    simp only [List.map_cons, List.nodup_cons] at hn
    simp only [List.map_cons, List.sum_cons, mapGet]
    by_cases hk : k' = k
    · subst hk
      have hzero : (rest.map (fun e => if k' = e.1 then e.2 else 0)).sum = 0 := by
        rw [ih hn.2]
        exact mapGet_of_not_mem rest k' hn.1
      simp [hzero]
    · have hk' : ¬ k = k' := fun e => hk e.symm
      simp only [hk, hk', if_false, zero_add]
      exact ih hn.2

/-- The dot product read from either side is the same (distinct keys on both sides). -/
theorem dot_comm (a b : List (List Char × K)) (ha : (a.map Prod.fst).Nodup)
    (hb : (b.map Prod.fst).Nodup) :
    (a.map (fun e => e.2 * mapGet b e.1)).sum = (b.map (fun e => e.2 * mapGet a e.1)).sum := by
  induction a with
  | nil =>
    simp only [List.map_nil, List.sum_nil]
    symm
    apply List.sum_eq_zero
    intro x hx
    simp only [List.mem_map] at hx
    obtain ⟨e, _, rfl⟩ := hx
    simp only [mapGet, mul_zero]
  | cons e rest ih =>
    obtain ⟨k, v⟩ := e
    simp only [List.map_cons, List.nodup_cons] at ha
    simp only [List.map_cons, List.sum_cons]
    have hsplit : ∀ e ∈ b, e.2 * mapGet ((k, v) :: rest) e.1
        = v * (if k = e.1 then e.2 else 0) + e.2 * mapGet rest e.1 := by
      intro e _
      by_cases hk : k = e.1
      · have : mapGet rest e.1 = 0 := by
          rw [← hk]; exact mapGet_of_not_mem rest k ha.1
        simp only [mapGet, hk, if_true, this, mul_zero, add_zero]
        ring
      · simp only [mapGet, hk, if_false, mul_zero, zero_add]
    rw [List.map_congr_left hsplit, List.sum_map_add, List.sum_map_mul_left, sum_ite_key b hb k,
      ih ha.2]

/-- C20: cosineSim(a, b) is the sum over the keys present in both maps of
a[k]*b[k] divided by the product of the two L2 norms; it is 0 whenever either
map is empty or has zero norm; and cosineSim(a, b) = cosineSim(b, a). -/
theorem cosineSim_spec (sqrt : K → K)
    (hsqrt : ∀ x : K, 0 ≤ x → 0 ≤ sqrt x ∧ sqrt x * sqrt x = x)
    (a b : List (List Char × K)) (ha : (a.map Prod.fst).Nodup) (hb : (b.map Prod.fst).Nodup) :
    cosineSim sqrt a b = cosineSpec sqrt a b ∧
    ((a = [] ∨ b = [] ∨ l2norm sqrt a = 0 ∨ l2norm sqrt b = 0) → cosineSim sqrt a b = 0) ∧
    cosineSim sqrt a b = cosineSim sqrt b a := by
  have hza : l2norm sqrt a = 0 ↔ sumSq a = 0 := sqrt_eq_zero_iff sqrt hsqrt _ (sumSq_nonneg a)
  have hzb : l2norm sqrt b = 0 ↔ sumSq b = 0 := sqrt_eq_zero_iff sqrt hsqrt _ (sumSq_nonneg b)
  have hspec : cosineSim sqrt a b = cosineSpec sqrt a b := by
    rw [cosineSim_eq]
    unfold cosineSpec
    by_cases h1 : a = [] ∨ b = []
    · rw [if_pos h1, if_pos (by tauto)]
    · rw [if_neg h1]
      by_cases h2 : sumSq a = 0 ∨ sumSq b = 0
      · rw [if_pos h2, if_pos (by rw [hza, hzb]; tauto)]
      · rw [if_neg h2, if_neg (by rw [hza, hzb]; tauto), dot_eq_sharedDot]
        rfl
  refine ⟨hspec, ?_, ?_⟩
  · intro h
    rw [hspec]
    unfold cosineSpec
    rw [if_pos h]
  · rw [cosineSim_eq, cosineSim_eq]
    by_cases h1 : a = [] ∨ b = []
    · rw [if_pos h1, if_pos (Or.symm h1)]
    · rw [if_neg h1, if_neg (fun h => h1 (Or.symm h))]
      by_cases h2 : sumSq a = 0 ∨ sumSq b = 0
      · rw [if_pos h2, if_pos (Or.symm h2)]
      · rw [if_neg h2, if_neg (fun h => h2 (Or.symm h)), dot_comm a b ha hb,
          mul_comm (sqrt (sumSq a))]

end CosineSymmetry

/-- Witness for C20: over the reals, a = (python ↦ 1, sql ↦ 2) and
b = (sql ↦ 3, java ↦ 1). -/
theorem cosineSim_spec_witness :
    cosineSim Real.sqrt [("python".toList, (1 : ℝ)), ("sql".toList, 2)]
        [("sql".toList, (3 : ℝ)), ("java".toList, 1)]
      = cosineSim Real.sqrt [("sql".toList, (3 : ℝ)), ("java".toList, 1)]
        [("python".toList, (1 : ℝ)), ("sql".toList, 2)] :=
  (cosineSim_spec Real.sqrt real_sqrt_exact [("python".toList, (1 : ℝ)), ("sql".toList, 2)]
    [("sql".toList, (3 : ℝ)), ("java".toList, 1)] (by decide) (by decide)).2.2

end Matcher

namespace Matcher

/-! ## Go maps: what the counting and table-building loops compute -/

section MapFolds

variable {V : Type}

theorem mapGet_mapSet [Zero V] (m : List (List Char × V)) (k : List Char) (v : V)
    (k' : List Char) :
    mapGet (mapSet m k v) k' = if k = k' then v else mapGet m k' := by
  induction m with
  | nil => simp [mapSet, mapGet]
  | cons e rest ih =>
    obtain ⟨k0, v0⟩ := e
    by_cases h0 : k0 = k
    · subst h0
      simp only [mapSet, if_true, mapGet]
      split <;> rfl
    · simp only [mapSet, h0, if_false, mapGet, ih]
      by_cases h1 : k0 = k'
      · have : ¬ k = k' := fun e => h0 (h1.trans e.symm)
        simp [h1, this]
      · simp [h1]

theorem mem_keys_mapSet (m : List (List Char × V)) (k : List Char) (v : V) (k' : List Char) :
    k' ∈ (mapSet m k v).map Prod.fst ↔ k' = k ∨ k' ∈ m.map Prod.fst := by
  rw [keys_mapSet]
  split
  · rename_i h
    constructor
    · exact Or.inr
    · rintro (h1 | h1)
      · rw [h1]; exact h
      · exact h1
  · simp only [List.mem_append, List.mem_singleton]
    tauto

/-- The loop `for g in grams: m[g] = m[g] + 1` adds to each entry the number of
occurrences of its key. -/
theorem mapGet_count_fold {K : Type} [LinearOrderedField K] (grams : List (List Char))
    (m : List (List Char × K)) (t : List Char) :
    mapGet (grams.foldl (fun tf g => mapSet tf g (mapGet tf g + 1)) m) t
      = mapGet m t + ((grams.count t : Nat) : K) := by
  induction grams generalizing m with
  | nil => simp
  | cons g grams ih =>
    simp only [List.foldl_cons, ih, mapGet_mapSet, List.count_cons]
    by_cases h : g = t
    · subst h
      simp only [if_true, beq_self_eq_true]
      push_cast
      ring
    · have h' : (g == t) = false := by simpa using h
      simp [h, h']

theorem mem_keys_count_fold {K : Type} [LinearOrderedField K] (grams : List (List Char))
    (m : List (List Char × K)) (t : List Char) :
    t ∈ (grams.foldl (fun tf g => mapSet tf g (mapGet tf g + 1)) m).map Prod.fst
      ↔ t ∈ grams ∨ t ∈ m.map Prod.fst := by
  induction grams generalizing m with
  | nil => simp
  | cons g grams ih =>
    simp only [List.foldl_cons, ih, mem_keys_mapSet, List.mem_cons]
    tauto

/-- A table built from the entries of a map with distinct keys holds, under
each key of that map, the value computed from its entry. -/
theorem mapGet_table_fold {W : Type} [Zero V] [Zero W] (val : List Char × V → W)
    (es : List (List Char × V)) (hn : (es.map Prod.fst).Nodup) (m0 : List (List Char × W))
    (t : List Char) :
    mapGet (es.foldl (fun m e => mapSet m e.1 (val e)) m0) t
      = if t ∈ es.map Prod.fst then val (t, mapGet es t) else mapGet m0 t := by
  induction es generalizing m0 with
  | nil => simp
  | cons e rest ih =>
    obtain ⟨k, v⟩ := e
    simp only [List.map_cons, List.nodup_cons] at hn
    simp only [List.foldl_cons, ih hn.2, mapGet_mapSet, List.map_cons, List.mem_cons, mapGet]
    by_cases hk : k = t
    · subst hk
      simp [hn.1]
    · have hk' : ¬ t = k := fun e => hk e.symm
      simp only [hk, hk', if_false, false_or]

theorem mem_keys_table_fold {W : Type} (key : List Char × V → List Char)
    (val : List (List Char × W) → List Char × V → W)
    (es : List (List Char × V)) (m0 : List (List Char × W)) (t : List Char) :
    t ∈ (es.foldl (fun m e => mapSet m (key e) (val m e)) m0).map Prod.fst
      ↔ t ∈ es.map key ∨ t ∈ m0.map Prod.fst := by
  induction es generalizing m0 with
  | nil => simp only [List.foldl_nil, List.map_nil, List.not_mem_nil, false_or]
  | cons e rest ih =>
    simp only [List.foldl_cons, ih, mem_keys_mapSet, List.map_cons, List.mem_cons]
    tauto

end MapFolds

/-! ## Document frequencies -/

section DocFreq

theorem dfAddDoc_fold_get (grams : List (List Char))
    (st : List (List Char × Int) × List (List Char)) (t : List Char) :
    mapGet (grams.foldl
      (fun (st : List (List Char × Int) × List (List Char)) g =>
        if g ∈ st.2 then st else (mapSet st.1 g (mapGet st.1 g + 1), g :: st.2)) st).1 t
      = mapGet st.1 t + (if t ∈ grams ∧ t ∉ st.2 then 1 else 0) := by
  induction grams generalizing st with
  | nil => simp
  | cons g grams ih =>
    simp only [List.foldl_cons]
    rw [ih]
    by_cases hg : g ∈ st.2
    · simp only [hg, if_true, List.mem_cons]
      by_cases ht : t = g
      · subst ht
        simp [hg]
      · simp [ht]
    · simp only [hg, if_false, mapGet_mapSet, List.mem_cons]
      by_cases ht : g = t
      · subst ht
        simp [hg]
      · have ht' : ¬ t = g := fun e => ht e.symm
        simp [ht, ht']

theorem dfAddDoc_get (df : List (List Char × Int)) (grams : List (List Char)) (t : List Char) :
    mapGet (dfAddDoc df grams) t = mapGet df t + (if t ∈ grams then 1 else 0) := by
  unfold dfAddDoc
  rw [dfAddDoc_fold_get]
  simp

theorem dfAddDoc_fold_keys (grams : List (List Char))
    (st : List (List Char × Int) × List (List Char)) (hn : (st.1.map Prod.fst).Nodup) :
    ((grams.foldl
      (fun (st : List (List Char × Int) × List (List Char)) g =>
        if g ∈ st.2 then st else (mapSet st.1 g (mapGet st.1 g + 1), g :: st.2)) st).1.map
        Prod.fst).Nodup := by
  induction grams generalizing st with
  | nil => exact hn
  | cons g grams ih =>
    simp only [List.foldl_cons]
    apply ih
    split
    · exact hn
    · exact nodup_keys_mapSet _ _ _ hn

theorem dfAddDoc_fold_mem (grams : List (List Char))
    (st : List (List Char × Int) × List (List Char)) (t : List Char)
    (hseen : ∀ g ∈ st.2, g ∈ st.1.map Prod.fst) :
    t ∈ (grams.foldl
      (fun (st : List (List Char × Int) × List (List Char)) g =>
        if g ∈ st.2 then st else (mapSet st.1 g (mapGet st.1 g + 1), g :: st.2)) st).1.map
        Prod.fst ↔ t ∈ grams ∨ t ∈ st.1.map Prod.fst := by
  induction grams generalizing st with
  | nil => simp
  | cons g grams ih =>
    simp only [List.foldl_cons]
    by_cases hg : g ∈ st.2
    · rw [if_pos hg, ih st hseen]
      simp only [List.mem_cons]
      constructor
      · rintro (h | h)
        · exact Or.inl (Or.inr h)
        · exact Or.inr h
      · rintro ((h | h) | h)
        · right; rw [h]; exact hseen g hg
        · exact Or.inl h
        · exact Or.inr h
    · rw [if_neg hg, ih]
      · simp only [mem_keys_mapSet, List.mem_cons]
        tauto
      · intro x hx
        simp only [mem_keys_mapSet]
        rcases List.mem_cons.mp hx with h | h
        · exact Or.inl h
        · exact Or.inr (hseen x h)

theorem df_fold_get (tokenized : List (List (List Char))) (df : List (List Char × Int))
    (t : List Char) :
    mapGet (tokenized.foldl dfAddDoc df) t
      = mapGet df t + ((tokenized.filter (fun grams => decide (t ∈ grams))).length : Int) := by
  induction tokenized generalizing df with
  | nil => simp
  | cons grams rest ih =>
    simp only [List.foldl_cons, ih, dfAddDoc_get, List.filter_cons]
    by_cases h : t ∈ grams
    · simp only [h, if_true, decide_True, List.length_cons]
      push_cast
      ring
    · simp [h]

theorem df_fold_nodup (tokenized : List (List (List Char))) (df : List (List Char × Int))
    (hn : (df.map Prod.fst).Nodup) :
    ((tokenized.foldl dfAddDoc df).map Prod.fst).Nodup := by
  induction tokenized generalizing df with
  | nil => exact hn
  | cons grams rest ih =>
    simp only [List.foldl_cons]
    exact ih _ (dfAddDoc_fold_keys grams (df, []) hn)

theorem df_fold_mem (tokenized : List (List (List Char))) (df : List (List Char × Int))
    (t : List Char) :
    t ∈ (tokenized.foldl dfAddDoc df).map Prod.fst
      ↔ (∃ grams ∈ tokenized, t ∈ grams) ∨ t ∈ df.map Prod.fst := by
  induction tokenized generalizing df with
  | nil => simp
  | cons grams rest ih =>
    simp only [List.foldl_cons, ih, List.mem_cons, exists_eq_or_imp]
    have hd : t ∈ (dfAddDoc df grams).map Prod.fst ↔ t ∈ grams ∨ t ∈ df.map Prod.fst :=
      dfAddDoc_fold_mem grams (df, []) t (by intro g hg; cases hg)
    rw [hd]
    constructor
    · rintro (h | h | h)
      · exact Or.inl (Or.inr h)
      · exact Or.inl (Or.inl h)
      · exact Or.inr h
    · rintro ((h | h) | h)
      · exact Or.inr (Or.inl h)
      · exact Or.inl h
      · exact Or.inr (Or.inr h)

/-- The document frequency the code tabulates is the number of documents that
contain the term. -/
theorem df_get (docs : List (List Char)) (t : List Char) :
    mapGet ((docs.map docGrams).foldl dfAddDoc []) t = ((docFreq docs t : Nat) : Int) := by
  rw [df_fold_get]
  simp only [mapGet, zero_add, docFreq, List.filter_map, List.length_map]
  rfl

end DocFreq

end Matcher

namespace Matcher

/-! ## TF-IDF: the weights in closed form -/

section TfidfSpec

variable {K : Type} [LinearOrderedField K]

theorem termFreq_get (grams : List (List Char)) (t : List Char) :
    mapGet (termFreq grams : List (List Char × K)) t = ((grams.count t : Nat) : K) := by
  unfold termFreq
  rw [mapGet_count_fold]
  simp [mapGet]

theorem termFreq_mem_keys (grams : List (List Char)) (t : List Char) :
    t ∈ (termFreq grams : List (List Char × K)).map Prod.fst ↔ t ∈ grams := by
  unfold termFreq
  rw [mem_keys_count_fold]
  simp

theorem termFreq_nodup (grams : List (List Char)) :
    ((termFreq grams : List (List Char × K)).map Prod.fst).Nodup :=
  nodup_keys_foldl_mapSet grams (fun _ g => g) (fun tf g => mapGet tf g + 1) [] List.nodup_nil

theorem termFreq_entry (grams : List (List Char)) (e : List Char × K)
    (he : e ∈ (termFreq grams : List (List Char × K))) :
    e.1 ∈ grams ∧ e.2 = ((grams.count e.1 : Nat) : K) := by
  constructor
  · exact (termFreq_mem_keys grams e.1).mp (List.mem_map_of_mem Prod.fst he)
  · rw [← termFreq_get grams e.1]
    exact (mapGet_of_mem_nodup _ (termFreq_nodup grams) e.1 e.2 he).symm

theorem termFreq_entry_mem (grams : List (List Char)) (g : List Char) (hg : g ∈ grams) :
    (g, ((grams.count g : Nat) : K)) ∈ (termFreq grams : List (List Char × K)) := by
  rcases mapGet_zero_or_mem (termFreq grams : List (List Char × K)) g with h | h
  · rw [termFreq_get] at h
    have hpos : 0 < grams.count g := List.count_pos_iff.mpr hg
    have : (grams.count g : K) ≠ 0 := by
      exact_mod_cast (Nat.pos_iff_ne_zero.mp hpos)
    exact absurd h this
  · rw [termFreq_get] at h
    exact h

/-- The running maximum of the loop of lines 1006-1011: it bounds the start
value and every entry, and it is the start value or the value of an entry. -/
theorem maxFold_spec (tf : List (List Char × K)) (m0 : K) :
    m0 ≤ tf.foldl (fun m e => if e.2 > m then e.2 else m) m0 ∧
    (∀ e ∈ tf, e.2 ≤ tf.foldl (fun m e => if e.2 > m then e.2 else m) m0) ∧
    (tf.foldl (fun m e => if e.2 > m then e.2 else m) m0 = m0 ∨
      ∃ e ∈ tf, tf.foldl (fun m e => if e.2 > m then e.2 else m) m0 = e.2) := by
  induction tf generalizing m0 with
  | nil => simp
  | cons e rest ih =>
    simp only [List.foldl_cons]
    obtain ⟨h1, h2, h3⟩ := ih (if e.2 > m0 then e.2 else m0)
    have hstep : m0 ≤ (if e.2 > m0 then e.2 else m0) ∧ e.2 ≤ (if e.2 > m0 then e.2 else m0) := by
      split
      · rename_i h
        exact ⟨le_of_lt h, le_refl _⟩
      · rename_i h
        exact ⟨le_refl _, not_lt.mp h⟩
    refine ⟨le_trans hstep.1 h1, ?_, ?_⟩
    · intro x hx
      rcases List.mem_cons.mp hx with hx | hx
      · rw [hx]; exact le_trans hstep.2 h1
      · exact h2 x hx
    · rcases h3 with h3 | ⟨x, hx, h3⟩
      · by_cases hgt : e.2 > m0
        · right
          refine ⟨e, List.mem_cons_self _ _, ?_⟩
          rw [h3, if_pos hgt]
        · left
          rw [h3, if_neg hgt]
      · exact Or.inr ⟨x, List.mem_cons_of_mem _ hx, h3⟩

theorem foldl_max_spec (l : List Nat) (m0 : Nat) :
    m0 ≤ l.foldl max m0 ∧ (∀ x ∈ l, x ≤ l.foldl max m0) ∧
    (l.foldl max m0 = m0 ∨ l.foldl max m0 ∈ l) := by
  induction l generalizing m0 with
  | nil => simp
  | cons a rest ih =>
    simp only [List.foldl_cons]
    obtain ⟨h1, h2, h3⟩ := ih (max m0 a)
    refine ⟨le_trans (le_max_left _ _) h1, ?_, ?_⟩
    · intro x hx
      rcases List.mem_cons.mp hx with hx | hx
      · rw [hx]; exact le_trans (le_max_right _ _) h1
      · exact h2 x hx
    · rcases h3 with h3 | h3
      · rcases max_choice m0 a with hm | hm
        · left; rw [h3, hm]
        · right; rw [h3, hm]; exact List.mem_cons_self _ _
      · exact Or.inr (List.mem_cons_of_mem _ h3)

theorem maxCount_ge (grams : List (List Char)) (g : List Char) (hg : g ∈ grams) :
    grams.count g ≤ maxCount grams :=
  (foldl_max_spec _ 0).2.1 _ (List.mem_map_of_mem (fun g => grams.count g) hg)

theorem maxCount_pos (grams : List (List Char)) (g : List Char) (hg : g ∈ grams) :
    1 ≤ maxCount grams :=
  le_trans (List.count_pos_iff.mpr hg) (maxCount_ge grams g hg)

theorem maxCount_attained (grams : List (List Char)) (g : List Char) (hg : g ∈ grams) :
    ∃ g' ∈ grams, maxCount grams = grams.count g' := by
  rcases (foldl_max_spec (grams.map (fun g => grams.count g)) 0).2.2 with h | h
  · have := maxCount_pos grams g hg
    unfold maxCount at this
    omega
  · obtain ⟨g', hg', heq⟩ := List.mem_map.mp h
    exact ⟨g', hg', heq.symm⟩

/-- For a document with at least one term, `maxTf` is the largest number of
occurrences of a term. -/
theorem maxTermFreq_eq_maxCount (grams : List (List Char)) (g : List Char) (hg : g ∈ grams) :
    maxTermFreq (termFreq grams : List (List Char × K)) = ((maxCount grams : Nat) : K) := by
  obtain ⟨h1, h2, h3⟩ := maxFold_spec (termFreq grams : List (List Char × K)) 1
  apply le_antisymm
  · rcases h3 with h3 | ⟨e, he, h3⟩
    · unfold maxTermFreq
      rw [h3]
      exact_mod_cast maxCount_pos grams g hg
    · unfold maxTermFreq
      rw [h3]
      obtain ⟨hmem, hval⟩ := termFreq_entry grams e he
      rw [hval]
      exact_mod_cast maxCount_ge grams e.1 hmem
  · obtain ⟨g', hg', heq⟩ := maxCount_attained grams g hg
    rw [heq]
    exact h2 _ (termFreq_entry_mem grams g' hg')

/-- The entry of the table `idf` for a term of the corpus. -/
theorem idfTable_get (log : K → K) (docs : List (List Char)) (t : List Char)
    (ht : ∃ d ∈ docs, t ∈ docGrams d) :
    mapGet (idfTable log (docs.length : K) ((docs.map docGrams).foldl dfAddDoc [])) t
      = idfSpec log docs.length (docFreq docs t) := by
  unfold idfTable
  rw [mapGet_table_fold
    (fun (e : List Char × Int) => log ((1 + (docs.length : K)) / (1 + (e.2 : K))) + 1) _
    (df_fold_nodup _ [] List.nodup_nil)]
  have hmem : t ∈ ((docs.map docGrams).foldl dfAddDoc []).map Prod.fst := by
    rw [df_fold_mem]
    left
    obtain ⟨d, hd, htd⟩ := ht
    exact ⟨docGrams d, List.mem_map_of_mem docGrams hd, htd⟩
  rw [if_pos hmem]
  simp only [df_get, idfSpec, Int.cast_natCast]

theorem docFreq_le (docs : List (List Char)) (t : List Char) : docFreq docs t ≤ docs.length :=
  List.length_filter_le _ _

theorem idfSpec_pos (log : K → K) (hlog : ∀ x : K, 1 ≤ x → 0 ≤ log x) (n df : Nat)
    (h : df ≤ n) : 0 < idfSpec log n df := by
  unfold idfSpec
  have hd : (0 : K) < 1 + (df : K) := by positivity
  have hle : (1 : K) + (df : K) ≤ 1 + (n : K) := by
    have : (df : K) ≤ (n : K) := by exact_mod_cast h
    linarith
  have h1 : (1 : K) ≤ (1 + (n : K)) / (1 + (df : K)) := by
    rw [le_div_iff₀ hd]
    linarith
  have := hlog _ h1
  linarith

/-- The weight loop of lines 1012-1016, read entry by entry. -/
theorem weights_get (tf idf : List (List Char × K)) (maxTf : K)
    (hn : (tf.map Prod.fst).Nodup) (t : List Char) :
    mapGet (tf.foldl (fun vec e => mapSet vec e.1 ((e.2 / maxTf) * mapGet idf e.1)) []) t
      = if t ∈ tf.map Prod.fst then (mapGet tf t / maxTf) * mapGet idf t else 0 := by
  rw [mapGet_table_fold (fun e => (e.2 / maxTf) * mapGet idf e.1) tf hn]
  rfl

theorem weights_mem_keys (tf idf : List (List Char × K)) (maxTf : K) (t : List Char) :
    t ∈ (tf.foldl (fun vec e => mapSet vec e.1 ((e.2 / maxTf) * mapGet idf e.1)) []).map Prod.fst
      ↔ t ∈ tf.map Prod.fst := by
  rw [mem_keys_table_fold Prod.fst (fun _ e => (e.2 / maxTf) * mapGet idf e.1)]
  simp

end TfidfSpec

/-! ## Bigrams -/

section Bigrams

theorem stringsJoin_pair (a b : List Char) : stringsJoin [a, b] [' '] = a ++ ' ' :: b := by
  simp [stringsJoin]

theorem buildNgrams_two (tokens : List (List Char)) :
    buildNgrams tokens 2 = adjacentBigrams tokens := by
  induction tokens with
  | nil => rfl
  | cons a rest ih =>
    cases rest with
    | nil => rfl
    | cons b rest =>
      have hstep : buildNgrams (a :: b :: rest) 2
          = stringsJoin [a, b] [' '] :: buildNgrams (b :: rest) 2 := by
        unfold buildNgrams
        simp only [show ¬ (2 ≤ 1) by decide, if_false, List.length_cons]
        have hlen : rest.length + 1 + 1 + 1 - 2 = (rest.length + 1 + 1 - 2) + 1 := by omega
        rw [hlen, List.range_succ_eq_map, List.map_cons, List.map_map]
        rfl
      rw [hstep, ih, stringsJoin_pair]
      rfl

theorem buildNgrams_one (tokens : List (List Char)) : buildNgrams tokens 1 = tokens := by
  simp [buildNgrams]

theorem docGrams_eq (doc : List Char) :
    docGrams doc = fields doc ++ adjacentBigrams (fields doc) := by
  unfold docGrams
  simp only [buildNgrams_one, buildNgrams_two]

end Bigrams

end Matcher

namespace Matcher

/-! ## TF-IDF: the vector of one document -/

section TfidfVector

variable {K : Type} [LinearOrderedField K]

/-- The vector the map body of `buildTfidfVectors` builds from the terms of a document. -/
theorem buildTfidfVectors_get (log : K → K) (docs : List (List Char)) (i : Nat) :
    (buildTfidfVectors log docs).get? i
      = (docs.get? i).map (fun doc =>
          (termFreq (docGrams doc) : List (List Char × K)).foldl
            (fun vec e => mapSet vec e.1
              ((e.2 / maxTermFreq (termFreq (docGrams doc) : List (List Char × K)))
                * mapGet (idfTable log (docs.length : K)
                    ((docs.map docGrams).foldl dfAddDoc [])) e.1)) []) := by
  unfold buildTfidfVectors
  simp only [List.get?_eq_getElem?, List.getElem?_map, Option.map_map]
  rfl

/-- C18: for every corpus `docs` of N documents and every document `doc` of it
(at index `i`), buildTfidfVectors builds at index `i` a map whose keys are
exactly the unigrams (whitespace tokens) and the adjacent-token bigrams of
`doc`; the weight of each key `t` is
(count of t in doc / maximum count of a term in doc) * (ln((1+N)/(1+df(t))) + 1)
with df(t) the number of documents of the corpus that contain `t`; every weight
is strictly positive, and a term whose count is the maximum has weight idf(t). -/
theorem buildTfidfVectors_spec (log : K → K) (hlog : ∀ x : K, 1 ≤ x → 0 ≤ log x)
    (docs : List (List Char)) (i : Nat) (doc : List Char) (hdoc : docs.get? i = some doc) :
    docGrams doc = fields doc ++ adjacentBigrams (fields doc) ∧
    ∃ vec, (buildTfidfVectors log docs).get? i = some vec ∧
      (vec.map Prod.fst).Nodup ∧
      (∀ t, t ∈ vec.map Prod.fst ↔ t ∈ fields doc ∨ t ∈ adjacentBigrams (fields doc)) ∧
      (∀ t ∈ vec.map Prod.fst,
        mapGet vec t = tfidfSpec log docs doc t ∧ 0 < mapGet vec t ∧
        ((docGrams doc).count t = maxCount (docGrams doc) →
          mapGet vec t = idfSpec log docs.length (docFreq docs t))) := by
  refine ⟨docGrams_eq doc, ?_⟩
  rw [buildTfidfVectors_get, hdoc]
  refine ⟨_, rfl, ?_, ?_, ?_⟩
  · exact nodup_keys_foldl_mapSet _ (fun _ (e : List Char × K) => e.1) _ [] List.nodup_nil
  · intro t
    rw [weights_mem_keys, termFreq_mem_keys, docGrams_eq, List.mem_append]
  · intro t ht
    rw [weights_mem_keys, termFreq_mem_keys] at ht
    have hdmem : doc ∈ docs := List.get?_mem hdoc
    have hval : mapGet ((termFreq (docGrams doc) : List (List Char × K)).foldl
        (fun vec e => mapSet vec e.1
          ((e.2 / maxTermFreq (termFreq (docGrams doc) : List (List Char × K)))
            * mapGet (idfTable log (docs.length : K)
                ((docs.map docGrams).foldl dfAddDoc [])) e.1)) []) t
        = tfidfSpec log docs doc t := by
      rw [weights_get _ _ _ (termFreq_nodup _),
        if_pos ((termFreq_mem_keys (docGrams doc) t).mpr ht), termFreq_get,
        maxTermFreq_eq_maxCount (docGrams doc) t ht, idfTable_get log docs t ⟨doc, hdmem, ht⟩]
      rfl
    have hc : (0 : K) < (((docGrams doc).count t : Nat) : K) := by
      exact_mod_cast List.count_pos_iff.mpr ht
    have hm : (0 : K) < ((maxCount (docGrams doc) : Nat) : K) := by
      exact_mod_cast maxCount_pos (docGrams doc) t ht
    have hidf := idfSpec_pos log hlog docs.length (docFreq docs t) (docFreq_le docs t)
    refine ⟨hval, ?_, ?_⟩
    · rw [hval]
      unfold tfidfSpec
      exact mul_pos (div_pos hc hm) hidf
    · intro hmax
      rw [hval]
      unfold tfidfSpec
      rw [hmax, div_self (ne_of_gt hm), one_mul]

end TfidfVector

/-- Witness for C18: the corpus of the documents "go go sql" and "sql" over the
reals with the natural logarithm, at the first document. -/
theorem buildTfidfVectors_spec_witness :
    (∀ x : ℝ, 1 ≤ x → 0 ≤ Real.log x) ∧
    ["go go sql".toList, "sql".toList].get? 0 = some "go go sql".toList ∧
    (docGrams "go go sql".toList
        = fields "go go sql".toList ++ adjacentBigrams (fields "go go sql".toList) ∧
      ∃ vec, (buildTfidfVectors Real.log ["go go sql".toList, "sql".toList]).get? 0 = some vec ∧
        (vec.map Prod.fst).Nodup ∧
        (∀ t, t ∈ vec.map Prod.fst ↔
          t ∈ fields "go go sql".toList ∨ t ∈ adjacentBigrams (fields "go go sql".toList)) ∧
        (∀ t ∈ vec.map Prod.fst,
          mapGet vec t = tfidfSpec Real.log ["go go sql".toList, "sql".toList]
            "go go sql".toList t ∧ 0 < mapGet vec t ∧
          ((docGrams "go go sql".toList).count t = maxCount (docGrams "go go sql".toList) →
            mapGet vec t = idfSpec Real.log ["go go sql".toList, "sql".toList].length
              (docFreq ["go go sql".toList, "sql".toList] t)))) :=
  ⟨real_log_nonneg, rfl,
   buildTfidfVectors_spec Real.log real_log_nonneg ["go go sql".toList, "sql".toList] 0
     "go go sql".toList rfl⟩

end Matcher

namespace Matcher

/-! ## Text normalisation: the shape of the output -/

section Normalize

/-- Replacing the matches of `nonWordRe` by a space turns every character
outside the class `[a-z0-9\s\+#]` into a space and keeps the others. -/
theorem replaceAllAux_nonWord (prev : Option Char) (cs : List Char) :
    replaceAllAux nonWordReMatch 0 prev cs
      = cs.map (fun c => if isKeptChar c then c else ' ') := by
  induction cs generalizing prev with
  | nil => rfl
  | cons c cs ih =>
    by_cases hk : isKeptChar c = true
    · rw [replaceAllAux_nomatch nonWordReMatch prev c cs
        (by intro n; simp [nonWordReMatch, hk]), ih]
      simp [hk]
    · have hm : nonWordReMatch prev (c :: cs) = some (0 + 1) := by simp [nonWordReMatch, hk]
      rw [replaceAllAux_match nonWordReMatch prev c cs 0 hm, ih]
      simp [hk]

theorem replaceAll_nonWord (cs : List Char) :
    replaceAll nonWordReMatch cs = cs.map (fun c => if isKeptChar c then c else ' ') :=
  replaceAllAux_nonWord none cs

theorem isTokenChar_of_kept (c : Char) (hk : isKeptChar c = true) (hs : isSpace c = false) :
    isTokenChar c = true := by
  unfold isKeptChar at hk
  unfold isSpace at hs
  unfold isTokenChar
  simp only [Bool.or_eq_true, Bool.or_eq_false_iff, decide_eq_true_eq, decide_eq_false_iff_not,
    isReSpace, Bool.and_eq_false_imp] at hk hs ⊢
  rcases hk with (((h | h) | h) | h) | h
  · exact Or.inl (Or.inl (Or.inl h))
  · exact Or.inl (Or.inl (Or.inr h))
  · exfalso
    obtain ⟨⟨⟨⟨⟨⟨⟨⟨⟨⟨⟨⟨⟨⟨h9, h10⟩, _⟩, h12⟩, h13⟩, h32⟩, _⟩, _⟩, _⟩, _⟩, _⟩, _⟩, _⟩, _⟩, _⟩ := hs
    rcases h with (((h | h) | h) | h) | h
    · exact h9 h
    · exact h10 h
    · exact h12 h
    · exact h13 h
    · exact h32 h
  · exact Or.inl (Or.inr h)
  · exact Or.inr h

theorem isSpace_space : isSpace ' ' = true := by decide

theorem ne_space_of_not_isSpace (c : Char) (h : isSpace c = false) : c ≠ ' ' := by
  intro hc
  rw [hc, isSpace_space] at h
  cases h

/-- The tokens `strings.Fields` returns are non-empty, free of white space, and
made of characters of the text. -/
theorem fieldsAux_tokens (P : Char → Prop) (s cur : List Char)
    (hcur : ∀ c ∈ cur, isSpace c = false ∧ P c) (hs : ∀ c ∈ s, P c) :
    ∀ tok ∈ fieldsAux s cur, tok ≠ [] ∧ ∀ c ∈ tok, isSpace c = false ∧ P c := by
  induction s generalizing cur with
  | nil =>
    intro tok htok
    unfold fieldsAux at htok
    split at htok
    · cases htok
    · rename_i hne
      simp only [List.mem_singleton] at htok
      subst htok
      exact ⟨by simpa using hne, fun c hc => hcur c (List.mem_reverse.mp hc)⟩
  | cons c cs ih =>
    intro tok htok
    have hcs : ∀ c ∈ cs, P c := fun x hx => hs x (List.mem_cons_of_mem _ hx)
    have hnil : ∀ c ∈ ([] : List Char), isSpace c = false ∧ P c := fun x hx => by cases hx
    unfold fieldsAux at htok
    by_cases hsp : isSpace c = true
    · rw [if_pos hsp] at htok
      by_cases hcur0 : cur = []
      · rw [if_pos hcur0] at htok
        exact ih [] hnil hcs tok htok
      · rw [if_neg hcur0] at htok
        rcases List.mem_cons.mp htok with h | h
        · subst h
          exact ⟨by simpa using hcur0, fun x hx => hcur x (List.mem_reverse.mp hx)⟩
        · exact ih [] hnil hcs tok h
    · rw [if_neg hsp] at htok
      apply ih (c :: cur) ?_ hcs tok htok
      intro x hx
      rcases List.mem_cons.mp hx with h | h
      · subst h
        exact ⟨by simpa using hsp, hs _ (List.mem_cons_self _ _)⟩
      · exact hcur x h

theorem fields_tokens (P : Char → Prop) (s : List Char) (hs : ∀ c ∈ s, P c) :
    ∀ tok ∈ fields s, tok ≠ [] ∧ ∀ c ∈ tok, isSpace c = false ∧ P c :=
  fieldsAux_tokens P s [] (fun x hx => by cases hx) hs

theorem fieldsAux_append_token (tok rest cur : List Char) (h : ∀ c ∈ tok, isSpace c = false) :
    fieldsAux (tok ++ rest) cur = fieldsAux rest (tok.reverse ++ cur) := by
  induction tok generalizing cur with
  | nil => rfl
  | cons c tok ih =>
    have hc : isSpace c = false := h c (List.mem_cons_self _ _)
    rw [List.cons_append, fieldsAux, if_neg (by simp [hc]),
      ih _ (fun x hx => h x (List.mem_cons_of_mem _ hx))]
    simp [List.reverse_cons, List.append_assoc]

theorem foldl_join_append (sep a b : List Char) (l : List (List Char)) :
    l.foldl (fun acc y => acc ++ sep ++ y) (a ++ b)
      = a ++ l.foldl (fun acc y => acc ++ sep ++ y) b := by
  induction l generalizing b with
  | nil => rfl
  | cons y l ih =>
    simp only [List.foldl_cons]
    rw [← ih (b ++ sep ++ y)]
    simp [List.append_assoc]

theorem stringsJoin_cons_cons (x y : List Char) (rest : List (List Char)) (sep : List Char) :
    stringsJoin (x :: y :: rest) sep = x ++ sep ++ stringsJoin (y :: rest) sep := by
  unfold stringsJoin
  simp only [List.foldl_cons]
  rw [← foldl_join_append]

theorem stringsJoin_single (x sep : List Char) : stringsJoin [x] sep = x := rfl

/-- Splitting a text that was joined from space-free words gives the words back. -/
theorem fields_join (toks : List (List Char))
    (h : ∀ tok ∈ toks, tok ≠ [] ∧ ∀ c ∈ tok, isSpace c = false) :
    fields (stringsJoin toks [' ']) = toks := by
  induction toks with
  | nil => rfl
  | cons x rest ih =>
    obtain ⟨hne, hsp⟩ := h x (List.mem_cons_self _ _)
    have hrev : x.reverse ++ [] ≠ [] := by simpa using hne
    cases rest with
    | nil =>
      rw [stringsJoin_single]
      unfold fields
      have := fieldsAux_append_token x [] [] hsp
      rw [List.append_nil] at this
      rw [this, fieldsAux, if_neg hrev]
      simp
    | cons y rest =>
      rw [stringsJoin_cons_cons]
      unfold fields
      rw [List.append_assoc, fieldsAux_append_token x _ [] hsp]
      rw [List.singleton_append, fieldsAux, if_pos isSpace_space, if_neg hrev]
      have ih' := ih (fun tok htok => h tok (List.mem_cons_of_mem _ htok))
      unfold fields at ih'
      rw [ih']
      simp

theorem hasDoubleSpace_cons (c : Char) (l : List Char) (hc : c ≠ ' ') :
    hasDoubleSpace (c :: l) = hasDoubleSpace l := by
  cases l with
  | nil => rfl
  | cons d l => simp [hasDoubleSpace, hc]

theorem hasDoubleSpace_append (x rest : List Char) (hx : ∀ c ∈ x, c ≠ ' ') :
    hasDoubleSpace (x ++ rest) = hasDoubleSpace rest := by
  induction x with
  | nil => rfl
  | cons c x ih =>
    rw [List.cons_append, hasDoubleSpace_cons _ _ (hx c (List.mem_cons_self _ _)),
      ih (fun d hd => hx d (List.mem_cons_of_mem _ hd))]

/-- A text joined from non-empty space-free words has no space at either end
and no two spaces in a row. -/
theorem stringsJoin_shape (toks : List (List Char))
    (h : ∀ tok ∈ toks, tok ≠ [] ∧ ∀ c ∈ tok, c ≠ ' ') :
    (stringsJoin toks [' ']).head? ≠ some ' ' ∧
    (stringsJoin toks [' ']).getLast? ≠ some ' ' ∧
    hasDoubleSpace (stringsJoin toks [' ']) = false ∧
    (toks ≠ [] → stringsJoin toks [' '] ≠ []) := by
  induction toks with
  | nil => simp [stringsJoin, hasDoubleSpace]
  | cons x rest ih =>
    obtain ⟨hne, hsp⟩ := h x (List.mem_cons_self _ _)
    obtain ⟨c, x', rfl⟩ := List.exists_cons_of_ne_nil hne
    have hc : c ≠ ' ' := hsp c (List.mem_cons_self _ _)
    cases rest with
    | nil =>
      rw [stringsJoin_single]
      refine ⟨?_, ?_, ?_, fun _ => hne⟩
      · simpa using hc
      · intro hl
        exact hsp ' ' (List.mem_of_getLast?_eq_some hl) rfl
      · have := hasDoubleSpace_append (c :: x') [] hsp
        rw [List.append_nil] at this
        rw [this]
        rfl
    | cons y rest =>
      obtain ⟨h1, h2, h3, h4⟩ := ih (fun tok htok => h tok (List.mem_cons_of_mem _ htok))
      have hJ := h4 (List.cons_ne_nil _ _)
      rw [stringsJoin_cons_cons]
      obtain ⟨d, J, hJd⟩ := List.exists_cons_of_ne_nil hJ
      rw [hJd] at h1 h2 h3 ⊢
      have hd : d ≠ ' ' := by simpa using h1
      refine ⟨?_, ?_, ?_, fun _ => by simp⟩
      · simpa using hc
      · rw [List.append_assoc, List.getLast?_append_of_ne_nil _ (by simp),
          List.singleton_append, List.getLast?_cons_cons]
        exact h2
      · rw [List.append_assoc, hasDoubleSpace_append _ _ hsp, List.singleton_append]
        simp only [hasDoubleSpace, hd, decide_False, Bool.and_false, Bool.false_or]
        exact h3

theorem mem_stringsJoin (toks : List (List Char)) (c : Char)
    (hc : c ∈ stringsJoin toks [' ']) : c = ' ' ∨ ∃ tok ∈ toks, c ∈ tok := by
  induction toks with
  | nil => cases hc
  | cons x rest ih =>
    cases rest with
    | nil =>
      rw [stringsJoin_single] at hc
      exact Or.inr ⟨x, List.mem_cons_self _ _, hc⟩
    | cons y rest =>
      rw [stringsJoin_cons_cons] at hc
      simp only [List.mem_append, List.mem_singleton] at hc
      rcases hc with (hc | hc) | hc
      · exact Or.inr ⟨x, List.mem_cons_self _ _, hc⟩
      · exact Or.inl hc
      · rcases ih hc with h | ⟨tok, htok, h⟩
        · exact Or.inl h
        · exact Or.inr ⟨tok, List.mem_cons_of_mem _ htok, h⟩

/-- The tokens `normalizeText` joins: non-empty words over `a-z`, `0-9`, `+`,
`#`, none of them a stopword. -/
theorem normalizeText_tokens (unicodeLower : Char → Char) (text : List Char) :
    ∀ tok ∈ (fields (replaceAll nonWordReMatch
        (stringsToLower unicodeLower (redactPII text)))).filter (fun tok => !isStopword tok),
      isStopword tok = false ∧ tok ≠ [] ∧
        ∀ c ∈ tok, isSpace c = false ∧ isTokenChar c = true := by
  intro tok htok
  obtain ⟨hmem, hstop⟩ := List.mem_filter.mp htok
  rw [replaceAll_nonWord] at hmem
  have h := fields_tokens (fun c => isKeptChar c = true ∨ c = ' ') _
    (by
      intro c hc
      obtain ⟨d, _, hd⟩ := List.mem_map.mp hc
      by_cases hk : isKeptChar d = true
      · rw [if_pos hk] at hd
        rw [← hd]
        exact Or.inl hk
      · rw [if_neg hk] at hd
        exact Or.inr hd.symm) tok hmem
  refine ⟨by simpa using hstop, h.1, ?_⟩
  intro c hc
  obtain ⟨hsp, hk⟩ := h.2 c hc
  refine ⟨hsp, ?_⟩
  rcases hk with hk | hk
  · exact isTokenChar_of_kept c hk hsp
  · exact absurd hk (ne_space_of_not_isSpace c hsp)

/-- C11: for every text, (a) normalizeText returns a string whose characters
are a-z, 0-9, '+', '#' or a space, with no space at the start or at the end and
no two spaces in a row; (b) no token of it is a stopword; (c) its tokens are, in
their original order, the tokens of the redacted, lower-cased and
punctuation-stripped text that are not stopwords.  (The code redacts first and
lower-cases second.) -/
theorem normalizeText_spec (unicodeLower : Char → Char) (text : List Char) :
    ((∀ c ∈ normalizeText unicodeLower text, isTokenChar c = true ∨ c = ' ') ∧
      (normalizeText unicodeLower text).head? ≠ some ' ' ∧
      (normalizeText unicodeLower text).getLast? ≠ some ' ' ∧
      hasDoubleSpace (normalizeText unicodeLower text) = false) ∧
    (∀ tok ∈ fields (normalizeText unicodeLower text), isStopword tok = false) ∧
    fields (normalizeText unicodeLower text)
      = (fields (replaceAll nonWordReMatch
          (stringsToLower unicodeLower (redactPII text)))).filter
            (fun tok => !isStopword tok) := by
  have htoks := normalizeText_tokens unicodeLower text
  have hfields : fields (normalizeText unicodeLower text)
      = (fields (replaceAll nonWordReMatch
          (stringsToLower unicodeLower (redactPII text)))).filter
            (fun tok => !isStopword tok) := by
    unfold normalizeText
    exact fields_join _ (fun tok htok =>
      ⟨(htoks tok htok).2.1, fun c hc => ((htoks tok htok).2.2 c hc).1⟩)
  have hjoin : normalizeText unicodeLower text
      = stringsJoin ((fields (replaceAll nonWordReMatch
          (stringsToLower unicodeLower (redactPII text)))).filter
            (fun tok => !isStopword tok)) [' '] := by
    unfold normalizeText
    rfl
  have hshape := stringsJoin_shape _ (fun tok htok =>
    ⟨(htoks tok htok).2.1,
      fun c hc => ne_space_of_not_isSpace c ((htoks tok htok).2.2 c hc).1⟩)
  rw [← hjoin] at hshape
  refine ⟨⟨?_, hshape.1, hshape.2.1, hshape.2.2.1⟩, ?_, hfields⟩
  · intro c hc
    rw [hjoin] at hc
    rcases mem_stringsJoin _ c hc with h | ⟨tok, htok, h⟩
    · exact Or.inr h
    · exact Or.inl ((htoks tok htok).2.2 c h).2
  · intro tok htok
    rw [hfields] at htok
    exact (htoks tok htok).1

end Normalize

end Matcher

namespace Matcher

/-! ## String order and the uniqueness of a sorted slice -/

section StrOrder

theorem char_eq_of_toNat_eq (a b : Char) (h : a.toNat = b.toNat) : a = b := by
  rw [← Char.ofNat_toNat a, ← Char.ofNat_toNat b, h]

theorem strLt_irrefl (a : List Char) : strLt a a = false := by
  induction a with
  | nil => rfl
  | cons c a ih => simp [strLt, ih]

theorem strLt_asymm (a b : List Char) (h : strLt a b = true) : strLt b a = false := by
  induction a generalizing b with
  | nil => cases b <;> simp [strLt] at h ⊢
  | cons c a ih =>
    cases b with
    | nil => simp [strLt] at h
    | cons d b =>
      simp only [strLt] at h ⊢
      by_cases h1 : c.toNat < d.toNat
      · have h2 : ¬ d.toNat < c.toNat := by omega
        have h3 : ¬ d.toNat = c.toNat := by omega
        simp [h2, h3]
      · simp only [h1, if_false] at h
        by_cases h2 : c.toNat = d.toNat
        · simp only [h2, if_true] at h
          have h3 : ¬ d.toNat < c.toNat := by omega
          simp only [h2, lt_self_iff_false, if_false, if_true]
          exact ih b h
        · simp [h2] at h

theorem strLt_total (a b : List Char) (h1 : strLt a b = false) (h2 : strLt b a = false) :
    a = b := by
  induction a generalizing b with
  | nil =>
    cases b with
    | nil => rfl
    | cons d b => simp [strLt] at h1
  | cons c a ih =>
    cases b with
    | nil => simp [strLt] at h2
    | cons d b =>
      simp only [strLt] at h1 h2
      by_cases hcd : c.toNat < d.toNat
      · simp [hcd] at h1
      · by_cases hdc : d.toNat < c.toNat
        · simp [hdc] at h2
        · have heq : c.toNat = d.toNat := by omega
          simp only [heq, lt_self_iff_false, if_false, if_true] at h1
          simp only [heq, lt_self_iff_false, if_false, if_true] at h2
          rw [char_eq_of_toNat_eq c d heq, ih b h1 h2]

theorem strLt_trans (a b c : List Char) (h1 : strLt a b = true) (h2 : strLt b c = true) :
    strLt a c = true := by
  induction a generalizing b c with
  | nil =>
    cases b with
    | nil => simp [strLt] at h1
    | cons y b =>
      cases c with
      | nil => simp [strLt] at h2
      | cons z c => rfl
  | cons x a ih =>
    cases b with
    | nil => simp [strLt] at h1
    | cons y b =>
      cases c with
      | nil => simp [strLt] at h2
      | cons z c =>
        simp only [strLt] at h1 h2 ⊢
        by_cases hxy : x.toNat < y.toNat
        · by_cases hyz : y.toNat < z.toNat
          · have : x.toNat < z.toNat := by omega
            simp [this]
          · simp only [hyz, if_false] at h2
            by_cases hyz' : y.toNat = z.toNat
            · have : x.toNat < z.toNat := by omega
              simp [this]
            · simp [hyz'] at h2
        · simp only [hxy, if_false] at h1
          by_cases hxy' : x.toNat = y.toNat
          · simp only [hxy', if_true] at h1
            by_cases hyz : y.toNat < z.toNat
            · have : x.toNat < z.toNat := by omega
              simp [this]
            · simp only [hyz, if_false] at h2
              by_cases hyz' : y.toNat = z.toNat
              · simp only [hyz', if_true] at h2
                have h3 : ¬ x.toNat < z.toNat := by omega
                have h4 : x.toNat = z.toNat := by omega
                simp only [h4, lt_self_iff_false, if_false, if_true]
                exact ih b c h1 h2
              · simp [hyz'] at h2
          · simp [hxy'] at h1

/-- "Not less" is transitive for the string order. -/
theorem strLt_negtrans (a b c : List Char) (h1 : strLt b a = false) (h2 : strLt c b = false) :
    strLt c a = false := by
  cases hca : strLt c a with
  | false => rfl
  | true =>
    exfalso
    cases hab : strLt a b with
    | true =>
      have := strLt_trans c a b hca hab
      rw [h2] at this
      cases this
    | false =>
      have heq := strLt_total a b hab h1
      rw [heq, h2] at hca
      cases hca

end StrOrder

section SortUnique

variable {α : Type}

/-- For a strict total order, a slice has one sorted arrangement: every sort
that meets the contract of `sort.Slice` returns it, whatever the order of the
input. -/
theorem sort_unique (less : α → α → Bool)
    (hasym : ∀ a b, less a b = true → less b a = false)
    (hneg : ∀ a b c, less b a = false → less c b = false → less c a = false)
    (htotal : ∀ a b, less a b = false → less b a = false → a = b)
    (srt : (α → α → Bool) → List α → List α) (hsrt : SortSliceContract srt)
    (xs ys : List α) (hperm : xs.Perm ys) :
    srt less xs = insertionSortBy less ys := by
  haveI : IsAntisymm α (fun a b => less b a = false) :=
    ⟨fun a b hab hba => htotal a b hba hab⟩
  have h1 := hsrt less xs
  have h2 := (insertionSortBy_contract : SortSliceContract
    (insertionSortBy : (α → α → Bool) → List α → List α)) less ys
  exact List.eq_of_perm_of_sorted (h1.1.trans (hperm.trans h2.1.symm))
    (h1.2 hasym hneg) (h2.2 hasym hneg)

/-- The string order is a strict total order, so `sort.Strings` has one result. -/
theorem sortStrings_perm (xs ys : List (List Char)) (h : xs.Perm ys) :
    sortStrings xs = sortStrings ys :=
  sort_unique strLt strLt_asymm strLt_negtrans strLt_total insertionSortBy
    insertionSortBy_contract xs ys h

theorem perm_sortStrings (xs : List (List Char)) : (sortStrings xs).Perm xs :=
  List.perm_insertionSort _ xs

theorem mem_sortStrings (xs : List (List Char)) (s : List Char) :
    s ∈ sortStrings xs ↔ s ∈ xs :=
  (perm_sortStrings xs).mem_iff

/-- Sorting distinct strings gives a strictly ascending slice. -/
theorem sortStrings_strict (xs : List (List Char)) (hn : xs.Nodup) :
    (sortStrings xs).Pairwise (fun a b => strLt a b = true) := by
  have hs := (insertionSortBy_contract : SortSliceContract
    (insertionSortBy : (List Char → List Char → Bool) → List (List Char) → List (List Char)))
    strLt xs
  have hsorted := hs.2 strLt_asymm strLt_negtrans
  have hnd : (sortStrings xs).Nodup := (perm_sortStrings xs).nodup_iff.mpr hn
  have hboth := hsorted.and hnd
  refine hboth.imp ?_
  intro a b hab
  cases h : strLt a b with
  | true => rfl
  | false => exact absurd (strLt_total a b h hab.1) hab.2

end SortUnique

end Matcher

namespace Matcher

/-! ## Salient terms -/

section TopTerms

theorem foldl_skip_eq_filter {α β : Type} (p : α → Bool) (f : β → α → β) (l : List α)
    (init : β) :
    l.foldl (fun acc t => if p t then acc else f acc t) init
      = (l.filter (fun t => !p t)).foldl f init := by
  induction l generalizing init with
  | nil => rfl
  | cons x l ih =>
    by_cases hp : p x = true
    · simp only [List.foldl_cons, hp, if_true, List.filter_cons, Bool.not_true,
        Bool.false_eq_true, if_false, ih]
    · have hp' : p x = false := by simpa using hp
      simp only [List.foldl_cons, hp', Bool.false_eq_true, if_false, List.filter_cons,
        Bool.not_false, if_true, ih]

theorem termCounts_eq (text : List Char) :
    termCounts text
      = ((fields text).filter (fun t => !isStopword t)).foldl
          (fun freq t => mapSet freq t (mapGet freq t + 1)) [] := by
  unfold termCounts
  exact foldl_skip_eq_filter isStopword
    (fun (freq : List (List Char × Int)) t => mapSet freq t (mapGet freq t + 1)) _ []

theorem mapGet_count_fold_int (grams : List (List Char)) (m : List (List Char × Int))
    (t : List Char) :
    mapGet (grams.foldl (fun tf g => mapSet tf g (mapGet tf g + 1)) m) t
      = mapGet m t + ((grams.count t : Nat) : Int) := by
  induction grams generalizing m with
  | nil => simp
  | cons g grams ih =>
    simp only [List.foldl_cons, ih, mapGet_mapSet, List.count_cons]
    by_cases h : g = t
    · subst h
      simp only [if_true, beq_self_eq_true]
      push_cast
      ring
    · have h' : (g == t) = false := by simpa using h
      simp [h, h']

theorem mem_keys_count_fold_int (grams : List (List Char)) (m : List (List Char × Int))
    (t : List Char) :
    t ∈ (grams.foldl (fun tf g => mapSet tf g (mapGet tf g + 1)) m).map Prod.fst
      ↔ t ∈ grams ∨ t ∈ m.map Prod.fst := by
  induction grams generalizing m with
  | nil => simp
  | cons g grams ih =>
    simp only [List.foldl_cons, ih, mem_keys_mapSet, List.mem_cons]
    tauto

theorem termCounts_nodup (text : List Char) : ((termCounts text).map Prod.fst).Nodup := by
  rw [termCounts_eq]
  exact nodup_keys_foldl_mapSet _ (fun _ g => g) (fun tf g => mapGet tf g + 1) []
    List.nodup_nil

theorem termCounts_mem_keys (text t : List Char) :
    t ∈ (termCounts text).map Prod.fst ↔ t ∈ distinctTerms text := by
  rw [termCounts_eq, mem_keys_count_fold_int]
  unfold distinctTerms
  simp

theorem mapGet_of_mem_nodup_int (a : List (List Char × Int)) (hn : (a.map Prod.fst).Nodup)
    (k : List Char) (v : Int) (h : (k, v) ∈ a) : mapGet a k = v := by
  induction a with
  | nil => cases h
  | cons e rest ih =>
    obtain ⟨k', v'⟩ := e
    simp only [List.map_cons, List.nodup_cons] at hn
    rcases List.mem_cons.mp h with heq | hin
    · simp only [Prod.mk.injEq] at heq
      simp [mapGet, heq.1, heq.2]
    · have hne : ¬ k' = k := by
        intro hk
        apply hn.1
        rw [hk]
        exact List.mem_map_of_mem Prod.fst hin
      simp only [mapGet, hne, if_false]
      exact ih hn.2 hin

/-- The entries of `freq`: each distinct non-stopword token with the number of
its occurrences in the text. -/
theorem termCounts_entry (text : List Char) (e : List Char × Int) (he : e ∈ termCounts text) :
    e.1 ∈ distinctTerms text ∧ isStopword e.1 = false ∧
      e.2 = ((termCount text e.1 : Nat) : Int) := by
  have hkey : e.1 ∈ distinctTerms text :=
    (termCounts_mem_keys text e.1).mp (List.mem_map_of_mem Prod.fst he)
  have hstop : isStopword e.1 = false := by
    unfold distinctTerms at hkey
    have := (List.mem_filter.mp (List.mem_dedup.mp hkey)).2
    simpa using this
  refine ⟨hkey, hstop, ?_⟩
  have hget := mapGet_of_mem_nodup_int _ (termCounts_nodup text) e.1 e.2 he
  rw [← hget, termCounts_eq, mapGet_count_fold_int]
  simp only [mapGet, zero_add, termCount, Nat.cast_inj]
  rw [List.count_filter]
  simp [hstop]

theorem pairLess_iff (a b : List Char × Int) :
    pairLess a b = true ↔ b.2 < a.2 ∨ (a.2 = b.2 ∧ strLt a.1 b.1 = true) := by
  unfold pairLess
  by_cases h : a.2 = b.2
  · simp [h]
  · simp only [h, if_false, decide_eq_true_eq, false_and, or_false, gt_iff_lt]

theorem pairLess_false_iff (a b : List Char × Int) :
    pairLess a b = false ↔ a.2 < b.2 ∨ (a.2 = b.2 ∧ strLt a.1 b.1 = false) := by
  unfold pairLess
  by_cases h : a.2 = b.2
  · simp [h]
  · simp only [h, if_false, decide_eq_false_iff_not, false_and, or_false, not_lt, gt_iff_lt]
    constructor
    · intro h1
      exact lt_of_le_of_ne h1 h
    · intro h1
      exact le_of_lt h1

theorem pairLess_asymm (a b : List Char × Int) (h : pairLess a b = true) :
    pairLess b a = false := by
  rw [pairLess_iff] at h
  rw [pairLess_false_iff]
  rcases h with h | ⟨h1, h2⟩
  · exact Or.inl h
  · exact Or.inr ⟨h1.symm, strLt_asymm _ _ h2⟩

theorem pairLess_negtrans (a b c : List Char × Int) (h1 : pairLess b a = false)
    (h2 : pairLess c b = false) : pairLess c a = false := by
  rw [pairLess_false_iff] at h1 h2 ⊢
  rcases h1 with h1 | ⟨h1, h1'⟩
  · rcases h2 with h2 | ⟨h2, _⟩
    · exact Or.inl (lt_trans h2 h1)
    · exact Or.inl (by rw [h2]; exact h1)
  · rcases h2 with h2 | ⟨h2, h2'⟩
    · exact Or.inl (by rw [← h1]; exact h2)
    · exact Or.inr ⟨h2.trans h1, strLt_negtrans _ _ _ h1' h2'⟩

theorem pairLess_total (a b : List Char × Int) (h1 : pairLess a b = false)
    (h2 : pairLess b a = false) : a = b := by
  rw [pairLess_false_iff] at h1 h2
  rcases h1 with h1 | ⟨h1, h1'⟩
  · rcases h2 with h2 | ⟨h2, _⟩
    · exact absurd h1 (not_lt.mpr (le_of_lt h2))
    · rw [h2] at h1
      exact absurd h1 (lt_irrefl _)
  · rcases h2 with h2 | ⟨_, h2'⟩
    · rw [h1] at h2
      exact absurd h2 (lt_irrefl _)
    · exact Prod.ext (strLt_total _ _ h1' h2') h1

/-- Whatever the sort and the map iteration order, the sorted slice `pairs` is
the same. -/
theorem sorted_pairs_eq
    (srt : (List Char × Int → List Char × Int → Bool) →
      List (List Char × Int) → List (List Char × Int))
    (iter : List (List Char × Int) → List (List Char × Int))
    (hsrt : SortSliceContract srt) (hiter : MapRangeContract iter) (text : List Char) :
    srt pairLess (iter (termCounts text)) = insertionSortBy pairLess (termCounts text) :=
  sort_unique pairLess pairLess_asymm pairLess_negtrans pairLess_total srt hsrt _ _
    (hiter (termCounts text))

theorem sorted_pairs_strict (text : List Char) :
    (insertionSortBy pairLess (termCounts text)).Pairwise
      (fun a b => pairLess a b = true) := by
  have hs := (insertionSortBy_contract : SortSliceContract
    (insertionSortBy : (List Char × Int → List Char × Int → Bool) →
      List (List Char × Int) → List (List Char × Int))) pairLess (termCounts text)
  have hsorted := hs.2 pairLess_asymm pairLess_negtrans
  have hnd : (insertionSortBy pairLess (termCounts text)).Nodup :=
    hs.1.nodup_iff.mpr (List.Nodup.of_map Prod.fst (termCounts_nodup text))
  refine (hsorted.and hnd).imp ?_
  intro a b hab
  cases h : pairLess a b with
  | true => rfl
  | false => exact absurd (pairLess_total a b h hab.1) hab.2

/-- The keys of the sorted slice: the distinct non-stopword tokens, each
ranked before all that follow. -/
theorem sorted_keys_spec (text : List Char) :
    ((insertionSortBy pairLess (termCounts text)).map Prod.fst).Perm (distinctTerms text) ∧
    ((insertionSortBy pairLess (termCounts text)).map Prod.fst).Pairwise (ranksBefore text) := by
  have hperm : (insertionSortBy pairLess (termCounts text)).Perm (termCounts text) :=
    List.perm_insertionSort _ _
  constructor
  · refine (hperm.map Prod.fst).trans ?_
    have hd : (distinctTerms text).Nodup := List.nodup_dedup _
    rw [List.perm_ext_iff_of_nodup (termCounts_nodup text) hd]
    intro t
    exact termCounts_mem_keys text t
  · rw [List.pairwise_map]
    have hstrict := sorted_pairs_strict text
    have hall : ∀ e ∈ insertionSortBy pairLess (termCounts text),
        e.2 = ((termCount text e.1 : Nat) : Int) :=
      fun e he => (termCounts_entry text e (hperm.mem_iff.mp he)).2.2
    refine List.Pairwise.imp_of_mem ?_ hstrict
    intro a b ha hb hab
    rw [pairLess_iff, hall a ha, hall b hb] at hab
    unfold ranksBefore
    rcases hab with h | ⟨h1, h2⟩
    · exact Or.inl (by exact_mod_cast h)
    · exact Or.inr ⟨by exact_mod_cast h1, h2⟩

/-- C13: for every text and every maxTerms >= 0, whatever algorithm sort.Slice
runs and in whatever order the map is iterated, topTerms returns the first
min(maxTerms, d) entries of the list `ranked` of the d distinct non-stopword
whitespace tokens of the text ordered by frequency descending, ties by token
ascending; the result has no duplicates and no stopword, and it is the same
for every other sort and iteration order. -/
theorem topTerms_spec
    (srt : (List Char × Int → List Char × Int → Bool) →
      List (List Char × Int) → List (List Char × Int))
    (iter : List (List Char × Int) → List (List Char × Int))
    (hsrt : SortSliceContract srt) (hiter : MapRangeContract iter)
    (text : List Char) (maxTerms : Int) (hmax : 0 ≤ maxTerms) :
    ∃ ranked : List (List Char),
      ranked.Perm (distinctTerms text) ∧ ranked.Pairwise (ranksBefore text) ∧
      topTerms srt iter text maxTerms = some (ranked.take maxTerms.toNat) ∧
      (ranked.take maxTerms.toNat).length = min maxTerms.toNat (distinctTerms text).length ∧
      (ranked.take maxTerms.toNat).Nodup ∧
      (∀ t ∈ ranked.take maxTerms.toNat, isStopword t = false) ∧
      (∀ srt2 iter2, SortSliceContract srt2 → MapRangeContract iter2 →
        topTerms srt2 iter2 text maxTerms = topTerms srt iter text maxTerms) := by
  obtain ⟨hperm, hpw⟩ := sorted_keys_spec text
  have hval : ∀ srt2 iter2, SortSliceContract srt2 → MapRangeContract iter2 →
      topTerms srt2 iter2 text maxTerms
        = some (((insertionSortBy pairLess (termCounts text)).map Prod.fst).take
            maxTerms.toNat) := by
    intro srt2 iter2 h1 h2
    unfold topTerms
    simp only [sorted_pairs_eq srt2 iter2 h1 h2]
    by_cases hlen : ((insertionSortBy pairLess (termCounts text)).length : Int) > maxTerms
    · rw [if_pos hlen, if_neg (not_lt.mpr hmax), List.map_take]
    · rw [if_neg hlen]
      have hle : (insertionSortBy pairLess (termCounts text)).length ≤ maxTerms.toNat := by
        have := not_lt.mp hlen
        omega
      rw [List.take_of_length_le (by rw [List.length_map]; exact hle)]
  have hnd : ((insertionSortBy pairLess (termCounts text)).map Prod.fst).Nodup :=
    hperm.nodup_iff.mpr (List.nodup_dedup _)
  refine ⟨_, hperm, hpw, hval srt iter hsrt hiter, ?_, ?_, ?_, ?_⟩
  · rw [List.length_take, hperm.length_eq]
  · exact hnd.sublist (List.take_sublist _ _)
  · intro t ht
    have hmem := hperm.mem_iff.mp (List.mem_of_mem_take ht)
    unfold distinctTerms at hmem
    have := (List.mem_filter.mp (List.mem_dedup.mp hmem)).2
    simpa using this
  · intro srt2 iter2 h1 h2
    rw [hval srt2 iter2 h1 h2, hval srt iter hsrt hiter]

end TopTerms

theorem reverse_mapRange : MapRangeContract (List.reverse : List (List Char × Int) → _) :=
  fun m => List.reverse_perm m

/-- Witness for C13: the text "b a b the c c d" with maxTerms = 2, insertion
sort, and the map iterated back to front. -/
theorem topTerms_spec_witness :
    SortSliceContract (insertionSortBy : (List Char × Int → List Char × Int → Bool) →
      List (List Char × Int) → List (List Char × Int)) ∧
    MapRangeContract (List.reverse : List (List Char × Int) → List (List Char × Int)) ∧
    (0 : Int) ≤ 2 ∧
    ∃ ranked : List (List Char),
      ranked.Perm (distinctTerms "b a b the c c d".toList) ∧
      ranked.Pairwise (ranksBefore "b a b the c c d".toList) ∧
      topTerms insertionSortBy List.reverse "b a b the c c d".toList 2
        = some (ranked.take (2 : Int).toNat) ∧
      (ranked.take (2 : Int).toNat).length
        = min (2 : Int).toNat (distinctTerms "b a b the c c d".toList).length ∧
      (ranked.take (2 : Int).toNat).Nodup ∧
      (∀ t ∈ ranked.take (2 : Int).toNat, isStopword t = false) ∧
      (∀ srt2 iter2, SortSliceContract srt2 → MapRangeContract iter2 →
        topTerms srt2 iter2 "b a b the c c d".toList 2
          = topTerms insertionSortBy List.reverse "b a b the c c d".toList 2) :=
  ⟨insertionSortBy_contract, reverse_mapRange, by decide,
   topTerms_spec insertionSortBy List.reverse insertionSortBy_contract reverse_mapRange
     "b a b the c c d".toList 2 (by decide)⟩

end Matcher

namespace Matcher

/-! ## Skill extraction -/

section Skills

/-- `strings.Contains` is the substring relation. -/
theorem stringsContains_iff (text s : List Char) :
    stringsContains text s = true ↔ s <:+: text := by
  unfold stringsContains
  rw [List.any_eq_true, List.infix_iff_prefix_suffix]
  constructor
  · rintro ⟨t, ht, hp⟩
    exact ⟨t, List.isPrefixOf_iff_prefix.mp hp, (List.mem_tails _ _).mp ht⟩
  · rintro ⟨t, hp, ht⟩
    exact ⟨t, (List.mem_tails _ _).mpr ht, List.isPrefixOf_iff_prefix.mpr hp⟩

theorem mem_setAdd (set : List (List Char)) (k s : List Char) :
    s ∈ setAdd set k ↔ s = k ∨ s ∈ set := by
  unfold setAdd
  split
  · rename_i h
    constructor
    · exact Or.inr
    · rintro (h1 | h1)
      · rw [h1]; exact h
      · exact h1
  · simp only [List.mem_append, List.mem_singleton]
    tauto

theorem nodup_setAdd (set : List (List Char)) (k : List Char) (h : set.Nodup) :
    (setAdd set k).Nodup := by
  unfold setAdd
  split
  · exact h
  · rename_i hk
    rw [List.nodup_append]
    refine ⟨h, List.nodup_singleton k, ?_⟩
    intro a ha hb
    rw [List.mem_singleton] at hb
    exact hk (hb ▸ ha)

/-- A loop that adds the key of every element passing a test to a set. -/
theorem mem_foldl_setAdd {α : Type} (c : α → Prop) [DecidablePred c] (key : α → List Char)
    (l : List α) (init : List (List Char)) (s : List Char) :
    s ∈ l.foldl (fun set x => if c x then setAdd set (key x) else set) init
      ↔ s ∈ init ∨ ∃ x ∈ l, c x ∧ key x = s := by
  induction l generalizing init with
  | nil => simp
  | cons x l ih =>
    simp only [List.foldl_cons, ih, List.mem_cons, exists_eq_or_imp]
    by_cases hx : c x
    · simp only [hx, if_true, mem_setAdd, true_and]
      constructor
      · rintro ((h | h) | h)
        · exact Or.inr (Or.inl h.symm)
        · exact Or.inl h
        · exact Or.inr (Or.inr h)
      · rintro (h | h | h)
        · exact Or.inl (Or.inr h)
        · exact Or.inl (Or.inl h.symm)
        · exact Or.inr h
    · simp only [hx, if_false, false_and, false_or]

theorem nodup_foldl_setAdd {α : Type} (c : α → Prop) [DecidablePred c] (key : α → List Char)
    (l : List α) (init : List (List Char)) (h : init.Nodup) :
    (l.foldl (fun set x => if c x then setAdd set (key x) else set) init).Nodup := by
  induction l generalizing init with
  | nil => exact h
  | cons x l ih =>
    simp only [List.foldl_cons]
    apply ih
    split
    · exact nodup_setAdd _ _ h
    · exact h

/-- C12: for every text and every list jdTerms, extractSkills(text, jdTerms) is
strictly ascending (sorted, no duplicates), and a string s is in it if and only
if s is a substring of text and s is an entry of the skill lexicon or an element
of jdTerms of length (in bytes, Go's `len`) at least 3. -/
theorem extractSkills_spec (text : List Char) (jdTerms : List (List Char)) :
    (extractSkills text jdTerms).Pairwise (fun a b => strLt a b = true) ∧
    (extractSkills text jdTerms).Nodup ∧
    ∀ s, s ∈ extractSkills text jdTerms ↔
      (s <:+: text ∧ (s ∈ skillLexicon.map String.toList ∨ (s ∈ jdTerms ∧ 3 ≤ byteLen s))) := by
  have hn1 := nodup_foldl_setAdd (fun (w : String) => stringsContains text w.toList = true)
    String.toList skillLexicon [] List.nodup_nil
  have hn2 := nodup_foldl_setAdd
    (fun (t : List Char) => byteLen t ≥ 3 ∧ stringsContains text t = true) id jdTerms _ hn1
  refine ⟨sortStrings_strict _ hn2, (perm_sortStrings _).nodup_iff.mpr hn2, ?_⟩
  intro s
  have h1 : ∀ init : List (List Char),
      s ∈ jdTerms.foldl
        (fun set t => if byteLen t ≥ 3 ∧ stringsContains text t then setAdd set t else set) init
        ↔ s ∈ init ∨ ∃ t ∈ jdTerms, (byteLen t ≥ 3 ∧ stringsContains text t = true) ∧ t = s :=
    fun init => mem_foldl_setAdd
      (fun (t : List Char) => byteLen t ≥ 3 ∧ stringsContains text t = true) id jdTerms init s
  have h2 : s ∈ skillLexicon.foldl
        (fun set w => if stringsContains text w.toList then setAdd set w.toList else set) []
        ↔ s ∈ ([] : List (List Char)) ∨
          ∃ w ∈ skillLexicon, stringsContains text w.toList = true ∧ w.toList = s :=
    mem_foldl_setAdd (fun (w : String) => stringsContains text w.toList = true)
      String.toList skillLexicon [] s
  unfold extractSkills
  rw [mem_sortStrings, h1, h2]
  simp only [List.not_mem_nil, false_or, List.mem_map, stringsContains_iff]
  constructor
  · rintro (⟨w, hw, hc, rfl⟩ | ⟨t, ht, ⟨hlen, hc⟩, rfl⟩)
    · exact ⟨hc, Or.inl ⟨w, hw, rfl⟩⟩
    · exact ⟨hc, Or.inr ⟨ht, hlen⟩⟩
  · rintro ⟨hc, ⟨w, hw, rfl⟩ | ⟨ht, hlen⟩⟩
    · exact Or.inl ⟨w, hw, hc, rfl⟩
    · exact Or.inr ⟨s, ht, ⟨hlen, hc⟩, rfl⟩

end Skills

end Matcher

namespace Matcher

/-! ## Must-have and nice-to-have skills -/

section MustNice

theorem hasCue_iff (keys : List String) (line : List Char) :
    hasCue keys line = true ↔ ∃ k ∈ keys, k.toList <:+: line := by
  unfold hasCue
  rw [List.any_eq_true]
  simp only [stringsContains_iff]

/-- The loop over the lexicon for one classified line, for any list `lex` in
the place of the lexicon. -/
theorem mem_lineSkills (isMust isNice : Bool) (line : List Char) (lex : List String)
    (st : List (List Char) × List (List Char)) (s : List Char) :
    (s ∈ (lex.foldl
        (fun (st : List (List Char) × List (List Char)) w =>
          if stringsContains line w.toList then
            (if isMust then setAdd st.1 w.toList else st.1,
             if isNice then setAdd st.2 w.toList else st.2)
          else st) st).1
      ↔ s ∈ st.1 ∨ (isMust = true ∧ ∃ w ∈ lex, w.toList = s ∧ w.toList <:+: line)) ∧
    (s ∈ (lex.foldl
        (fun (st : List (List Char) × List (List Char)) w =>
          if stringsContains line w.toList then
            (if isMust then setAdd st.1 w.toList else st.1,
             if isNice then setAdd st.2 w.toList else st.2)
          else st) st).2
      ↔ s ∈ st.2 ∨ (isNice = true ∧ ∃ w ∈ lex, w.toList = s ∧ w.toList <:+: line)) := by
  induction lex generalizing st with
  | nil => simp
  | cons w lex ih =>
    simp only [List.foldl_cons, List.mem_cons, exists_eq_or_imp]
    obtain ⟨ih1, ih2⟩ := ih
      (if stringsContains line w.toList then
        (if isMust then setAdd st.1 w.toList else st.1,
         if isNice then setAdd st.2 w.toList else st.2)
       else st)
    rw [ih1, ih2]
    by_cases hc : stringsContains line w.toList = true
    · have hin : w.toList <:+: line := (stringsContains_iff _ _).mp hc
      simp only [hc, if_true]
      constructor
      · cases isMust with
        | true =>
          simp only [if_true, mem_setAdd, true_and]
          constructor
          · rintro ((h | h) | h)
            · exact Or.inr (Or.inl ⟨h.symm, hin⟩)
            · exact Or.inl h
            · exact Or.inr (Or.inr h)
          · rintro (h | ⟨h, _⟩ | h)
            · exact Or.inl (Or.inr h)
            · exact Or.inl (Or.inl h.symm)
            · exact Or.inr h
        | false => simp
      · cases isNice with
        | true =>
          simp only [if_true, mem_setAdd, true_and]
          constructor
          · rintro ((h | h) | h)
            · exact Or.inr (Or.inl ⟨h.symm, hin⟩)
            · exact Or.inl h
            · exact Or.inr (Or.inr h)
          · rintro (h | ⟨h, _⟩ | h)
            · exact Or.inl (Or.inr h)
            · exact Or.inl (Or.inl h.symm)
            · exact Or.inr h
        | false => simp
    · have hin : ¬ w.toList <:+: line := fun h => hc ((stringsContains_iff _ _).mpr h)
      simp only [hc, if_false, hin, and_false, false_or, Bool.false_eq_true, and_self]

theorem nodup_lineSkills (isMust isNice : Bool) (line : List Char) (lex : List String)
    (st : List (List Char) × List (List Char)) (h1 : st.1.Nodup) (h2 : st.2.Nodup) :
    (lex.foldl
        (fun (st : List (List Char) × List (List Char)) w =>
          if stringsContains line w.toList then
            (if isMust then setAdd st.1 w.toList else st.1,
             if isNice then setAdd st.2 w.toList else st.2)
          else st) st).1.Nodup ∧
    (lex.foldl
        (fun (st : List (List Char) × List (List Char)) w =>
          if stringsContains line w.toList then
            (if isMust then setAdd st.1 w.toList else st.1,
             if isNice then setAdd st.2 w.toList else st.2)
          else st) st).2.Nodup := by
  induction lex generalizing st with
  | nil => exact ⟨h1, h2⟩
  | cons w lex ih =>
    simp only [List.foldl_cons]
    apply ih
    · by_cases hc : stringsContains line w.toList = true
      · rw [if_pos hc]
        cases isMust with
        | true => exact nodup_setAdd _ _ h1
        | false => exact h1
      · rw [if_neg hc]
        exact h1
    · by_cases hc : stringsContains line w.toList = true
      · rw [if_pos hc]
        cases isNice with
        | true => exact nodup_setAdd _ _ h2
        | false => exact h2
      · rw [if_neg hc]
        exact h2

theorem mem_addLineSkills (isMust isNice : Bool) (line : List Char)
    (st : List (List Char) × List (List Char)) (s : List Char) :
    (s ∈ (addLineSkills isMust isNice line st).1
      ↔ s ∈ st.1 ∨ (isMust = true ∧ ∃ w ∈ skillLexicon, w.toList = s ∧ w.toList <:+: line)) ∧
    (s ∈ (addLineSkills isMust isNice line st).2
      ↔ s ∈ st.2 ∨ (isNice = true ∧ ∃ w ∈ skillLexicon, w.toList = s ∧ w.toList <:+: line)) :=
  mem_lineSkills isMust isNice line skillLexicon st s

/-- What one line adds to the two sets. -/
theorem mem_scanLine (st : List (List Char) × List (List Char)) (line s : List Char) :
    (s ∈ (scanLine st line).1 ↔ s ∈ st.1 ∨
      (trimSpace line ≠ [] ∧ hasCue mustKeys (trimSpace line) = true ∧
        s ∈ skillLexicon.map String.toList ∧ s <:+: trimSpace line)) ∧
    (s ∈ (scanLine st line).2 ↔ s ∈ st.2 ∨
      (trimSpace line ≠ [] ∧ hasCue niceKeys (trimSpace line) = true ∧
        s ∈ skillLexicon.map String.toList ∧ s <:+: trimSpace line)) := by
  unfold scanLine
  by_cases h0 : trimSpace line = []
  · simp [h0]
  · simp only [h0, if_false]
    by_cases hcue : (!hasCue mustKeys (trimSpace line) && !hasCue niceKeys (trimSpace line)) = true
    · simp only [hcue, if_true]
      simp only [Bool.and_eq_true, Bool.not_eq_true'] at hcue
      simp [hcue.1, hcue.2]
    · simp only [hcue, if_false, Bool.false_eq_true]
      obtain ⟨m1, m2⟩ := mem_addLineSkills (hasCue mustKeys (trimSpace line))
        (hasCue niceKeys (trimSpace line)) (trimSpace line) st s
      rw [m1, m2]
      simp only [ne_eq, h0, not_false_eq_true, true_and, List.mem_map]
      constructor
      · constructor
        · rintro (h | ⟨hm, w, hw, rfl, hin⟩)
          · exact Or.inl h
          · exact Or.inr ⟨hm, ⟨w, hw, rfl⟩, hin⟩
        · rintro (h | ⟨hm, ⟨w, hw, rfl⟩, hin⟩)
          · exact Or.inl h
          · exact Or.inr ⟨hm, w, hw, rfl, hin⟩
      · constructor
        · rintro (h | ⟨hm, w, hw, rfl, hin⟩)
          · exact Or.inl h
          · exact Or.inr ⟨hm, ⟨w, hw, rfl⟩, hin⟩
        · rintro (h | ⟨hm, ⟨w, hw, rfl⟩, hin⟩)
          · exact Or.inl h
          · exact Or.inr ⟨hm, w, hw, rfl, hin⟩

theorem nodup_scanLine (st : List (List Char) × List (List Char)) (line : List Char)
    (h1 : st.1.Nodup) (h2 : st.2.Nodup) :
    (scanLine st line).1.Nodup ∧ (scanLine st line).2.Nodup := by
  unfold scanLine
  simp only
  split
  · exact ⟨h1, h2⟩
  · split
    · exact ⟨h1, h2⟩
    · exact nodup_lineSkills _ _ _ skillLexicon st h1 h2

theorem mem_scanLines (lines : List (List Char)) (st : List (List Char) × List (List Char))
    (s : List Char) :
    (s ∈ (lines.foldl scanLine st).1 ↔ s ∈ st.1 ∨ ∃ line ∈ lines,
      (trimSpace line ≠ [] ∧ hasCue mustKeys (trimSpace line) = true ∧
        s ∈ skillLexicon.map String.toList ∧ s <:+: trimSpace line)) ∧
    (s ∈ (lines.foldl scanLine st).2 ↔ s ∈ st.2 ∨ ∃ line ∈ lines,
      (trimSpace line ≠ [] ∧ hasCue niceKeys (trimSpace line) = true ∧
        s ∈ skillLexicon.map String.toList ∧ s <:+: trimSpace line)) := by
  induction lines generalizing st with
  | nil => simp
  | cons line lines ih =>
    simp only [List.foldl_cons, List.mem_cons, exists_eq_or_imp]
    obtain ⟨i1, i2⟩ := ih (scanLine st line)
    obtain ⟨m1, m2⟩ := mem_scanLine st line s
    rw [i1, i2, m1, m2]
    constructor
    · rw [or_assoc]
    · rw [or_assoc]

theorem nodup_scanLines (lines : List (List Char)) (st : List (List Char) × List (List Char))
    (h1 : st.1.Nodup) (h2 : st.2.Nodup) :
    (lines.foldl scanLine st).1.Nodup ∧ (lines.foldl scanLine st).2.Nodup := by
  induction lines generalizing st with
  | nil => exact ⟨h1, h2⟩
  | cons line lines ih =>
    simp only [List.foldl_cons]
    obtain ⟨n1, n2⟩ := nodup_scanLine st line h1 h2
    exact ih _ n1 n2

theorem exists_cueLine (unicodeLower : Char → Char) (jdRaw : List Char)
    (P : List Char → Prop) :
    (∃ line ∈ splitLines (stringsToLower unicodeLower jdRaw),
        trimSpace line ≠ [] ∧ P (trimSpace line))
      ↔ ∃ line ∈ cueLines unicodeLower jdRaw, P line := by
  unfold cueLines
  constructor
  · rintro ⟨line, hl, hne, hp⟩
    refine ⟨trimSpace line, ?_, hp⟩
    rw [List.mem_filter]
    exact ⟨List.mem_map_of_mem trimSpace hl, by simpa using hne⟩
  · rintro ⟨l, hl, hp⟩
    rw [List.mem_filter] at hl
    obtain ⟨line, hline, rfl⟩ := List.mem_map.mp hl.1
    exact ⟨line, hline, by simpa using hl.2, hp⟩

/-- C14: for every JD text, findMustNiceSkills returns two strictly ascending
(sorted, duplicate-free) lists; a string s is in the must list iff s is a
lexicon skill and some line of the lower-cased text (split on newline, trimmed,
non-empty) contains one of the cues must/required/minimum/mandatory and
contains s as a substring; s is in the nice list iff s is a lexicon skill and
some such line contains one of the cues "nice to have"/preferred/plus/bonus/
optional and contains s.  A line with cues of both kinds therefore gives its
skills to both lists. -/
theorem findMustNiceSkills_spec (unicodeLower : Char → Char) (jdRaw : List Char) :
    (findMustNiceSkills unicodeLower jdRaw).1.Pairwise (fun a b => strLt a b = true) ∧
    (findMustNiceSkills unicodeLower jdRaw).2.Pairwise (fun a b => strLt a b = true) ∧
    (∀ s, s ∈ (findMustNiceSkills unicodeLower jdRaw).1 ↔
      ∃ line ∈ cueLines unicodeLower jdRaw,
        (∃ k ∈ mustKeys, k.toList <:+: line) ∧
          s ∈ skillLexicon.map String.toList ∧ s <:+: line) ∧
    (∀ s, s ∈ (findMustNiceSkills unicodeLower jdRaw).2 ↔
      ∃ line ∈ cueLines unicodeLower jdRaw,
        (∃ k ∈ niceKeys, k.toList <:+: line) ∧
          s ∈ skillLexicon.map String.toList ∧ s <:+: line) := by
  obtain ⟨n1, n2⟩ := nodup_scanLines (splitLines (stringsToLower unicodeLower jdRaw)) ([], [])
    List.nodup_nil List.nodup_nil
  refine ⟨sortStrings_strict _ n1, sortStrings_strict _ n2, ?_, ?_⟩
  · intro s
    obtain ⟨m1, _⟩ := mem_scanLines (splitLines (stringsToLower unicodeLower jdRaw)) ([], []) s
    unfold findMustNiceSkills
    simp only
    rw [mem_sortStrings, m1, ← exists_cueLine]
    simp only [List.not_mem_nil, false_or, hasCue_iff]
  · intro s
    obtain ⟨_, m2⟩ := mem_scanLines (splitLines (stringsToLower unicodeLower jdRaw)) ([], []) s
    unfold findMustNiceSkills
    simp only
    rw [mem_sortStrings, m2, ← exists_cueLine]
    simp only [List.not_mem_nil, false_or, hasCue_iff]

end MustNice

end Matcher

namespace Matcher

/-! ## The end-to-end example: texts, terms and skills -/

section ExampleText

theorem lowerRune_ascii (unicodeLower : Char → Char) (c : Char) (h : c.toNat < 128) :
    lowerRune unicodeLower c = lowerRune id c := by
  simp only [lowerRune, h, if_true]

/-- On an ASCII text `strings.ToLower` does not consult the Unicode table. -/
theorem stringsToLower_ascii (unicodeLower : Char → Char) (s : List Char)
    (h : s.all (fun c => decide (c.toNat < 128)) = true) :
    stringsToLower unicodeLower s = stringsToLower id s := by
  unfold stringsToLower
  apply List.map_congr_left
  intro c hc
  rw [List.all_eq_true] at h
  exact lowerRune_ascii unicodeLower c (by simpa using h c hc)

theorem normalizeText_ascii (unicodeLower : Char → Char) (text : List Char)
    (h : (redactPII text).all (fun c => decide (c.toNat < 128)) = true) :
    normalizeText unicodeLower text = normalizeText id text := by
  unfold normalizeText
  rw [stringsToLower_ascii unicodeLower _ h]

theorem findMustNiceSkills_ascii (unicodeLower : Char → Char) (jdRaw : List Char)
    (h : jdRaw.all (fun c => decide (c.toNat < 128)) = true) :
    findMustNiceSkills unicodeLower jdRaw = findMustNiceSkills id jdRaw := by
  unfold findMustNiceSkills
  rw [stringsToLower_ascii unicodeLower _ h]

theorem id_mapRange : MapRangeContract (id : List (List Char × Int) → List (List Char × Int)) :=
  fun m => List.Perm.refl m

/-- The result of topTerms does not depend on the sort or on the iteration order. -/
theorem topTerms_canonical
    (srt : (List Char × Int → List Char × Int → Bool) →
      List (List Char × Int) → List (List Char × Int))
    (iter : List (List Char × Int) → List (List Char × Int))
    (hsrt : SortSliceContract srt) (hiter : MapRangeContract iter)
    (text : List Char) (maxTerms : Int) :
    topTerms srt iter text maxTerms = topTerms insertionSortBy id text maxTerms := by
  unfold topTerms
  simp only [sorted_pairs_eq srt iter hsrt hiter,
    sorted_pairs_eq insertionSortBy id insertionSortBy_contract id_mapRange]

set_option maxRecDepth 1000000 in
theorem exampleJD_ascii :
    (redactPII exampleJD).all (fun c => decide (c.toNat < 128)) = true ∧
    exampleJD.all (fun c => decide (c.toNat < 128)) = true := by decide

set_option maxRecDepth 1000000 in
theorem exampleResumes_ascii :
    (redactPII "Python, SQL, Docker".toList).all (fun c => decide (c.toNat < 128)) = true ∧
    (redactPII "Java".toList).all (fun c => decide (c.toNat < 128)) = true := by decide

set_option maxRecDepth 1000000 in
theorem normalizeText_example_id : normalizeText id exampleJD = exampleNorm := by decide

theorem normalizeText_example (unicodeLower : Char → Char) :
    normalizeText unicodeLower exampleJD = exampleNorm := by
  rw [normalizeText_ascii unicodeLower _ exampleJD_ascii.1, normalizeText_example_id]

set_option maxRecDepth 1000000 in
theorem topTerms_example_id :
    topTerms insertionSortBy id exampleNorm 25 = some exampleTerms := by decide

theorem topTerms_example
    (srt : (List Char × Int → List Char × Int → Bool) →
      List (List Char × Int) → List (List Char × Int))
    (iter : List (List Char × Int) → List (List Char × Int))
    (hsrt : SortSliceContract srt) (hiter : MapRangeContract iter) :
    topTerms srt iter exampleNorm 25 = some exampleTerms := by
  rw [topTerms_canonical srt iter hsrt hiter, topTerms_example_id]

set_option maxRecDepth 1000000 in
theorem extractSkills_example : extractSkills exampleNorm exampleTerms = exampleSkills := by
  decide

set_option maxRecDepth 1000000 in
theorem findMustNiceSkills_example_id :
    findMustNiceSkills id exampleJD = (exampleLineSkills, exampleLineSkills) := by decide

theorem findMustNiceSkills_example (unicodeLower : Char → Char) :
    findMustNiceSkills unicodeLower exampleJD = (exampleLineSkills, exampleLineSkills) := by
  rw [findMustNiceSkills_ascii unicodeLower _ exampleJD_ascii.2, findMustNiceSkills_example_id]

set_option maxRecDepth 1000000 in
theorem exampleResumes_id : exampleResumes id = [exampleDocOne, exampleDocTwo] := by decide

theorem exampleResumes_eq (unicodeLower : Char → Char) :
    exampleResumes unicodeLower = [exampleDocOne, exampleDocTwo] := by
  rw [← exampleResumes_id]
  unfold exampleResumes newResumeDoc
  rw [normalizeText_ascii unicodeLower _ exampleResumes_ascii.1,
    normalizeText_ascii unicodeLower _ exampleResumes_ascii.2]

set_option maxRecDepth 1000000 in
theorem extractSkills_docOne :
    extractSkills exampleDocOne.Norm exampleTerms = exampleLineSkills := by decide

set_option maxRecDepth 1000000 in
theorem extractSkills_docTwo :
    extractSkills exampleDocTwo.Norm exampleTerms = ["java".toList] := by decide

set_option maxRecDepth 1000000 in
theorem cueLines_example_id :
    cueLines id exampleJD = ["must have python and sql. nice to have docker.".toList] := by
  decide

/-- C15 (amended): the JD text "Must have Python and SQL. Nice to have Docker."
is one line; it holds the cue "must" and the cue "nice to have", so
findMustNiceSkills puts every lexicon entry that occurs in the lower-cased line
into both lists: the must list and the nice list are both
[c, docker, python, r, sql] ("c" occurs in "nice" and "docker", "r" in
"docker"). -/
theorem findMustNiceSkills_example_both (unicodeLower : Char → Char) :
    cueLines unicodeLower exampleJD
      = ["must have python and sql. nice to have docker.".toList] ∧
    (findMustNiceSkills unicodeLower exampleJD).1
      = ["c".toList, "docker".toList, "python".toList, "r".toList, "sql".toList] ∧
    (findMustNiceSkills unicodeLower exampleJD).2
      = ["c".toList, "docker".toList, "python".toList, "r".toList, "sql".toList] := by
  refine ⟨?_, ?_, ?_⟩
  · unfold cueLines
    rw [stringsToLower_ascii unicodeLower _ exampleJD_ascii.2]
    exact cueLines_example_id
  · rw [findMustNiceSkills_example unicodeLower]
    rfl
  · rw [findMustNiceSkills_example unicodeLower]
    rfl

/-- Counterexample for C15: on the JD text of the example findMustNiceSkills
does not return the must list [python, sql] and the nice list [docker]; neither
list is as stated (the must list holds docker, the nice list holds python).
The text is ASCII, so the Unicode lower-casing table is not consulted. -/
theorem findMustNiceSkills_example_differs :
    (findMustNiceSkills id exampleJD).1 ≠ ["python".toList, "sql".toList] ∧
    (findMustNiceSkills id exampleJD).2 ≠ ["docker".toList] ∧
    "docker".toList ∈ (findMustNiceSkills id exampleJD).1 ∧
    "python".toList ∈ (findMustNiceSkills id exampleJD).2 := by
  rw [findMustNiceSkills_example_id]
  decide

end ExampleText

end Matcher

namespace Matcher

/-! ## The end-to-end example: scores and ranks -/

section ExampleRows

variable {K : Type} [LinearOrderedField K]

/-- Two vectors without a common key have cosine similarity zero. -/
theorem cosineSim_disjoint (sqrt : K → K) (a b : List (List Char × K))
    (h : ∀ e ∈ a, e.1 ∉ b.map Prod.fst) : cosineSim sqrt a b = 0 := by
  rw [cosineSim_eq]
  have hsum : (a.map (fun e => e.2 * mapGet b e.1)).sum = 0 := by
    apply List.sum_eq_zero
    intro x hx
    obtain ⟨e, he, rfl⟩ := List.mem_map.mp hx
    rw [mapGet_of_not_mem b e.1 (h e he), mul_zero]
  rw [hsum, zero_div]
  simp

/-- The keys of a vector of buildTfidfVectors are terms of its document. -/
theorem keys_getD_vectors (log : K → K) (docs : List (List Char)) (i : Nat) (doc : List Char)
    (hdoc : docs.get? i = some doc) (t : List Char)
    (ht : t ∈ ((buildTfidfVectors log docs).getD i []).map Prod.fst) : t ∈ docGrams doc := by
  have hget := buildTfidfVectors_get log docs i
  rw [hdoc, Option.map_some'] at hget
  rw [List.getD_eq_getD_get?, hget, Option.getD_some, weights_mem_keys,
    termFreq_mem_keys] at ht
  exact ht

theorem example_grams_disjoint :
    ∀ t ∈ docGrams exampleNorm, t ∉ docGrams "java".toList := by decide

/-- The JD of the example and its second resume share no term. -/
theorem example_sim_two (log sqrt : K → K) :
    cosineSim sqrt ((buildTfidfVectors log exampleDocs).getD 0 [])
      ((buildTfidfVectors log exampleDocs).getD (1 + 1) []) = 0 := by
  apply cosineSim_disjoint
  intro e he hin
  have h1 := keys_getD_vectors log exampleDocs 0 exampleNorm rfl e.1
    (List.mem_map_of_mem Prod.fst he)
  have h2 := keys_getD_vectors log exampleDocs 2 "java".toList rfl e.1 hin
  exact example_grams_disjoint e.1 h1 h2

variable [FloorRing K]

theorem scorePct_zero : scorePct (0 : K) = 0 := by
  have h := scorePct_mem 0 0 (0 : K) (by simp) (by simp)
  exact le_antisymm (by simpa using h.2) (by simpa using h.1)

theorem example_counts :
    countMatches exampleLineSkills exampleLineSkills = 5 ∧
    countMatches exampleLineSkills exampleSkills = 5 ∧
    countMatches ["java".toList] exampleLineSkills = 0 ∧
    countMatches ["java".toList] exampleSkills = 0 ∧
    exampleLineSkills.length = 5 ∧ exampleSkills.length = 8 := by decide

theorem example_lists :
    String.mk (joinOrNone (buildStrengths exampleLineSkills exampleLineSkills
      exampleLineSkills exampleSkills)) = "c, docker, python, r, sql" ∧
    String.mk (joinOrNone (buildWeaknesses exampleLineSkills exampleLineSkills
      exampleLineSkills exampleSkills)) = "have, must, nice" ∧
    String.mk (joinOrNone (buildStrengths ["java".toList] exampleLineSkills
      exampleLineSkills exampleSkills)) = "None" ∧
    String.mk (joinOrNone (buildWeaknesses ["java".toList] exampleLineSkills
      exampleLineSkills exampleSkills)) = "c, docker, python, r, sql, have, must, nice" := by
  decide

/-- The two passes of the scoring loop on the example. -/
theorem heuristicRows_example
    (srtPairs : (List Char × Int → List Char × Int → Bool) →
      List (List Char × Int) → List (List Char × Int))
    (iter : List (List Char × Int) → List (List Char × Int))
    (hsp : SortSliceContract srtPairs) (hiter : MapRangeContract iter)
    (unicodeLower : Char → Char) (log sqrt : K → K) (explain : K → K → K → K → String) :
    heuristicRows srtPairs iter unicodeLower log sqrt explain exampleJD
        (exampleResumes unicodeLower)
      = some
        [heuristicRow sqrt explain (buildTfidfVectors log exampleDocs) exampleTerms
           exampleLineSkills exampleLineSkills exampleSkills 0 exampleDocOne,
         heuristicRow sqrt explain (buildTfidfVectors log exampleDocs) exampleTerms
           exampleLineSkills exampleLineSkills exampleSkills 1 exampleDocTwo] := by
  unfold heuristicRows
  simp only [normalizeText_example, topTerms_example srtPairs iter hsp hiter,
    extractSkills_example, findMustNiceSkills_example, exampleResumes_eq, Option.map_some']
  rfl

/-- The first pass: all must skills and all nice skills matched. -/
theorem heuristicRow_one (log sqrt : K → K) (explain : K → K → K → K → String) :
    (heuristicRow sqrt explain (buildTfidfVectors log exampleDocs) exampleTerms
        exampleLineSkills exampleLineSkills exampleSkills 0 exampleDocOne)
      = { sim := cosineSim sqrt ((buildTfidfVectors log exampleDocs).getD 0 [])
            ((buildTfidfVectors log exampleDocs).getD (0 + 1) []),
          mustRatio := 1, niceRatio := 1, skillRatio := 5 / 8,
          result :=
            { Rank := 0, Candidate := "one",
              Score := scorePct (hybridScore 5
                (cosineSim sqrt ((buildTfidfVectors log exampleDocs).getD 0 [])
                  ((buildTfidfVectors log exampleDocs).getD (0 + 1) [])) 1 1 (5 / 8)),
              Strengths := "c, docker, python, r, sql",
              Weaknesses := "have, must, nice",
              Explanation := explain
                (cosineSim sqrt ((buildTfidfVectors log exampleDocs).getD 0 [])
                  ((buildTfidfVectors log exampleDocs).getD (0 + 1) [])) 1 1 (5 / 8),
              File := "resumes/one.txt", Extracted := none } } := by
  unfold heuristicRow
  simp only [extractSkills_docOne, example_counts.1, example_counts.2.1, example_counts.2.2.2.2.1,
    example_counts.2.2.2.2.2, example_lists.1, example_lists.2.1]
  have h55 : (ratio ((5 : Nat) : Int) ((5 : Nat) : Int) : K) = 1 := by
    simp [ratio]
  have h58 : (ratio ((5 : Nat) : Int) ((8 : Nat) : Int) : K) = 5 / 8 := by
    simp [ratio]
  rw [h55, h58]
  rfl

/-- The second pass: nothing matched, similarity zero. -/
theorem heuristicRow_two (log sqrt : K → K) (explain : K → K → K → K → String) :
    (heuristicRow sqrt explain (buildTfidfVectors log exampleDocs) exampleTerms
        exampleLineSkills exampleLineSkills exampleSkills 1 exampleDocTwo)
      = { sim := 0, mustRatio := 0, niceRatio := 0, skillRatio := 0,
          result :=
            { Rank := 0, Candidate := "two",
              Score := 0,
              Strengths := "None",
              Weaknesses := "c, docker, python, r, sql, have, must, nice",
              Explanation := explain 0 0 0 0,
              File := "resumes/two.txt", Extracted := none } } := by
  unfold heuristicRow
  simp only [extractSkills_docTwo, example_counts.2.2.1, example_counts.2.2.2.1,
    example_counts.2.2.2.2.1, example_counts.2.2.2.2.2, example_lists.2.2.1,
    example_lists.2.2.2, example_sim_two]
  have h05 : (ratio ((0 : Nat) : Int) ((5 : Nat) : Int) : K) = 0 := by
    simp [ratio]
  have h08 : (ratio ((0 : Nat) : Int) ((8 : Nat) : Int) : K) = 0 := by
    simp [ratio]
  have hs : hybridScore ((5 : Nat) : Int) (0 : K) 0 0 0 = 0 := by
    rw [hybridScore_eq]
    simp
  rw [h05, h08, hs, scorePct_zero]
  rfl

end ExampleRows

end Matcher

namespace Matcher

/-! ## The end-to-end example: the ranked output -/

section ExampleRanking

theorem assignRanks_two {K : Type} (r1 r2 : Result K) :
    assignRanks [r1, r2] = [{ r1 with Rank := 1 }, { r2 with Rank := 2 }] := by
  simp [assignRanks, assignRanksFrom]

theorem truncateTopN_head {K : Type} (topN : Int) (a b : Result K) :
    ∃ rest, truncateTopN topN [a, b] = a :: rest := by
  unfold truncateTopN
  split
  · rename_i hc
    have h1 : topN.toNat = 1 := by
      simp only [List.length_cons, List.length_nil] at hc
      omega
    rw [h1]
    exact ⟨[], rfl⟩
  · exact ⟨[b], rfl⟩

variable {K : Type} [LinearOrderedField K]

/-- Sorting two results of which the first has the higher score leaves them
in place, whatever algorithm `sort.Slice` runs. -/
theorem sort_two (srt : (Result K → Result K → Bool) → List (Result K) → List (Result K))
    (hsrt : SortSliceContract srt) (r1 r2 : Result K) (h : r2.Score < r1.Score) :
    srt scoreLess [r1, r2] = [r1, r2] := by
  have hperm := (hsrt scoreLess [r1, r2]).1
  have hpw := sorted_of_contract srt hsrt [r1, r2]
  have hlen := hperm.length_eq
  generalize srt scoreLess [r1, r2] = l at hperm hpw hlen
  match l, hperm, hpw, hlen with
  | [x, y], hperm, hpw, _ =>
    have hx : x ∈ [r1, r2] := hperm.subset (List.mem_cons_self _ _)
    simp only [List.mem_cons, List.mem_singleton, List.not_mem_nil, or_false] at hx
    rcases hx with hx | hx
    · subst hx
      have hy := List.perm_singleton.mp hperm.cons_inv
      rw [hy]
    · subst hx
      have hsw : [x, y].Perm [x, r1] := hperm.trans (List.Perm.swap x r1 [])
      have hy := List.perm_singleton.mp hsw.cons_inv
      simp only [List.cons.injEq, and_true] at hy
      subst hy
      rw [List.pairwise_cons] at hpw
      have := hpw.1 y (List.mem_cons_self _ _)
      exact absurd h (not_lt.mpr this)

variable [FloorRing K]

/-- With all must and nice skills matched and five of eight general skills,
the Score is at least 51 whatever the similarity. -/
theorem scorePct_full_match (s : K) (h0 : 0 ≤ s) (h1 : s ≤ 1) :
    (51 : K) ≤ scorePct (hybridScore 5 s 1 1 (5 / 8)) := by
  have hs : hybridScore (5 : Int) s (1 : K) 1 (5 / 8)
      = 0.45 * s + 0.35 * 1 + 0.10 * 1 + 0.10 * (5 / 8) := by
    rw [hybridScore_eq]
    simp
  have h := scorePct_mem 51 100 (hybridScore (5 : Int) s (1 : K) 1 (5 / 8))
    (by rw [hs]; push_cast; norm_num; linarith)
    (by rw [hs]; push_cast; norm_num; linarith)
  exact_mod_cast h.1

/-- The first resume of the example scores at least 51. -/
theorem example_scores (log sqrt : K → K) (hlog : ∀ x : K, 1 ≤ x → 0 ≤ log x)
    (hsqrt : ∀ x : K, 0 ≤ x → 0 ≤ sqrt x ∧ sqrt x * sqrt x = x) :
    (51 : K) ≤ scorePct (hybridScore 5
      (cosineSim sqrt ((buildTfidfVectors log exampleDocs).getD 0 [])
        ((buildTfidfVectors log exampleDocs).getD (0 + 1) [])) 1 1 (5 / 8)) :=
  scorePct_full_match _ (tfidf_cosineSim_mem log sqrt hlog hsqrt exampleDocs 0 (0 + 1)).1
    (tfidf_cosineSim_mem log sqrt hlog hsqrt exampleDocs 0 (0 + 1)).2

/-- C16: in the heuristic pipeline, for the JD text "Must have Python and SQL.
Nice to have Docker." and the resume texts "Python, SQL, Docker" and "Java",
the scoring loop gives the first resume mustRatio = 1 and niceRatio = 1 and the
second mustRatio = 0; the first resume has the strictly higher Score, and the
output starts with its result, with Rank 1; for every sort that meets the
contract of sort.Slice, every map iteration order, every exact square root and
every logarithm that is non-negative from 1 on. -/
theorem example_ranks_first
    (srt : (Result K → Result K → Bool) → List (Result K) → List (Result K))
    (srtPairs : (List Char × Int → List Char × Int → Bool) →
      List (List Char × Int) → List (List Char × Int))
    (iter : List (List Char × Int) → List (List Char × Int))
    (hsrt : SortSliceContract srt) (hsp : SortSliceContract srtPairs)
    (hiter : MapRangeContract iter)
    (unicodeLower : Char → Char) (log sqrt : K → K)
    (hlog : ∀ x : K, 1 ≤ x → 0 ≤ log x)
    (hsqrt : ∀ x : K, 0 ≤ x → 0 ≤ sqrt x ∧ sqrt x * sqrt x = x)
    (explain : K → K → K → K → String) (topN : Int) :
    ∃ (one two : LoopRow K) (rest : List (Result K)),
      heuristicRows srtPairs iter unicodeLower log sqrt explain exampleJD
        (exampleResumes unicodeLower) = some [one, two] ∧
      one.result.Candidate = "one" ∧ two.result.Candidate = "two" ∧
      one.mustRatio = 1 ∧ one.niceRatio = 1 ∧ two.mustRatio = 0 ∧
      two.result.Score < one.result.Score ∧
      runHeuristic srt srtPairs iter unicodeLower log sqrt explain topN exampleJD
        (exampleResumes unicodeLower) = some ({ one.result with Rank := 1 } :: rest) := by
  have hrows := heuristicRows_example srtPairs iter hsp hiter unicodeLower log sqrt explain
  have h1 := heuristicRow_one log sqrt explain
  have h2 := heuristicRow_two log sqrt explain
  have hscore := example_scores log sqrt hlog hsqrt
  have hlt : (heuristicRow sqrt explain (buildTfidfVectors log exampleDocs) exampleTerms
        exampleLineSkills exampleLineSkills exampleSkills 1 exampleDocTwo).result.Score
      < (heuristicRow sqrt explain (buildTfidfVectors log exampleDocs) exampleTerms
        exampleLineSkills exampleLineSkills exampleSkills 0 exampleDocOne).result.Score := by
    rw [h1, h2]
    exact lt_of_lt_of_le (by norm_num) hscore
  obtain ⟨rest, hrest⟩ := truncateTopN_head topN
    ({ (heuristicRow sqrt explain (buildTfidfVectors log exampleDocs) exampleTerms
        exampleLineSkills exampleLineSkills exampleSkills 0 exampleDocOne).result
        with Rank := 1 })
    ({ (heuristicRow sqrt explain (buildTfidfVectors log exampleDocs) exampleTerms
        exampleLineSkills exampleLineSkills exampleSkills 1 exampleDocTwo).result
        with Rank := 2 })
  refine ⟨_, _, rest, hrows, ?_, ?_, ?_, ?_, ?_, hlt, ?_⟩
  · rw [h1]
  · rw [h2]
  · rw [h1]
  · rw [h1]
  · rw [h2]
  · unfold runHeuristic heuristicResults
    rw [hrows]
    simp only [Option.map_some', List.map_cons, List.map_nil]
    unfold rankAndTruncate rankResults
    rw [sort_two srt hsrt _ _ hlt, assignRanks_two, hrest]

/-- The slice `results` of the example before it is sorted. -/
theorem heuristicResults_example
    (srtPairs : (List Char × Int → List Char × Int → Bool) →
      List (List Char × Int) → List (List Char × Int))
    (iter : List (List Char × Int) → List (List Char × Int))
    (hsp : SortSliceContract srtPairs) (hiter : MapRangeContract iter)
    (unicodeLower : Char → Char) (log sqrt : K → K) (explain : K → K → K → K → String) :
    heuristicResults srtPairs iter unicodeLower log sqrt explain exampleJD
        (exampleResumes unicodeLower)
      = some
        [(heuristicRow sqrt explain (buildTfidfVectors log exampleDocs) exampleTerms
           exampleLineSkills exampleLineSkills exampleSkills 0 exampleDocOne).result,
         (heuristicRow sqrt explain (buildTfidfVectors log exampleDocs) exampleTerms
           exampleLineSkills exampleLineSkills exampleSkills 1 exampleDocTwo).result] := by
  unfold heuristicResults
  rw [heuristicRows_example srtPairs iter hsp hiter unicodeLower log sqrt explain]
  rfl

/-- C17 (amended): in the heuristic pipeline, for the JD text of the example
the general skills of the JD are c, docker, have, must, nice, python, r, sql
(the lexicon entries that occur in the normalised text and the salient terms of
three letters or more); the resume "Python, SQL, Docker" has the skills c,
docker, python, r, sql, so its result has Strengths "c, docker, python, r, sql"
and Weaknesses "have, must, nice": it misses no must or nice skill, but three
general skills. -/
theorem example_weaknesses
    (srtPairs : (List Char × Int → List Char × Int → Bool) →
      List (List Char × Int) → List (List Char × Int))
    (iter : List (List Char × Int) → List (List Char × Int))
    (hsp : SortSliceContract srtPairs) (hiter : MapRangeContract iter)
    (unicodeLower : Char → Char) (log sqrt : K → K) (explain : K → K → K → K → String) :
    topTerms srtPairs iter (normalizeText unicodeLower exampleJD) 25 = some exampleTerms ∧
    extractSkills (normalizeText unicodeLower exampleJD) exampleTerms
      = ["c".toList, "docker".toList, "have".toList, "must".toList, "nice".toList,
         "python".toList, "r".toList, "sql".toList] ∧
    ∃ r1 r2 : Result K,
      heuristicResults srtPairs iter unicodeLower log sqrt explain exampleJD
        (exampleResumes unicodeLower) = some [r1, r2] ∧
      r1.Candidate = "one" ∧ r1.Strengths = "c, docker, python, r, sql" ∧
      r1.Weaknesses = "have, must, nice" := by
  refine ⟨?_, ?_, ?_⟩
  · rw [normalizeText_example, topTerms_example srtPairs iter hsp hiter]
  · rw [normalizeText_example, extractSkills_example]
    rfl
  · refine ⟨_, _,
      heuristicResults_example srtPairs iter hsp hiter unicodeLower log sqrt explain, ?_, ?_, ?_⟩
    · rw [heuristicRow_one]
    · rw [heuristicRow_one]
    · rw [heuristicRow_one]

end ExampleRanking

/-- Witness for C16: over the reals, with insertion sort, the map iterated in
insertion order, the natural logarithm and the real square root. -/
theorem example_ranks_first_witness :
    SortSliceContract (insertionSortBy : (Result ℝ → Result ℝ → Bool) → _) ∧
    SortSliceContract (insertionSortBy : (List Char × Int → List Char × Int → Bool) → _) ∧
    MapRangeContract (id : List (List Char × Int) → List (List Char × Int)) ∧
    (∀ x : ℝ, 1 ≤ x → 0 ≤ Real.log x) ∧
    (∀ x : ℝ, 0 ≤ x → 0 ≤ Real.sqrt x ∧ Real.sqrt x * Real.sqrt x = x) ∧
    ∃ (one two : LoopRow ℝ) (rest : List (Result ℝ)),
      heuristicRows insertionSortBy id id Real.log Real.sqrt (fun _ _ _ _ => "") exampleJD
        (exampleResumes id) = some [one, two] ∧
      one.result.Candidate = "one" ∧ two.result.Candidate = "two" ∧
      one.mustRatio = 1 ∧ one.niceRatio = 1 ∧ two.mustRatio = 0 ∧
      two.result.Score < one.result.Score ∧
      runHeuristic insertionSortBy insertionSortBy id id Real.log Real.sqrt
        (fun _ _ _ _ => "") 0 exampleJD (exampleResumes id)
        = some ({ one.result with Rank := 1 } :: rest) :=
  ⟨insertionSortBy_contract, insertionSortBy_contract, id_mapRange, real_log_nonneg,
   real_sqrt_exact,
   example_ranks_first insertionSortBy insertionSortBy id insertionSortBy_contract
     insertionSortBy_contract id_mapRange id Real.log Real.sqrt real_log_nonneg
     real_sqrt_exact (fun _ _ _ _ => "") 0⟩

/-- Witness for C17 (amended): over the reals, with insertion sort and the map
iterated back to front. -/
theorem example_weaknesses_witness :
    SortSliceContract (insertionSortBy : (List Char × Int → List Char × Int → Bool) → _) ∧
    MapRangeContract (List.reverse : List (List Char × Int) → List (List Char × Int)) ∧
    (topTerms insertionSortBy List.reverse (normalizeText id exampleJD) 25 = some exampleTerms ∧
    extractSkills (normalizeText id exampleJD) exampleTerms
      = ["c".toList, "docker".toList, "have".toList, "must".toList, "nice".toList,
         "python".toList, "r".toList, "sql".toList] ∧
    ∃ r1 r2 : Result ℝ,
      heuristicResults insertionSortBy List.reverse id Real.log Real.sqrt (fun _ _ _ _ => "")
        exampleJD (exampleResumes id) = some [r1, r2] ∧
      r1.Candidate = "one" ∧ r1.Strengths = "c, docker, python, r, sql" ∧
      r1.Weaknesses = "have, must, nice") :=
  ⟨insertionSortBy_contract, reverse_mapRange,
   example_weaknesses insertionSortBy List.reverse insertionSortBy_contract reverse_mapRange
     id Real.log Real.sqrt (fun _ _ _ _ => "")⟩

/-- Counterexample for C17: with insertion sort, the map iterated in insertion
order, over the reals, the result of the resume "Python, SQL, Docker" has the
Weaknesses field "have, must, nice", not "None". -/
theorem weaknesses_example_not_none :
    ∃ r1 r2 : Result ℝ,
      heuristicResults insertionSortBy id id Real.log Real.sqrt (fun _ _ _ _ => "")
        exampleJD (exampleResumes id) = some [r1, r2] ∧
      r1.Candidate = "one" ∧ r1.Weaknesses = "have, must, nice" ∧ r1.Weaknesses ≠ "None" := by
  refine ⟨_, _,
    heuristicResults_example insertionSortBy id insertionSortBy_contract id_mapRange id
      Real.log Real.sqrt (fun _ _ _ _ => ""), ?_, ?_, ?_⟩
  · rw [heuristicRow_one]
  · rw [heuristicRow_one]
  · rw [heuristicRow_one]
    decide

end Matcher

namespace Matcher

/-! ## Dense cosine over vectors of different length -/

section Truncate

theorem cosineSimVec_dim {K : Type} (a b : List K) :
    (if b.length < a.length then b.length else a.length) = min a.length b.length := by
  split
  · rename_i h
    exact (Nat.min_eq_right (le_of_lt h)).symm
  · rename_i h
    exact (Nat.min_eq_left (not_lt.mp h)).symm

variable {K : Type} [LinearOrderedField K]

theorem getD_take (a : List K) (m i : Nat) (h : i < m) : (a.take m).getD i 0 = a.getD i 0 := by
  simp only [List.getD_eq_getElem?_getD, List.getElem?_take, h, if_true]

theorem cosineSimVecLoop_take (a b : List K) (m dim : Nat) (h : dim ≤ m) :
    cosineSimVecLoop (a.take m) (b.take m) dim = cosineSimVecLoop a b dim := by
  rw [cosineSimVecLoop_eq, cosineSimVecLoop_eq]
  have hmap : ∀ (f : Nat → K) (g : Nat → K), (∀ i, i < dim → f i = g i) →
      ((List.range dim).map f).sum = ((List.range dim).map g).sum := by
    intro f g hfg
    congr 1
    apply List.map_congr_left
    intro i hi
    exact hfg i (List.mem_range.mp hi)
  refine Prod.ext ?_ (Prod.ext ?_ ?_)
  · exact hmap _ _ (fun i hi => by
      simp only [getD_take a m i (lt_of_lt_of_le hi h), getD_take b m i (lt_of_lt_of_le hi h)])
  · exact hmap _ _ (fun i hi => by simp only [getD_take a m i (lt_of_lt_of_le hi h)])
  · exact hmap _ _ (fun i hi => by simp only [getD_take b m i (lt_of_lt_of_le hi h)])

theorem sum_range_getD_take (a : List K) (f : K → K) (dim : Nat) (h : dim ≤ a.length) :
    ((List.range dim).map (fun i => f (a.getD i 0))).sum = ((a.take dim).map f).sum := by
  have h1 := map_getD_range (a.take dim) f
  rw [List.length_take, Nat.min_eq_left h] at h1
  rw [← h1]
  congr 1
  apply List.map_congr_left
  intro i hi
  rw [getD_take a dim i (List.mem_range.mp hi)]

/-- The dot product the loop accumulates over `i < dim` is the sum of the
componentwise products of the two vectors cut to `dim` components. -/
theorem dot_range_getD_take (a b : List K) (dim : Nat) (ha : dim ≤ a.length)
    (hb : dim ≤ b.length) :
    ((List.range dim).map (fun i => a.getD i 0 * b.getD i 0)).sum
      = (List.zipWith (fun x y => x * y) (a.take dim) (b.take dim)).sum := by
  induction dim generalizing a b with
  | zero => simp
  | succ k ih =>
    cases a with
    | nil => simp at ha
    | cons x a1 =>
      cases b with
      | nil => simp at hb
      | cons y b1 =>
        have ha1 : k ≤ a1.length := by
          simp only [List.length_cons] at ha
          omega
        have hb1 : k ≤ b1.length := by
          simp only [List.length_cons] at hb
          omega
        rw [List.range_succ_eq_map, List.map_cons, List.map_map, List.sum_cons,
          List.take_succ_cons, List.take_succ_cons, List.zipWith_cons_cons, List.sum_cons,
          ← ih a1 b1 ha1 hb1]
        rfl

/-- The first loop value of `cosineSimVec` is the dot product of the two
vectors cut to the shorter length. -/
theorem cosineSimVecLoop_dot (a b : List K) :
    (cosineSimVecLoop a b (min a.length b.length)).1
      = (List.zipWith (fun x y => x * y) (a.take (min a.length b.length))
          (b.take (min a.length b.length))).sum := by
  rw [cosineSimVecLoop_eq]
  exact dot_range_getD_take a b _ (Nat.min_le_left _ _) (Nat.min_le_right _ _)

/-- The loop values of `cosineSimVec` are the squared norms of the two vectors
cut to the shorter length. -/
theorem cosineSimVecLoop_norms (a b : List K) :
    (cosineSimVecLoop a b (min a.length b.length)).2.1
        = sumSqVec (a.take (min a.length b.length)) ∧
    (cosineSimVecLoop a b (min a.length b.length)).2.2
        = sumSqVec (b.take (min a.length b.length)) := by
  rw [cosineSimVecLoop_eq]
  exact ⟨sum_range_getD_take a (fun x => x * x) _ (Nat.min_le_left _ _),
    sum_range_getD_take b (fun x => x * x) _ (Nat.min_le_right _ _)⟩

/-- C24: for all dense vectors a and b with m = min(len a, len b),
cosineSimVec(a, b) equals cosineSimVec of the first m components of a and the
first m components of b; it is 0 when either vector is empty or when the norm
of either truncated vector is 0, and otherwise it is the dot product of the
two truncated vectors (the sum of the products of their components, taken
over the first m components only) divided by the product of the square roots
of the sums of squares of the two truncated vectors. -/
theorem cosineSimVec_truncate (sqrt : K → K) (a b : List K) :
    cosineSimVec sqrt a b
      = cosineSimVec sqrt (a.take (min a.length b.length)) (b.take (min a.length b.length)) ∧
    ((a = [] ∨ b = []) → cosineSimVec sqrt a b = 0) ∧
    ((sumSqVec (a.take (min a.length b.length)) = 0 ∨
        sumSqVec (b.take (min a.length b.length)) = 0) → cosineSimVec sqrt a b = 0) ∧
    (¬ (a = [] ∨ b = []) →
      ¬ (sumSqVec (a.take (min a.length b.length)) = 0 ∨
        sumSqVec (b.take (min a.length b.length)) = 0) →
      cosineSimVec sqrt a b
        = (List.zipWith (fun x y => x * y) (a.take (min a.length b.length))
              (b.take (min a.length b.length))).sum
          / (sqrt (sumSqVec (a.take (min a.length b.length)))
              * sqrt (sumSqVec (b.take (min a.length b.length))))) := by
  obtain ⟨hna, hnb⟩ := cosineSimVecLoop_norms a b
  have hdot := cosineSimVecLoop_dot a b
  have hform : cosineSimVec sqrt a b
      = if a.length = 0 ∨ b.length = 0 then 0
        else if sumSqVec (a.take (min a.length b.length)) = 0 ∨
            sumSqVec (b.take (min a.length b.length)) = 0 then 0
        else (cosineSimVecLoop a b (min a.length b.length)).1
          / (sqrt (sumSqVec (a.take (min a.length b.length)))
              * sqrt (sumSqVec (b.take (min a.length b.length)))) := by
    unfold cosineSimVec
    simp only [cosineSimVec_dim, hna, hnb]
  refine ⟨?_, ?_, ?_, ?_⟩
  · by_cases h0 : a.length = 0 ∨ b.length = 0
    · have hm : min a.length b.length = 0 := by
        rcases h0 with h | h
        · rw [h]; exact Nat.zero_min _
        · rw [h]; exact Nat.min_zero _
      unfold cosineSimVec
      rw [if_pos h0, if_pos (by rw [hm]; left; rfl)]
    · have hla : (a.take (min a.length b.length)).length = min a.length b.length := by
        rw [List.length_take]
        exact Nat.min_eq_left (Nat.min_le_left _ _)
      have hlb : (b.take (min a.length b.length)).length = min a.length b.length := by
        rw [List.length_take]
        exact Nat.min_eq_left (Nat.min_le_right _ _)
      have hpos : ¬ (min a.length b.length = 0 ∨ min a.length b.length = 0) := by
        intro h
        have hz : min a.length b.length = 0 := by
          rcases h with h | h <;> exact h
        exact h0 (Nat.min_eq_zero_iff.mp hz)
      have hR : cosineSimVec sqrt (a.take (min a.length b.length))
            (b.take (min a.length b.length))
          = if (cosineSimVecLoop a b (min a.length b.length)).2.1 = 0 ∨
              (cosineSimVecLoop a b (min a.length b.length)).2.2 = 0 then 0
            else (cosineSimVecLoop a b (min a.length b.length)).1
              / (sqrt (cosineSimVecLoop a b (min a.length b.length)).2.1
                  * sqrt (cosineSimVecLoop a b (min a.length b.length)).2.2) := by
        unfold cosineSimVec
        rw [hla, hlb, if_neg hpos]
        simp only [lt_self_iff_false, if_false, cosineSimVecLoop_take a b _ _ (le_refl _)]
      have hL : cosineSimVec sqrt a b
          = if (cosineSimVecLoop a b (min a.length b.length)).2.1 = 0 ∨
              (cosineSimVecLoop a b (min a.length b.length)).2.2 = 0 then 0
            else (cosineSimVecLoop a b (min a.length b.length)).1
              / (sqrt (cosineSimVecLoop a b (min a.length b.length)).2.1
                  * sqrt (cosineSimVecLoop a b (min a.length b.length)).2.2) := by
        unfold cosineSimVec
        rw [if_neg h0]
        simp only [cosineSimVec_dim]
      rw [hL, hR]
  · intro h
    rw [hform, if_pos]
    rcases h with h | h
    · left; rw [h]; rfl
    · right; rw [h]; rfl
  · intro h
    rw [hform]
    by_cases h0 : a.length = 0 ∨ b.length = 0
    · rw [if_pos h0]
    · rw [if_neg h0, if_pos h]
  · intro h1 h2
    rw [hform, if_neg, if_neg h2, hdot]
    intro h
    apply h1
    rcases h with h | h
    · exact Or.inl (List.length_eq_zero.mp h)
    · exact Or.inr (List.length_eq_zero.mp h)

end Truncate

/-- Witness for C24: over the reals, a = (3, 4, 100) against b = (3, 4): only
the first two components of a are used, the dot product is 3 * 3 + 4 * 4 = 25,
both truncated norms are the square root of 25, and the cosine is 1. -/
theorem cosineSimVec_truncate_witness :
    ¬ (([3, 4, 100] : List ℝ) = [] ∨ ([3, 4] : List ℝ) = []) ∧
    ¬ (sumSqVec (([3, 4, 100] : List ℝ).take
          (min ([3, 4, 100] : List ℝ).length ([3, 4] : List ℝ).length)) = 0 ∨
        sumSqVec (([3, 4] : List ℝ).take
          (min ([3, 4, 100] : List ℝ).length ([3, 4] : List ℝ).length)) = 0) ∧
    cosineSimVec Real.sqrt ([3, 4, 100] : List ℝ) [3, 4]
      = cosineSimVec Real.sqrt
          (([3, 4, 100] : List ℝ).take (min ([3, 4, 100] : List ℝ).length ([3, 4] : List ℝ).length))
          (([3, 4] : List ℝ).take (min ([3, 4, 100] : List ℝ).length ([3, 4] : List ℝ).length)) ∧
    cosineSimVec Real.sqrt ([3, 4, 100] : List ℝ) [3, 4] = 1 := by
  have hne : ¬ (([3, 4, 100] : List ℝ) = [] ∨ ([3, 4] : List ℝ) = []) := by simp
  have hsq : ∀ v : List ℝ, v = [3, 4] → sumSqVec v = 25 := by
    intro v hv
    rw [hv]
    norm_num [sumSqVec]
  have hta : ([3, 4, 100] : List ℝ).take
      (min ([3, 4, 100] : List ℝ).length ([3, 4] : List ℝ).length) = [3, 4] := rfl
  have htb : ([3, 4] : List ℝ).take
      (min ([3, 4, 100] : List ℝ).length ([3, 4] : List ℝ).length) = [3, 4] := rfl
  have hnz : ¬ (sumSqVec (([3, 4, 100] : List ℝ).take
          (min ([3, 4, 100] : List ℝ).length ([3, 4] : List ℝ).length)) = 0 ∨
        sumSqVec (([3, 4] : List ℝ).take
          (min ([3, 4, 100] : List ℝ).length ([3, 4] : List ℝ).length)) = 0) := by
    rw [hsq _ hta, hsq _ htb]
    norm_num
  refine ⟨hne, hnz, (cosineSimVec_truncate Real.sqrt ([3, 4, 100] : List ℝ) [3, 4]).1, ?_⟩
  have hval := (cosineSimVec_truncate Real.sqrt ([3, 4, 100] : List ℝ) [3, 4]).2.2.2 hne hnz
  rw [hval, hsq _ hta, hsq _ htb, hta, htb, Real.mul_self_sqrt (by norm_num)]
  norm_num

end Matcher

namespace Matcher

/-! ## Chunking by words -/

section Chunking

theorem fieldsAux_spaces (ws cur : List Char) (h : ∀ c ∈ ws, isSpace c = true) :
    fieldsAux ws cur = fieldsAux [] cur := by
  induction ws generalizing cur with
  | nil => rfl
  | cons c ws ih =>
    have hc : isSpace c = true := h c (List.mem_cons_self _ _)
    have hnil := ih [] (fun x hx => h x (List.mem_cons_of_mem _ hx))
    have hstep : fieldsAux (c :: ws) cur
        = if cur = [] then fieldsAux ws [] else cur.reverse :: fieldsAux ws [] := by
      conv_lhs => rw [fieldsAux]
      rw [if_pos hc]
    rw [hstep, hnil]
    simp only [fieldsAux, if_true]

theorem fieldsAux_append_spaces (t ws cur : List Char) (h : ∀ c ∈ ws, isSpace c = true) :
    fieldsAux (t ++ ws) cur = fieldsAux t cur := by
  induction t generalizing cur with
  | nil => exact fieldsAux_spaces ws cur h
  | cons c t ih =>
    rw [List.cons_append]
    conv_lhs => rw [fieldsAux]
    conv_rhs => rw [fieldsAux]
    rw [ih, ih]

theorem fieldsAux_dropWhile (s : List Char) :
    fieldsAux (s.dropWhile isSpace) [] = fieldsAux s [] := by
  induction s with
  | nil => rfl
  | cons c s ih =>
    by_cases hc : isSpace c = true
    · rw [List.dropWhile_cons_of_pos hc, ih, fieldsAux, if_pos hc, if_pos rfl]
    · rw [List.dropWhile_cons_of_neg hc]

/-- The call `strings.TrimSpace` before `strings.Fields` changes nothing. -/
theorem fields_trimSpace (s : List Char) : fields (trimSpace s) = fields s := by
  unfold fields trimSpace
  rw [← fieldsAux_dropWhile s]
  generalize s.dropWhile isSpace = t
  have hsplit : t = (t.reverse.dropWhile isSpace).reverse
      ++ (t.reverse.takeWhile isSpace).reverse := by
    rw [← List.reverse_append, List.takeWhile_append_dropWhile, List.reverse_reverse]
  have hws : ∀ c ∈ (t.reverse.takeWhile isSpace).reverse, isSpace c = true := by
    intro c hc
    exact List.mem_takeWhile_imp (List.mem_reverse.mp hc)
  conv_rhs => rw [hsplit]
  rw [fieldsAux_append_spaces _ _ _ hws]

theorem ceil_div_spec (n k : Nat) (hk : 1 ≤ k) :
    n ≤ ((n + k - 1) / k) * k ∧ ∀ t, t < (n + k - 1) / k → t * k < n := by
  constructor
  · have h1 := Nat.div_add_mod (n + k - 1) k
    have h2 := Nat.mod_lt (n + k - 1) (show k > 0 by omega)
    rw [Nat.mul_comm] at h1
    omega
  · intro t ht
    have h1 : (t + 1) * k ≤ n + k - 1 := (Nat.le_div_iff_mul_le (by omega)).mp ht
    rw [Nat.succ_mul] at h1
    omega

/-- The loop of `chunkByWords` from token index `i` on: when `d` more passes
cover the rest of the tokens, the loop ends with `d` more chunks, chunk `t`
being the join of the `k` tokens from index `i + t*k` on. -/
theorem chunkLoop_spec (tokens : List (List Char)) (k : Nat) (hk : 1 ≤ k) (d : Nat) :
    ∀ (i fuel : Nat) (chunks : List (List Char)),
      tokens.length ≤ i + d * k → (∀ t, t < d → i + t * k < tokens.length) → d < fuel →
      chunkLoop tokens (k : Int) fuel (i : Int) chunks
        = some (chunks ++ (List.range d).map
            (fun t => stringsJoin ((tokens.drop (i + t * k)).take k) [' '])) := by
  induction d with
  | zero =>
    intro i fuel chunks h1 _ hf
    obtain ⟨f, rfl⟩ : ∃ f, fuel = f + 1 := ⟨fuel - 1, by omega⟩
    have hge : ¬ ((i : Int) < (tokens.length : Int)) := by omega
    rw [chunkLoop, if_neg hge]
    simp
  | succ d ih =>
    intro i fuel chunks h1 h2 hf
    obtain ⟨f, rfl⟩ : ∃ f, fuel = f + 1 := ⟨fuel - 1, by omega⟩
    have hlt : i < tokens.length := by simpa using h2 0 (Nat.succ_pos d)
    have hlt' : (i : Int) < (tokens.length : Int) := by omega
    rw [Nat.succ_mul] at h1
    have hchunk : ((tokens.drop (i : Int).toNat).take
          ((if (i : Int) + (k : Int) > (tokens.length : Int) then (tokens.length : Int)
            else (i : Int) + (k : Int)) - (i : Int)).toNat)
        = (tokens.drop i).take k := by
      rw [Int.toNat_ofNat]
      by_cases hover : (i : Int) + (k : Int) > (tokens.length : Int)
      · rw [if_pos hover]
        have hlen : (tokens.drop i).length = tokens.length - i := List.length_drop _ _
        rw [List.take_of_length_le (by rw [hlen]; omega),
          List.take_of_length_le (by rw [hlen]; omega)]
      · rw [if_neg hover]
        congr 1
        omega
    have hstop : ¬ ((if (i : Int) + (k : Int) > (tokens.length : Int) then (tokens.length : Int)
            else (i : Int) + (k : Int)) < (i : Int)) := by
      split <;> omega
    rw [chunkLoop, if_pos hlt']
    simp only []
    rw [if_neg hstop, hchunk]
    have hnext : (i : Int) + (k : Int) = ((i + k : Nat) : Int) := by push_cast; rfl
    rw [hnext, ih (i + k) f _ (by omega)
      (fun t ht => by
        have := h2 (t + 1) (by omega)
        rw [Nat.succ_mul] at this
        omega) (by omega)]
    rw [List.range_succ_eq_map, List.map_cons, List.map_map, List.append_assoc]
    congr 2
    simp only [List.singleton_append, Nat.zero_mul, Nat.add_zero, List.cons.injEq, true_and]
    apply List.map_congr_left
    intro t _
    simp only [Function.comp, Nat.succ_mul]
    congr 3
    omega

/-- With enough passes allowed, `chunkByWords` returns the joined word groups
of the contract. -/
theorem chunkByWords_eq (text : List Char) (k : Nat) (hk : 1 ≤ k) (fuel : Nat)
    (hfuel : (fields text).length < fuel) :
    chunkByWords fuel text (k : Int)
      = some ((wordGroups k (fields text)).map (fun g => stringsJoin g [' '])) := by
  obtain ⟨hc1, hc2⟩ := ceil_div_spec (fields text).length k hk
  unfold chunkByWords
  simp only [fields_trimSpace]
  by_cases h0 : (fields text).length = 0
  · rw [if_pos h0]
    have hd : ((fields text).length + k - 1) / k = 0 := by
      rw [h0]
      exact Nat.div_eq_of_lt (by omega)
    simp [wordGroups, hd]
  · rw [if_neg h0]
    by_cases hle : ((fields text).length : Int) ≤ (k : Int)
    · rw [if_pos hle]
      have hd : ((fields text).length + k - 1) / k = 1 := by
        apply Nat.div_eq_of_lt_le
        · omega
        · omega
      have htake : (fields text).take k = fields text :=
        List.take_of_length_le (by omega)
      simp [wordGroups, hd, htake, List.range_succ]
    · rw [if_neg hle]
      have hm : (fields text).length + k - 1 < fuel * k := by
        have : (fields text).length + k - 1 < ((fields text).length + 1) * k := by
          rw [Nat.succ_mul]
          have : (fields text).length ≤ (fields text).length * k :=
            Nat.le_mul_of_pos_right _ (by omega)
          omega
        exact lt_of_lt_of_le this (Nat.mul_le_mul_right k hfuel)
      have hd : ((fields text).length + k - 1) / k < fuel :=
        (Nat.div_lt_iff_lt_mul (by omega)).mpr hm
      have := chunkLoop_spec (fields text) k hk (((fields text).length + k - 1) / k) 0 fuel []
        (by simpa using hc1) (fun t ht => by simpa using hc2 t ht) hd
      simp only [Nat.cast_zero, List.nil_append, Nat.zero_add] at this
      rw [this]
      simp [wordGroups]

end Chunking

end Matcher

namespace Matcher

/-! ## Chunking by words: the contract -/

section ChunkContract

theorem flatten_groups_take (l : List (List Char)) (k m : Nat) :
    ((List.range m).map (fun j => (l.drop (j * k)).take k)).flatten = l.take (m * k) := by
  induction m with
  | zero => simp
  | succ m ih =>
    rw [List.range_succ, List.map_append, List.flatten_append, ih, Nat.succ_mul, List.take_add]
    simp

theorem wordGroups_flatten (k : Nat) (hk : 1 ≤ k) (tokens : List (List Char)) :
    (wordGroups k tokens).flatten = tokens := by
  unfold wordGroups
  rw [flatten_groups_take]
  exact List.take_of_length_le (ceil_div_spec tokens.length k hk).1

theorem wordGroups_length (k : Nat) (tokens : List (List Char)) :
    (wordGroups k tokens).length = (tokens.length + k - 1) / k := by
  simp [wordGroups]

theorem wordGroups_getD (k : Nat) (tokens : List (List Char)) (i : Nat)
    (hi : i < (tokens.length + k - 1) / k) :
    (wordGroups k tokens).getD i [] = (tokens.drop (i * k)).take k := by
  unfold wordGroups
  rw [List.getD_eq_getElem _ _ (by simpa using hi)]
  simp

theorem wordGroups_mem (k : Nat) (tokens : List (List Char)) (g : List (List Char))
    (hg : g ∈ wordGroups k tokens) : ∀ tok ∈ g, tok ∈ tokens := by
  unfold wordGroups at hg
  obtain ⟨j, _, rfl⟩ := List.mem_map.mp hg
  intro tok htok
  exact List.mem_of_mem_drop (List.mem_of_mem_take htok)

/-- Splitting the joined word groups of a text again gives the word groups. -/
theorem fields_joined_groups (k : Nat) (text : List Char) :
    ((wordGroups k (fields text)).map (fun g => stringsJoin g [' '])).map fields
      = wordGroups k (fields text) := by
  rw [List.map_map]
  conv_rhs => rw [← List.map_id (wordGroups k (fields text))]
  apply List.map_congr_left
  intro g hg
  simp only [Function.comp, id]
  apply fields_join
  intro tok htok
  have hmem := wordGroups_mem k (fields text) g hg tok htok
  obtain ⟨h1, h2⟩ := fields_tokens (fun _ => True) text (fun _ _ => trivial) tok hmem
  exact ⟨h1, fun c hc => (h2 c hc).1⟩

/-- C21: for every text and every wordsPerChunk >= 1, chunkByWords ends (any
bound on the number of loop passes above the number of tokens is enough) and
returns chunks such that splitting each chunk on whitespace and concatenating
the token lists in chunk order gives exactly the whitespace-token sequence of
the text. -/
theorem chunkByWords_roundtrip (text : List Char) (wordsPerChunk : Int)
    (hk : 1 ≤ wordsPerChunk) (fuel : Nat) (hfuel : (fields text).length < fuel) :
    ∃ chunks, chunkByWords fuel text wordsPerChunk = some chunks ∧
      (chunks.map fields).flatten = fields text := by
  obtain ⟨k, rfl⟩ : ∃ k : Nat, wordsPerChunk = (k : Int) :=
    ⟨wordsPerChunk.toNat, (Int.toNat_of_nonneg (by omega)).symm⟩
  have hk' : 1 ≤ k := by omega
  refine ⟨_, chunkByWords_eq text k hk' fuel hfuel, ?_⟩
  rw [fields_joined_groups, wordGroups_flatten k hk']

theorem chunkByWords_roundtrip_witness :
    (1 : Int) ≤ 2 ∧ (fields " a b  c d e ".toList).length < 6 ∧
    ∃ chunks, chunkByWords 6 " a b  c d e ".toList 2 = some chunks ∧
      (chunks.map fields).flatten = fields " a b  c d e ".toList :=
  ⟨by decide, by decide,
    chunkByWords_roundtrip " a b  c d e ".toList 2 (by decide) 6 (by decide)⟩

/-- C22: for every text with n whitespace tokens and every wordsPerChunk
k >= 1, chunkByWords returns ceil(n/k) chunks (none when n = 0); every chunk
except the last has exactly k words and every chunk, the last included, has
between 1 and k words. -/
theorem chunkByWords_sizes (text : List Char) (k : Nat) (hk : 1 ≤ k) (fuel : Nat)
    (hfuel : (fields text).length < fuel) :
    ∃ chunks, chunkByWords fuel text (k : Int) = some chunks ∧
      chunks.length = ((fields text).length + k - 1) / k ∧
      (fields text).length ≤ chunks.length * k ∧
      chunks.length * k < (fields text).length + k ∧
      ((fields text).length = 0 → chunks = []) ∧
      (∀ i, i + 1 < chunks.length → (fields (chunks.getD i [])).length = k) ∧
      (∀ i, i < chunks.length →
        1 ≤ (fields (chunks.getD i [])).length ∧ (fields (chunks.getD i [])).length ≤ k) := by
  obtain ⟨hc1, hc2⟩ := ceil_div_spec (fields text).length k hk
  have hlen : ((wordGroups k (fields text)).map (fun g => stringsJoin g [' '])).length
      = ((fields text).length + k - 1) / k := by
    rw [List.length_map, wordGroups_length]
  have hget : ∀ i, i < ((fields text).length + k - 1) / k →
      fields (((wordGroups k (fields text)).map (fun g => stringsJoin g [' '])).getD i [])
        = ((fields text).drop (i * k)).take k := by
    intro i hi
    have h1 : (((wordGroups k (fields text)).map (fun g => stringsJoin g [' '])).map fields).getD
        i [] = ((fields text).drop (i * k)).take k := by
      rw [fields_joined_groups, wordGroups_getD k _ i hi]
    rw [← h1, List.getD_eq_getElem _ _ (by simpa [wordGroups_length] using hi),
      List.getD_eq_getElem _ _ (by simpa [wordGroups_length] using hi)]
    simp only [List.getElem_map]
  refine ⟨_, chunkByWords_eq text k hk fuel hfuel, hlen, ?_, ?_, ?_, ?_, ?_⟩
  · rw [hlen]
    exact hc1
  · rw [hlen]
    have h1 := Nat.div_mul_le_self ((fields text).length + k - 1) k
    omega
  · intro h0
    apply List.eq_nil_of_length_eq_zero
    rw [hlen, h0]
    exact Nat.div_eq_of_lt (by omega)
  · intro i hi
    rw [hlen] at hi
    rw [hget i (by omega), List.length_take, List.length_drop]
    have := hc2 (i + 1) hi
    rw [Nat.succ_mul] at this
    omega
  · intro i hi
    rw [hlen] at hi
    rw [hget i hi, List.length_take, List.length_drop]
    have := hc2 i hi
    omega

theorem chunkByWords_sizes_witness :
    1 ≤ 2 ∧ (fields " a b  c d e ".toList).length < 6 ∧
    ∃ chunks, chunkByWords 6 " a b  c d e ".toList ((2 : Nat) : Int) = some chunks ∧
      chunks.length = ((fields " a b  c d e ".toList).length + 2 - 1) / 2 ∧
      (fields " a b  c d e ".toList).length ≤ chunks.length * 2 ∧
      chunks.length * 2 < (fields " a b  c d e ".toList).length + 2 ∧
      ((fields " a b  c d e ".toList).length = 0 → chunks = []) ∧
      (∀ i, i + 1 < chunks.length → (fields (chunks.getD i [])).length = 2) ∧
      (∀ i, i < chunks.length →
        1 ≤ (fields (chunks.getD i [])).length ∧ (fields (chunks.getD i [])).length ≤ 2) :=
  ⟨by decide, by decide, chunkByWords_sizes " a b  c d e ".toList 2 (by decide) 6 (by decide)⟩

end ChunkContract

end Matcher

namespace Matcher

/-! ## Averaging chunk embeddings -/

section Average

variable {K : Type} [LinearOrderedField K]

/-- The inner loop of `averageEmbeddings` after its first `m` passes. -/
theorem addInto_prefix (sum v : List K) (m : Nat) :
    ((List.range m).foldl (fun sum i => sum.set i (sum.getD i 0 + v.getD i 0)) sum).length
        = sum.length ∧
    ∀ i, i < sum.length →
      ((List.range m).foldl (fun sum i => sum.set i (sum.getD i 0 + v.getD i 0)) sum).getD i 0
        = if i < m then sum.getD i 0 + v.getD i 0 else sum.getD i 0 := by
  induction m with
  | zero => simp
  | succ m ih =>
    obtain ⟨hl, hg⟩ := ih
    rw [List.range_succ, List.foldl_append]
    simp only [List.foldl_cons, List.foldl_nil, List.length_set]
    refine ⟨hl, ?_⟩
    intro i hi
    rw [List.getD_eq_getElem?_getD, List.getElem?_set]
    by_cases him : m = i
    · subst him
      rw [if_pos rfl, if_pos (by rw [hl]; exact hi), if_pos (Nat.lt_succ_self _), Option.getD_some,
        hg m hi, if_neg (lt_irrefl _)]
    · rw [if_neg him, ← List.getD_eq_getElem?_getD, hg i hi]
      by_cases hlt : i < m
      · rw [if_pos hlt, if_pos (by omega)]
      · rw [if_neg hlt, if_neg (by omega)]

theorem addInto_spec (dim : Nat) (sum v : List K) (h : sum.length = dim) :
    (addInto dim sum v).length = dim ∧
    ∀ i, i < dim → (addInto dim sum v).getD i 0 = sum.getD i 0 + v.getD i 0 := by
  obtain ⟨hl, hg⟩ := addInto_prefix sum v dim
  unfold addInto
  refine ⟨hl.trans h, ?_⟩
  intro i hi
  rw [hg i (by rw [h]; exact hi), if_pos hi]

/-- The outer loop of `averageEmbeddings` over vectors that all have the
dimension `dim`: component sums and the number of vectors. -/
theorem averageLoop_spec (dim : Nat) (vecs : List (List K)) (hdim : ∀ v ∈ vecs, v.length = dim)
    (st : List K × K) (hst : st.1.length = dim) :
    (vecs.foldl (fun (st : List K × K) v =>
        if v.length ≠ dim then st else (addInto dim st.1 v, st.2 + 1)) st).1.length = dim ∧
    (vecs.foldl (fun (st : List K × K) v =>
        if v.length ≠ dim then st else (addInto dim st.1 v, st.2 + 1)) st).2
      = st.2 + (vecs.length : K) ∧
    ∀ i, i < dim →
      (vecs.foldl (fun (st : List K × K) v =>
          if v.length ≠ dim then st else (addInto dim st.1 v, st.2 + 1)) st).1.getD i 0
        = st.1.getD i 0 + (vecs.map (fun v => v.getD i 0)).sum := by
  induction vecs generalizing st with
  | nil => simp [hst]
  | cons v rest ih =>
    have hv : v.length = dim := hdim v (List.mem_cons_self _ _)
    obtain ⟨ha1, ha2⟩ := addInto_spec dim st.1 v hst
    obtain ⟨h1, h2, h3⟩ := ih (fun x hx => hdim x (List.mem_cons_of_mem _ hx))
      (addInto dim st.1 v, st.2 + 1) ha1
    simp only [List.foldl_cons, ne_eq, hv, not_true_eq_false, if_false]
    simp only [ne_eq] at h1 h2 h3
    refine ⟨h1, ?_, ?_⟩
    · rw [h2]
      simp only [List.length_cons]
      push_cast
      ring
    · intro i hi
      rw [h3 i hi, ha2 i hi]
      simp only [List.map_cons, List.sum_cons]
      ring

theorem getD_map_div (l : List K) (c : K) (i : Nat) :
    (l.map (fun x => x / c)).getD i 0 = l.getD i 0 / c := by
  rw [List.getD_eq_getElem?_getD, List.getD_eq_getElem?_getD, List.getElem?_map]
  cases l[i]? with
  | none => simp
  | some x => rfl

/-- C23: for every non-empty list of n chunk vectors that all have the same
dimension d > 0, averageEmbeddings returns the vector of dimension d whose
i-th component is the sum of the i-th components divided by n; for the empty
list it returns no vector (the nil slice, of length 0), and so does
embedDocuments for a document none of whose chunks is usable. -/
theorem averageEmbeddings_spec (vecs : List (List K)) (d : Nat) (hd : 0 < d)
    (hne : vecs ≠ []) (hdim : ∀ v ∈ vecs, v.length = d) :
    (averageEmbeddings vecs).length = d ∧
    (∀ i, i < d → (averageEmbeddings vecs).getD i 0
      = (vecs.map (fun v => v.getD i 0)).sum / (vecs.length : K)) ∧
    averageEmbeddings ([] : List (List K)) = [] ∧
    (∀ (embeds : List (List K)) (idxs : List Int),
      (∀ idx ∈ idxs, ¬ (idx ≥ 0 ∧ idx < (embeds.length : Int) ∧
        (embeds.getD idx.toNat []).length > 0)) →
      documentVector embeds idxs = []) := by
  have hlen : vecs.length ≠ 0 := fun h => hne (List.eq_nil_of_length_eq_zero h)
  have hhead : (vecs.headD []).length = d := by
    cases vecs with
    | nil => exact absurd rfl hne
    | cons v rest => exact hdim v (List.mem_cons_self _ _)
  obtain ⟨h1, h2, h3⟩ := averageLoop_spec d vecs hdim (List.replicate d 0, 0)
    (List.length_replicate _ _)
  have hcount : (0 : K) + (vecs.length : K) ≠ 0 := by
    rw [zero_add]
    exact_mod_cast hlen
  refine ⟨?_, ?_, rfl, ?_⟩
  · unfold averageEmbeddings
    rw [if_neg hlen]
    simp only [hhead]
    rw [if_neg (by omega)]
    simp only [ne_eq] at h1 h2
    rw [h2, if_neg hcount, List.length_map, h1]
  · intro i hi
    unfold averageEmbeddings
    rw [if_neg hlen]
    simp only [hhead]
    rw [if_neg (by omega)]
    simp only [ne_eq] at h1 h2 h3
    rw [h2, if_neg hcount]
    rw [getD_map_div, h3 i hi, zero_add]
    have hrep : (List.replicate d (0 : K)).getD i 0 = 0 := by
      simp [List.getD_eq_getElem?_getD, List.getElem?_replicate, hi]
    simp only [hrep, zero_add]
  · intro embeds idxs hnone
    unfold documentVector
    have hf : idxs.filter (fun idx =>
        decide (idx ≥ 0 ∧ idx < (embeds.length : Int) ∧
          (embeds.getD idx.toNat []).length > 0)) = [] := by
      rw [List.filter_eq_nil_iff]
      intro idx hidx
      simpa using hnone idx hidx
    rw [hf]
    rfl

theorem averageEmbeddings_spec_witness :
    0 < 2 ∧ ([[1, 2], [3, 4]] : List (List ℚ)) ≠ [] ∧
    (∀ v ∈ ([[1, 2], [3, 4]] : List (List ℚ)), v.length = 2) ∧
    (averageEmbeddings ([[1, 2], [3, 4]] : List (List ℚ))).length = 2 ∧
    (∀ i, i < 2 → (averageEmbeddings ([[1, 2], [3, 4]] : List (List ℚ))).getD i 0
      = (([[1, 2], [3, 4]] : List (List ℚ)).map (fun v => v.getD i 0)).sum
          / ((([[1, 2], [3, 4]] : List (List ℚ)).length : Nat) : ℚ)) ∧
    averageEmbeddings ([] : List (List ℚ)) = [] ∧
    (∀ (embeds : List (List ℚ)) (idxs : List Int),
      (∀ idx ∈ idxs, ¬ (idx ≥ 0 ∧ idx < (embeds.length : Int) ∧
        (embeds.getD idx.toNat []).length > 0)) →
      documentVector embeds idxs = []) :=
  ⟨by decide, by decide, by decide,
    averageEmbeddings_spec ([[1, 2], [3, 4]] : List (List ℚ)) 2 (by decide) (by decide)
      (by decide)⟩

end Average

end Matcher

namespace Matcher

/-! ## Lower-casing and trimming -/

section LowerTrim

theorem asciiLower_toNat (c : Char) (h : 65 ≤ c.toNat ∧ c.toNat ≤ 90) :
    (asciiLower c).toNat = c.toNat + 32 := by
  unfold asciiLower
  rw [if_pos h]
  obtain ⟨h1, h2⟩ := h
  generalize c.toNat = n at h1 h2
  interval_cases n <;> rfl

theorem asciiLower_of_not_upper (c : Char) (h : ¬ (65 ≤ c.toNat ∧ c.toNat ≤ 90)) :
    asciiLower c = c := by
  unfold asciiLower
  rw [if_neg h]

theorem asciiLower_idem (c : Char) : asciiLower (asciiLower c) = asciiLower c := by
  by_cases h : 65 ≤ c.toNat ∧ c.toNat ≤ 90
  · apply asciiLower_of_not_upper
    rw [asciiLower_toNat c h]
    omega
  · rw [asciiLower_of_not_upper c h, asciiLower_of_not_upper c h]

theorem asciiLower_lt (c : Char) (h : c.toNat < 128) : (asciiLower c).toNat < 128 := by
  by_cases hu : 65 ≤ c.toNat ∧ c.toNat ≤ 90
  · rw [asciiLower_toNat c hu]
    omega
  · rw [asciiLower_of_not_upper c hu]
    exact h

theorem isSpace_false_of_letter (c : Char) (h : 97 ≤ c.toNat ∧ c.toNat ≤ 122) :
    isSpace c = false := by
  unfold isSpace
  simp only [Bool.or_eq_false_iff, Bool.and_eq_false_iff, decide_eq_false_iff_not]
  omega

theorem isSpace_asciiLower (c : Char) (h : isSpace c = false) : isSpace (asciiLower c) = false := by
  by_cases hu : 65 ≤ c.toNat ∧ c.toNat ≤ 90
  · apply isSpace_false_of_letter
    rw [asciiLower_toNat c hu]
    omega
  · rw [asciiLower_of_not_upper c hu]
    exact h

theorem lowerRune_space (unicodeLower : Char → Char)
    (hsp : ∀ c, 128 ≤ c.toNat → isSpace c = false → isSpace (unicodeLower c) = false)
    (c : Char) (h : isSpace c = false) : isSpace (lowerRune unicodeLower c) = false := by
  unfold lowerRune
  by_cases hc : c.toNat < 128
  · rw [if_pos hc]
    exact isSpace_asciiLower c h
  · rw [if_neg hc]
    exact hsp c (by omega) h

theorem lowerRune_idem (unicodeLower : Char → Char)
    (hid : ∀ c, 128 ≤ c.toNat → lowerRune unicodeLower (unicodeLower c) = unicodeLower c)
    (c : Char) : lowerRune unicodeLower (lowerRune unicodeLower c) = lowerRune unicodeLower c := by
  by_cases hc : c.toNat < 128
  · have h1 : lowerRune unicodeLower c = asciiLower c := by
      unfold lowerRune
      rw [if_pos hc]
    rw [h1]
    unfold lowerRune
    rw [if_pos (asciiLower_lt c hc), asciiLower_idem]
  · have h1 : lowerRune unicodeLower c = unicodeLower c := by
      unfold lowerRune
      rw [if_neg hc]
    rw [h1]
    exact hid c (by omega)

theorem stringsToLower_idem (unicodeLower : Char → Char)
    (hid : ∀ c, 128 ≤ c.toNat → lowerRune unicodeLower (unicodeLower c) = unicodeLower c)
    (s : List Char) :
    stringsToLower unicodeLower (stringsToLower unicodeLower s) = stringsToLower unicodeLower s := by
  unfold stringsToLower
  rw [List.map_map]
  apply List.map_congr_left
  intro c _
  exact lowerRune_idem unicodeLower hid c

theorem dropWhile_of_head (l : List Char) (h : ∀ c, l.head? = some c → isSpace c = false) :
    l.dropWhile isSpace = l := by
  cases l with
  | nil => rfl
  | cons a l =>
    have ha : isSpace a = false := h a rfl
    rw [List.dropWhile_cons, if_neg (by simp [ha])]

/-- A text that neither starts nor ends with white space is left alone by
`strings.TrimSpace`. -/
theorem trimSpace_of_trimmed (l : List Char)
    (h1 : ∀ c, l.head? = some c → isSpace c = false)
    (h2 : ∀ c, l.getLast? = some c → isSpace c = false) : trimSpace l = l := by
  unfold trimSpace
  rw [dropWhile_of_head l h1,
    dropWhile_of_head l.reverse (fun c hc => h2 c (by rw [← List.head?_reverse]; exact hc)),
    List.reverse_reverse]

/-- The result of `strings.TrimSpace` neither starts nor ends with white space. -/
theorem trimSpace_trimmed (s : List Char) :
    (∀ c, (trimSpace s).head? = some c → isSpace c = false) ∧
    (∀ c, (trimSpace s).getLast? = some c → isSpace c = false) := by
  unfold trimSpace
  constructor
  · intro c hc
    rw [List.head?_reverse] at hc
    have hsplit := List.takeWhile_append_dropWhile isSpace (s.dropWhile isSpace).reverse
    have hlast : (s.dropWhile isSpace).reverse.getLast? = some c := by
      rw [← hsplit, List.getLast?_append, hc]
      rfl
    rw [List.getLast?_reverse] at hlast
    have := List.head?_dropWhile_not isSpace s
    rw [hlast] at this
    exact this
  · intro c hc
    rw [List.getLast?_reverse] at hc
    have := List.head?_dropWhile_not isSpace (s.dropWhile isSpace).reverse
    rw [hc] at this
    exact this

theorem trimSpace_idem (s : List Char) : trimSpace (trimSpace s) = trimSpace s :=
  trimSpace_of_trimmed _ (trimSpace_trimmed s).1 (trimSpace_trimmed s).2

/-- Lower-casing a trimmed text leaves it trimmed, when the lower-casing table
maps no character that is not white space to white space. -/
theorem trimSpace_stringsToLower (unicodeLower : Char → Char)
    (hsp : ∀ c, 128 ≤ c.toNat → isSpace c = false → isSpace (unicodeLower c) = false)
    (s : List Char) :
    trimSpace (stringsToLower unicodeLower (trimSpace s))
      = stringsToLower unicodeLower (trimSpace s) := by
  obtain ⟨h1, h2⟩ := trimSpace_trimmed s
  apply trimSpace_of_trimmed
  · intro c hc
    unfold stringsToLower at hc
    rw [List.head?_map] at hc
    cases hh : (trimSpace s).head? with
    | none => rw [hh] at hc; cases hc
    | some a =>
      rw [hh] at hc
      simp only [Option.map_some', Option.some.injEq] at hc
      rw [← hc]
      exact lowerRune_space unicodeLower hsp a (h1 a hh)
  · intro c hc
    unfold stringsToLower at hc
    rw [List.getLast?_map] at hc
    cases hh : (trimSpace s).getLast? with
    | none => rw [hh] at hc; cases hc
    | some a =>
      rw [hh] at hc
      simp only [Option.map_some', Option.some.injEq] at hc
      rw [← hc]
      exact lowerRune_space unicodeLower hsp a (h2 a hh)

end LowerTrim

end Matcher

namespace Matcher

/-! ## Cleaning the lists returned by the service -/

section CleanLists

/-- The loop of `cleanSkillList` and `cleanList`: the cleaned slice and the set
`seen` hold the same strings, without repetition: the start strings and the
non-empty normalised items. -/
theorem cleanLoop_fold_spec (norm : List Char → List Char) (items : List (List Char))
    (st : List (List Char) × List (List Char)) (heq : st.1 = st.2) (hn : st.1.Nodup) :
    (items.foldl (fun (st : List (List Char) × List (List Char)) item =>
        if norm item = [] ∨ norm item ∈ st.2 then st
        else (st.1 ++ [norm item], setAdd st.2 (norm item))) st).1.Nodup ∧
    ∀ s, s ∈ (items.foldl (fun (st : List (List Char) × List (List Char)) item =>
        if norm item = [] ∨ norm item ∈ st.2 then st
        else (st.1 ++ [norm item], setAdd st.2 (norm item))) st).1
      ↔ s ∈ st.1 ∨ ∃ x ∈ items, norm x ≠ [] ∧ s = norm x := by
  induction items generalizing st with
  | nil => simp [hn]
  | cons x rest ih =>
    simp only [List.foldl_cons]
    by_cases hskip : norm x = [] ∨ norm x ∈ st.2
    · rw [if_pos hskip]
      obtain ⟨h1, h2⟩ := ih st heq hn
      refine ⟨h1, ?_⟩
      intro s
      rw [h2 s]
      constructor
      · rintro (h | ⟨y, hy, hne, rfl⟩)
        · exact Or.inl h
        · exact Or.inr ⟨y, List.mem_cons_of_mem _ hy, hne, rfl⟩
      · rintro (h | ⟨y, hy, hne, rfl⟩)
        · exact Or.inl h
        · rcases List.mem_cons.mp hy with hy | hy
          · subst hy
            rcases hskip with h | h
            · exact absurd h hne
            · left
              rw [heq]
              exact h
          · exact Or.inr ⟨y, hy, hne, rfl⟩
    · rw [if_neg hskip]
      have hne : norm x ≠ [] := fun h => hskip (Or.inl h)
      have hnot : norm x ∉ st.2 := fun h => hskip (Or.inr h)
      have hset : setAdd st.2 (norm x) = st.2 ++ [norm x] := by
        unfold setAdd
        rw [if_neg hnot]
      have hn' : (st.1 ++ [norm x]).Nodup := by
        rw [List.nodup_append]
        refine ⟨hn, List.nodup_singleton _, ?_⟩
        intro a ha hb
        rw [List.mem_singleton] at hb
        subst hb
        rw [heq] at ha
        exact hnot ha
      obtain ⟨h1, h2⟩ := ih (st.1 ++ [norm x], setAdd st.2 (norm x))
        (by rw [hset, heq]) hn'
      refine ⟨h1, ?_⟩
      intro s
      rw [h2 s]
      simp only [List.mem_append, List.mem_singleton, List.mem_cons, List.not_mem_nil, or_false]
      constructor
      · rintro ((h | h) | ⟨y, hy, hne', rfl⟩)
        · exact Or.inl h
        · exact Or.inr ⟨x, Or.inl rfl, hne, h⟩
        · exact Or.inr ⟨y, Or.inr hy, hne', rfl⟩
      · rintro (h | ⟨y, hy | hy, hne', rfl⟩)
        · exact Or.inl (Or.inl h)
        · subst hy
          exact Or.inl (Or.inr rfl)
        · exact Or.inr ⟨y, hy, hne', rfl⟩

theorem cleanLoop_spec (norm : List Char → List Char) (items : List (List Char)) :
    (cleanLoop norm items).1.Nodup ∧
    ∀ s, s ∈ (cleanLoop norm items).1 ↔ ∃ x ∈ items, norm x ≠ [] ∧ s = norm x := by
  obtain ⟨h1, h2⟩ := cleanLoop_fold_spec norm items ([], []) rfl List.nodup_nil
  refine ⟨h1, ?_⟩
  intro s
  have := h2 s
  simp only [List.not_mem_nil, false_or] at this
  exact this

/-- On distinct non-empty strings that the normalisation leaves alone, the
loop returns its input. -/
theorem cleanLoop_fold_fixed (norm : List Char → List Char) (ys : List (List Char))
    (h : ∀ y ∈ ys, norm y = y ∧ y ≠ []) (p : List (List Char)) (hn : (p ++ ys).Nodup) :
    ys.foldl (fun (st : List (List Char) × List (List Char)) item =>
        if norm item = [] ∨ norm item ∈ st.2 then st
        else (st.1 ++ [norm item], setAdd st.2 (norm item))) (p, p) = (p ++ ys, p ++ ys) := by
  induction ys generalizing p with
  | nil => simp
  | cons y rest ih =>
    obtain ⟨hy1, hy2⟩ := h y (List.mem_cons_self _ _)
    have hnot : y ∉ p := by
      intro hp
      have := (List.nodup_append.mp hn).2.2 hp (List.mem_cons_self _ _)
      exact this
    simp only [List.foldl_cons, hy1]
    rw [if_neg (by
      rintro (h0 | h0)
      · exact hy2 h0
      · exact hnot h0)]
    have hset : setAdd p y = p ++ [y] := by
      unfold setAdd
      rw [if_neg hnot]
    rw [hset, ih (fun z hz => h z (List.mem_cons_of_mem _ hz)) (p ++ [y])
      (by simpa [List.append_assoc] using hn)]
    simp [List.append_assoc]

theorem clean_fixed (norm : List Char → List Char) (items : List (List Char))
    (hidem : ∀ x, norm (norm x) = norm x) :
    sortStrings (cleanLoop norm (sortStrings (cleanLoop norm items).1)).1
      = sortStrings (cleanLoop norm items).1 := by
  obtain ⟨hn, hmem⟩ := cleanLoop_spec norm items
  have hn' : (sortStrings (cleanLoop norm items).1).Nodup :=
    (perm_sortStrings _).nodup_iff.mpr hn
  have hfix : ∀ y ∈ sortStrings (cleanLoop norm items).1, norm y = y ∧ y ≠ [] := by
    intro y hy
    rw [mem_sortStrings, hmem] at hy
    obtain ⟨x, _, hne, rfl⟩ := hy
    exact ⟨hidem x, hne⟩
  have hloop : cleanLoop norm (sortStrings (cleanLoop norm items).1)
      = (sortStrings (cleanLoop norm items).1, sortStrings (cleanLoop norm items).1) := by
    have := cleanLoop_fold_fixed norm _ hfix [] (by simpa using hn')
    simpa [cleanLoop] using this
  rw [hloop]
  exact sortStrings_perm _ _ (perm_sortStrings _)

/-- C25: for every list of strings, cleanSkillList returns a strictly
ascending (sorted, duplicate-free) list whose elements are exactly the
strings lowercase(trim(x)) for the input items x with trim(x) non-empty, and
cleanList returns a strictly ascending list whose elements are exactly the
strings trim(x) for the items x with trim(x) non-empty; cleanList is
idempotent, and cleanSkillList is idempotent for every lower-casing table
that maps no character outside white space to white space and that leaves
lower-cased characters alone (as the table of Go's `unicode.ToLower` does). -/
theorem cleanLists_spec (unicodeLower : Char → Char) (items : List (List Char)) :
    (cleanSkillList unicodeLower items).Pairwise (fun a b => strLt a b = true) ∧
    (∀ s, s ∈ cleanSkillList unicodeLower items ↔
      ∃ x ∈ items, trimSpace x ≠ [] ∧ s = stringsToLower unicodeLower (trimSpace x)) ∧
    (cleanList items).Pairwise (fun a b => strLt a b = true) ∧
    (∀ s, s ∈ cleanList items ↔ ∃ x ∈ items, trimSpace x ≠ [] ∧ s = trimSpace x) ∧
    cleanList (cleanList items) = cleanList items ∧
    ((∀ c, 128 ≤ c.toNat → isSpace c = false → isSpace (unicodeLower c) = false) →
      (∀ c, 128 ≤ c.toNat → lowerRune unicodeLower (unicodeLower c) = unicodeLower c) →
      cleanSkillList unicodeLower (cleanSkillList unicodeLower items)
        = cleanSkillList unicodeLower items) := by
  obtain ⟨hn1, hm1⟩ := cleanLoop_spec
    (fun item => stringsToLower unicodeLower (trimSpace item)) items
  obtain ⟨hn2, hm2⟩ := cleanLoop_spec trimSpace items
  have hempty : ∀ x : List Char, stringsToLower unicodeLower (trimSpace x) ≠ []
      ↔ trimSpace x ≠ [] := by
    intro x
    unfold stringsToLower
    simp
  refine ⟨sortStrings_strict _ hn1, ?_, sortStrings_strict _ hn2, ?_, ?_, ?_⟩
  · intro s
    unfold cleanSkillList
    rw [mem_sortStrings, hm1]
    simp only [hempty]
  · intro s
    unfold cleanList
    rw [mem_sortStrings, hm2]
  · exact clean_fixed trimSpace items trimSpace_idem
  · intro hsp hid
    apply clean_fixed (fun item => stringsToLower unicodeLower (trimSpace item)) items
    intro x
    show stringsToLower unicodeLower (trimSpace (stringsToLower unicodeLower (trimSpace x)))
      = stringsToLower unicodeLower (trimSpace x)
    rw [trimSpace_stringsToLower unicodeLower hsp x, stringsToLower_idem unicodeLower hid]

theorem cleanLists_spec_witness :
    (∀ c : Char, 128 ≤ c.toNat → isSpace c = false → isSpace (id c) = false) ∧
    (∀ c : Char, 128 ≤ c.toNat → lowerRune id (id c) = id c) ∧
    cleanSkillList id [" Go ".toList, "go".toList, [], "SQL".toList]
      = ["go".toList, "sql".toList] ∧
    cleanSkillList id (cleanSkillList id [" Go ".toList, "go".toList, [], "SQL".toList])
      = cleanSkillList id [" Go ".toList, "go".toList, [], "SQL".toList] :=
  ⟨fun _ _ h => h,
    fun c hc => by
      unfold lowerRune
      rw [if_neg (by simp only [id]; omega)]
      rfl,
    by decide,
    (cleanLists_spec id [" Go ".toList, "go".toList, [], "SQL".toList]).2.2.2.2.2
      (fun _ _ h => h)
      (fun c hc => by
        unfold lowerRune
        rw [if_neg (by simp only [id]; omega)]
        rfl)⟩

end CleanLists

end Matcher

namespace Matcher

/-! ## The RTF reader: literal bytes and hexadecimal escapes -/

section RtfLiteral

/-- Moving the index over `k` bytes is dropping them. -/
theorem readRtfAux_skip (k : Nat) (data : List Nat) :
    readRtfAux k data = readRtfLoop (data.drop k) := by
  induction data generalizing k with
  | nil => cases k <;> simp [readRtfAux, readRtfLoop]
  | cons b bs ih =>
    cases k with
    | zero => rfl
    | succ k =>
      rw [readRtfAux, ih k]
      rfl

/-- One pass of the loop: what it writes, and where the next pass starts. -/
theorem readRtfLoop_cons (b : Nat) (bs : List Nat) :
    readRtfLoop (b :: bs) = (rtfStep b bs).1 ++ readRtfLoop (bs.drop (rtfStep b bs).2) := by
  unfold readRtfLoop
  rw [readRtfAux, readRtfAux_skip]
  rfl

theorem readRtfLoop_nil : readRtfLoop [] = [] := rfl

theorem rtfStep_literal (b : Nat) (bs : List Nat) (hb : b ≠ 92) :
    rtfStep b bs = (if isLiteralByte b then [b] else [], 0) := by
  unfold rtfStep isLiteralByte
  by_cases h1 : b = 123 ∨ b = 125
  · rw [if_pos h1]
    rcases h1 with h1 | h1 <;> simp [h1]
  · rw [if_neg h1, if_neg hb]
    push_neg at h1
    by_cases h2 : b ≥ 32 ∨ b = 10 ∨ b = 9
    · rw [if_pos h2]
      have h3 : (decide (b ≥ 32) || decide (b = 10) || decide (b = 9)) = true := by
        simpa [or_assoc] using h2
      rw [h3]
      simp [h1.1, h1.2]
    · rw [if_neg h2]
      have h3 : (decide (b ≥ 32) || decide (b = 10) || decide (b = 9)) = false := by
        simpa [and_assoc] using h2
      rw [h3]
      simp

/-- Literal text before a construct is written as it stands, and the loop
reaches the construct. -/
theorem readRtfLoop_literal_append (pre rest : List Nat) (h : ∀ b ∈ pre, b ≠ 92) :
    readRtfLoop (pre ++ rest) = pre.filter isLiteralByte ++ readRtfLoop rest := by
  induction pre with
  | nil => rfl
  | cons b pre ih =>
    have hb : b ≠ 92 := h b (List.mem_cons_self _ _)
    rw [List.cons_append, readRtfLoop_cons, rtfStep_literal b _ hb, List.drop_zero,
      ih (fun x hx => h x (List.mem_cons_of_mem _ hx)), List.filter_cons]
    cases isLiteralByte b <;> simp

/-- C26: for every RTF byte sequence that contains no backslash, the parsing
loop of readRtf outputs exactly the input bytes that are at least 32 or are
newline or tab, in order, with every opening and closing brace removed; all
other control bytes, carriage return included, are dropped. -/
theorem readRtf_no_backslash (data : List Nat) (h : ∀ b ∈ data, b ≠ 92) :
    readRtfLoop data
      = data.filter (fun b => decide (b ≠ 123 ∧ b ≠ 125 ∧ (b ≥ 32 ∨ b = 10 ∨ b = 9))) ∧
    13 ∉ readRtfLoop data ∧
    (∀ b ∈ readRtfLoop data, b ≥ 32 ∨ b = 10 ∨ b = 9) := by
  have h1 := readRtfLoop_literal_append data [] h
  rw [List.append_nil, readRtfLoop_nil, List.append_nil] at h1
  have h2 : data.filter isLiteralByte
      = data.filter (fun b => decide (b ≠ 123 ∧ b ≠ 125 ∧ (b ≥ 32 ∨ b = 10 ∨ b = 9))) := by
    apply List.filter_congr
    intro b _
    unfold isLiteralByte
    simp [Bool.and_assoc, Bool.or_assoc]
  rw [h1, ← h2]
  refine ⟨rfl, ?_, ?_⟩
  · intro h13
    have := (List.mem_filter.mp h13).2
    exact absurd this (by decide)
  · intro b hb
    have := (List.mem_filter.mp hb).2
    unfold isLiteralByte at this
    simp only [Bool.and_eq_true, Bool.or_eq_true, decide_eq_true_eq, or_assoc] at this
    exact this.2

theorem readRtf_no_backslash_witness :
    (∀ b ∈ [123, 72, 105, 13, 10, 9, 1, 33, 125], b ≠ 92) ∧
    readRtfLoop [123, 72, 105, 13, 10, 9, 1, 33, 125] = [72, 105, 10, 9, 33] ∧
    readRtfLoop [123, 72, 105, 13, 10, 9, 1, 33, 125]
      = [123, 72, 105, 13, 10, 9, 1, 33, 125].filter
          (fun b => decide (b ≠ 123 ∧ b ≠ 125 ∧ (b ≥ 32 ∨ b = 10 ∨ b = 9))) :=
  ⟨by decide, by decide,
    (readRtf_no_backslash [123, 72, 105, 13, 10, 9, 1, 33, 125] (by decide)).1⟩

end RtfLiteral

section RtfHex

theorem hexVal_lt (b v : Nat) (h : hexVal b = some v) : v < 16 := by
  unfold hexVal at h
  split at h
  · simp only [Option.some.injEq] at h; omega
  · split at h
    · simp only [Option.some.injEq] at h; omega
    · split at h
      · simp only [Option.some.injEq] at h; omega
      · cases h

theorem shift_or_eq (hv lv : Nat) (h1 : hv < 16) (h2 : lv < 16) :
    ((hv <<< 4) % 256) ||| lv = 16 * hv + lv := by
  interval_cases hv <;> interval_cases lv <;> rfl

theorem hexVal_isSome (b : Nat) :
    (hexVal b).isSome = true ↔
      ((48 ≤ b ∧ b ≤ 57) ∨ (97 ≤ b ∧ b ≤ 102) ∨ (65 ≤ b ∧ b ≤ 70)) := by
  unfold hexVal
  by_cases h1 : 48 ≤ b ∧ b ≤ 57
  · simp [h1]
  · by_cases h2 : 97 ≤ b ∧ b ≤ 102
    · simp [h1, h2]
    · by_cases h3 : 65 ≤ b ∧ b ≤ 70
      · simp [h1, h2, h3]
      · simp [h1, h2, h3]

theorem rtfHex_eq (hi lo : Nat) :
    rtfHex hi lo = match hexVal hi, hexVal lo with
      | some hv, some lv => some (16 * hv + lv)
      | _, _ => none := by
  unfold rtfHex
  cases h1 : hexVal hi with
  | none => rfl
  | some hv =>
    cases h2 : hexVal lo with
    | none => rfl
    | some lv =>
      simp only []
      rw [shift_or_eq hv lv (hexVal_lt hi hv h1) (hexVal_lt lo lv h2)]

/-- C27: at a hexadecimal escape (backslash, apostrophe, X, Y) the parsing
loop of readRtf emits the single byte 16*hexVal(X)+hexVal(Y) when X and Y are
hex digits (0-9, a-f, A-F, with the values 0-9, 10-15, 10-15) and resumes
immediately after Y; rtfHex fails exactly when X or Y is not a hex digit, and
then the four bytes are consumed and nothing is emitted. -/
theorem readRtfLoop_hex (x y : Nat) (rest : List Nat) :
    readRtfLoop (92 :: 39 :: x :: y :: rest)
      = (match hexVal x, hexVal y with
          | some hv, some lv => [16 * hv + lv]
          | _, _ => []) ++ readRtfLoop rest ∧
    (rtfHex x y = none ↔
      ¬ ((48 ≤ x ∧ x ≤ 57) ∨ (97 ≤ x ∧ x ≤ 102) ∨ (65 ≤ x ∧ x ≤ 70)) ∨
      ¬ ((48 ≤ y ∧ y ≤ 57) ∨ (97 ≤ y ∧ y ≤ 102) ∨ (65 ≤ y ∧ y ≤ 70))) ∧
    (∀ b, hexVal b = (if 48 ≤ b ∧ b ≤ 57 then some (b - 48)
      else if 97 ≤ b ∧ b ≤ 102 then some (b - 87)
      else if 65 ≤ b ∧ b ≤ 70 then some (b - 55) else none)) := by
  refine ⟨?_, ?_, ?_⟩
  · rw [readRtfLoop_cons]
    have hstep : rtfStep 92 (39 :: x :: y :: rest)
        = ((match rtfHex x y with
            | some val => [val]
            | none => []), 3) := by
      unfold rtfStep
      simp only [show ¬ ((92 : Nat) = 123 ∨ (92 : Nat) = 125) by decide, if_false, if_true,
        List.length_cons, true_and]
      rw [if_pos (by omega)]
      rfl
    rw [hstep, rtfHex_eq]
    simp only [List.drop_succ_cons, List.drop_zero]
    cases hexVal x <;> cases hexVal y <;> rfl
  · rw [← hexVal_isSome x, ← hexVal_isSome y, rtfHex_eq]
    cases hexVal x <;> cases hexVal y <;> simp
  · intro b
    unfold hexVal
    split
    · rfl
    · split
      · rename_i h
        congr 1
        omega
      · split
        · rename_i h
          congr 1
          omega
        · rfl

end RtfHex

end Matcher

namespace Matcher

/-! ## The RTF reader: control words -/

section RtfControl

theorem takeWhile_append_stop {α : Type} (p : α → Bool) (l t : List α)
    (hl : ∀ x ∈ l, p x = true) (ht : ∀ x, t.head? = some x → p x = false) :
    (l ++ t).takeWhile p = l := by
  induction l with
  | nil =>
    cases t with
    | nil => rfl
    | cons a t =>
      have := ht a rfl
      simp [List.takeWhile_cons, this]
  | cons a l ih =>
    have ha := hl a (List.mem_cons_self _ _)
    rw [List.cons_append, List.takeWhile_cons, ha, if_pos rfl,
      ih (fun x hx => hl x (List.mem_cons_of_mem _ hx))]

theorem pair_ite {α β : Type} (c : Prop) [Decidable c] (out : α) (x y : β) :
    (if c then (out, x) else (out, y)) = (out, if c then x else y) := by
  split <;> rfl

theorem isLetterByte_minus : isLetterByte 45 = false := by decide

/-- The scan of a control word made of the letters `letters`, the optional
sign `sign`, the digits `digits`, and followed by `tail`. -/
theorem rtfControl_word (letters sign digits tail : List Nat)
    (hl : ∀ b ∈ letters, isLetterByte b = true)
    (hs : sign = [] ∨ sign = [45])
    (hd : ∀ b ∈ digits, isDigitByte b = true)
    (ht : ∀ b, tail.head? = some b → isDigitByte b = false)
    (hmax : sign = [] → ∀ b, (digits ++ tail).head? = some b →
      isLetterByte b = false ∧ b ≠ 45) :
    (rtfControl (letters ++ (sign ++ (digits ++ tail)))).1
      = (if letters.map lowerByte = [117] ∧ digits ≠ [] then
          writeRune
            (if wrapInt 32 (wrapInt 64 (parseParam digits * (if sign = [45] then -1 else 1))) < 0
              then wrapInt 32 (wrapInt 64 (parseParam digits * (if sign = [45] then -1 else 1)))
                + 65536
              else wrapInt 32 (wrapInt 64 (parseParam digits * (if sign = [45] then -1 else 1))))
        else []) ∧
    (letters ++ (sign ++ (digits ++ tail))).drop
        (rtfControl (letters ++ (sign ++ (digits ++ tail)))).2
      = (if ((if letters.map lowerByte = [117] ∧ digits ≠ [] then tail.drop 1 else tail).head?
            = some 32)
          then (if letters.map lowerByte = [117] ∧ digits ≠ [] then tail.drop 1 else tail).drop 1
          else (if letters.map lowerByte = [117] ∧ digits ≠ [] then tail.drop 1 else tail)) := by
  have hstop1 : ∀ x, (sign ++ (digits ++ tail)).head? = some x → isLetterByte x = false := by
    intro x hx
    rcases hs with hs | hs
    · subst hs
      exact (hmax rfl x hx).1
    · subst hs
      simp only [List.singleton_append, List.head?_cons, Option.some.injEq] at hx
      rw [← hx]
      exact isLetterByte_minus
  have h1 := takeWhile_append_stop isLetterByte letters _ hl hstop1
  have h3 := takeWhile_append_stop isDigitByte digits tail hd ht
  have hneg : ((sign ++ (digits ++ tail)).head? = some 45) ↔ sign = [45] := by
    rcases hs with hs | hs
    · subst hs
      constructor
      · intro h
        exact absurd rfl (hmax rfl 45 h).2
      · intro h
        cases h
    · subst hs
      simp
  have hdrop2 : (letters ++ (sign ++ (digits ++ tail))).drop
      (if sign = [45] then letters.length + 1 else letters.length) = digits ++ tail := by
    rcases hs with hs | hs
    · subst hs
      rw [if_neg (by simp)]
      simp
    · subst hs
      rw [if_pos rfl]
      rw [List.drop_append]
      rfl
  have hlen : (letters ++ (sign ++ (digits ++ tail))).length
      = (if sign = [45] then letters.length + 1 else letters.length) + digits.length
        + tail.length := by
    rcases hs with hs | hs
    · subst hs
      simp
      omega
    · subst hs
      simp
      omega
  have hdrop3 : ∀ k, (letters ++ (sign ++ (digits ++ tail))).drop
      ((if sign = [45] then letters.length + 1 else letters.length) + digits.length + k)
        = tail.drop k := by
    intro k
    rw [Nat.add_assoc, ← List.drop_drop, hdrop2, List.drop_append]
  have hJ : (if sign = [45] then letters.length + 1 else letters.length)
      = letters.length + sign.length := by
    rcases hs with hs | hs
    · subst hs
      rw [if_neg (by simp)]
      rfl
    · subst hs
      rw [if_pos rfl]
      rfl
  rw [hJ] at hdrop2 hlen hdrop3
  have hnum : (letters.length + sign.length < letters.length + sign.length + digits.length)
      ↔ digits ≠ [] := by
    rw [← List.length_pos]
    omega
  have hmore : (letters.length + sign.length + digits.length
      < letters.length + sign.length + digits.length + tail.length) ↔ tail ≠ [] := by
    rw [← List.length_pos]
    omega
  have key : rtfControl (letters ++ (sign ++ (digits ++ tail)))
      = ((if letters.map lowerByte = [117] ∧ digits ≠ [] then
          writeRune
            (if wrapInt 32 (wrapInt 64 (parseParam digits * (if sign = [45] then -1 else 1))) < 0
              then wrapInt 32 (wrapInt 64 (parseParam digits * (if sign = [45] then -1 else 1)))
                + 65536
              else wrapInt 32 (wrapInt 64 (parseParam digits * (if sign = [45] then -1 else 1))))
        else []),
        if ((letters ++ (sign ++ (digits ++ tail))).drop
            (if (letters.map lowerByte = [117] ∧ digits ≠ []) ∧ tail ≠ []
              then letters.length + sign.length + digits.length + 1
              else letters.length + sign.length + digits.length)).head? = some 32
        then (if (letters.map lowerByte = [117] ∧ digits ≠ []) ∧ tail ≠ []
              then letters.length + sign.length + digits.length + 1
              else letters.length + sign.length + digits.length) + 1
        else (if (letters.map lowerByte = [117] ∧ digits ≠ []) ∧ tail ≠ []
              then letters.length + sign.length + digits.length + 1
              else letters.length + sign.length + digits.length)) := by
    unfold rtfControl
    simp only [h1, List.take_left, List.drop_left, hneg, decide_eq_true_eq, hJ, hdrop2, h3, hlen,
      Bool.and_eq_true, hnum, hmore, pair_ite]
    by_cases hu : letters.map lowerByte = [117] ∧ digits ≠ []
    · simp only [hu, and_self, if_true, ne_eq, not_false_eq_true, true_and]
    · have hu1 : ¬ ((letters.map lowerByte = [117] ∧ digits ≠ []) ∧ tail ≠ []) :=
        fun h => hu h.1
      by_cases hdg : digits = []
      · simp [hdg]
      · have hu2 : ¬ (letters.map lowerByte = [117]) := fun h => hu ⟨h, hdg⟩
        simp [hu2]
  have hd0 := hdrop3 0
  simp only [Nat.add_zero, List.drop_zero] at hd0
  rw [key]
  refine ⟨rfl, ?_⟩
  dsimp only
  by_cases hu : letters.map lowerByte = [117] ∧ digits ≠ []
  · by_cases htl : tail = []
    · have hj4 : ¬ ((letters.map lowerByte = [117] ∧ digits ≠ []) ∧ tail ≠ []) :=
        fun h => h.2 htl
      rw [if_neg hj4, if_pos hu, hd0]
      have hnone : ¬ (tail.head? = some 32) := by rw [htl]; simp
      have hnone1 : ¬ ((tail.drop 1).head? = some 32) := by rw [htl]; simp
      rw [if_neg hnone, if_neg hnone1, hd0, htl]
      rfl
    · have hj4 : (letters.map lowerByte = [117] ∧ digits ≠ []) ∧ tail ≠ [] := ⟨hu, htl⟩
      rw [if_pos hj4, if_pos hu, hdrop3 1]
      by_cases hsp : (tail.drop 1).head? = some 32
      · rw [if_pos hsp, if_pos hsp, Nat.add_assoc, hdrop3 2, List.drop_drop]
      · rw [if_neg hsp, if_neg hsp, hdrop3 1]
  · have hj4 : ¬ ((letters.map lowerByte = [117] ∧ digits ≠ []) ∧ tail ≠ []) :=
      fun h => hu h.1
    rw [if_neg hj4, if_neg hu, hd0]
    by_cases hsp : tail.head? = some 32
    · rw [if_pos hsp, if_pos hsp, hdrop3 1]
    · rw [if_neg hsp, if_neg hsp, hd0]

end RtfControl

end Matcher

namespace Matcher

/-! ## The RTF reader: control words and Unicode escapes -/

section RtfWords

theorem rtfStep_control (b0 : Nat) (bs : List Nat) (h : isLetterByte b0 = true) :
    rtfStep 92 (b0 :: bs) = rtfControl (b0 :: bs) := by
  have h39 : b0 ≠ 39 := by
    intro h0
    rw [h0] at h
    exact absurd h (by decide)
  unfold rtfStep
  simp [h39]

/-- The loop at a control word: what the word writes, and the loop goes on
after the word, its delimiting space included. -/
theorem readRtfLoop_word (letters sign digits tail : List Nat)
    (hname : letters ≠ [])
    (hl : ∀ b ∈ letters, isLetterByte b = true)
    (hs : sign = [] ∨ sign = [45])
    (hd : ∀ b ∈ digits, isDigitByte b = true)
    (ht : ∀ b, tail.head? = some b → isDigitByte b = false)
    (hmax : sign = [] → ∀ b, (digits ++ tail).head? = some b →
      isLetterByte b = false ∧ b ≠ 45) :
    readRtfLoop (92 :: (letters ++ (sign ++ (digits ++ tail))))
      = (if letters.map lowerByte = [117] ∧ digits ≠ [] then
          writeRune
            (if wrapInt 32 (wrapInt 64 (parseParam digits * (if sign = [45] then -1 else 1))) < 0
              then wrapInt 32 (wrapInt 64 (parseParam digits * (if sign = [45] then -1 else 1)))
                + 65536
              else wrapInt 32 (wrapInt 64 (parseParam digits * (if sign = [45] then -1 else 1))))
        else []) ++
        readRtfLoop
          (if ((if letters.map lowerByte = [117] ∧ digits ≠ [] then tail.drop 1 else tail).head?
              = some 32)
            then (if letters.map lowerByte = [117] ∧ digits ≠ [] then tail.drop 1 else tail).drop 1
            else (if letters.map lowerByte = [117] ∧ digits ≠ [] then tail.drop 1 else tail)) := by
  obtain ⟨h1, h2⟩ := rtfControl_word letters sign digits tail hl hs hd ht hmax
  rw [readRtfLoop_cons]
  have hstep : rtfStep 92 (letters ++ (sign ++ (digits ++ tail)))
      = rtfControl (letters ++ (sign ++ (digits ++ tail))) := by
    cases letters with
    | nil => exact absurd rfl hname
    | cons b0 letters =>
      exact rtfStep_control b0 _ (hl b0 (List.mem_cons_self _ _))
  rw [hstep, h1, h2]

/-- C29: for every RTF control word other than the Unicode escape and the
hexadecimal escape (a backslash followed by ASCII letters, an optional minus
sign and decimal digits, and at most one delimiting space), the parsing loop
of readRtf emits no output for it, consumes exactly those bytes including the
one delimiting space if present, and resumes with the next byte, so the
literal text around it is output unchanged. -/
theorem readRtfLoop_control_word (pre letters sign digits sp rest : List Nat)
    (hpre : ∀ b ∈ pre, b ≠ 92)
    (hname : letters ≠ [])
    (hl : ∀ b ∈ letters, isLetterByte b = true)
    (hs : sign = [] ∨ sign = [45])
    (hd : ∀ b ∈ digits, isDigitByte b = true)
    (hsp : sp = [] ∨ sp = [32])
    (hmax1 : sign = [] → ∀ b, (digits ++ (sp ++ rest)).head? = some b →
      isLetterByte b = false ∧ b ≠ 45)
    (hmax2 : ∀ b, (sp ++ rest).head? = some b → isDigitByte b = false)
    (hmax3 : sp = [] → rest.head? ≠ some 32)
    (hnotU : ¬ (letters.map lowerByte = [117] ∧ digits ≠ [])) :
    readRtfLoop (92 :: (letters ++ (sign ++ (digits ++ (sp ++ rest))))) = readRtfLoop rest ∧
    readRtfLoop (pre ++ 92 :: (letters ++ (sign ++ (digits ++ (sp ++ rest)))))
      = pre.filter isLiteralByte ++ readRtfLoop rest ∧
    ((∀ b ∈ rest, b ≠ 92) →
      readRtfLoop (pre ++ 92 :: (letters ++ (sign ++ (digits ++ (sp ++ rest)))))
        = pre.filter isLiteralByte ++ rest.filter isLiteralByte) := by
  have hword : readRtfLoop (92 :: (letters ++ (sign ++ (digits ++ (sp ++ rest)))))
      = readRtfLoop rest := by
    rw [readRtfLoop_word letters sign digits (sp ++ rest) hname hl hs hd hmax2 hmax1,
      if_neg hnotU, if_neg hnotU, List.nil_append]
    rcases hsp with hsp | hsp
    · subst hsp
      rw [List.nil_append, if_neg (hmax3 rfl)]
    · subst hsp
      have h32 : ([32] ++ rest).head? = some 32 := rfl
      rw [if_pos h32]
      rfl
  refine ⟨hword, ?_, ?_⟩
  · rw [readRtfLoop_literal_append pre _ hpre, hword]
  · intro hrest
    rw [readRtfLoop_literal_append pre _ hpre, hword]
    have := readRtfLoop_literal_append rest [] hrest
    rw [List.append_nil, readRtfLoop_nil, List.append_nil] at this
    rw [this]

set_option maxRecDepth 1000000 in
theorem readRtfLoop_word_example :
    readRtfLoop ([72, 105] ++ 92 :: ([102, 115] ++ ([45] ++ ([50, 52] ++ ([32] ++ [32, 120])))))
      = [72, 105, 32, 120] := by decide

theorem readRtfLoop_control_word_witness :
    readRtfLoop ([72, 105] ++ 92 :: ([102, 115] ++ ([45] ++ ([50, 52] ++ ([32] ++ [32, 120])))))
      = [72, 105, 32, 120] ∧
    readRtfLoop (92 :: ([102, 115] ++ ([45] ++ ([50, 52] ++ ([32] ++ [32, 120])))))
      = readRtfLoop [32, 120] :=
  ⟨readRtfLoop_word_example,
    (readRtfLoop_control_word [72, 105] [102, 115] [45] [50, 52] [32] [32, 120]
      (by decide) (by decide) (by decide) (by decide) (by decide) (by decide)
      (by decide) (by decide) (by decide) (by decide)).1⟩

end RtfWords

end Matcher

namespace Matcher

/-! ## The RTF reader: Unicode escapes -/

section RtfUnicode

theorem wrapInt64_of_range (x : Int) (h1 : -9223372036854775808 ≤ x)
    (h2 : x < 9223372036854775808) : wrapInt 64 x = x := by
  unfold wrapInt
  norm_num
  omega

theorem wrapInt32_of_range (x : Int) (h1 : -2147483648 ≤ x) (h2 : x < 2147483648) :
    wrapInt 32 x = x := by
  unfold wrapInt
  norm_num
  omega

theorem isDigitByte_iff (b : Nat) : isDigitByte b = true ↔ 48 ≤ b ∧ b ≤ 57 := by
  unfold isDigitByte
  simp

theorem decimalValue_concat (init : List Nat) (d : Nat) :
    decimalValue (init ++ [d]) = decimalValue init * 10 + (d - 48) := by
  unfold decimalValue
  rw [List.foldl_append]
  rfl

theorem parseParam_concat (init : List Nat) (d : Nat) :
    parseParam (init ++ [d]) = wrapInt 64 (parseParam init * 10 + ((d : Int) - 48)) := by
  unfold parseParam
  rw [List.foldl_append]
  rfl

/-- While the number stays within 63 bits, the loop over the digits computes
the decimal number they denote. -/
theorem parseParam_eq (digits : List Nat) (hd : ∀ b ∈ digits, isDigitByte b = true)
    (hb : decimalValue digits < 9223372036854775808) :
    parseParam digits = (decimalValue digits : Int) := by
  induction digits using List.reverseRecOn with
  | nil => rfl
  | append_singleton init d ih =>
    have hd' : 48 ≤ d ∧ d ≤ 57 :=
      (isDigitByte_iff d).mp (hd d (List.mem_append_right _ (List.mem_singleton_self _)))
    rw [decimalValue_concat] at hb
    rw [parseParam_concat, decimalValue_concat,
      ih (fun b hb' => hd b (List.mem_append_left _ hb')) (by omega)]
    rw [wrapInt64_of_range _ (by omega) (by omega)]
    omega

/-- The loop at a Unicode escape with a fallback byte: the rune it writes and
where it goes on. -/
theorem rtfUnicode_step (ub : Nat) (sign digits : List Nat) (fb : Nat)
    (rest : List Nat)
    (hub : ub = 117 ∨ ub = 85)
    (hs : sign = [] ∨ sign = [45])
    (hne : digits ≠ [])
    (hd : ∀ b ∈ digits, isDigitByte b = true)
    (hfb : isDigitByte fb = false)
    (hb : decimalValue digits < 2147483648) :
    readRtfLoop (92 :: ([ub] ++ (sign ++ (digits ++ fb :: rest))))
      = writeRune
          (if ((decimalValue digits : Int) * (if sign = [45] then -1 else 1)) < 0
            then (decimalValue digits : Int) * (if sign = [45] then -1 else 1) + 65536
            else (decimalValue digits : Int) * (if sign = [45] then -1 else 1)) ++
        readRtfLoop (if rest.head? = some 32 then rest.drop 1 else rest) := by
  have hl : ∀ b ∈ [ub], isLetterByte b = true := by
    intro b hb'
    rw [List.mem_singleton] at hb'
    subst hb'
    rcases hub with h | h <;> subst h <;> decide
  have hname : [ub].map lowerByte = [117] := by
    rcases hub with h | h <;> subst h <;> decide
  have hmax : sign = [] → ∀ b, (digits ++ fb :: rest).head? = some b →
      isLetterByte b = false ∧ b ≠ 45 := by
    intro _ b hb'
    cases digits with
    | nil => exact absurd rfl hne
    | cons d ds =>
      simp only [List.cons_append, List.head?_cons, Option.some.injEq] at hb'
      subst hb'
      have := (isDigitByte_iff d).mp (hd d (List.mem_cons_self _ _))
      constructor
      · unfold isLetterByte
        simp only [Bool.or_eq_false_iff, Bool.and_eq_false_iff, decide_eq_false_iff_not]
        omega
      · omega
  have hword := readRtfLoop_word [ub] sign digits (fb :: rest) (by simp) hl hs hd
    (fun b hb' => by
      simp only [List.head?_cons, Option.some.injEq] at hb'
      rw [← hb']
      exact hfb) hmax
  have hu : [ub].map lowerByte = [117] ∧ digits ≠ [] := ⟨hname, hne⟩
  rw [if_pos hu, if_pos hu] at hword
  rw [hword, parseParam_eq digits hd (by omega)]
  have hrange : wrapInt 32 (wrapInt 64
      ((decimalValue digits : Int) * (if sign = [45] then -1 else 1)))
      = (decimalValue digits : Int) * (if sign = [45] then -1 else 1) := by
    rcases hs with hs | hs
    · subst hs
      rw [if_neg (by simp), mul_one, wrapInt64_of_range _ (by omega) (by omega),
        wrapInt32_of_range _ (by omega) (by omega)]
    · subst hs
      rw [if_pos rfl, wrapInt64_of_range _ (by omega) (by omega),
        wrapInt32_of_range _ (by omega) (by omega)]
  rw [hrange]
  rfl

/-- C28 (amended): at a Unicode escape, a backslash, the letter u, a decimal
number N (an optional minus sign and digits) and a fallback byte, the
parsing loop of readRtf emits the UTF-8 encoding of the code point N when
0 <= N <= 0x10FFFF and N is not a surrogate, and of N + 65536 when N is in
-32768..-1 and N + 65536 is not a surrogate; when N + 65536 is a surrogate
(N in -10240..-8193) it emits the bytes EF BF BD of U+FFFD; it skips the
single byte that follows the number and, when the byte after that one is
not a space, resumes there. -/
theorem readRtfLoop_unicode (ub : Nat) (sign digits : List Nat) (fb : Nat) (rest : List Nat)
    (hub : ub = 117 ∨ ub = 85)
    (hs : sign = [] ∨ sign = [45])
    (hne : digits ≠ [])
    (hd : ∀ b ∈ digits, isDigitByte b = true)
    (hfb : isDigitByte fb = false)
    (hrest : rest.head? ≠ some 32) :
    (sign = [] → decimalValue digits ≤ 0x10FFFF →
      ¬ (0xD800 ≤ decimalValue digits ∧ decimalValue digits ≤ 0xDFFF) →
      readRtfLoop (92 :: ([ub] ++ (sign ++ (digits ++ fb :: rest))))
        = utf8Encode (decimalValue digits) ++ readRtfLoop rest) ∧
    (sign = [45] → 1 ≤ decimalValue digits → decimalValue digits ≤ 32768 →
      ¬ (0xD800 ≤ 65536 - decimalValue digits ∧ 65536 - decimalValue digits ≤ 0xDFFF) →
      readRtfLoop (92 :: ([ub] ++ (sign ++ (digits ++ fb :: rest))))
        = utf8Encode (65536 - decimalValue digits) ++ readRtfLoop rest) ∧
    (sign = [45] → 8193 ≤ decimalValue digits → decimalValue digits ≤ 10240 →
      readRtfLoop (92 :: ([ub] ++ (sign ++ (digits ++ fb :: rest))))
        = [0xEF, 0xBF, 0xBD] ++ readRtfLoop rest) := by
  have hpos : ¬ (sign = [45]) → decimalValue digits < 2147483648 →
      readRtfLoop (92 :: ([ub] ++ (sign ++ (digits ++ fb :: rest))))
        = writeRune (decimalValue digits : Int) ++ readRtfLoop rest := by
    intro hsign hb
    have h0 : ¬ ((decimalValue digits : Int) * 1 < 0) := by omega
    rw [rtfUnicode_step ub sign digits fb rest hub hs hne hd hfb hb,
      if_neg hrest, if_neg hsign, if_neg h0, mul_one]
  have hneg : sign = [45] → 1 ≤ decimalValue digits → decimalValue digits < 2147483648 →
      readRtfLoop (92 :: ([ub] ++ (sign ++ (digits ++ fb :: rest))))
        = writeRune ((decimalValue digits : Int) * -1 + 65536) ++ readRtfLoop rest := by
    intro hsign h1 hb
    have h0 : (decimalValue digits : Int) * -1 < 0 := by omega
    rw [rtfUnicode_step ub sign digits fb rest hub hs hne hd hfb hb,
      if_neg hrest, if_pos hsign, if_pos h0]
  refine ⟨?_, ?_, ?_⟩
  · intro hsign hle hsur
    have hvalid : ¬ ((decimalValue digits : Int) < 0 ∨ (decimalValue digits : Int) > 0x10FFFF ∨
        (0xD800 ≤ (decimalValue digits : Int) ∧ (decimalValue digits : Int) ≤ 0xDFFF)) := by
      omega
    rw [hpos (by rw [hsign]; simp) (by omega)]
    unfold writeRune
    rw [if_neg hvalid, Int.toNat_ofNat]
  · intro hsign h1 hle hsur
    have hvalid : ¬ ((decimalValue digits : Int) * -1 + 65536 < 0 ∨
        (decimalValue digits : Int) * -1 + 65536 > 0x10FFFF ∨
        (0xD800 ≤ (decimalValue digits : Int) * -1 + 65536 ∧
          (decimalValue digits : Int) * -1 + 65536 ≤ 0xDFFF)) := by
      omega
    rw [hneg hsign h1 (by omega)]
    unfold writeRune
    rw [if_neg hvalid]
    congr 2
    omega
  · intro hsign h1 hle
    have hinvalid : (decimalValue digits : Int) * -1 + 65536 < 0 ∨
        (decimalValue digits : Int) * -1 + 65536 > 0x10FFFF ∨
        (0xD800 ≤ (decimalValue digits : Int) * -1 + 65536 ∧
          (decimalValue digits : Int) * -1 + 65536 ≤ 0xDFFF) := by
      omega
    rw [hneg hsign (by omega) (by omega)]
    unfold writeRune
    rw [if_pos hinvalid]
    rfl

theorem decimalValue_example : decimalValue [56, 51, 54, 52] = 8364 := by decide

theorem utf8Encode_euro : utf8Encode 8364 = [226, 130, 172] := by decide

theorem readRtfLoop_unicode_witness :
    decimalValue [56, 51, 54, 52] = 8364 ∧
    readRtfLoop (92 :: ([117] ++ ([] ++ ([56, 51, 54, 52] ++ 63 :: [120]))))
      = utf8Encode (decimalValue [56, 51, 54, 52]) ++ readRtfLoop [120] ∧
    utf8Encode 8364 = [226, 130, 172] :=
  ⟨decimalValue_example,
    (readRtfLoop_unicode 117 [] [56, 51, 54, 52] 63 [120] (by decide) (by decide) (by decide)
      (by decide) (by decide) (by decide)).1 rfl (by decide) (by decide),
    utf8Encode_euro⟩

set_option maxRecDepth 1000000 in
theorem readRtfLoop_surrogate_example :
    readRtfLoop [92, 117, 45, 49, 48, 50, 52, 48, 63] = [239, 191, 189] := by decide

theorem utf8Encode_surrogate_example :
    utf8Encode (65536 - 10240) = [237, 160, 128] ∧ utf8Encode 65533 = [239, 191, 189] := by
  decide

/-- C28, counterexample: for the escape with N = -10240 the code point
N + 65536 = 55296 (U+D800) is a surrogate; the loop emits EF BF BD, the
encoding of U+FFFD (65533), and not the bit pattern ED A0 80 of 55296. -/
theorem surrogate_escape_replaced :
    readRtfLoop [92, 117, 45, 49, 48, 50, 52, 48, 63] = [239, 191, 189] ∧
    utf8Encode (65536 - 10240) = [237, 160, 128] ∧
    utf8Encode 65533 = [239, 191, 189] ∧
    readRtfLoop [92, 117, 45, 49, 48, 50, 52, 48, 63] ≠ utf8Encode (65536 - 10240) :=
  And.intro readRtfLoop_surrogate_example
    (And.intro utf8Encode_surrogate_example.1
      (And.intro utf8Encode_surrogate_example.2
        (fun h => absurd
          (readRtfLoop_surrogate_example.symm.trans (h.trans utf8Encode_surrogate_example.1))
          (by decide))))

end RtfUnicode

end Matcher

namespace Matcher

/-! ## Choosing the pipeline -/

section Pipeline

variable {C J E O : Type}

/-- C30 (amended): when no client can be built (no API credential) and AI is
not mandated, runInternal returns the result of the heuristic pipeline; when
AI is mandated it returns that error.  When a credential is configured,
runInternal returns what runOpenAI returns, whether AI is mandated or not,
and runOpenAI returns the error of a failed JD extraction or of a failed
embedding request; the heuristic pipeline is not run then. -/
theorem runInternal_pipeline (openAI : C → Except RunError O)
    (heuristic : Except RunError O) :
    (∀ aiErr, runInternal false false (Except.error aiErr) openAI heuristic = heuristic) ∧
    (∀ aiErr, runInternal false true (Except.error aiErr) openAI heuristic
      = Except.error aiErr) ∧
    (∀ aiRequired client,
      runInternal false aiRequired (Except.ok client) openAI heuristic = openAI client) ∧
    (∀ aiRequired aiClient,
      runInternal true aiRequired aiClient openAI heuristic = heuristic) ∧
    (∀ (err : RunError) (embeddings : Except RunError E) (finish : J → E → Except RunError O),
      runOpenAI (Except.error err) embeddings finish = Except.error err) ∧
    (∀ (info : J) (err : RunError) (finish : J → E → Except RunError O),
      runOpenAI (Except.ok info) (Except.error err) finish = Except.error err) ∧
    (∀ (info : J) (vecs : E) (finish : J → E → Except RunError O),
      runOpenAI (Except.ok info) (Except.ok vecs) finish = finish info vecs) := by
  refine ⟨fun _ => rfl, ?_, fun _ _ => rfl, fun _ _ => rfl, fun _ _ _ => rfl,
    fun _ _ _ => rfl, fun _ _ _ => rfl⟩
  intro aiErr
  unfold runInternal
  simp only [Bool.false_eq_true, if_false, if_true]
  split
  · rename_i h
    rw [h]
  · rfl

/-- C30, counterexample: a credential is configured (the client is built),
AI is not mandated, the JD extraction fails with an error, and the heuristic
pipeline would succeed with the output 7: runInternal returns the error, not
the output of the heuristic pipeline. -/
theorem runInternal_no_fallback :
    runInternal false false (Except.ok () : Except RunError Unit)
        (fun _ => runOpenAI (Except.error (RunError.other 1) : Except RunError Unit)
          (Except.ok () : Except RunError Unit) (fun _ _ => (Except.ok 0 : Except RunError Nat)))
        (Except.ok 7)
      = Except.error (RunError.other 1) ∧
    runInternal false false (Except.ok () : Except RunError Unit)
        (fun _ => runOpenAI (Except.error (RunError.other 1) : Except RunError Unit)
          (Except.ok () : Except RunError Unit) (fun _ _ => (Except.ok 0 : Except RunError Nat)))
        (Except.ok 7)
      ≠ Except.ok 7 ∧
    runInternal false false (Except.ok () : Except RunError Unit)
        (fun _ => runOpenAI (Except.ok () : Except RunError Unit)
          (Except.error (RunError.other 2) : Except RunError Unit)
          (fun _ _ => (Except.ok 0 : Except RunError Nat)))
        (Except.ok 7)
      = Except.error (RunError.other 2) :=
  And.intro rfl (And.intro
    (fun h => Except.noConfusion
      (show (Except.error (RunError.other 1) : Except RunError Nat) = Except.ok 7 from h))
    rfl)

end Pipeline

end Matcher

namespace Matcher

/-! ## Strengths and weaknesses -/

section Strengths

theorem contains_iff (list : List (List Char)) (item : List Char) :
    contains list item = true ↔ item ∈ list := by
  unfold contains
  rw [List.any_eq_true]
  constructor
  · rintro ⟨v, hv, heq⟩
    have : v = item := by simpa using heq
    rw [← this]
    exact hv
  · intro h
    exact ⟨item, h, by simp⟩

/-- One pass of the closure `add` over an element: the element is appended
when it passes the test and is not there yet. -/
theorem addUpTo_cons (keep : List Char → Bool) (acc : List (List Char)) (s : List Char)
    (rest : List (List Char)) :
    addUpTo keep acc (s :: rest)
      = if (if keep s = true ∧ s ∉ acc then acc ++ [s] else acc).length ≥ 10
        then (if keep s = true ∧ s ∉ acc then acc ++ [s] else acc)
        else addUpTo keep (if keep s = true ∧ s ∉ acc then acc ++ [s] else acc) rest := by
  have hcond : (keep s && !contains acc s) = true ↔ (keep s = true ∧ s ∉ acc) := by
    rw [Bool.and_eq_true, Bool.not_eq_true', ← contains_iff]
    simp
  have hite : (if (keep s && !contains acc s) = true then acc ++ [s] else acc)
      = (if keep s = true ∧ s ∉ acc then acc ++ [s] else acc) := by
    by_cases h : keep s = true ∧ s ∉ acc
    · rw [if_pos h, if_pos (hcond.mpr h)]
    · rw [if_neg h, if_neg (fun h2 => h (hcond.mp h2))]
  rw [addUpTo]
  simp only [hite]

/-- The closure `add` appends to the slice a sub-list of its argument, made of
elements that pass the test, and creates no duplicate. -/
theorem addUpTo_spec (keep : List Char → Bool) (list acc : List (List Char))
    (hn : acc.Nodup) :
    ∃ ext, addUpTo keep acc list = acc ++ ext ∧ ext.Sublist list ∧
      (∀ s ∈ ext, keep s = true) ∧ (acc ++ ext).Nodup := by
  induction list generalizing acc with
  | nil => exact ⟨[], by simp [addUpTo], List.Sublist.refl _, by simp, by simpa using hn⟩
  | cons s rest ih =>
    rw [addUpTo_cons]
    by_cases hadd : keep s = true ∧ s ∉ acc
    · rw [if_pos hadd]
      have hn' : (acc ++ [s]).Nodup := by
        rw [List.nodup_append]
        refine ⟨hn, List.nodup_singleton _, ?_⟩
        intro a ha hb
        rw [List.mem_singleton] at hb
        subst hb
        exact hadd.2 ha
      by_cases hfull : (acc ++ [s]).length ≥ 10
      · rw [if_pos hfull]
        refine ⟨[s], rfl, ?_, ?_, hn'⟩
        · exact List.Sublist.cons₂ s (List.nil_sublist rest)
        · intro x hx
          rw [List.mem_singleton] at hx
          rw [hx]
          exact hadd.1
      · rw [if_neg hfull]
        obtain ⟨ext, h1, h2, h3, h4⟩ := ih (acc ++ [s]) hn'
        refine ⟨s :: ext, ?_, List.Sublist.cons₂ s h2, ?_, ?_⟩
        · rw [h1]
          simp
        · intro x hx
          rcases List.mem_cons.mp hx with hx | hx
          · rw [hx]
            exact hadd.1
          · exact h3 x hx
        · have : acc ++ s :: ext = acc ++ [s] ++ ext := by simp
          rw [this]
          exact h4
    · rw [if_neg hadd]
      by_cases hfull : acc.length ≥ 10
      · rw [if_pos hfull]
        exact ⟨[], by simp, List.nil_sublist _, by simp, by simpa using hn⟩
      · rw [if_neg hfull]
        obtain ⟨ext, h1, h2, h3, h4⟩ := ih acc hn
        exact ⟨ext, h1, List.Sublist.cons s h2, h3, h4⟩

/-- The length the closure `add` can reach: ten, or one more than it found. -/
theorem addUpTo_length (keep : List Char → Bool) (list acc : List (List Char)) :
    (addUpTo keep acc list).length ≤ max (acc.length + 1) 10 := by
  induction list generalizing acc with
  | nil =>
    simp only [addUpTo]
    exact le_trans (Nat.le_succ _) (le_max_left _ _)
  | cons s rest ih =>
    rw [addUpTo_cons]
    have hstep : (if keep s = true ∧ s ∉ acc then acc ++ [s] else acc).length
        ≤ acc.length + 1 := by
      split
      · simp
      · exact Nat.le_succ _
    by_cases hfull : (if keep s = true ∧ s ∉ acc then acc ++ [s] else acc).length ≥ 10
    · rw [if_pos hfull]
      exact le_trans hstep (le_max_left _ _)
    · rw [if_neg hfull]
      refine le_trans (ih _) ?_
      have h10 : (if keep s = true ∧ s ∉ acc then acc ++ [s] else acc).length + 1 ≤ 10 := by
        omega
      exact le_trans (max_le h10 (le_refl _)) (le_max_right _ _)

/-- What three calls of the closure build from the empty slice. -/
theorem addThree_spec (keep : List Char → Bool) (must nice general : List (List Char)) :
    (addUpTo keep (addUpTo keep (addUpTo keep [] must) nice) general).Nodup ∧
    (∀ s ∈ addUpTo keep (addUpTo keep (addUpTo keep [] must) nice) general,
      keep s = true ∧ (s ∈ must ∨ s ∈ nice ∨ s ∈ general)) ∧
    (∃ a b c, addUpTo keep (addUpTo keep (addUpTo keep [] must) nice) general = a ++ b ++ c ∧
      a.Sublist must ∧ b.Sublist nice ∧ c.Sublist general) ∧
    (addUpTo keep (addUpTo keep (addUpTo keep [] must) nice) general).length ≤ 12 := by
  obtain ⟨a, ha1, ha2, ha3, ha4⟩ := addUpTo_spec keep must [] List.nodup_nil
  rw [List.nil_append] at ha1 ha4
  obtain ⟨b, hb1, hb2, hb3, hb4⟩ := addUpTo_spec keep nice (addUpTo keep [] must)
    (by rw [ha1]; exact ha4)
  obtain ⟨c, hc1, hc2, hc3, hc4⟩ := addUpTo_spec keep general
    (addUpTo keep (addUpTo keep [] must) nice) (by rw [hb1]; exact hb4)
  have hl1 := addUpTo_length keep must []
  have hl2 := addUpTo_length keep nice (addUpTo keep [] must)
  have hl3 := addUpTo_length keep general (addUpTo keep (addUpTo keep [] must) nice)
  refine ⟨by rw [hc1]; exact hc4, ?_, ⟨a, b, c, by rw [hc1, hb1, ha1], ha2, hb2, hc2⟩, ?_⟩
  · intro s hs
    rw [hc1, hb1, ha1] at hs
    rcases List.mem_append.mp hs with hs | hs
    · rcases List.mem_append.mp hs with hs | hs
      · exact ⟨ha3 s hs, Or.inl (ha2.subset hs)⟩
      · exact ⟨hb3 s hs, Or.inr (Or.inl (hb2.subset hs))⟩
    · exact ⟨hc3 s hs, Or.inr (Or.inr (hc2.subset hs))⟩
  · simp only [List.length_nil, Nat.zero_add] at hl1
    have h1 : (addUpTo keep [] must).length ≤ 10 := le_trans hl1 (by decide)
    have h2 : (addUpTo keep (addUpTo keep [] must) nice).length ≤ 11 :=
      le_trans hl2 (max_le (by omega) (by decide))
    exact le_trans hl3 (max_le (by omega) (by decide))

/-- C38: buildStrengths returns a duplicate-free list of skills that all
belong to the resume skill set and to one of the three lists, ordered
must-first, then nice, then general (a sub-list of must followed by a sub-list
of nice and a sub-list of general); buildWeaknesses returns a duplicate-free
list of that shape whose skills are all absent from the resume skill set; so
no skill is both a strength and a weakness. -/
theorem strengths_weaknesses_spec (resSkills must nice general : List (List Char)) :
    (buildStrengths resSkills must nice general).Nodup ∧
    (∀ s ∈ buildStrengths resSkills must nice general,
      s ∈ resSkills ∧ (s ∈ must ∨ s ∈ nice ∨ s ∈ general)) ∧
    (∃ a b c, buildStrengths resSkills must nice general = a ++ b ++ c ∧
      a.Sublist must ∧ b.Sublist nice ∧ c.Sublist general) ∧
    (buildWeaknesses resSkills must nice general).Nodup ∧
    (∀ s ∈ buildWeaknesses resSkills must nice general,
      s ∉ resSkills ∧ (s ∈ must ∨ s ∈ nice ∨ s ∈ general)) ∧
    (∃ a b c, buildWeaknesses resSkills must nice general = a ++ b ++ c ∧
      a.Sublist must ∧ b.Sublist nice ∧ c.Sublist general) ∧
    (∀ s, ¬ (s ∈ buildStrengths resSkills must nice general ∧
      s ∈ buildWeaknesses resSkills must nice general)) := by
  obtain ⟨hs1, hs2, hs3, _⟩ :=
    addThree_spec (fun s => decide (s ∈ resSkills)) must nice general
  obtain ⟨hw1, hw2, hw3, _⟩ :=
    addThree_spec (fun s => !decide (s ∈ resSkills)) must nice general
  have hS : ∀ s ∈ buildStrengths resSkills must nice general,
      s ∈ resSkills ∧ (s ∈ must ∨ s ∈ nice ∨ s ∈ general) := by
    intro s hs
    obtain ⟨h1, h2⟩ := hs2 s hs
    exact ⟨by simpa using h1, h2⟩
  have hW : ∀ s ∈ buildWeaknesses resSkills must nice general,
      s ∉ resSkills ∧ (s ∈ must ∨ s ∈ nice ∨ s ∈ general) := by
    intro s hs
    obtain ⟨h1, h2⟩ := hw2 s hs
    exact ⟨by simpa using h1, h2⟩
  exact ⟨hs1, hS, hs3, hw1, hW, hw3, fun s h => (hW s h.2).1 (hS s h.1).1⟩

/-- The cap the code reaches: neither list is longer than 12. -/
theorem strengths_weaknesses_le_twelve (resSkills must nice general : List (List Char)) :
    (buildStrengths resSkills must nice general).length ≤ 12 ∧
    (buildWeaknesses resSkills must nice general).length ≤ 12 :=
  ⟨(addThree_spec (fun s => decide (s ∈ resSkills)) must nice general).2.2.2,
    (addThree_spec (fun s => !decide (s ∈ resSkills)) must nice general).2.2.2⟩

/-- C37, at the failing input: with ten must skills, one nice skill and one
general skill, all twelve in the resume skill set, buildStrengths returns 12
skills, and with none of them in the resume skill set buildWeaknesses returns
12 skills: the test on the length leaves only the closure, and each later call
of the closure appends once before it tests. -/
theorem buildStrengths_exceeds_ten :
    (buildStrengths
      (["a", "b", "c", "d", "e", "f", "g", "h", "i", "j", "k", "l"].map String.toList)
      (["a", "b", "c", "d", "e", "f", "g", "h", "i", "j"].map String.toList)
      ["k".toList] ["l".toList]).length = 12 ∧
    (buildWeaknesses []
      (["a", "b", "c", "d", "e", "f", "g", "h", "i", "j"].map String.toList)
      ["k".toList] ["l".toList]).length = 12 := by
  decide

end Strengths

end Matcher

namespace Matcher

/-! ## Skills with characters that normalisation removes -/

section StrippedSkills

/-- Every character of a normalised text is one of `a-z`, `0-9`, `+`, `#` or
the space. -/
theorem normalizeText_chars (unicodeLower : Char → Char) (text : List Char) :
    ∀ c ∈ normalizeText unicodeLower text, isTokenChar c = true ∨ c = ' ' := by
  intro c hc
  have hjoin : normalizeText unicodeLower text
      = stringsJoin ((fields (replaceAll nonWordReMatch
          (stringsToLower unicodeLower (redactPII text)))).filter
            (fun tok => !isStopword tok)) [' '] := by
    unfold normalizeText
    rfl
  rw [hjoin] at hc
  rcases mem_stringsJoin _ c hc with h | ⟨tok, htok, h⟩
  · exact Or.inr h
  · exact Or.inl ((normalizeText_tokens unicodeLower text tok htok).2.2 c h).2

/-- A skill `extractSkills` finds occurs in the text. -/
theorem extractSkills_occurs (text : List Char) (jdTerms : List (List Char)) (s : List Char)
    (hs : s ∈ extractSkills text jdTerms) : s <:+: text := by
  have h1 : ∀ init : List (List Char),
      s ∈ jdTerms.foldl
        (fun set t => if byteLen t ≥ 3 ∧ stringsContains text t then setAdd set t else set) init
        ↔ s ∈ init ∨ ∃ t ∈ jdTerms, (byteLen t ≥ 3 ∧ stringsContains text t = true) ∧ t = s :=
    fun init => mem_foldl_setAdd
      (fun (t : List Char) => byteLen t ≥ 3 ∧ stringsContains text t = true) id jdTerms init s
  have h2 : s ∈ skillLexicon.foldl
        (fun set w => if stringsContains text w.toList then setAdd set w.toList else set) []
        ↔ s ∈ ([] : List (List Char)) ∨
          ∃ w ∈ skillLexicon, stringsContains text w.toList = true ∧ w.toList = s :=
    mem_foldl_setAdd (fun (w : String) => stringsContains text w.toList = true)
      String.toList skillLexicon [] s
  unfold extractSkills at hs
  rw [mem_sortStrings, h1, h2] at hs
  simp only [List.not_mem_nil, false_or, stringsContains_iff] at hs
  rcases hs with ⟨w, _, hc, rfl⟩ | ⟨t, _, ⟨_, hc⟩, rfl⟩
  · exact hc
  · exact hc

/-- A skill with a character that normalisation removes is in no resume skill
set. -/
theorem stripped_skill_not_found (unicodeLower : Char → Char) (raw : List Char)
    (jdTerms : List (List Char)) (s : List Char) (c : Char) (hc : c ∈ s)
    (hbad : isTokenChar c = false ∧ c ≠ ' ') :
    s ∉ extractSkills (normalizeText unicodeLower raw) jdTerms := by
  intro hs
  have hmem := (extractSkills_occurs _ jdTerms s hs).subset hc
  rcases normalizeText_chars unicodeLower raw c hmem with h | h
  · rw [hbad.1] at h
    cases h
  · exact hbad.2 h

variable {K : Type} [LinearOrderedField K]

theorem ratio_lt_one (set list : List (List Char)) (s : List Char) (hs : s ∈ list)
    (hns : s ∉ set) :
    (ratio ((countMatches set list : Nat) : Int) ((list.length : Nat) : Int) : K) < 1 := by
  have hlt : countMatches set list < list.length := by
    unfold countMatches
    rw [List.length_filter_lt_length_iff_exists]
    exact ⟨s, hs, by simpa using hns⟩
  have hpos : 0 < list.length := by omega
  unfold ratio
  rw [if_neg (by exact_mod_cast (Nat.pos_iff_ne_zero.mp hpos))]
  rw [div_lt_one (by exact_mod_cast hpos)]
  exact_mod_cast hlt

end StrippedSkills

end Matcher

namespace Matcher

/-! ## Must skills that no resume can match -/

section MustStripped

variable {K : Type} [LinearOrderedField K] [FloorRing K]

theorem heuristicRow_mustRatio (sqrt : K → K) (explain : K → K → K → K → String)
    (vectors : List (List (List Char × K)))
    (jdTerms mustSkills niceSkills jdSkills : List (List Char)) (i : Nat) (doc : resumeDoc) :
    (heuristicRow sqrt explain vectors jdTerms mustSkills niceSkills jdSkills i doc).mustRatio
      = ratio ((countMatches (extractSkills doc.Norm jdTerms) mustSkills : Nat) : Int)
          ((mustSkills.length : Nat) : Int) := rfl

/-- C36: in the heuristic pipeline, if the must list of findMustNiceSkills
contains a skill with a character outside a-z, 0-9, space, '+', '#', then for
every resume text the resume skill set
extractSkills(normalizeText(resume), jdTerms) does not contain that skill (for
every list of JD terms), and mustRatio < 1 in the row of every resume. -/
theorem stripped_must_skill
    (srtPairs : (List Char × Int → List Char × Int → Bool) →
      List (List Char × Int) → List (List Char × Int))
    (iter : List (List Char × Int) → List (List Char × Int))
    (unicodeLower : Char → Char) (log sqrt : K → K) (explain : K → K → K → K → String)
    (jdRaw : List Char) (resumeDocs : List resumeDoc) (s : List Char) (c : Char)
    (hs : s ∈ (findMustNiceSkills unicodeLower jdRaw).1) (hc : c ∈ s)
    (hbad : isTokenChar c = false ∧ c ≠ ' ')
    (hdocs : ∀ doc ∈ resumeDocs, ∃ raw, doc.Norm = normalizeText unicodeLower raw) :
    (∀ (raw : List Char) (jdTerms : List (List Char)),
      s ∉ extractSkills (normalizeText unicodeLower raw) jdTerms) ∧
    ∀ rows, heuristicRows srtPairs iter unicodeLower log sqrt explain jdRaw resumeDocs
        = some rows →
      rows.length = resumeDocs.length ∧ ∀ row ∈ rows, row.mustRatio < 1 := by
  refine ⟨fun raw jdTerms => stripped_skill_not_found unicodeLower raw jdTerms s c hc hbad, ?_⟩
  intro rows hrows
  unfold heuristicRows at hrows
  dsimp only at hrows
  cases hterms : topTerms srtPairs iter (normalizeText unicodeLower jdRaw) 25 with
  | none =>
    rw [hterms] at hrows
    cases hrows
  | some jdTerms =>
    rw [hterms] at hrows
    simp only [Option.map_some', Option.some.injEq] at hrows
    subst hrows
    constructor
    · simp
    · intro row hrow
      obtain ⟨it, hit, rfl⟩ := List.mem_map.mp hrow
      have hdoc : it.2 ∈ resumeDocs := by
        have := List.mem_enum (show (it.1, it.2) ∈ resumeDocs.enum from hit)
        rw [this.2]
        exact List.getElem_mem _
      obtain ⟨raw, hraw⟩ := hdocs it.2 hdoc
      rw [heuristicRow_mustRatio, hraw]
      exact ratio_lt_one _ _ s hs
        (stripped_skill_not_found unicodeLower raw jdTerms s c hc hbad)

end MustStripped

set_option maxRecDepth 1000000 in
theorem nodejs_must_example :
    "node.js".toList ∈ (findMustNiceSkills id "Must have node.js".toList).1 := by decide

theorem stripped_must_skill_witness :
    "node.js".toList ∈ (findMustNiceSkills id "Must have node.js".toList).1 ∧
    ∀ rows, heuristicRows (insertionSortBy : (List Char × Int → List Char × Int → Bool) →
        List (List Char × Int) → List (List Char × Int)) id id
        (fun _ => (0 : ℚ)) (fun _ => (0 : ℚ)) (fun _ _ _ _ => "")
        "Must have node.js".toList
        [newResumeDoc id "r.txt".toList "r".toList "I know node.js well".toList] = some rows →
      rows.length
        = [newResumeDoc id "r.txt".toList "r".toList "I know node.js well".toList].length ∧
      ∀ row ∈ rows, row.mustRatio < 1 :=
  ⟨nodejs_must_example,
    (stripped_must_skill insertionSortBy id id (fun _ => (0 : ℚ)) (fun _ => (0 : ℚ))
      (fun _ _ _ _ => "") "Must have node.js".toList
      [newResumeDoc id "r.txt".toList "r".toList "I know node.js well".toList]
      "node.js".toList '.' nodejs_must_example (by decide) (by decide)
      (fun doc hdoc => by
        rw [List.mem_singleton] at hdoc
        exact ⟨"I know node.js well".toList, by rw [hdoc]; rfl⟩)).2⟩

end Matcher

namespace Matcher

/-! ## Supported file formats -/

section Formats

theorem mapError_reader_ne (r : Except Nat (List Char)) (e : List Char) :
    r.mapError ExtractError.reader ≠ Except.error (ExtractError.unsupported e) := by
  cases r with
  | error n =>
    intro h
    have h2 : (Except.error (ExtractError.reader n) : Except ExtractError (List Char))
        = Except.error (ExtractError.unsupported e) := h
    cases h2
  | ok v =>
    intro h
    have h2 : (Except.ok v : Except ExtractError (List Char))
        = Except.error (ExtractError.unsupported e) := h
    cases h2

theorem isResumeExt_iff (ext : List Char) :
    isResumeExt ext = true ↔
      ext ∈ [".txt", ".text", ".md", ".docx", ".pdf", ".rtf"].map String.toList := by
  unfold isResumeExt
  simp only [Bool.or_eq_true, decide_eq_true_eq, List.map_cons, List.map_nil, List.mem_cons,
    List.mem_singleton, List.not_mem_nil, or_false]
  tauto

/-- The default branch of `extractText` is taken exactly outside the six
extensions. -/
theorem extractText_unsupported (unicodeLower : Char → Char) (isSep : Char → Bool)
    (readTxt readDocx readPdf readRtf : List Char → Except Nat (List Char))
    (path : List Char) :
    (∃ e, extractText unicodeLower isSep readTxt readDocx readPdf readRtf path
        = Except.error (ExtractError.unsupported e)) ↔
      isResumeExt (stringsToLower unicodeLower (filepathExt isSep path)) = false := by
  have hiff := isResumeExt_iff (stringsToLower unicodeLower (filepathExt isSep path))
  simp only [List.map_cons, List.map_nil, List.mem_cons, List.mem_singleton, List.not_mem_nil,
    or_false] at hiff
  unfold extractText
  dsimp only
  by_cases h1 : stringsToLower unicodeLower (filepathExt isSep path) = ".txt".toList ∨
      stringsToLower unicodeLower (filepathExt isSep path) = ".text".toList ∨
      stringsToLower unicodeLower (filepathExt isSep path) = ".md".toList
  · rw [if_pos h1]
    have hyes : isResumeExt (stringsToLower unicodeLower (filepathExt isSep path)) = true :=
      hiff.mpr (by tauto)
    rw [hyes]
    constructor
    · rintro ⟨e, he⟩
      exact absurd he (mapError_reader_ne _ e)
    · intro h
      cases h
  · rw [if_neg h1]
    by_cases h2 : stringsToLower unicodeLower (filepathExt isSep path) = ".docx".toList
    · rw [if_pos h2]
      have hyes : isResumeExt (stringsToLower unicodeLower (filepathExt isSep path)) = true :=
        hiff.mpr (by tauto)
      rw [hyes]
      constructor
      · rintro ⟨e, he⟩
        exact absurd he (mapError_reader_ne _ e)
      · intro h
        cases h
    · rw [if_neg h2]
      by_cases h3 : stringsToLower unicodeLower (filepathExt isSep path) = ".pdf".toList
      · rw [if_pos h3]
        have hyes : isResumeExt (stringsToLower unicodeLower (filepathExt isSep path)) = true :=
          hiff.mpr (by tauto)
        rw [hyes]
        constructor
        · rintro ⟨e, he⟩
          exact absurd he (mapError_reader_ne _ e)
        · intro h
          cases h
      · rw [if_neg h3]
        by_cases h4 : stringsToLower unicodeLower (filepathExt isSep path) = ".rtf".toList
        · rw [if_pos h4]
          have hyes : isResumeExt (stringsToLower unicodeLower (filepathExt isSep path)) = true :=
            hiff.mpr (by tauto)
          rw [hyes]
          constructor
          · rintro ⟨e, he⟩
            exact absurd he (mapError_reader_ne _ e)
          · intro h
            cases h
        · rw [if_neg h4]
          have hno : isResumeExt (stringsToLower unicodeLower (filepathExt isSep path)) = false := by
            cases hb : isResumeExt (stringsToLower unicodeLower (filepathExt isSep path)) with
            | false => rfl
            | true =>
              have := hiff.mp hb
              tauto
          rw [hno]
          exact ⟨fun _ => rfl, fun _ => ⟨_, rfl⟩⟩

/-- The files the walk collects: the start files and the visited paths that
are no directory and pass the test on the extension. -/
theorem mem_walkResumeFiles (unicodeLower : Char → Char) (isSep : Char → Bool)
    (walk : List WalkVisit) (files : List (List Char)) (path : List Char)
    (h : path ∈ (walkResumeFiles unicodeLower isSep walk files).1) :
    path ∈ files ∨ (∃ v ∈ walk, v.path = path ∧ v.isDir = false ∧
      isResumeExt (stringsToLower unicodeLower (filepathExt isSep path)) = true) := by
  induction walk generalizing files with
  | nil => exact Or.inl h
  | cons v rest ih =>
    unfold walkResumeFiles at h
    cases herr : v.err with
    | some err =>
      rw [herr] at h
      exact Or.inl h
    | none =>
      rw [herr] at h
      dsimp only at h
      by_cases hdir : v.isDir = true
      · rw [if_pos hdir] at h
        rcases ih files h with h1 | ⟨w, hw, h2⟩
        · exact Or.inl h1
        · exact Or.inr ⟨w, List.mem_cons_of_mem _ hw, h2⟩
      · rw [if_neg hdir] at h
        by_cases hext : isResumeExt (stringsToLower unicodeLower (filepathExt isSep v.path))
            = true
        · rw [if_pos hext] at h
          rcases ih _ h with h1 | ⟨w, hw, h2⟩
          · rcases List.mem_append.mp h1 with h1 | h1
            · exact Or.inl h1
            · rw [List.mem_singleton] at h1
              subst h1
              exact Or.inr ⟨v, List.mem_cons_self _ _, rfl, by simpa using hdir, hext⟩
          · exact Or.inr ⟨w, List.mem_cons_of_mem _ hw, h2⟩
        · rw [if_neg hext] at h
          rcases ih files h with h1 | ⟨w, hw, h2⟩
          · exact Or.inl h1
          · exact Or.inr ⟨w, List.mem_cons_of_mem _ hw, h2⟩

/-- C33: extractText fails with the unsupported-format error if and only if
the lower-cased extension of the path is not one of .txt, .text, .md, .docx,
.pdf, .rtf; the test of listResumeFiles accepts exactly these six extensions,
so no file it lists is rejected as unsupported. -/
theorem extractText_formats (unicodeLower : Char → Char) (isSep : Char → Bool)
    (readTxt readDocx readPdf readRtf : List Char → Except Nat (List Char)) :
    (∀ path, (∃ e, extractText unicodeLower isSep readTxt readDocx readPdf readRtf path
        = Except.error (ExtractError.unsupported e)) ↔
      stringsToLower unicodeLower (filepathExt isSep path) ∉
        [".txt", ".text", ".md", ".docx", ".pdf", ".rtf"].map String.toList) ∧
    (∀ ext, isResumeExt ext = true ↔
      ext ∈ [".txt", ".text", ".md", ".docx", ".pdf", ".rtf"].map String.toList) ∧
    (∀ walk path, path ∈ (listResumeFiles unicodeLower isSep walk).1 →
      ∀ e, extractText unicodeLower isSep readTxt readDocx readPdf readRtf path
        ≠ Except.error (ExtractError.unsupported e)) := by
  refine ⟨?_, isResumeExt_iff, ?_⟩
  · intro path
    rw [extractText_unsupported, ← isResumeExt_iff]
    simp
  · intro walk path hpath e he
    unfold listResumeFiles at hpath
    rcases mem_walkResumeFiles unicodeLower isSep walk [] path hpath with h | ⟨_, _, _, _, hext⟩
    · cases h
    · have := (extractText_unsupported unicodeLower isSep readTxt readDocx readPdf readRtf
        path).mp ⟨e, he⟩
      rw [hext] at this
      cases this

end Formats

end Matcher

namespace Matcher

/-! ## Loading the resumes -/

section Loading

/-- The document `runInternal` keeps for a file, `none` when its text cannot
be extracted. -/
theorem loadResumeDocs_eq (unicodeLower : Char → Char) (nameOf : List Char → List Char)
    (extract : List Char → Except ExtractError (List Char)) (files : List (List Char))
    (docs : List resumeDoc) :
    loadResumeDocs unicodeLower nameOf extract files docs
      = docs ++ files.filterMap (fun path =>
          match extract path with
          | Except.error _ => none
          | Except.ok raw => some (newResumeDoc unicodeLower path (nameOf path) raw)) := by
  induction files generalizing docs with
  | nil => simp [loadResumeDocs]
  | cons path rest ih =>
    rw [loadResumeDocs]
    cases h : extract path with
    | error e =>
      simp only []
      rw [ih, List.filterMap_cons, h]
    | ok raw =>
      simp only []
      rw [ih, List.filterMap_cons, h, List.append_assoc]
      rfl

theorem loadResumeDocs_all_fail (unicodeLower : Char → Char) (nameOf : List Char → List Char)
    (extract : List Char → Except ExtractError (List Char)) (files : List (List Char))
    (h : ∀ path ∈ files, ∃ e, extract path = Except.error e) :
    loadResumeDocs unicodeLower nameOf extract files [] = [] := by
  rw [loadResumeDocs_eq, List.nil_append, List.filterMap_eq_nil_iff]
  intro path hpath
  obtain ⟨e, he⟩ := h path hpath
  rw [he]

theorem loadResumeDocs_some_ok (unicodeLower : Char → Char) (nameOf : List Char → List Char)
    (extract : List Char → Except ExtractError (List Char)) (files : List (List Char))
    (path raw : List Char) (hpath : path ∈ files) (hraw : extract path = Except.ok raw) :
    newResumeDoc unicodeLower path (nameOf path) raw
      ∈ loadResumeDocs unicodeLower nameOf extract files [] := by
  rw [loadResumeDocs_eq, List.nil_append, List.mem_filterMap]
  exact ⟨path, hpath, by rw [hraw]⟩

/-- A walk without errors over directories and files of other formats lists
no file. -/
theorem walkResumeFiles_none (unicodeLower : Char → Char) (isSep : Char → Bool)
    (walk : List WalkVisit) (files : List (List Char))
    (h : ∀ v ∈ walk, v.err = none ∧ (v.isDir = true ∨
      isResumeExt (stringsToLower unicodeLower (filepathExt isSep v.path)) = false)) :
    walkResumeFiles unicodeLower isSep walk files = (files, none) := by
  induction walk with
  | nil => rfl
  | cons v rest ih =>
    obtain ⟨herr, hv⟩ := h v (List.mem_cons_self _ _)
    have ih' := ih (fun w hw => h w (List.mem_cons_of_mem _ hw))
    unfold walkResumeFiles
    rw [herr]
    dsimp only
    by_cases hdir : v.isDir = true
    · rw [if_pos hdir, ih']
    · rw [if_neg hdir]
      rcases hv with hv | hv
      · exact absurd hv hdir
      · rw [if_neg (by rw [hv]; simp), ih']

variable {O : Type}

/-- C32: with the JD read and the directory listed, runInternal returns
ErrNoResumes, without running either pipeline, both when no file with a
supported extension was found and when the extraction of every listed file
fails; when at least one listed file is extracted, the files whose extraction
fails are passed over and the run goes on to the pipeline with the documents
of the other files, in order. -/
theorem runInternalFull_resumes (unicodeLower : Char → Char)
    (nameOf : List Char → List Char) (atoi : List Char → Option Int)
    (getenv : String → List Char) (isSep : Char → Bool) (jdRaw : List Char)
    (extract : List Char → Except ExtractError (List Char)) (forceHeuristic : Bool)
    (openAI : openAIClient → List Char → List resumeDoc → Nat → Except RunError O)
    (heuristic : List Char → List resumeDoc → Nat → Except RunError O) :
    (∀ walk, (∀ v ∈ walk, v.err = none ∧ (v.isDir = true ∨
        isResumeExt (stringsToLower unicodeLower (filepathExt isSep v.path)) = false)) →
      runInternalFull unicodeLower nameOf atoi getenv true true (Except.ok jdRaw)
        (listResumeFiles unicodeLower isSep walk) extract forceHeuristic openAI heuristic
        = Except.error MatchError.errNoResumes) ∧
    (∀ files, (∀ path ∈ files, ∃ e, extract path = Except.error e) →
      runInternalFull unicodeLower nameOf atoi getenv true true (Except.ok jdRaw)
        (files, none) extract forceHeuristic openAI heuristic
        = Except.error MatchError.errNoResumes) ∧
    (∀ files, (∃ path ∈ files, ∃ raw, extract path = Except.ok raw) →
      files.filterMap (fun path =>
          match extract path with
          | Except.error _ => none
          | Except.ok raw => some (newResumeDoc unicodeLower path (nameOf path) raw)) ≠ [] ∧
      runInternalFull unicodeLower nameOf atoi getenv true true (Except.ok jdRaw)
        (files, none) extract forceHeuristic openAI heuristic
        = (runInternal forceHeuristic
            (envBool unicodeLower (getenv "RESUMEGPT_REQUIRE_OPENAI") false)
            (newOpenAIClientFromEnv atoi getenv)
            (fun client => openAI client jdRaw
              (files.filterMap (fun path =>
                match extract path with
                | Except.error _ => none
                | Except.ok raw => some (newResumeDoc unicodeLower path (nameOf path) raw)))
              files.length)
            (heuristic jdRaw
              (files.filterMap (fun path =>
                match extract path with
                | Except.error _ => none
                | Except.ok raw => some (newResumeDoc unicodeLower path (nameOf path) raw)))
              files.length)).mapError MatchError.pipeline) := by
  refine ⟨?_, ?_, ?_⟩
  · intro walk hwalk
    unfold listResumeFiles
    rw [walkResumeFiles_none unicodeLower isSep walk [] hwalk]
    rfl
  · intro files hfail
    unfold runInternalFull
    simp only [Bool.not_true, Bool.false_eq_true, if_false]
    by_cases h0 : files.length = 0
    · rw [if_pos h0]
    · rw [if_neg h0]
      rw [loadResumeDocs_all_fail unicodeLower nameOf extract files hfail]
      rfl
  · rintro files ⟨path, hpath, raw, hraw⟩
    have hmem := loadResumeDocs_some_ok unicodeLower nameOf extract files path raw hpath hraw
    have heq := loadResumeDocs_eq unicodeLower nameOf extract files []
    rw [List.nil_append] at heq
    have hne : loadResumeDocs unicodeLower nameOf extract files [] ≠ [] :=
      List.ne_nil_of_mem hmem
    refine ⟨by rw [← heq]; exact hne, ?_⟩
    unfold runInternalFull
    simp only [Bool.not_true, Bool.false_eq_true, if_false]
    have h0 : ¬ files.length = 0 := by
      intro h
      rw [List.length_eq_zero] at h
      rw [h] at hpath
      cases hpath
    have h1 : ¬ (loadResumeDocs unicodeLower nameOf extract files []).length = 0 := by
      intro h
      exact hne (List.length_eq_zero.mp h)
    rw [if_neg h0, if_neg h1, heq]

/-- Witness for C32: of the files a.txt and b.txt the first cannot be read;
the run goes on with the one document of b.txt. -/
theorem runInternalFull_resumes_witness :
    runInternalFull id id (fun _ => none) (fun _ => []) true true
        (Except.ok "jd".toList) (["a.txt".toList, "b.txt".toList], none)
        (fun path => if path = "a.txt".toList then Except.error (ExtractError.reader 1)
          else Except.ok "python".toList)
        false (fun _ _ _ _ => (Except.ok 0 : Except RunError Nat))
        (fun _ docs _ => Except.ok docs.length)
      = Except.ok 1 :=
  ((runInternalFull_resumes id id (fun _ => none) (fun _ => []) (fun c => c == '/')
      "jd".toList
      (fun path => if path = "a.txt".toList then Except.error (ExtractError.reader 1)
        else Except.ok "python".toList)
      false (fun _ _ _ _ => (Except.ok 0 : Except RunError Nat))
      (fun _ docs _ => Except.ok docs.length)).2.2
    ["a.txt".toList, "b.txt".toList]
    ⟨"b.txt".toList, by decide, "python".toList, rfl⟩).2.trans rfl

end Loading

end Matcher

namespace Matcher

/-! ## A run without API credential -/

section NoCredential

theorem topTerms_isSome
    (srtPairs : (List Char × Int → List Char × Int → Bool) →
      List (List Char × Int) → List (List Char × Int))
    (iter : List (List Char × Int) → List (List Char × Int)) (text : List Char) :
    ∃ terms, topTerms srtPairs iter text 25 = some terms := by
  unfold topTerms
  dsimp only
  split
  · rw [if_neg (by decide)]
    exact ⟨_, rfl⟩
  · exact ⟨_, rfl⟩

variable {K : Type} [LinearOrderedField K] [FloorRing K]

/-- The heuristic pipeline returns one result for every resume document, cut
to the first `topN` when `topN > 0`; the list is empty only when there is no
document. -/
theorem runHeuristic_length
    (srt : (Result K → Result K → Bool) → List (Result K) → List (Result K))
    (srtPairs : (List Char × Int → List Char × Int → Bool) →
      List (List Char × Int) → List (List Char × Int))
    (iter : List (List Char × Int) → List (List Char × Int))
    (unicodeLower : Char → Char) (log sqrt : K → K) (explain : K → K → K → K → String)
    (topN : Int) (jdRaw : List Char) (resumeDocs : List resumeDoc)
    (hsrt : SortSliceContract srt) :
    ∃ results, runHeuristic srt srtPairs iter unicodeLower log sqrt explain topN jdRaw resumeDocs
        = some results ∧
      (results.length : Int)
        = (if topN > 0 then min topN (resumeDocs.length : Int) else (resumeDocs.length : Int)) ∧
      (resumeDocs ≠ [] → results ≠ []) := by
  obtain ⟨terms, hterms⟩ := topTerms_isSome srtPairs iter (normalizeText unicodeLower jdRaw)
  have hrun : ∃ scored : List (Result K),
      runHeuristic srt srtPairs iter unicodeLower log sqrt explain topN jdRaw resumeDocs
        = some (rankAndTruncate srt topN scored) ∧ scored.length = resumeDocs.length := by
    unfold runHeuristic heuristicResults heuristicRows
    dsimp only
    rw [hterms]
    simp only [Option.map_some']
    exact ⟨_, rfl, by simp⟩
  obtain ⟨scored, hrun, hlen⟩ := hrun
  have hl : ((rankAndTruncate srt topN scored).length : Int)
      = (if topN > 0 then min topN (resumeDocs.length : Int)
          else (resumeDocs.length : Int)) := by
    unfold rankAndTruncate
    rw [length_truncateTopN, length_rankResults srt hsrt, hlen]
  refine ⟨_, hrun, hl, ?_⟩
  intro hne habs
  have hpos : 0 < resumeDocs.length := List.length_pos.mpr hne
  rw [habs] at hl
  simp only [List.length_nil, Nat.cast_zero] at hl
  split at hl
  · rename_i h0
    have := min_le_iff.mp (le_of_eq hl.symm)
    omega
  · omega

variable {O : Type}

/-- C31: with valid inputs (the JD is read, a file is listed and at least one
resume is extracted) and no API credential (OPENAI_API_KEY empty or white
space), newOpenAIClientFromEnv fails with ErrMissingOpenAIKey; when AI is not
mandated runInternal returns what the heuristic pipeline returns for the
extracted documents, and the heuristic pipeline computes a non-empty result
list for them; when AI is mandated runInternal returns ErrMissingOpenAIKey,
whatever the pipelines would return. -/
theorem runInternalFull_missing_key
    (srt : (Result K → Result K → Bool) → List (Result K) → List (Result K))
    (srtPairs : (List Char × Int → List Char × Int → Bool) →
      List (List Char × Int) → List (List Char × Int))
    (iter : List (List Char × Int) → List (List Char × Int))
    (log sqrt : K → K) (explain : K → K → K → K → String) (topN : Int)
    (unicodeLower : Char → Char)
    (nameOf : List Char → List Char) (atoi : List Char → Option Int)
    (getenv : String → List Char) (jdRaw : List Char) (files : List (List Char))
    (extract : List Char → Except ExtractError (List Char))
    (openAI : openAIClient → List Char → List resumeDoc → Nat → Except RunError O)
    (heuristic : List Char → List resumeDoc → Nat → Except RunError O)
    (hkey : trimSpace (getenv "OPENAI_API_KEY") = [])
    (hvalid : ∃ path ∈ files, ∃ raw, extract path = Except.ok raw)
    (hsrt : SortSliceContract srt) :
    newOpenAIClientFromEnv atoi getenv = Except.error RunError.missingOpenAIKey ∧
    (envBool unicodeLower (getenv "RESUMEGPT_REQUIRE_OPENAI") false = false →
      runInternalFull unicodeLower nameOf atoi getenv true true (Except.ok jdRaw)
        (files, none) extract false openAI heuristic
        = (heuristic jdRaw (loadResumeDocs unicodeLower nameOf extract files [])
            files.length).mapError MatchError.pipeline) ∧
    (envBool unicodeLower (getenv "RESUMEGPT_REQUIRE_OPENAI") false = true →
      runInternalFull unicodeLower nameOf atoi getenv true true (Except.ok jdRaw)
        (files, none) extract false openAI heuristic
        = Except.error (MatchError.pipeline RunError.missingOpenAIKey)) ∧
    (∃ results, runHeuristic srt srtPairs iter unicodeLower log sqrt explain topN jdRaw
        (loadResumeDocs unicodeLower nameOf extract files []) = some results ∧
      results ≠ []) := by
  obtain ⟨path, hpath, raw, hraw⟩ := hvalid
  have hmem := loadResumeDocs_some_ok unicodeLower nameOf extract files path raw hpath hraw
  have hne : loadResumeDocs unicodeLower nameOf extract files [] ≠ [] :=
    List.ne_nil_of_mem hmem
  have hclient : newOpenAIClientFromEnv atoi getenv
      = Except.error RunError.missingOpenAIKey := by
    unfold newOpenAIClientFromEnv
    rw [if_pos hkey]
  have h0 : ¬ files.length = 0 := by
    intro h
    rw [List.length_eq_zero] at h
    rw [h] at hpath
    cases hpath
  have h1 : ¬ (loadResumeDocs unicodeLower nameOf extract files []).length = 0 :=
    fun h => hne (List.length_eq_zero.mp h)
  have hfull : runInternalFull unicodeLower nameOf atoi getenv true true (Except.ok jdRaw)
        (files, none) extract false openAI heuristic
      = (runInternal false (envBool unicodeLower (getenv "RESUMEGPT_REQUIRE_OPENAI") false)
          (Except.error RunError.missingOpenAIKey : Except RunError openAIClient)
          (fun client => openAI client jdRaw
            (loadResumeDocs unicodeLower nameOf extract files []) files.length)
          (heuristic jdRaw (loadResumeDocs unicodeLower nameOf extract files [])
            files.length)).mapError MatchError.pipeline := by
    unfold runInternalFull
    simp only [Bool.not_true, Bool.false_eq_true, if_false]
    rw [if_neg h0, if_neg h1, hclient]
  refine ⟨hclient, ?_, ?_, ?_⟩
  · intro hreq
    rw [hfull, hreq]
    rfl
  · intro hreq
    rw [hfull, hreq]
    rfl
  · obtain ⟨results, hr, _, hnonempty⟩ := runHeuristic_length srt srtPairs iter unicodeLower
      log sqrt explain topN jdRaw (loadResumeDocs unicodeLower nameOf extract files []) hsrt
    exact ⟨results, hr, hnonempty hne⟩

end NoCredential

/-- Witness for C31: no variable of the environment is set, the one file
b.txt is read. -/
theorem runInternalFull_missing_key_witness :
    trimSpace ((fun _ => []) "OPENAI_API_KEY" : List Char) = [] ∧
    (∃ results,
      runHeuristic (insertionSortBy : (Result ℚ → Result ℚ → Bool) → _ → _)
        insertionSortBy id id (fun _ => (0 : ℚ)) (fun _ => (0 : ℚ)) (fun _ _ _ _ => "") 0
        "python".toList
        (loadResumeDocs id id (fun _ => Except.ok "python".toList) ["b.txt".toList] [])
        = some results ∧ results ≠ []) :=
  ⟨rfl,
    (runInternalFull_missing_key (insertionSortBy : (Result ℚ → Result ℚ → Bool) → _ → _)
      insertionSortBy id (fun _ => (0 : ℚ)) (fun _ => (0 : ℚ)) (fun _ _ _ _ => "") 0
      id id (fun _ => none) (fun _ => []) "python".toList ["b.txt".toList]
      (fun _ => Except.ok "python".toList)
      (fun _ _ _ _ => (Except.ok 0 : Except RunError Nat)) (fun _ _ _ => Except.ok 0)
      rfl ⟨"b.txt".toList, by decide, "python".toList, rfl⟩ insertionSortBy_contract).2.2.2⟩

end Matcher

namespace Matcher

/-! ## Explanation enrichment -/

section Enrichment

variable {K : Type}

/-- The state after the first `k` passes of the enrichment loop: every result
below index `k` is what its pass made of it, the others are untouched, and
the call was made for the indices whose document is found. -/
theorem enrich_fold (unicodeLower : Char → Char) (resumeDocs : List resumeDoc)
    (explainResume : Nat → List Char → Except Nat (ResumeAnalysis K))
    (results : List (Result K)) (k : Nat) (hk : k ≤ results.length) :
    (List.range k).foldl (enrichPass unicodeLower resumeDocs explainResume) (some (results, []))
      = some (results.mapIdx (fun j r =>
            if j < k then enrichAt unicodeLower resumeDocs explainResume j r else r),
          (List.range k).filter (fun i =>
            match results[i]? with
            | none => false
            | some r => (lookupDoc resumeDocs r.File).isSome)) := by
  induction k with
  | zero =>
    simp only [List.range_zero, List.foldl_nil, List.filter_nil, Nat.not_lt_zero, if_false]
    congr 2
    apply List.ext_getElem?
    intro n
    rw [List.getElem?_mapIdx]
    cases results[n]? <;> rfl
  | succ k ih =>
    rw [List.range_succ, List.foldl_append, ih (Nat.le_of_succ_le hk)]
    simp only [List.foldl_cons, List.foldl_nil]
    have hlt : k < results.length := hk
    obtain ⟨r, hr⟩ : ∃ r, results[k]? = some r := ⟨results[k], List.getElem?_eq_getElem hlt⟩
    have hget : (results.mapIdx (fun j r =>
        if j < k then enrichAt unicodeLower resumeDocs explainResume j r else r))[k]?
        = some r := by
      rw [List.getElem?_mapIdx, hr]
      simp
    have hout : ∀ x : Result K, x = enrichAt unicodeLower resumeDocs explainResume k r →
        (results.mapIdx (fun j r =>
          if j < k then enrichAt unicodeLower resumeDocs explainResume j r else r)).set k x
        = results.mapIdx (fun j r =>
          if j < k + 1 then enrichAt unicodeLower resumeDocs explainResume j r else r) := by
      intro x hx
      apply List.ext_getElem?
      intro n
      rw [List.getElem?_set, List.getElem?_mapIdx, List.getElem?_mapIdx, List.length_mapIdx]
      by_cases hn : k = n
      · subst hn
        rw [if_pos rfl, if_pos hlt, hr, hx]
        simp
      · rw [if_neg hn]
        cases results[n]? with
        | none => rfl
        | some y =>
          simp only [Option.map_some']
          by_cases hnk : n < k
          · rw [if_pos hnk, if_pos (by omega)]
          · rw [if_neg hnk, if_neg (by omega)]
    have hsame : results.mapIdx (fun j r =>
          if j < k then enrichAt unicodeLower resumeDocs explainResume j r else r)
        = results.mapIdx (fun j r =>
          if j < k + 1 then enrichAt unicodeLower resumeDocs explainResume j r else r) →
        True := fun _ => trivial
    rw [List.filter_append]
    unfold enrichPass
    simp only [hget]
    cases hdoc : lookupDoc resumeDocs r.File with
    | none =>
      have hx : r = enrichAt unicodeLower resumeDocs explainResume k r := by
        unfold enrichAt
        rw [hdoc]
      have hset := hout r hx
      have hself : (results.mapIdx (fun j r =>
          if j < k then enrichAt unicodeLower resumeDocs explainResume j r else r)).set k r
          = results.mapIdx (fun j r =>
          if j < k then enrichAt unicodeLower resumeDocs explainResume j r else r) := by
        apply List.ext_getElem?
        intro n
        rw [List.getElem?_set]
        by_cases hn : k = n
        · subst hn
          rw [if_pos rfl, List.length_mapIdx, if_pos hlt, hget]
        · rw [if_neg hn]
      rw [← hset, hself]
      simp [hr, hdoc]
    | some doc =>
      simp only []
      cases hcall : explainResume k doc.Redacted with
      | error e =>
        have hx : r = enrichAt unicodeLower resumeDocs explainResume k r := by
          unfold enrichAt
          rw [hdoc]
          simp only []
          rw [hcall]
        have hset := hout r hx
        have hself : (results.mapIdx (fun j r =>
            if j < k then enrichAt unicodeLower resumeDocs explainResume j r else r)).set k r
            = results.mapIdx (fun j r =>
            if j < k then enrichAt unicodeLower resumeDocs explainResume j r else r) := by
          apply List.ext_getElem?
          intro n
          rw [List.getElem?_set]
          by_cases hn : k = n
          · subst hn
            rw [if_pos rfl, List.length_mapIdx, if_pos hlt, hget]
          · rw [if_neg hn]
        simp only []
        rw [← hset, hself]
        simp [hr, hdoc]
      | ok analysis =>
        have hx : enrichResult unicodeLower analysis r
            = enrichAt unicodeLower resumeDocs explainResume k r := by
          unfold enrichAt
          rw [hdoc]
          simp only []
          rw [hcall]
        simp only []
        rw [hout _ hx]
        simp [hr, hdoc]

end Enrichment

end Matcher

namespace Matcher

/-! ## Explanation enrichment: how many results, and what it changes -/

section EnrichmentContract

theorem envInt_pos (atoi : List Char → Option Int) (raw : List Char) (dflt : Int)
    (h : 0 < dflt) : 0 < envInt atoi raw dflt := by
  unfold envInt
  split
  · exact h
  · split
    · exact h
    · split
      · exact h
      · rename_i hval
        omega

theorem explainLimit_le (explainTopN topN : Int) (count : Nat) :
    explainLimit explainTopN topN count ≤ (count : Int) := by
  unfold explainLimit
  dsimp only
  split_ifs <;> omega

theorem explainLimit_toNat_le (explainTopN topN : Int) (count : Nat) :
    (explainLimit explainTopN topN count).toNat ≤ count := by
  have := explainLimit_le explainTopN topN count
  omega

theorem explainLimit_eq (explainTopN topN : Int) (count : Nat) :
    explainLimit explainTopN topN count
      = (if topN > 0 then min (min explainTopN topN) (count : Int)
          else min explainTopN (count : Int)) := by
  unfold explainLimit
  dsimp only
  simp only [min_def]
  split_ifs <;> omega

theorem lookupDoc_isSome (resumeDocs : List resumeDoc) (file : String)
    (h : ∃ doc ∈ resumeDocs, String.mk doc.Path = file) :
    (lookupDoc resumeDocs file).isSome = true := by
  obtain ⟨doc, hdoc, hpath⟩ := h
  unfold lookupDoc
  have hmem : doc ∈ resumeDocs.filter (fun doc => decide (String.mk doc.Path = file)) :=
    List.mem_filter.mpr ⟨hdoc, by simpa using hpath⟩
  cases hl : (resumeDocs.filter (fun doc => decide (String.mk doc.Path = file))).getLast? with
  | none =>
    rw [List.getLast?_eq_none_iff] at hl
    rw [hl] at hmem
    cases hmem
  | some d => rfl

variable {K : Type}

/-- The fields a pass of the loop leaves alone. -/
theorem enrichAt_frame (unicodeLower : Char → Char) (resumeDocs : List resumeDoc)
    (explainResume : Nat → List Char → Except Nat (ResumeAnalysis K)) (i : Nat)
    (r : Result K) :
    (enrichAt unicodeLower resumeDocs explainResume i r).Rank = r.Rank ∧
    (enrichAt unicodeLower resumeDocs explainResume i r).Candidate = r.Candidate ∧
    (enrichAt unicodeLower resumeDocs explainResume i r).Score = r.Score ∧
    (enrichAt unicodeLower resumeDocs explainResume i r).File = r.File := by
  unfold enrichAt
  cases lookupDoc resumeDocs r.File with
  | none => exact ⟨rfl, rfl, rfl, rfl⟩
  | some doc =>
    dsimp only
    cases explainResume i doc.Redacted with
    | error e => exact ⟨rfl, rfl, rfl, rfl⟩
    | ok analysis => exact ⟨rfl, rfl, rfl, rfl⟩

/-- C34: in runOpenAI, with the client built from the environment (whose
explainTopN is positive) and every result naming the file of a resume
document, explainResume is called for the results at the indices
0, ..., m - 1 of the ranked list and for no other, where m is
min(explainTopN, topN, resultCount) when topN > 0 and
min(explainTopN, resultCount) when topN is 0 (no cutoff). -/
theorem enrichResults_count (unicodeLower : Char → Char) (atoi : List Char → Option Int)
    (getenv : String → List Char) (client : openAIClient) (resumeDocs : List resumeDoc)
    (explainResume : Nat → List Char → Except Nat (ResumeAnalysis K)) (topN : Int)
    (results : List (Result K))
    (hclient : newOpenAIClientFromEnv atoi getenv = Except.ok client)
    (hfiles : ∀ r ∈ results, ∃ doc ∈ resumeDocs, String.mk doc.Path = r.File) :
    0 < client.explainTopN ∧
    ∃ (out : List (Result K)) (m : Nat), enrichResults unicodeLower resumeDocs explainResume client.explainTopN topN results
        = some (out, List.range m) ∧
      (m : Int) = (if topN > 0 then min (min client.explainTopN topN) (results.length : Int)
        else min client.explainTopN (results.length : Int)) := by
  have hpos : 0 < client.explainTopN := by
    unfold newOpenAIClientFromEnv at hclient
    split at hclient
    · cases hclient
    · have h := Except.ok.inj hclient
      rw [← h]
      exact envInt_pos atoi _ 20 (by decide)
  refine ⟨hpos, ?_⟩
  have hle := explainLimit_toNat_le client.explainTopN topN results.length
  have hnonneg : 0 ≤ explainLimit client.explainTopN topN results.length := by
    rw [explainLimit_eq]
    split
    · rename_i h0
      exact le_min (le_min (le_of_lt hpos) (le_of_lt h0)) (Int.natCast_nonneg _)
    · exact le_min (le_of_lt hpos) (Int.natCast_nonneg _)
  refine ⟨results.mapIdx (fun j r =>
      if j < (explainLimit client.explainTopN topN results.length).toNat
      then enrichAt unicodeLower resumeDocs explainResume j r else r),
    (explainLimit client.explainTopN topN results.length).toNat, ?_, ?_⟩
  · unfold enrichResults
    rw [enrich_fold unicodeLower resumeDocs explainResume results _ hle]
    congr 2
    rw [List.filter_eq_self]
    intro i hi
    have hi' : i < results.length := lt_of_lt_of_le (List.mem_range.mp hi) hle
    rw [List.getElem?_eq_getElem hi']
    exact lookupDoc_isSome resumeDocs _ (hfiles _ (List.getElem_mem _))
  · rw [Int.toNat_of_nonneg hnonneg, explainLimit_eq]

/-- C35: explanation enrichment keeps the length and the order of the list
and the fields Rank, Candidate, Score and File of every result; it leaves
every result from index explainN on as it was, and a result whose document is
not found or whose analysis call fails as well; a result whose call succeeds
becomes the result with the four fields Strengths, Weaknesses, Explanation
and Extracted assigned. -/
theorem enrichResults_frame (unicodeLower : Char → Char) (resumeDocs : List resumeDoc)
    (explainResume : Nat → List Char → Except Nat (ResumeAnalysis K))
    (explainTopN topN : Int) (results : List (Result K)) :
    ∃ (out : List (Result K)) (called : List Nat),
      enrichResults unicodeLower resumeDocs explainResume explainTopN topN results
        = some (out, called) ∧
      out.length = results.length ∧
      (∀ (j : Nat) (r : Result K), results[j]? = some r → ∃ r', out[j]? = some r' ∧ r'.Rank = r.Rank ∧
        r'.Candidate = r.Candidate ∧ r'.Score = r.Score ∧ r'.File = r.File) ∧
      (∀ (j : Nat), (explainLimit explainTopN topN results.length).toNat ≤ j →
        out[j]? = results[j]?) ∧
      (∀ (j : Nat) (r : Result K), results[j]? = some r →
        (∀ doc, lookupDoc resumeDocs r.File = some doc →
          ∃ e, explainResume j doc.Redacted = Except.error e) →
        out[j]? = some r) ∧
      (∀ (j : Nat) (r : Result K) (doc : resumeDoc) (analysis : ResumeAnalysis K), j < (explainLimit explainTopN topN results.length).toNat →
        results[j]? = some r → lookupDoc resumeDocs r.File = some doc →
        explainResume j doc.Redacted = Except.ok analysis →
        out[j]? = some (enrichResult unicodeLower analysis r)) := by
  have hle := explainLimit_toNat_le explainTopN topN results.length
  refine ⟨_, _, by
    unfold enrichResults
    exact enrich_fold unicodeLower resumeDocs explainResume results _ hle, ?_, ?_, ?_, ?_, ?_⟩
  · rw [List.length_mapIdx]
  · intro j r hr
    rw [List.getElem?_mapIdx, hr]
    simp only [Option.map_some']
    by_cases hj : j < (explainLimit explainTopN topN results.length).toNat
    · rw [if_pos hj]
      exact ⟨_, rfl, enrichAt_frame unicodeLower resumeDocs explainResume j r⟩
    · rw [if_neg hj]
      exact ⟨_, rfl, rfl, rfl, rfl, rfl⟩
  · intro j hj
    rw [List.getElem?_mapIdx]
    cases results[j]? with
    | none => rfl
    | some r =>
      simp only [Option.map_some']
      rw [if_neg (by omega)]
  · intro j r hr hfail
    rw [List.getElem?_mapIdx, hr]
    simp only [Option.map_some']
    by_cases hj : j < (explainLimit explainTopN topN results.length).toNat
    · rw [if_pos hj]
      congr 1
      unfold enrichAt
      cases hdoc : lookupDoc resumeDocs r.File with
      | none => rfl
      | some doc =>
        dsimp only
        obtain ⟨e, he⟩ := hfail doc hdoc
        rw [he]
    · rw [if_neg hj]
  · intro j r doc analysis hj hr hdoc hcall
    rw [List.getElem?_mapIdx, hr]
    simp only [Option.map_some']
    rw [if_pos hj]
    congr 1
    unfold enrichAt
    rw [hdoc]
    dsimp only
    rw [hcall]

end EnrichmentContract

end Matcher

namespace Matcher

/-! ## Explanation enrichment: an instance -/

/-- Witness for C34: the environment gives "7" for every variable, so the
client is built with explainTopN = 7; one result, no cutoff: the call is made
for index 0 only. -/
theorem enrichResults_count_witness :
    newOpenAIClientFromEnv (fun _ => some 7) (fun _ => "7".toList)
      = Except.ok
          { explainTopN := 7, embedBatchSize := 7, embedChunkWords := 500,
            explainMaxChars := 2000 } ∧
    ∃ (out : List (Result ℚ)) (m : Nat),
      enrichResults id [newResumeDoc id "a.txt".toList "a".toList "python".toList]
          (fun _ _ => Except.error 1) 7 0
          [tieA]
        = some (out, List.range m) ∧
      (m : Int) = min (7 : Int) (1 : Nat) :=
  ⟨rfl,
    (enrichResults_count id (fun _ => some 7) (fun _ => "7".toList)
      { explainTopN := 7, embedBatchSize := 7, embedChunkWords := 500,
        explainMaxChars := 2000 }
      [newResumeDoc id "a.txt".toList "a".toList "python".toList]
      (fun _ _ => Except.error 1) 0
      [tieA]
      rfl
      (fun r hr => by
        rw [List.mem_singleton] at hr
        subst hr
        exact ⟨_, List.mem_singleton_self _, by decide⟩)).2⟩

end Matcher

namespace Matcher

/-! ## The RTF reader with checked indices: the scans -/

section CheckedScans

theorem takeWhile_length_le {α : Type} (p : α → Bool) (l : List α) :
    (l.takeWhile p).length ≤ l.length :=
  (List.takeWhile_prefix p).length_le

theorem take_takeWhile_length {α : Type} (p : α → Bool) (l : List α) :
    l.take (l.takeWhile p).length = l.takeWhile p :=
  (List.prefix_iff_eq_take.mp (List.takeWhile_prefix p)).symm

/-- A scan ends, inside the input, behind the longest run of bytes that pass
the test. -/
theorem scanBytes_eq (p : Nat → Bool) (data : List Nat) (fuel j : Nat)
    (hfuel : data.length - j < fuel) :
    scanBytes p data fuel j = some (j + ((data.drop j).takeWhile p).length) := by
  induction fuel generalizing j with
  | zero => omega
  | succ fuel ih =>
    rw [scanBytes]
    by_cases hj : j < data.length
    · rw [if_pos hj, List.getElem?_eq_getElem hj, List.drop_eq_getElem_cons hj,
        List.takeWhile_cons]
      dsimp only
      by_cases hp : p data[j] = true
      · rw [if_pos hp, if_pos hp, ih (j + 1) (by omega), List.length_cons]
        congr 1
        omega
      · rw [if_neg hp, if_neg hp]
        rfl
    · rw [if_neg hj, List.drop_eq_nil_of_le (by omega)]
      rfl

theorem sliceBytes_eq (data : List Nat) (a b : Nat) (h : a ≤ b ∧ b ≤ data.length) :
    sliceBytes data a b = some ((data.drop a).take (b - a)) := by
  unfold sliceBytes
  rw [if_pos h]

theorem readBytes_eq (data : List Nat) (n k : Nat) (h : k + n ≤ data.length) :
    readBytes data n k = some ((data.drop k).take n) := by
  induction n generalizing k with
  | zero => simp [readBytes]
  | succ n ih =>
    have hk : k < data.length := by omega
    rw [readBytes, List.getElem?_eq_getElem hk]
    dsimp only
    rw [ih (k + 1) (by omega), List.drop_eq_getElem_cons hk]
    rfl

theorem byteIs_eq (data : List Nat) (j v : Nat) :
    byteIs data j v = some (decide ((data.drop j).head? = some v)) := by
  unfold byteIs
  by_cases hj : j < data.length
  · rw [if_pos hj, List.getElem?_eq_getElem hj, List.head?_drop, List.getElem?_eq_getElem hj]
    dsimp only
    congr 1
    simp
  · rw [if_neg hj, List.drop_eq_nil_of_le (by omega)]
    rfl

end CheckedScans

end Matcher

namespace Matcher

/-! ## The RTF reader with checked indices: one pass -/

section CheckedPass

/-- The control-word branch with checked indices does what the branch over
the rest of the input does, and never indexes outside the input. -/
theorem rtfWordPass_eq (data : List Nat) (i : Nat) (hi : i < data.length) :
    rtfWordPass data i
      = some ((rtfControl (data.drop (i + 1))).1, i + (rtfControl (data.drop (i + 1))).2) := by
  have hlen : data.length = i + 1 + (data.drop (i + 1)).length := by
    rw [List.length_drop]
    omega
  generalize hbs : data.drop (i + 1) = bs at hlen
  have hdrop : ∀ k, data.drop (i + 1 + k) = bs.drop k := by
    intro k
    rw [← hbs, List.drop_drop]
  have hn1 : (bs.takeWhile isLetterByte).length ≤ bs.length := takeWhile_length_le _ _
  have s1 : scanBytes isLetterByte data (data.length + 1) (i + 1)
      = some (i + 1 + (bs.takeWhile isLetterByte).length) := by
    rw [scanBytes_eq _ _ _ _ (by omega), hbs]
  have s2 : sliceBytes data (i + 1) (i + 1 + (bs.takeWhile isLetterByte).length)
      = some (bs.take (bs.takeWhile isLetterByte).length) := by
    rw [sliceBytes_eq _ _ _ ⟨by omega, by omega⟩, hbs]
    congr 2
    omega
  have s3 : byteIs data (i + 1 + (bs.takeWhile isLetterByte).length) 45
      = some (decide ((bs.drop (bs.takeWhile isLetterByte).length).head? = some 45)) := by
    rw [byteIs_eq, hdrop]
  unfold rtfWordPass
  rw [s1]
  dsimp only
  rw [s2]
  dsimp only
  rw [s3]
  dsimp only
  unfold rtfControl
  dsimp only
  generalize hnegdef : decide ((bs.drop (bs.takeWhile isLetterByte).length).head? = some 45)
    = neg
  generalize hn1def : (bs.takeWhile isLetterByte).length = n1 at hn1 hnegdef ⊢
  have hj2 : (if neg = true then n1 + 1 else n1) ≤ bs.length := by
    cases neg with
    | false => simpa using hn1
    | true =>
      simp only [if_true]
      have hhead : (bs.drop n1).head? = some 45 := by simpa using hnegdef
      by_contra hcon
      rw [List.drop_eq_nil_of_le (by omega)] at hhead
      cases hhead
  have hJ2 : (if neg = true then i + 1 + n1 + 1 else i + 1 + n1)
      = i + 1 + (if neg = true then n1 + 1 else n1) := by
    cases neg <;> rfl
  rw [hJ2]
  generalize hj2def : (if neg = true then n1 + 1 else n1) = j2 at hj2 ⊢
  have hn3 : ((bs.drop j2).takeWhile isDigitByte).length ≤ bs.length - j2 := by
    have := takeWhile_length_le isDigitByte (bs.drop j2)
    rw [List.length_drop] at this
    exact this
  have s4 : scanBytes isDigitByte data (data.length + 1) (i + 1 + j2)
      = some (i + 1 + j2 + ((bs.drop j2).takeWhile isDigitByte).length) := by
    rw [scanBytes_eq _ _ _ _ (by omega), hdrop]
  rw [s4]
  dsimp only
  have s5 : readBytes data
      (i + 1 + j2 + ((bs.drop j2).takeWhile isDigitByte).length - (i + 1 + j2)) (i + 1 + j2)
      = some ((bs.drop j2).takeWhile isDigitByte) := by
    rw [readBytes_eq _ _ _ (by omega), hdrop, Nat.add_sub_cancel_left,
      take_takeWhile_length]
  rw [s5]
  dsimp only
  generalize hdig : (bs.drop j2).takeWhile isDigitByte = digits at hn3 ⊢
  have hnum : decide (i + 1 + j2 < i + 1 + j2 + digits.length)
      = decide (j2 < j2 + digits.length) := by
    apply decide_eq_decide.mpr
    omega
  have hend : decide (i + 1 + j2 + digits.length < data.length)
      = decide (j2 + digits.length < bs.length) := by
    apply decide_eq_decide.mpr
    omega
  rw [hnum, hend]
  generalize hisU : (decide (List.map lowerByte (List.take n1 bs) = [117]) &&
    decide (j2 < j2 + digits.length)) = isU
  generalize hout : (if isU = true then
      writeRune
        (if wrapInt 32
            (if decide (j2 < j2 + digits.length) = true then
              wrapInt 64 (parseParam digits * if neg = true then -1 else 1)
            else 0) < 0
        then wrapInt 32
            (if decide (j2 < j2 + digits.length) = true then
              wrapInt 64 (parseParam digits * if neg = true then -1 else 1)
            else 0) + 65536
        else wrapInt 32
            (if decide (j2 < j2 + digits.length) = true then
              wrapInt 64 (parseParam digits * if neg = true then -1 else 1)
            else 0))
    else []) = out
  have hJ4 : (if (isU && decide (j2 + digits.length < bs.length)) = true
        then i + 1 + j2 + digits.length + 1 else i + 1 + j2 + digits.length)
      = i + 1 + (if (isU && decide (j2 + digits.length < bs.length)) = true
        then j2 + digits.length + 1 else j2 + digits.length) := by
    split <;> omega
  rw [hJ4]
  generalize (if (isU && decide (j2 + digits.length < bs.length)) = true
        then j2 + digits.length + 1 else j2 + digits.length) = j4
  rw [byteIs_eq, hdrop]
  dsimp only
  by_cases hsp : (bs.drop j4).head? = some 32
  · rw [if_pos hsp]
    simp only [hsp, decide_True, if_true]
    congr 2
    omega
  · rw [if_neg hsp]
    simp only [hsp, decide_False, Bool.false_eq_true, if_false]
    congr 2
    omega

/-- The control-word branch passes over no more bytes than follow the
backslash. -/
theorem rtfControl_consumed_le (bs : List Nat) : (rtfControl bs).2 ≤ bs.length := by
  unfold rtfControl
  dsimp only
  have hn1 : (bs.takeWhile isLetterByte).length ≤ bs.length := takeWhile_length_le _ _
  generalize hn1def : (bs.takeWhile isLetterByte).length = n1 at hn1 ⊢
  generalize hnegdef : decide ((bs.drop n1).head? = some 45) = neg
  have hj2 : (if neg = true then n1 + 1 else n1) ≤ bs.length := by
    cases neg with
    | false => simpa using hn1
    | true =>
      simp only [if_true]
      have hhead : (bs.drop n1).head? = some 45 := by simpa using hnegdef
      by_contra hcon
      rw [List.drop_eq_nil_of_le (by omega)] at hhead
      cases hhead
  generalize hj2def : (if neg = true then n1 + 1 else n1) = j2 at hj2 ⊢
  have hn3 : ((bs.drop j2).takeWhile isDigitByte).length ≤ bs.length - j2 := by
    have := takeWhile_length_le isDigitByte (bs.drop j2)
    rw [List.length_drop] at this
    exact this
  generalize hdig : (bs.drop j2).takeWhile isDigitByte = digits at hn3 ⊢
  generalize hisU : (decide (List.map lowerByte (List.take n1 bs) = [117]) &&
    decide (j2 < j2 + digits.length)) = isU
  have hj4 : (if (isU && decide (j2 + digits.length < bs.length)) = true
      then j2 + digits.length + 1 else j2 + digits.length) ≤ bs.length := by
    split
    · rename_i h
      have : j2 + digits.length < bs.length :=
        of_decide_eq_true ((Bool.and_eq_true _ _).mp h).2
      omega
    · omega
  generalize (if (isU && decide (j2 + digits.length < bs.length)) = true
      then j2 + digits.length + 1 else j2 + digits.length) = j4 at hj4 ⊢
  by_cases hsp : (bs.drop j4).head? = some 32
  · rw [if_pos hsp]
    dsimp only
    by_contra hcon
    rw [List.drop_eq_nil_of_le (by omega)] at hsp
    cases hsp
  · rw [if_neg hsp]
    exact hj4

theorem rtfStep_consumed_le (b : Nat) (bs : List Nat) : (rtfStep b bs).2 ≤ bs.length := by
  unfold rtfStep
  split
  · exact Nat.zero_le _
  · split
    · cases bs with
      | nil => exact Nat.zero_le _
      | cons next rest =>
        dsimp only
        split
        · rename_i h
          exact h.2
        · exact rtfControl_consumed_le _
    · split <;> exact Nat.zero_le _

/-- One pass with checked indices: it indexes inside the input, writes what
the pass over the rest of the input writes, and leaves the index where that
pass goes on. -/
theorem rtfPass_eq (data : List Nat) (i : Nat) (hi : i < data.length) :
    rtfPass data i
      = some ((rtfStep data[i] (data.drop (i + 1))).1,
          i + (rtfStep data[i] (data.drop (i + 1))).2) := by
  unfold rtfPass
  rw [List.getElem?_eq_getElem hi]
  dsimp only
  unfold rtfStep
  by_cases h1 : data[i] = 123 ∨ data[i] = 125
  · rw [if_pos h1, if_pos h1]
    rfl
  · rw [if_neg h1, if_neg h1]
    by_cases h2 : data[i] = 92
    · rw [if_pos h2, if_pos h2]
      by_cases hend : i + 1 ≥ data.length
      · rw [if_pos hend, List.drop_eq_nil_of_le hend]
        rfl
      · rw [if_neg hend]
        have hi1 : i + 1 < data.length := by omega
        rw [List.getElem?_eq_getElem hi1]
        have hcons : data.drop (i + 1) = data[i + 1] :: data.drop (i + 1 + 1) :=
          List.drop_eq_getElem_cons hi1
        have hlen : (data.drop (i + 1)).length = data.length - (i + 1) := List.length_drop _ _
        dsimp only
        by_cases hhex : data[i + 1] = 39 ∧ i + 3 < data.length
        · have hhex' : data[i + 1] = 39 ∧ 3 ≤ (data.drop (i + 1)).length :=
            ⟨hhex.1, by rw [hlen]; omega⟩
          have hi2 : i + 2 < data.length := by omega
          have hd1 : (data.drop (i + 1)).getD 1 0 = data[i + 2] := by
            rw [List.getD_eq_getElem?_getD, List.getElem?_drop, List.getElem?_eq_getElem hi2]
            rfl
          have hd2 : (data.drop (i + 1)).getD 2 0 = data[i + 3] := by
            rw [List.getD_eq_getElem?_getD, List.getElem?_drop,
              List.getElem?_eq_getElem hhex.2]
            rfl
          rw [if_pos hhex, List.getElem?_eq_getElem hi2, List.getElem?_eq_getElem hhex.2]
          dsimp only
          rw [← hd1, ← hd2]
          generalize hbs : data.drop (i + 1) = bs at hcons hhex' ⊢
          cases bs with
          | nil => cases hcons
          | cons next rest =>
            have hnext : next = data[i + 1] := (List.cons.inj hcons).1
            dsimp only
            have hc : next = 39 ∧ 3 ≤ (next :: rest).length := by
              rw [hnext]
              exact hhex'
            rw [if_pos hc] <;> rfl
        · rw [if_neg hhex, rtfWordPass_eq data i hi]
          have hhex' : ¬ (data[i + 1] = 39 ∧ 3 ≤ (data.drop (i + 1)).length) := by
            intro h
            apply hhex
            refine ⟨h.1, ?_⟩
            have := h.2
            rw [hlen] at this
            omega
          generalize hbs : data.drop (i + 1) = bs at hcons hhex' ⊢
          cases bs with
          | nil => cases hcons
          | cons next rest =>
            have hnext : next = data[i + 1] := (List.cons.inj hcons).1
            dsimp only
            rw [if_neg (by rw [hnext]; exact hhex')]
    · rw [if_neg h2, if_neg h2]
      by_cases h3 : data[i] ≥ 32 ∨ data[i] = 10 ∨ data[i] = 9
      · rw [if_pos h3, if_pos h3]
        rfl
      · rw [if_neg h3, if_neg h3]
        rfl

end CheckedPass

end Matcher

namespace Matcher

/-! ## The RTF reader with checked indices: the loop -/

section CheckedLoop

/-- The loop with checked indices, from index `i` on: with more fuel than
bytes left it ends and has written what the loop over the rest of the input
writes. -/
theorem readRtfChecked_eq (data : List Nat) (fuel : Nat) :
    ∀ (i : Nat) (out : List Nat), data.length - i < fuel →
      readRtfChecked data fuel i out = some (out ++ readRtfLoop (data.drop i)) := by
  induction fuel with
  | zero =>
    intro i out h
    omega
  | succ fuel ih =>
    intro i out hfuel
    rw [readRtfChecked]
    by_cases hi : i < data.length
    · have hle := rtfStep_consumed_le data[i] (data.drop (i + 1))
      rw [List.length_drop] at hle
      rw [if_pos hi, rtfPass_eq data i hi]
      dsimp only
      have hrest : readRtfLoop (data.drop i)
          = (rtfStep data[i] (data.drop (i + 1))).1
            ++ readRtfLoop (data.drop (i + (rtfStep data[i] (data.drop (i + 1))).2 + 1)) := by
        rw [List.drop_eq_getElem_cons hi, readRtfLoop_cons, List.drop_drop]
        congr 3
        omega
      rw [ih _ _ (by omega), hrest, List.append_assoc]
    · rw [if_neg hi, List.drop_eq_nil_of_le (by omega), readRtfLoop_nil, List.append_nil]

/-- C39: for every byte sequence, every pass of the parsing loop of readRtf
at an index inside the input indexes only inside the input (the pass has a
result) and leaves the index no smaller than it found it and still inside the
input, so the loop, which then advances the index by one, ends after at most
len(data) passes; its output is that of the loop over the rest of the
input. -/
theorem readRtfChecked_safe (data : List Nat) :
    (∀ i, i < data.length →
      ∃ written i', rtfPass data i = some (written, i') ∧ i ≤ i' ∧ i' < data.length) ∧
    (∀ fuel, data.length < fuel →
      readRtfChecked data fuel 0 [] = some (readRtfLoop data)) := by
  constructor
  · intro i hi
    have hle := rtfStep_consumed_le data[i] (data.drop (i + 1))
    rw [List.length_drop] at hle
    exact ⟨_, _, rtfPass_eq data i hi, Nat.le_add_right _ _, by omega⟩
  · intro fuel hfuel
    rw [readRtfChecked_eq data fuel 0 [] (by omega)]
    rfl

set_option maxRecDepth 1000000 in
/-- The truncated escapes: a backslash at the end, an apostrophe escape with
one byte after it, and a Unicode escape at the end of the input. -/
theorem readRtfChecked_truncated :
    readRtfChecked [97, 92] 3 0 [] = some [97] ∧
    readRtfChecked [97, 92, 39, 52] 5 0 [] = some [97, 39, 52] ∧
    readRtfChecked [92, 117, 54, 53] 5 0 [] = some [65] ∧
    readRtfChecked [92, 98, 45] 4 0 [] = some [] := by
  decide

end CheckedLoop

end Matcher

namespace Matcher

/-! ## `sort.Slice` on short slices is an insertion sort -/

section SortSliceShort

variable {α : Type}

theorem swapAt_cons_succ (c : α) (l : List α) (i j : Nat) :
    swapAt (c :: l) (i + 1) (j + 1) = c :: swapAt l i j := by
  unfold swapAt
  simp only [List.getElem?_cons_succ]
  cases l[i]? with
  | none => rfl
  | some x =>
    cases l[j]? with
    | none => rfl
    | some y => rfl

theorem lessAt_cons_succ (less : α → α → Bool) (c : α) (l : List α) (i j : Nat) :
    lessAt less (c :: l) (i + 1) (j + 1) = lessAt less l i j := by
  unfold lessAt
  simp only [List.getElem?_cons_succ]

/-- Swapping two neighbours. -/
theorem swapAt_adjacent (p : List α) (y x : α) (q : List α) :
    swapAt (p ++ y :: x :: q) (p.length + 1) p.length = p ++ x :: y :: q := by
  induction p with
  | nil => simp [swapAt]
  | cons c p ih =>
    rw [List.cons_append, List.length_cons, swapAt_cons_succ, ih]
    rfl

/-- Comparing two neighbours. -/
theorem lessAt_adjacent (less : α → α → Bool) (p : List α) (y x : α) (q : List α) :
    lessAt less (p ++ y :: x :: q) (p.length + 1) p.length = less x y := by
  induction p with
  | nil => simp [lessAt]
  | cons c p ih =>
    rw [List.cons_append, List.length_cons, lessAt_cons_succ, ih]

/-- The inner loop of the insertion sort puts the element at position `j`
into the sorted part before it: read back to front, that part gets the element
by an ordered insertion. -/
theorem insertionInner_eq (less : α → α → Bool) (r : List α) (x : α) (q : List α) :
    insertionInner less 0 r.length (r.reverse ++ x :: q)
      = (List.orderedInsert (fun u v => less u v = false) x r).reverse ++ q := by
  induction r generalizing q with
  | nil => rfl
  | cons y r ih =>
    have hlen : r.reverse.length = r.length := List.length_reverse r
    have hdata : (y :: r).reverse ++ x :: q = r.reverse ++ y :: x :: q := by
      rw [List.reverse_cons, List.append_assoc]
      rfl
    have hless : lessAt less (r.reverse ++ y :: x :: q) (r.length + 1) r.length = less x y := by
      have h := lessAt_adjacent less r.reverse y x q
      rw [hlen] at h
      exact h
    have hswap : swapAt (r.reverse ++ y :: x :: q) (r.length + 1) r.length
        = r.reverse ++ x :: y :: q := by
      have h := swapAt_adjacent r.reverse y x q
      rw [hlen] at h
      exact h
    rw [hdata, List.length_cons]
    unfold insertionInner
    rw [hless]
    cases hxy : less x y with
    | true =>
      have hc : (0 < r.length + 1 ∧ true = true) := ⟨Nat.succ_pos _, rfl⟩
      rw [if_pos hc, hswap, ih (y :: q)]
      have hins : List.orderedInsert (fun u v => less u v = false) x (y :: r)
          = y :: List.orderedInsert (fun u v => less u v = false) x r := by
        rw [List.orderedInsert]
        rw [if_neg]
        rw [hxy]
        exact Bool.noConfusion
      rw [hins, List.reverse_cons, List.append_assoc]
      rfl
    | false =>
      have hc : ¬ (0 < r.length + 1 ∧ false = true) := fun h => Bool.noConfusion h.2
      rw [if_neg hc]
      have hins : List.orderedInsert (fun u v => less u v = false) x (y :: r)
          = x :: y :: r := by
        rw [List.orderedInsert]
        rw [if_pos hxy]
      rw [hins, List.reverse_cons, List.reverse_cons, List.append_assoc, List.append_assoc]
      rfl

/-- The outer loop of the insertion sort, started at position `r.length` with
the part before it sorted. -/
theorem insertionOuter_eq (less : α → α → Bool) (r rest : List α) :
    (List.range' r.length rest.length).foldl (fun d i => insertionInner less 0 i d)
        (r.reverse ++ rest)
      = (rest.foldl (fun acc x => List.orderedInsert (fun u v => less u v = false) x acc)
          r).reverse := by
  induction rest generalizing r with
  | nil => simp
  | cons x rest ih =>
    rw [List.length_cons, List.range'_succ, List.foldl_cons, List.foldl_cons,
      insertionInner_eq]
    have hlen : (List.orderedInsert (fun u v => less u v = false) x r).length = r.length + 1 :=
      List.orderedInsert_length _ r x
    have h := ih (List.orderedInsert (fun u v => less u v = false) x r)
    rw [hlen] at h
    exact h

/-- The function `insertionSort_func` on the whole slice is the insertion sort
of the list read back to front, read back to front again. -/
theorem insertionSort_func_eq (less : α → α → Bool) (data : List α) :
    insertionSort_func less data 0 data.length
      = (List.insertionSort (fun u v => less u v = false) data.reverse).reverse := by
  have hfold : ∀ l : List α,
      l.foldl (fun acc x => List.orderedInsert (fun u v => less u v = false) x acc) []
        = List.insertionSort (fun u v => less u v = false) l.reverse := by
    intro l
    rw [← List.foldr_reverse]
    generalize l.reverse = m
    induction m with
    | nil => rfl
    | cons c m ih =>
      rw [List.foldr_cons, ih]
      rfl
  cases data with
  | nil => rfl
  | cons x rest =>
    have h := insertionOuter_eq less [x] rest
    unfold insertionSort_func
    have h1 : (x :: rest).length - (0 + 1) = rest.length := by
      simp
    rw [h1]
    have h2 : ([x] : List α).reverse ++ rest = x :: rest := rfl
    rw [h2] at h
    have h3 : ([x] : List α).length = 0 + 1 := rfl
    rw [h3] at h
    rw [h, ← hfold (x :: rest)]
    rfl

/-- On a slice of at most 12 elements `sort.Slice` returns with the fuel it is
given, and what it does is the insertion sort. -/
theorem sortSlice_short (less : α → α → Bool) (data : List α) (h : data.length ≤ 12) :
    sortSliceFuel (data.length + 1) less data
        = some ((List.insertionSort (fun u v => less u v = false) data.reverse).reverse) ∧
    sortSlice less data
      = (List.insertionSort (fun u v => less u v = false) data.reverse).reverse := by
  have hf : sortSliceFuel (data.length + 1) less data
      = some ((List.insertionSort (fun u v => less u v = false) data.reverse).reverse) := by
    unfold sortSliceFuel pdqsort_func
    have hc : data.length - 0 ≤ 12 := by
      rw [Nat.sub_zero]
      exact h
    rw [if_pos hc, insertionSort_func_eq]
  refine ⟨hf, ?_⟩
  unfold sortSlice
  rw [hf]
  rfl

end SortSliceShort

/-! ## Ranking with `sort.Slice`: order of tied results -/

section RankerTies

variable {K : Type} [LinearOrderedField K]

theorem filter_insertionSort_scoreLess (s : K) (results : List (Result K)) :
    (List.insertionSort (fun u v => scoreLess u v = false) results).filter
        (fun r => decide (r.Score = s))
      = results.filter (fun r => decide (r.Score = s)) := by
  have hsub : List.Sublist (results.filter (fun r => decide (r.Score = s))) results :=
    List.filter_sublist _
  have hpw : (results.filter (fun r => decide (r.Score = s))).Pairwise
      (fun a b => scoreLess a b = false) := by
    rw [List.pairwise_iff_forall_sublist]
    intro a b hab
    have ha : a ∈ results.filter (fun r => decide (r.Score = s)) := hab.subset (by simp)
    have hb : b ∈ results.filter (fun r => decide (r.Score = s)) := hab.subset (by simp)
    simp only [List.mem_filter, decide_eq_true_eq] at ha hb
    simp [scoreLess, ha.2, hb.2]
  have h1 := List.sublist_insertionSort hpw hsub
  have h2 := h1.filter (fun r => decide (r.Score = s))
  rw [List.filter_filter] at h2
  simp only [Bool.and_self] at h2
  have hlen : ((List.insertionSort (fun u v => scoreLess u v = false) results).filter
        (fun r => decide (r.Score = s))).length
      = (results.filter (fun r => decide (r.Score = s))).length :=
    ((List.perm_insertionSort _ results).filter _).length_eq
  exact (h2.eq_of_length hlen.symm).symm

/-- With at most 12 results the ranking step run with `sort.Slice` returns a
permutation in non-increasing score order that keeps tied results in discovery
order. -/
theorem rankResults_sortSlice_short (results : List (Result K)) (h : results.length ≤ 12) :
    ((rankResults sortSlice results).map unranked).Perm (results.map unranked) ∧
    (rankResults sortSlice results).Pairwise (fun a b => a.Score ≥ b.Score) ∧
    TiesKeepOrder results (rankResults sortSlice results) := by
  have hs := (sortSlice_short scoreLess results h).2
  refine ⟨?_, ?_, ?_⟩
  · have hm := map_unranked_assignRanksFrom 0 (sortSlice scoreLess results)
    unfold rankResults assignRanks
    rw [hm, hs]
    exact (((List.reverse_perm _).trans (List.perm_insertionSort _ results.reverse)).trans
      (List.reverse_perm results)).map _
  · haveI : IsTotal (Result K) (fun u v => scoreLess u v = false) := ⟨fun a b => by
      cases hab : scoreLess a b
      · exact Or.inl rfl
      · exact Or.inr (scoreLess_asymm a b hab)⟩
    haveI : IsTrans (Result K) (fun u v => scoreLess u v = false) :=
      ⟨fun a b c hab hbc => scoreLess_negtrans c b a hbc hab⟩
    have hsorted : (List.insertionSort (fun u v => scoreLess u v = false)
        results.reverse).Pairwise (fun u v => scoreLess u v = false) :=
      List.sorted_insertionSort _ results.reverse
    have hrev : (sortSlice scoreLess results).Pairwise (fun a b => scoreLess b a = false) := by
      rw [hs, List.pairwise_reverse]
      exact hsorted
    have hge : (sortSlice scoreLess results).Pairwise (fun a b => a.Score ≥ b.Score) := by
      refine hrev.imp ?_
      intro a b hab
      simpa [scoreLess] using hab
    exact pairwise_score_assignRanksFrom 0 _ (fun x y => x ≥ y) hge
  · intro s
    unfold rankResults
    rw [withScore_assignRanks, hs]
    unfold withScore
    rw [List.filter_reverse, filter_insertionSort_scoreLess, List.filter_reverse,
      List.reverse_reverse]

/-- C2 (amended): the ranking step returns the scored results permuted into
non-increasing Score order, whatever algorithm stands behind sort.Slice; with
the algorithm the Go library has behind sort.Slice, results of equal Score
keep their discovery order whenever at most 12 results are ranked (the slice
is then sorted by insertion); for longer slices the order among tied results
is left to the quicksort of the library. -/
theorem rankResults_sorted_perm
    (srt : (Result K → Result K → Bool) → List (Result K) → List (Result K))
    (hsrt : SortSliceContract srt) (results : List (Result K)) :
    ((rankResults srt results).map unranked).Perm (results.map unranked) ∧
    (rankResults srt results).Pairwise (fun a b => a.Score ≥ b.Score) ∧
    TiesKeepOrder results (rankResults insertionSortBy results) ∧
    (results.length ≤ 12 →
      ((rankResults sortSlice results).map unranked).Perm (results.map unranked) ∧
      (rankResults sortSlice results).Pairwise (fun a b => a.Score ≥ b.Score) ∧
      TiesKeepOrder results (rankResults sortSlice results)) := by
  refine ⟨?_, ?_, ?_, rankResults_sortSlice_short results⟩
  · have h := map_unranked_assignRanksFrom 0 (srt scoreLess results)
    unfold rankResults assignRanks
    rw [h]
    exact (hsrt scoreLess results).1.map _
  · exact pairwise_score_assignRanksFrom 0 _ (fun x y => x ≥ y) (sorted_of_contract srt hsrt results)
  · intro s
    unfold rankResults
    rw [withScore_assignRanks]
    unfold withScore
    rw [filter_insertionSortBy_scoreLess]

end RankerTies

/-- Witness for C2 (amended): insertion sort meets the contract of sort.Slice,
and the two tied results `tieA`, `tieB`, ranked with the algorithm of the
library, keep their discovery order. -/
theorem rankResults_sorted_perm_witness :
    SortSliceContract (insertionSortBy : (Result ℚ → Result ℚ → Bool) → _ → _) ∧
    [tieA, tieB].length ≤ 12 ∧
    TiesKeepOrder [tieA, tieB] (rankResults sortSlice [tieA, tieB]) :=
  ⟨insertionSortBy_contract, by decide,
   ((rankResults_sorted_perm insertionSortBy insertionSortBy_contract
      [tieA, tieB]).2.2.2 (by decide)).2.2⟩

/-- C2 (as stated) fails on thirteen results: of `thirteenResults`, twelve
have score 50 and the seventh, `r6`, has score 60.  The run of sort.Slice
returns within its fuel; its one partition step moves `r6` to the front and
leaves the tied results in the order r3, r2, r0, r4, r5, r1, r7, ..., r12, so
`r3` and `r2` are ranked before `r0`, which was discovered before them. -/
theorem thirteen_results_ties_reordered :
    sortSliceFuel (thirteenResults.length + 1) scoreLess thirteenResults
      = some thirteenSorted ∧
    (rankResults sortSlice thirteenResults).map (fun r => (r.Rank, r.Candidate, r.Score))
      = [(1, "r6", 60), (2, "r3", 50), (3, "r2", 50), (4, "r0", 50), (5, "r4", 50),
         (6, "r5", 50), (7, "r1", 50), (8, "r7", 50), (9, "r8", 50), (10, "r9", 50),
         (11, "r10", 50), (12, "r11", 50), (13, "r12", 50)] ∧
    ¬ TiesKeepOrder thirteenResults (rankResults sortSlice thirteenResults) := by
  have hrun : sortSliceFuel (thirteenResults.length + 1) scoreLess thirteenResults
      = some thirteenSorted := rfl
  have hsort : sortSlice scoreLess thirteenResults = thirteenSorted := rfl
  refine ⟨hrun, ?_, ?_⟩
  · unfold rankResults
    rw [hsort]
    rfl
  · intro h
    have h50 := h 50
    unfold rankResults at h50
    rw [withScore_assignRanks, hsort] at h50
    have hc := congrArg (fun l => l.map (fun r => r.Candidate)) h50
    revert hc
    simp [withScore, thirteenSorted, thirteenResults, scoredResult, unranked]

end Matcher

